import Mathlib

/-!
TritonRoute `io.cpp`: guide import, LEF58 rule compilation, via definitions,
merge/split of net geometry, design import and database update

A shallow embedding of the parts of `src/TritonRoute/src/io/io.cpp` that the
specification talks about, followed by theorems about them.

Conventions of the embedding

* `frCoord`, `frLayerNum`, `int` and `frUInt4` are `Int`.
  In `getSBoxCoords`, which mixes `int` and `uint`, the conversions to 32 bits
  are explicit (`toInt32`, `toUInt32`).
* A `std::istringstream` is the list of characters not yet consumed together
  with its `eofbit` and `failbit` (`IStream`).
* Code that can throw (`std::stoi`, `std::stod`, `vector::at`), call `exit` or
  dereference a null pointer returns `Except`/`Option` (`CallbackEnd` for
  `getLefVias`).
* A `std::map` is its list of entries in ascending key order.
* A loop that reads from a stream takes fuel, one unit for an iteration; a
  call ends as an `Outcome`: it returns, it throws, or the fuel runs out.
* The conversion of numbers (`istr >> double`, `std::stod`, `std::sort` on
  equal names) is a parameter (`NumConv`, `CutTblEnv`).
-/

namespace OpenROAD

/-! ## Character streams -/

/-- The whitespace test of the classic locale used by formatted extraction. -/
def isspace (c : Char) : Bool :=
  c.toNat == 32 || (9 ≤ c.toNat && c.toNat ≤ 13)

/-- The state of a `std::istringstream`: unread characters and two state bits. -/
structure IStream where
  buf : List Char
  eofbit : Bool
  failbit : Bool
deriving DecidableEq, Repr

namespace IStream

/-- The stream `std::istringstream istr(s)`. -/
def ofString (s : String) : IStream := ⟨s.toList, false, false⟩

/-- The test `good()`: no state bit is set. -/
def good (s : IStream) : Bool := !s.eofbit && !s.failbit

/-- The test `fail()`; `while (istr >> x)` runs while it is false. -/
def fail (s : IStream) : Bool := s.failbit

/-- The sentry of a formatted input function: a stream that is not good gets
`failbit`; otherwise leading whitespace is skipped, and reaching the end of
the buffer while skipping sets `eofbit` and `failbit`. -/
def sentry (s : IStream) : Bool × IStream :=
  if s.good then
    let r := s.buf.dropWhile isspace
    if r.isEmpty then (false, ⟨[], true, true⟩) else (true, ⟨r, false, false⟩)
  else (false, ⟨s.buf, s.eofbit, true⟩)

/-- The extraction `istr >> word` for a `std::string`: the word is the maximal
run of non-whitespace characters; `eofbit` is set when the run ends at the end
of the buffer. On failure no word is produced (the target keeps its value). -/
def getWord (s : IStream) : Option String × IStream :=
  match s.sentry with
  | (false, s1) => (none, s1)
  | (true, s1) =>
    let w := s1.buf.takeWhile (fun c => !isspace c)
    let r := s1.buf.dropWhile (fun c => !isspace c)
    (some (String.mk w), ⟨r, r.isEmpty, false⟩)

end IStream

/-! ## Guide import (`io::Parser::readGuide`) -/

/-- The conversion `std::stoi`: optional leading whitespace, optional sign, a
non-empty run of decimal digits; `none` stands for the exceptions
`std::invalid_argument` (no digits) and `std::out_of_range` (not an `int`). -/
def stoi (s : String) : Option Int :=
  let cs := s.toList.dropWhile isspace
  let neg := cs.head? == some '-'
  let ds := if cs.head? == some '-' || cs.head? == some '+' then cs.tail else cs
  let digs := ds.takeWhile Char.isDigit
  if digs.isEmpty then none
  else
    let n : Nat := digs.foldl (fun a c => 10 * a + (c.toNat - 48)) 0
    let v : Int := if neg then -(n : Int) else (n : Int)
    if -2147483648 ≤ v ∧ v ≤ 2147483647 then some v else none

/-- Modelled from the spec: `frBox`, declared outside `src/`; a guide is "a
coarse rectangle on a layer", given as `minX minY maxX maxY`. -/
structure frBox where
  xl : Int
  yl : Int
  xh : Int
  yh : Int
deriving DecidableEq, Repr

/-- Modelled from the spec: `frRect`, declared outside `src/`: a box on a layer. -/
structure frRect where
  box : frBox
  layerNum : Int
deriving DecidableEq, Repr

/-- What `readGuide` reads from its surroundings: the net table of the top
block, the layer table of the technology (name to layer number) and the three
global layer bounds. A net is identified by a number. -/
structure GuideEnv where
  name2net : String → Option Nat
  name2layer : String → Option Int
  BOTTOM_ROUTING_LAYER : Int
  TOP_ROUTING_LAYER : Int
  VIA_ACCESS_LAYERNUM : Int

/-- The ways `readGuide` ends without returning: `exit(2)` after one of its
four messages, or an exception of `std::stoi`. -/
inductive GuideError where
  | failedToOpen
  | readingGuideFile
  | cannotFindNet (name : String)
  | cannotFindLayer (name : String)
  | layerOutsideRange (netName : String) (layerName : String) (layerNum : Int)
  | stoiThrew
deriving DecidableEq, Repr

/-- The local variables `netName`, `net` (`none` is `nullptr`), `numGuides` and
the member `tmpGuides` (a map from net pointer to rectangles, read through
`operator[]`, so an absent key holds the empty vector). -/
structure GuideState where
  netName : String
  net : Option Nat
  numGuides : Nat
  tmpGuides : Option Nat → List frRect

/-- The state before the first line. -/
def GuideState.init : GuideState := ⟨"", none, 0, fun _ => []⟩

/-- The loop `while (!ss.eof()) { ss >> word; vLine.push_back(word); }`:
`word` keeps its value when the extraction fails. One unit of fuel per
iteration. -/
def vLineLoop : Nat → IStream → String → List String → List String
  | 0, _, _, vLine => vLine
  | fuel + 1, ss, word, vLine =>
    if ss.eofbit then vLine
    else
      match ss.getWord with
      | (some w, ss1) => vLineLoop fuel ss1 w (vLine ++ [w])
      | (none, ss1) => vLineLoop fuel ss1 word (vLine ++ [word])

/-- The vector `vLine` built from one line; every iteration but the last
consumes a character, so `line.length + 1` iterations are enough. -/
def vLine (line : String) : List String :=
  vLineLoop (line.length + 1) (IStream.ofString line) "" []

/-- The layer test of `readGuide`, as written: the comparison
`layerNum < (BOTTOM_ROUTING_LAYER && layerNum != VIA_ACCESS_LAYERNUM)` compares
`layerNum` with a boolean converted to 0 or 1. -/
def guideLayerRejected (env : GuideEnv) (layerNum : Int) : Bool :=
  let b : Bool := (env.BOTTOM_ROUTING_LAYER != 0) && (layerNum != env.VIA_ACCESS_LAYERNUM)
  decide (layerNum < (if b then 1 else 0)) || decide (layerNum > env.TOP_ROUTING_LAYER)

/-- The map update `tmpGuides[net].push_back(rect)`. -/
def pushGuide (g : Option Nat → List frRect) (net : Option Nat) (rect : frRect) :
    Option Nat → List frRect :=
  fun k => if k = net then g k ++ [rect] else g k

/-- One iteration of the `while (fin.good())` loop on the line `getline` gave. -/
def readGuideLine (env : GuideEnv) (st : GuideState) (line : String) :
    Except GuideError GuideState :=
  if line = "(" ∨ line = "" then .ok st
  else if line = ")" then .ok st
  else
    match vLine line with
    | [] => .error .readingGuideFile
    | [w0] =>
      match env.name2net w0 with
      | none => .error (.cannotFindNet w0)
      | some n => .ok ⟨w0, some n, st.numGuides, st.tmpGuides⟩
    | [w0, w1, w2, w3, w4] =>
      match env.name2layer w4 with
      | none => .error (.cannotFindLayer w4)
      | some layerNum =>
        if guideLayerRejected env layerNum then
          .error (.layerOutsideRange st.netName w4 layerNum)
        else
          match stoi w0, stoi w1, stoi w2, stoi w3 with
          | some x0, some y0, some x1, some y1 =>
            .ok ⟨st.netName, st.net, st.numGuides + 1,
                 pushGuide st.tmpGuides st.net ⟨⟨x0, y0, x1, y1⟩, layerNum⟩⟩
          | _, _, _, _ => .error .stoiThrew
    | _ => .error .readingGuideFile

/-- The line loop of `readGuide` from a given state. -/
def readGuideFrom (env : GuideEnv) : GuideState → List String → Except GuideError GuideState
  | st, [] => .ok st
  | st, line :: rest =>
    match readGuideLine env st line with
    | .ok st1 => readGuideFrom env st1 rest
    | .error e => .error e

/-- The function `io::Parser::readGuide`; the argument is `none` when the guide
file cannot be opened and otherwise the lines that the successive `getline`
calls return. -/
def readGuide (env : GuideEnv) (file : Option (List String)) : Except GuideError GuideState :=
  match file with
  | none => .error .failedToOpen
  | some lines => readGuideFrom env GuideState.init lines

/-- The whitespace-delimited tokens of a list of characters; `cur` is the
token being read. -/
def tokensAux : List Char → List Char → List String
  | [], cur => if cur.isEmpty then [] else [String.mk cur]
  | c :: cs, cur =>
    if isspace c then
      (if cur.isEmpty then tokensAux cs [] else String.mk cur :: tokensAux cs [])
    else tokensAux cs (cur ++ [c])

/-- The whitespace-delimited tokens of a line, as the specification counts
them ("a line containing a single token", "a 5-token line"). -/
def tokensOf (line : String) : List String := tokensAux line.toList []

/-- The current net after one more line: a single-token line names the new
current net; the separator lines `(`, `)` and the empty line, and lines with
another number of tokens, leave it as it is. -/
def netAfterLine (env : GuideEnv) (cur : Option Nat) (l : String) : Option Nat :=
  if l = "(" ∨ l = ")" ∨ l = "" then cur
  else
    match tokensOf l with
    | [w] => env.name2net w
    | _ => cur

/-- The net named by the most recent single-token line of `lines`; `none`
(the null net) when there is no such line. -/
def currentNet (env : GuideEnv) (lines : List String) : Option Nat :=
  lines.foldl (netAfterLine env) none

/-- A net table and layer table for examples: one net `n1`, one layer `M2`
with number 4, routing layers 6 to 10, via access layer 2. -/
def guideEnvExample : GuideEnv :=
  ⟨fun s => if s = "n1" then some 0 else none,
   fun s => if s = "M2" then some 4 else none, 6, 10, 2⟩

/-! ## Net geometry (`io::Writer::mergeSplitConnFigs`) -/

/-- Modelled from the spec: `frPoint`, declared outside `src/`. -/
structure frPoint where
  x : Int
  y : Int
deriving DecidableEq, Repr

/-- Modelled from the spec: the end styles "extend/truncate/variable"
(`frcExtendEndStyle`, `frcTruncateEndStyle`, `frcVariableEndStyle`). -/
inductive frEndStyle where
  | truncate
  | extend
  | variable
deriving DecidableEq, Repr

/-- Modelled from the spec: `frSegStyle`, declared outside `src/`: "begin/end
end-styles (extend/truncate/variable + numeric extension)". `setBeginStyle`
and `setEndStyle` write a style together with its extension. -/
structure frSegStyle where
  beginStyle : frEndStyle
  beginExt : Nat
  endStyle : frEndStyle
  endExt : Nat
deriving DecidableEq, Repr

/-- The call `style.setBeginStyle(s, ext)`. -/
def frSegStyle.setBeginStyle (st : frSegStyle) (s : frEndStyle) (ext : Nat) : frSegStyle :=
  ⟨s, ext, st.endStyle, st.endExt⟩

/-- The call `style.setEndStyle(s, ext)`. -/
def frSegStyle.setEndStyle (st : frSegStyle) (s : frEndStyle) (ext : Nat) : frSegStyle :=
  ⟨st.beginStyle, st.beginExt, s, ext⟩

/-- Modelled from the spec: `frPathSeg`, declared outside `src/`: "a straight
segment with begin/end end-styles"; the fields are those that
`mergeSplitConnFigs` reads and writes. -/
structure frPathSeg where
  layerNum : Int
  beginPt : frPoint
  endPt : frPoint
  style : frSegStyle
deriving DecidableEq, Repr

/-- Modelled from the spec: `frVia`, declared outside `src/`: "a via placement
(origin + via-definition reference)"; `cutLayerNum` is
`getViaDef()->getCutLayerNum()`. -/
structure frVia where
  origin : frPoint
  cutLayerNum : Int
  viaDef : Nat
deriving DecidableEq, Repr

/-- The three kinds of `frConnFig` that reach the writer. -/
inductive frConnFig where
  | pathSeg (p : frPathSeg)
  | via (v : frVia)
  | patchWire (id : Nat)
deriving DecidableEq, Repr

/-- What `mergeSplitConnFigs` reads from the technology: the number of layers
`getTech()->getLayers().size()` and each layer's `getDefaultSegStyle()`. -/
structure WriterTech where
  numLayers : Nat
  defaultSegStyle : Int → frSegStyle

/-- The access `m[k]` of a `std::map` followed by an update of the referenced
value; an absent key is inserted with the default value first. The map is the
list of its entries in ascending key order. -/
def mapModify {K V : Type} (lt : K → K → Bool) (dflt : V) (f : V → V) :
    List (K × V) → K → List (K × V)
  | [], k => [(k, f dflt)]
  | (k1, v1) :: rest, k =>
    if lt k k1 then (k, f dflt) :: (k1, v1) :: rest
    else if lt k1 k then (k1, v1) :: mapModify lt dflt f rest k
    else (k1, f v1) :: rest

/-- The lookup `m.find(k)` of a `std::map`. -/
def mapFind {K V : Type} (lt : K → K → Bool) : List (K × V) → K → Option V
  | [], _ => none
  | (k1, v1) :: rest, k =>
    if lt k k1 then none
    else if lt k1 k then mapFind lt rest k
    else some v1

/-- The order of `frCoord` keys. -/
def coordLt (a b : Int) : Bool := decide (a < b)

/-- The key `tuple<frLayerNum, bool, frCoord>` of `pathSegMergeMap`:
layer, orientation (`true` is horizontal), track coordinate. -/
abbrev SegKey := Int × Bool × Int

/-- The lexicographic order of `SegKey` tuples. -/
def segKeyLt (a b : SegKey) : Bool :=
  decide (a.1 < b.1) ||
    (decide (a.1 = b.1) &&
      ((!a.2.1 && b.2.1) || (decide (a.2.1 = b.2.1) && decide (a.2.2 < b.2.2))))

/-- The key `tuple<frCoord, frCoord, frLayerNum>` of `viaMergeMap`. -/
abbrev ViaKey := Int × Int × Int

/-- The lexicographic order of `ViaKey` tuples. -/
def viaKeyLt (a b : ViaKey) : Bool :=
  decide (a.1 < b.1) ||
    (decide (a.1 = b.1) &&
      (decide (a.2.1 < b.2.1) || (decide (a.2.1 = b.2.1) && decide (a.2.2 < b.2.2))))

/-- The inner map of `pathSegMergeMap`: coordinate to the begin (`true`) and
end (`false`) events at that coordinate. -/
abbrev EventMap := List (Int × List (frPathSeg × Bool))

/-- The map `pathSegMergeMap`. -/
abbrev PathSegMergeMap := List (SegKey × EventMap)

/-- The local `isH` of the first loop: the segment is horizontal unless its
two x coordinates agree. -/
def frPathSeg.isH (p : frPathSeg) : Bool := !decide (p.beginPt.x = p.endPt.x)

/-- The local `trackLoc`. -/
def frPathSeg.trackLoc (p : frPathSeg) : Int := if p.isH then p.beginPt.y else p.beginPt.x

/-- The local `beginCoord`. -/
def frPathSeg.beginCoord (p : frPathSeg) : Int := if p.isH then p.beginPt.x else p.beginPt.y

/-- The local `endCoord`. -/
def frPathSeg.endCoord (p : frPathSeg) : Int := if p.isH then p.endPt.x else p.endPt.y

/-- The key `make_tuple(layerNum, isH, trackLoc)` under which a segment is filed. -/
def frPathSeg.key (p : frPathSeg) : SegKey := (p.layerNum, p.isH, p.trackLoc)

/-- The update `pathSegMergeMap[key][coord].push_back(make_tuple(pathSeg, isBegin))`. -/
def pushEvent (m : PathSegMergeMap) (key : SegKey) (coord : Int) (ev : frPathSeg × Bool) :
    PathSegMergeMap :=
  mapModify segKeyLt [] (fun em => mapModify coordLt [] (fun v => v ++ [ev]) em coord) m key

/-- The path-segment branch of the first loop: a zero-length segment is
ignored, any other files a begin and an end event. -/
def addPathSeg (m : PathSegMergeMap) (pathSeg : frPathSeg) : PathSegMergeMap :=
  if pathSeg.beginPt = pathSeg.endPt then m
  else
    pushEvent (pushEvent m pathSeg.key pathSeg.beginCoord (pathSeg, true))
      pathSeg.key pathSeg.endCoord (pathSeg, false)

/-- The map `viaMergeMap`. -/
abbrev ViaMergeMap := List (ViaKey × frVia)

/-- The via branch of the first loop: `viaMergeMap[key] = via`. -/
def addVia (m : ViaMergeMap) (via : frVia) : ViaMergeMap :=
  mapModify viaKeyLt via (fun _ => via) m (via.origin.x, via.origin.y, via.cutLayerNum)

/-- The first loop of `mergeSplitConnFigs`: fill `pathSegMergeMap`. -/
def buildPathSegMergeMap (connFigs : List frConnFig) : PathSegMergeMap :=
  connFigs.foldl
    (fun m c => match c with
      | .pathSeg p => addPathSeg m p
      | _ => m) []

/-- The first loop of `mergeSplitConnFigs`: fill `viaMergeMap`. -/
def buildViaMergeMap (connFigs : List frConnFig) : ViaMergeMap :=
  connFigs.foldl
    (fun m c => match c with
      | .via v => addVia m v
      | _ => m) []

/-- A `map<frCoord, vector<shared_ptr<frPathSeg>>>`: track coordinate to segments. -/
abbrev TrackMap := List (Int × List frPathSeg)

/-- One element of `mergedPathSegs`: the two maps of a layer, index 0
(vertical) and index 1 (horizontal). -/
structure LayerSegs where
  vert : TrackMap
  horz : TrackMap
deriving DecidableEq, Repr

/-- The vector `mergedPathSegs`, indexed by layer number. -/
abbrev MergedPathSegs := List LayerSegs

/-- The element access `it.at(isH)` of one layer. -/
def LayerSegs.at (l : LayerSegs) (isH : Bool) : TrackMap := if isH then l.horz else l.vert

/-- Replace the map `it.at(isH)` of one layer. -/
def LayerSegs.setAt (l : LayerSegs) (isH : Bool) (t : TrackMap) : LayerSegs :=
  if isH then ⟨l.vert, t⟩ else ⟨t, l.horz⟩

/-- Whether `layerNum` is a valid index of a vector of length `n`. -/
def layerInRange (n : Nat) (layerNum : Int) : Bool := decide (0 ≤ layerNum) && decide (layerNum < n)

/-- The push `(mergedPathSegs.at(layerNum).at(isH))[trackLoc].push_back(seg)`;
`none` is the `std::out_of_range` of `at(layerNum)`. -/
def pushMerged (m : MergedPathSegs) (key : SegKey) (seg : frPathSeg) : Option MergedPathSegs :=
  if layerInRange m.length key.1 then
    some (m.modify
      (fun l => l.setAt key.2.1 (mapModify coordLt [] (fun v => v ++ [seg]) (l.at key.2.1) key.2.2))
      key.1.toNat)
  else none

/-- The locals of the loop over one `pathSegMergeMap` entry. -/
structure MergeLoop where
  hasSeg : Bool
  cnt : Int
  newPathSeg : Option frPathSeg
  style : frSegStyle
  beginPt : frPoint
  endPt : frPoint
deriving DecidableEq, Repr

/-- The locals at the start of one entry; `style`, `begin` and `end` are
written before they are read. -/
def MergeLoop.init : MergeLoop :=
  ⟨false, 0, none, ⟨.truncate, 0, .truncate, 0⟩, ⟨0, 0⟩, ⟨0, 0⟩⟩

/-- The counting loop `cnt += get<1>(pathSegTuple) ? 1 : -1`. -/
def countEvents (cnt : Int) (evs : List (frPathSeg × Bool)) : Int :=
  evs.foldl (fun c ev => c + (if ev.2 then 1 else -1)) cnt

/-- The loop of the "newPathSeg begin" branch over the events of a coordinate:
every begin event overwrites `begin`/`end` and may raise the begin style. -/
def openLoop (st : MergeLoop) (evs : List (frPathSeg × Bool)) : MergeLoop :=
  evs.foldl
    (fun s ev =>
      if ev.2 then
        let s1 := { s with beginPt := ev.1.beginPt, endPt := ev.1.endPt }
        if ev.1.style.beginExt > s1.style.beginExt then
          { s1 with style := s1.style.setBeginStyle ev.1.style.beginStyle ev.1.style.beginExt }
        else s1
      else s) st

/-- The loop of the "newPathSeg end" branch: every end event overwrites `end`
and may raise the end style. -/
def closeLoop (st : MergeLoop) (evs : List (frPathSeg × Bool)) : MergeLoop :=
  evs.foldl
    (fun s ev =>
      if !ev.2 then
        let s1 := { s with endPt := ev.1.endPt }
        if ev.1.style.endExt > s1.style.endExt then
          { s1 with style := s1.style.setEndStyle ev.1.style.endStyle ev.1.style.endExt }
        else s1
      else s) st

/-- The body of the loop over the coordinates of one entry (`it2`). `none` is
undefined behaviour (an empty event vector or a null `newPathSeg`, neither
of which the first loop can produce) or the exception of `pushMerged`. -/
def mergeStep (key : SegKey) (acc : MergeLoop × MergedPathSegs)
    (it2 : Int × List (frPathSeg × Bool)) : Option (MergeLoop × MergedPathSegs) :=
  let st : MergeLoop := { acc.1 with cnt := countEvents acc.1.cnt it2.2 }
  if !st.hasSeg && decide (0 < st.cnt) then
    match it2.2 with
    | [] => none
    | first :: _ =>
      let st1 : MergeLoop := { st with
        style := (st.style.setBeginStyle .truncate 0).setEndStyle .truncate 0,
        newPathSeg := some first.1 }
      let st2 := openLoop st1 it2.2
      some ({ st2 with
              newPathSeg := st2.newPathSeg.map (fun p => { p with style := st2.style }),
              hasSeg := true }, acc.2)
  else if st.hasSeg && decide (st.cnt = 0) then
    match st.newPathSeg with
    | none => none
    | some p =>
      let st1 := closeLoop { st with beginPt := p.beginPt, endPt := p.endPt } it2.2
      let q : frPathSeg := { p with beginPt := st1.beginPt, endPt := st1.endPt, style := st1.style }
      (pushMerged acc.2 key q).map (fun m => ({ st1 with newPathSeg := some q, hasSeg := false }, m))
  else some (st, acc.2)

/-- The loop over the coordinates of one entry. -/
def mergeSweep (key : SegKey) :
    MergeLoop × MergedPathSegs → EventMap → Option (MergeLoop × MergedPathSegs)
  | acc, [] => some acc
  | acc, it2 :: rest =>
    match mergeStep key acc it2 with
    | none => none
    | some acc1 => mergeSweep key acc1 rest

/-- The loop over the entries of `pathSegMergeMap` (`it1`). -/
def mergeGroups : MergedPathSegs → PathSegMergeMap → Option MergedPathSegs
  | m, [] => some m
  | m, it1 :: rest =>
    match mergeSweep it1.1 (MergeLoop.init, m) it1.2 with
    | none => none
    | some acc => mergeGroups acc.2 rest

/-- The merge pass: `mergedPathSegs` after the "merge pathSeg" loop. -/
def mergePass (tech : WriterTech) (connFigs : List frConnFig) : Option MergedPathSegs :=
  mergeGroups (List.replicate tech.numLayers ⟨[], []⟩) (buildPathSegMergeMap connFigs)

/-- The loop of `splitVia_helper` over the segments of one track: the first
segment that passes the test is cut at `(x, y)`, the new piece is returned
for the `push_back`, and the loop breaks. `isH` is the `int` argument. -/
def splitViaScan (isH : Int) (x y : Int) (style_default : frSegStyle) :
    List frPathSeg → Option (List frPathSeg × frPathSeg)
  | [] => none
  | pathSeg :: rest =>
    if (decide (isH = 0) && decide (pathSeg.beginPt.x < x) && decide (pathSeg.endPt.x > x)) ||
       (decide (isH = 1) && decide (pathSeg.beginPt.y < y) && decide (pathSeg.endPt.y > y)) then
      let style1 := pathSeg.style
      let style2 := pathSeg.style
      let newPathSeg : frPathSeg :=
        { pathSeg with
          beginPt := ⟨x, y⟩, endPt := pathSeg.endPt,
          style := style2.setBeginStyle style_default.beginStyle style_default.beginExt }
      some ({ pathSeg with
              beginPt := pathSeg.beginPt, endPt := ⟨x, y⟩,
              style := style1.setEndStyle style_default.endStyle style_default.endExt } :: rest,
            newPathSeg)
    else
      (splitViaScan isH x y style_default rest).map (fun r => (pathSeg :: r.1, r.2))

/-- The segments of one track after the loop of `splitVia_helper`. -/
def splitViaTrack (isH : Int) (x y : Int) (style_default : frSegStyle)
    (segs : List frPathSeg) : List frPathSeg :=
  match splitViaScan isH x y style_default segs with
  | none => segs
  | some (segs1, newPathSeg) => segs1 ++ [newPathSeg]

/-- Replace the value of an existing key of a track map. -/
def mapSet {K V : Type} (lt : K → K → Bool) : List (K × V) → K → V → List (K × V)
  | [], _, _ => []
  | (k1, v1) :: rest, k, v =>
    if lt k k1 then (k1, v1) :: rest
    else if lt k1 k then (k1, v1) :: mapSet lt rest k v
    else (k1, v) :: rest

/-- The function `io::Writer::splitVia_helper`. -/
def splitVia_helper (tech : WriterTech) (layerNum : Int) (isH : Int) (trackLoc x y : Int)
    (mergedPathSegs : MergedPathSegs) : MergedPathSegs :=
  if decide (layerNum ≥ 0) && decide (layerNum < (tech.numLayers : Int)) then
    match mergedPathSegs.get? layerNum.toNat with
    | none => mergedPathSegs
    | some l =>
      match mapFind coordLt (l.at (decide (isH = 1))) trackLoc with
      | none => mergedPathSegs
      | some segs =>
        mergedPathSegs.modify
          (fun l1 => l1.setAt (decide (isH = 1))
            (mapSet coordLt (l1.at (decide (isH = 1))) trackLoc
              (splitViaTrack isH x y (tech.defaultSegStyle layerNum) segs)))
          layerNum.toNat
  else mergedPathSegs

/-- The body of the loop "split pathseg from via" for one `viaMergeMap` entry:
four calls of `splitVia_helper`. The variable `isH` is 1 for the first call
and 0 for the other three (it is not set back to 1 for the third call). -/
def splitViaEntry (tech : WriterTech) (mergedPathSegs : MergedPathSegs) (it1 : ViaKey × frVia) :
    MergedPathSegs :=
  let x := it1.1.1
  let y := it1.1.2.1
  let cutLayerNum := it1.1.2.2
  let m1 := splitVia_helper tech (cutLayerNum - 1) 1 y x y mergedPathSegs
  let m2 := splitVia_helper tech (cutLayerNum - 1) 0 x x y m1
  let m3 := splitVia_helper tech (cutLayerNum + 1) 0 x x y m2
  splitVia_helper tech (cutLayerNum + 1) 0 x x y m3

/-- The via split pass: the loop over `viaMergeMap`. -/
def viaSplitPass (tech : WriterTech) (mergedPathSegs : MergedPathSegs) (vias : ViaMergeMap) :
    MergedPathSegs :=
  vias.foldl (splitViaEntry tech) mergedPathSegs

/-- What one iteration of the `seg2` loop of the crossing pass leaves when it
splits: the vertical segment `seg1` after the iteration, the horizontal
segments after it, and the new pieces to push (if any). -/
structure CrossHit where
  seg1 : frPathSeg
  newSeg1 : Option frPathSeg
  segs2 : List frPathSeg
  newSeg2 : Option frPathSeg
deriving DecidableEq, Repr

/-- The loop over `seg2` (horizontal) for one `seg1` (vertical): the first
`seg2` for which one of the two tests holds is handled and the loop breaks;
`none` when no test holds for any `seg2`. -/
def crossScan2 (tech : WriterTech) (seg1 : frPathSeg) : List frPathSeg → Option CrossHit
  | [] => none
  | seg2 :: rest =>
    let seg1Begin := seg1.beginPt
    let seg1End := seg1.endPt
    let seg2Begin := seg2.beginPt
    let seg2End := seg2.endPt
    let pushNewSeg1 := decide (seg2Begin.y > seg1Begin.y) && decide (seg2Begin.y < seg1End.y)
    let pushNewSeg2 := decide (seg1Begin.x > seg2Begin.x) && decide (seg1Begin.x < seg2End.x)
    -- check whether seg1 needs to be split
    let seg1a : frPathSeg :=
      if pushNewSeg1 then
        { seg1 with
          beginPt := seg1Begin, endPt := ⟨seg1End.x, seg2End.y⟩,
          style := seg1.style.setEndStyle .extend (tech.defaultSegStyle seg1.layerNum).endExt }
      else seg1
    let newSeg1 : Option frPathSeg :=
      if pushNewSeg1 then
        some { seg1 with
          beginPt := ⟨seg1End.x, seg2Begin.y⟩, endPt := seg1End,
          style := seg1.style.setBeginStyle .extend (tech.defaultSegStyle seg1.layerNum).beginExt }
      else none
    -- check whether seg2 needs to be split; the new piece is a copy of seg1
    let seg2a : frPathSeg :=
      if pushNewSeg2 then
        { seg2 with
          beginPt := seg2Begin, endPt := ⟨seg1End.x, seg2End.y⟩,
          style := seg2.style.setEndStyle .extend (tech.defaultSegStyle seg2.layerNum).endExt }
      else seg2
    let newSeg2 : Option frPathSeg :=
      if pushNewSeg2 then
        some { seg1a with
          beginPt := ⟨seg1End.x, seg2Begin.y⟩, endPt := seg2End,
          style := seg2.style.setBeginStyle .extend (tech.defaultSegStyle seg2.layerNum).beginExt }
      else none
    if pushNewSeg1 || pushNewSeg2 then
      some ⟨seg1a, newSeg1, seg2a :: rest, newSeg2⟩
    else
      (crossScan2 tech seg1 rest).map (fun h => { h with segs2 := seg2 :: h.segs2 })

/-- The loop over `seg1` for one vertical track and one horizontal track: the
vectors of both tracks after it. At most one split is made. -/
def crossPair (tech : WriterTech) : List frPathSeg → List frPathSeg →
    List frPathSeg × List frPathSeg
  | [], segs2 => ([], segs2)
  | seg1 :: rest1, segs2 =>
    match crossScan2 tech seg1 segs2 with
    | some h => (h.seg1 :: rest1 ++ h.newSeg1.toList, h.segs2 ++ h.newSeg2.toList)
    | none =>
      let r := crossPair tech rest1 segs2
      (seg1 :: r.1, r.2)

/-- The loop over the horizontal tracks (`mapIt2`) for one vertical track. -/
def crossRow (tech : WriterTech) : List frPathSeg → TrackMap → List frPathSeg × TrackMap
  | segs1, [] => (segs1, [])
  | segs1, mapIt2 :: rest =>
    let r := crossPair tech segs1 mapIt2.2
    let r2 := crossRow tech r.1 rest
    (r2.1, (mapIt2.1, r.2) :: r2.2)

/-- The loop over the vertical tracks (`mapIt1`) of one layer. -/
def crossLayer (tech : WriterTech) : TrackMap → TrackMap → TrackMap × TrackMap
  | [], horz => ([], horz)
  | mapIt1 :: rest, horz =>
    let r := crossRow tech mapIt1.2 horz
    let r2 := crossLayer tech rest r.2
    ((mapIt1.1, r.1) :: r2.1, r2.2)

/-- The crossing split pass: the loop "split intersecting pathSegs". -/
def crossPass (tech : WriterTech) (mergedPathSegs : MergedPathSegs) : MergedPathSegs :=
  mergedPathSegs.map (fun it1 =>
    let r := crossLayer tech it1.vert it1.horz
    ⟨r.1, r.2⟩)

/-- The loop "write back pathseg": layers in order, vertical map before
horizontal map, tracks in ascending order. -/
def writeBackSegs (mergedPathSegs : MergedPathSegs) : List frPathSeg :=
  mergedPathSegs.flatMap (fun it1 =>
    (it1.vert.flatMap (fun it3 => it3.2)) ++ (it1.horz.flatMap (fun it3 => it3.2)))

/-- The function `io::Writer::mergeSplitConnFigs`: the new content of
`connFigs`, or `none` when `at(layerNum)` throws. -/
def mergeSplitConnFigs (tech : WriterTech) (connFigs : List frConnFig) :
    Option (List frConnFig) :=
  let viaMergeMap := buildViaMergeMap connFigs
  match mergePass tech connFigs with
  | none => none
  | some merged =>
    let split := crossPass tech (viaSplitPass tech merged viaMergeMap)
    some ((writeBackSegs split).map frConnFig.pathSeg ++ viaMergeMap.map (fun it => frConnFig.via it.2))

/-- The state that `readGuide` reaches on the two lines `n1` and
`0 0 10 10 M2` with the tables of `guideEnvExample`. -/
def guideStateExample : GuideState :=
  ⟨"n1", some 0, 1, pushGuide (fun _ => []) (some 0) ⟨⟨0, 0, 10, 10⟩, 4⟩⟩

/-- A technology for examples: six layers, every default style "truncate". -/
def writerTechExample : WriterTech := ⟨6, fun _ => ⟨.truncate, 0, .truncate, 0⟩⟩

/-- A path segment with "extend" ends of extension 5, for examples. -/
def segExample (layerNum x0 y0 x1 y1 : Int) : frPathSeg :=
  ⟨layerNum, ⟨x0, y0⟩, ⟨x1, y1⟩, ⟨.extend, 5, .extend, 5⟩⟩

/-- The comparison `lt` is a strict total order. -/
structure StrictOrder {K : Type} (lt : K → K → Bool) : Prop where
  irrefl : ∀ a, lt a a = false
  trans : ∀ a b c, lt a b = true → lt b c = true → lt a c = true
  tri : ∀ a b, lt a b = false → lt b a = false → a = b

/-- The entries of a map are in strictly ascending key order. -/
def MapSorted {K V : Type} (lt : K → K → Bool) (m : List (K × V)) : Prop :=
  m.Pairwise (fun a b => lt a.1 b.1 = true)

/-- The vector `mergedPathSegs[layerNum][isH][trackLoc]` of a group (empty when absent). -/
def mergedGroup (m : MergedPathSegs) (key : SegKey) : List frPathSeg :=
  if layerInRange m.length key.1 then
    match m.get? key.1.toNat with
    | some l => (mapFind coordLt (l.at key.2.1) key.2.2).getD []
    | none => []
  else []

/-- Every track map of `mergedPathSegs` is in ascending key order. -/
def TracksSorted (m : MergedPathSegs) : Prop :=
  ∀ l ∈ m, MapSorted coordLt l.vert ∧ MapSorted coordLt l.horz

/-- The coordinates (keys) of an event map. -/
def coordsOf (R : EventMap) : List Int := R.map Prod.fst

/-- Segment `m` contains segment `q` along the track. -/
def Contains (m q : frPathSeg) : Prop :=
  m.beginCoord ≤ q.beginCoord ∧ q.endCoord ≤ m.endCoord

/-- The unit cell `[x, x+1]` of the track lies inside a segment of `G`. -/
def Covered (G : List frPathSeg) (x : Int) : Prop :=
  ∃ q ∈ G, q.beginCoord ≤ x ∧ x < q.endCoord

/-- What is required of one merged segment of the group `key` with inputs `G`. -/
def GoodOut (G : List frPathSeg) (key : SegKey) (m : frPathSeg) : Prop :=
  m.key = key ∧ m.beginCoord < m.endCoord ∧
  (∀ x, m.beginCoord ≤ x → x < m.endCoord → Covered G x) ∧
  (∃ p ∈ G, m.beginPt = p.beginPt ∧ m.beginCoord = p.beginCoord) ∧
  (∃ q ∈ G, m.endPt = q.endPt ∧ m.endCoord = q.endCoord)

/-- The events of one coordinate agree with the group `G`. -/
def EvsOK (G : List frPathSeg) (c : Int) (evs : List (frPathSeg × Bool)) : Prop :=
  (∀ q, (q, true) ∈ evs ↔ q ∈ G ∧ q.beginCoord = c) ∧
  (∀ q, (q, false) ∈ evs ↔ q ∈ G ∧ q.endCoord = c) ∧
  evs.countP (fun e => e.2) = G.countP (fun q => decide (q.beginCoord = c)) ∧
  evs.countP (fun e => !e.2) = G.countP (fun q => decide (q.endCoord = c))

/-- The unprocessed part `R` of an event map agrees with the group `G`. -/
def FrontOK (G : List frPathSeg) (R : EventMap) : Prop :=
  R.Pairwise (fun a b => a.1 < b.1) ∧
  (∀ e ∈ R, EvsOK G e.1 e.2) ∧
  (∀ q ∈ G, (q.beginCoord ∈ coordsOf R ∨ ∀ c ∈ coordsOf R, q.beginCoord < c) ∧
            (q.endCoord ∈ coordsOf R ∨ ∀ c ∈ coordsOf R, q.endCoord < c))

/-- The number of segments of `G` whose begin event is no longer in `R` minus
the number of those whose end event is no longer in `R`. -/
def cntOf (G : List frPathSeg) (R : EventMap) : Int :=
  (G.countP (fun q => decide (q.beginCoord ∉ coordsOf R)) : Int)
    - (G.countP (fun q => decide (q.endCoord ∉ coordsOf R)) : Int)

/-- The invariant of the sweep over one group: `R` is the part of the
event map still to be processed and `O` the vector of merged segments. -/
def SweepInv (G : List frPathSeg) (key : SegKey) (R : EventMap) (st : MergeLoop)
    (O : List frPathSeg) : Prop :=
  st.cnt = cntOf G R ∧
  O.Pairwise (fun a b => a.endCoord < b.beginCoord) ∧
  (∀ m ∈ O, GoodOut G key m ∧ ∀ c ∈ coordsOf R, m.endCoord < c) ∧
  ((st.hasSeg = false ∧ st.cnt = 0 ∧
      ∀ q ∈ G, q.beginCoord ∉ coordsOf R → ∃ m ∈ O, Contains m q) ∨
   (st.hasSeg = true ∧ 0 < st.cnt ∧
      ∃ p0 p, st.newPathSeg = some p0 ∧ p0.layerNum = key.1 ∧ p ∈ G ∧
        p0.beginPt = p.beginPt ∧ p.beginCoord ∉ coordsOf R ∧
        (∀ q ∈ G, q.beginCoord ∉ coordsOf R → (∃ m ∈ O, Contains m q) ∨
            p.beginCoord ≤ q.beginCoord) ∧
        (∀ x, p.beginCoord ≤ x → (∀ c ∈ coordsOf R, x < c) → Covered G x) ∧
        (∀ m ∈ O, m.endCoord < p.beginCoord)))

/-- What the merge pass guarantees for one group: `G` are the input segments
of the group and `O` its merged segments. -/
def GroupOK (G : List frPathSeg) (key : SegKey) (O : List frPathSeg) : Prop :=
  O.Pairwise (fun a b => a.endCoord < b.beginCoord) ∧
  (∀ m ∈ O, GoodOut G key m) ∧
  (∀ q ∈ G, ∃ m ∈ O, Contains m q)

/-- The coordinate at which an event is filed. -/
def evCoord (e : frPathSeg × Bool) : Int := if e.2 then e.1.beginCoord else e.1.endCoord

/-- The begin and end event of every segment of a list. -/
def eventsOfSegs (G : List frPathSeg) : List (frPathSeg × Bool) :=
  G.flatMap (fun p => [(p, true), (p, false)])

/-- The path segments of non-zero length among the connFigs, in order. -/
def segsOf (connFigs : List frConnFig) : List frPathSeg :=
  connFigs.flatMap (fun c =>
    match c with
    | .pathSeg p => if p.beginPt = p.endPt then [] else [p]
    | _ => [])

/-- The event map of one group agrees with the events `EVk` filed so far. -/
def InnerOK (EVk : List (frPathSeg × Bool)) (em : EventMap) : Prop :=
  MapSorted coordLt em ∧
  (∀ c evs, (c, evs) ∈ em → evs = EVk.filter (fun e => decide (evCoord e = c)) ∧ evs ≠ []) ∧
  (∀ e ∈ EVk, evCoord e ∈ em.map Prod.fst)

/-- The map `pathSegMergeMap` agrees with the events `EV` filed so far. -/
def MapOK (EV : List (frPathSeg × Bool)) (M : PathSegMergeMap) : Prop :=
  MapSorted segKeyLt M ∧
  (∀ k em, (k, em) ∈ M → InnerOK (EV.filter (fun e => decide (e.1.key = k))) em) ∧
  (∀ e ∈ EV, e.1.key ∈ M.map Prod.fst) ∧
  (∀ k em, (k, em) ∈ M → ∃ e ∈ EV, e.1.key = k)

/-- Filing one event. -/
def pushEv (M : PathSegMergeMap) (e : frPathSeg × Bool) : PathSegMergeMap :=
  pushEvent M e.1.key (evCoord e) e

/-- The input segments of a group: non-zero length and filed under `key`. -/
def groupSegs (connFigs : List frConnFig) (key : SegKey) : List frPathSeg :=
  (segsOf connFigs).filter (fun p => decide (p.key = key))

/-- Neither test of the crossing pass holds for the vertical segment `seg1`
and the horizontal segment `seg2`. -/
def NoCross (seg1 seg2 : frPathSeg) : Prop :=
  ¬ (seg2.beginPt.y > seg1.beginPt.y ∧ seg2.beginPt.y < seg1.endPt.y) ∧
  ¬ (seg1.beginPt.x > seg2.beginPt.x ∧ seg1.beginPt.x < seg2.endPt.x)

/-- Two segments of one group are apart: one ends strictly before the other begins. -/
def Apart (p q : frPathSeg) : Prop :=
  p.key = q.key → p.endCoord < q.beginCoord ∨ q.endCoord < p.beginCoord

/-! ## LEF58 rule compilation -/

/-- The numeric conversions of the rule parsers, which work in floating point
and are therefore parameters of the embedding. `getDouble` is the extraction
`istr >> tmp` of a `double` from the unread characters (leading whitespace
already skipped): `none` when it fails, otherwise the value, already converted
by `frCoord(round(tmp * DBUPerUU))`, and the characters left unread. `getInt`
is the same for `int` and `frUInt4` targets (no scaling). `stod` is
`frCoord(round(std::stod(word) * DBUPerUU))`, `none` when `std::stod` throws. -/
structure NumConv where
  getDouble : List Char → Option (Int × List Char)
  getInt : List Char → Option (Int × List Char)
  stod : String → Option Int

/-- How a call ends: it returns, it leaves by an exception, or the fuel of the
embedding's loops runs out. -/
inductive Outcome (α : Type) where
  | returned (a : α)
  | threw
  | outOfFuel
deriving DecidableEq, Repr

namespace IStream

/-- The extraction `istr >> tmp` for a `double`, with the conversion to
database units folded in (see `NumConv`). A failed extraction sets `failbit`;
no later operation looks at the buffer of a failed stream. -/
def getDouble (nc : NumConv) (s : IStream) : Option Int × IStream :=
  match s.sentry with
  | (false, s1) => (none, s1)
  | (true, s1) =>
    match nc.getDouble s1.buf with
    | none => (none, ⟨s1.buf, s1.eofbit, true⟩)
    | some (v, r) => (some v, ⟨r, r.isEmpty, false⟩)

/-- The extraction `istr >> n` for an `int` or `frUInt4`. -/
def getInt (nc : NumConv) (s : IStream) : Option Int × IStream :=
  match s.sentry with
  | (false, s1) => (none, s1)
  | (true, s1) =>
    match nc.getInt s1.buf with
    | none => (none, ⟨s1.buf, s1.eofbit, true⟩)
    | some (v, r) => (some v, ⟨r, r.isEmpty, false⟩)

/-- The call `istr.tellg()`: a position is the list of unread characters,
`none` is `pos_type(-1)`. The sentry sets `failbit` on a stream that is not good. -/
def tellg (s : IStream) : Option (List Char) × IStream :=
  if s.good then (some s.buf, s) else (none, ⟨s.buf, s.eofbit, true⟩)

/-- The call `istr.seekg(pos)`: `eofbit` is cleared first; a failed stream stays
as it is, and seeking to `pos_type(-1)` sets `failbit`. -/
def seekg (s : IStream) (pos : Option (List Char)) : IStream :=
  if s.failbit then ⟨s.buf, false, true⟩
  else
    match pos with
    | some p => ⟨p, false, false⟩
    | none => ⟨s.buf, false, true⟩

end IStream

/-- Modelled from the spec: the end-to-end part of an end-of-line rule
(`frLef58SpacingEndOfLineWithinEndToEndConstraint`, declared outside `src/`);
a field is `none` when its setter is not called. -/
structure EolEndToEnd where
  endToEndSpace : Int
  cutSpace : Option (Int × Int)
  extension : Option (Int × Option Int)
  otherEndWidth : Option Int
deriving DecidableEq, Repr

/-- Modelled from the spec: the parallel-edge part of an end-of-line rule
(`frLef58SpacingEndOfLineWithinParallelEdgeConstraint`); a flag is `true` when
its setter is called. -/
structure EolParallelEdge where
  subtractEolWidth : Bool
  parSpace : Int
  parWithin : Int
  prl : Option Int
  minLength : Option Int
  twoEdges : Bool
  sameMetal : Bool
  nonEolCornerOnly : Bool
  parallelSameMask : Bool
deriving DecidableEq, Repr

/-- Modelled from the spec: the length part of an end-of-line rule
(`frLef58SpacingEndOfLineWithinMaxMinLengthConstraint`). -/
structure EolMaxMinLength where
  isMax : Bool
  length : Int
  twoSides : Bool
deriving DecidableEq, Repr

/-- Modelled from the spec: `frLef58SpacingEndOfLineWithinConstraint`. -/
structure EolWithin where
  oppositeWidth : Option Int
  eolWithin : Int
  wrongDirWithin : Option Int
  sameMask : Bool
  endToEnd : Option EolEndToEnd
  parallelEdge : Option EolParallelEdge
  maxMinLength : Option EolMaxMinLength
deriving DecidableEq, Repr

/-- Modelled from the spec: `frLef58SpacingEndOfLineConstraint`, "end-of-line
spacing with optional parallel-edge/end-to-end sub-rules". -/
structure Lef58SpacingEndOfLineConstraint where
  eolSpace : Int
  eolWidth : Int
  exactWidth : Bool
  wrongDirSpace : Option Int
  within : EolWithin
deriving DecidableEq, Repr

/-- Modelled from the spec: `frLef58MinStepConstraint` ("minimum step"). -/
structure Lef58MinStepConstraint where
  minStepLength : Int
  maxEdges : Int
  minAdjacentLength : Int
  eolWidth : Int
deriving DecidableEq, Repr

/-- Modelled from the spec: `frLef58CutSpacingConstraint`, "cut spacing with
optional adjacent-cuts/layer sub-rules"; one field for every setter that the
parsers call, `none` while the setter has not been called. -/
structure Lef58CutSpacingConstraint where
  cutSpacing : Option Int := none
  centerToCenter : Option Bool := none
  sameNet : Option Bool := none
  sameMetal : Option Bool := none
  sameVia : Option Bool := none
  secondLayerName : Option String := none
  stack : Option Bool := none
  orthogonalSpacing : Option Int := none
  cutClassName : Option String := none
  cutClassIdx : Option Int := none
  shortEdgeOnly : Option Bool := none
  prl : Option Int := none
  concaveCorner : Option Bool := none
  width : Option Int := none
  enclosure : Option Int := none
  edgeLength : Option Int := none
  parLength : Option Int := none
  parWithin : Option Int := none
  edgeEnclosure : Option Int := none
  adjEnclosure : Option Int := none
  extension : Option Int := none
  eolWidth : Option Int := none
  minLength : Option Int := none
  maskOverlap : Option Bool := none
  wrongDirection : Option Bool := none
  adjacentCuts : Option Int := none
  exactAlignedCut : Option Int := none
  twoCuts : Option Int := none
  twoCutsSpacing : Option Int := none
  sameCut : Option Bool := none
  cutWithin : Option Int := none
  exceptSamePGNet : Option Bool := none
  exceptAllWithin : Option Int := none
  above : Option Bool := none
  below : Option Bool := none
  toAll : Option Bool := none
  noPrl : Option Bool := none
  sideParallelOverlap : Option Bool := none
  sameMask : Option Bool := none
deriving DecidableEq, Repr

/-- Modelled from the spec: `frLef58SpacingTableConstraint`, a
"parallel-run-length spacing table": row keys (widths), column keys
(lengths), value matrix, the except-within map and the flags. -/
structure Lef58SpacingTableConstraint where
  rowVals : List Int
  colVals : List Int
  tblVals : List (List Int)
  ewVals : List (Int × (Int × Int))
  wrongDirection : Bool
  sameMask : Bool
  eolWidth : Option Int
deriving DecidableEq, Repr

/-- Modelled from the spec: `frLef58CutSpacingTableConstraint`, a "cut-spacing
table indexed by cut class pairs" with its default spacing and its optional
PRL and LAYER parts. -/
structure Lef58CutSpacingTableConstraint where
  defaultCutSpacing : Int
  prlConstraint : Option (Int × Bool × Bool × Bool)
  layerConstraint : Option (Int × Bool)
  cutClassTbl : Option (List String × List String × List (List (Int × Int)))
deriving DecidableEq, Repr

/-- Modelled from the spec: `frCornerTypeEnum` ("corner spacing by
convex/concave type"). -/
inductive frCornerTypeEnum where
  | CONVEX
  | CONCAVE
deriving DecidableEq, Repr

/-- Modelled from the spec: `frLef58CornerSpacingConstraint` with its 1-D
table (widths and spacing pairs); a field is `none` when its setter is not
called. -/
structure Lef58CornerSpacingConstraint where
  widths : List Int
  spacings : List (Int × Int)
  cornerType : frCornerTypeEnum
  sameMask : Option Bool
  within : Option Int
  eolWidth : Option Int
  length : Option Int
  edgeLength : Option Bool
  includeLShape : Option Bool
  minLength : Option Int
  exceptNotch : Option Bool
  exceptNotchLength : Option Int
  exceptSameNet : Bool
  exceptSameMetal : Bool
  sameXY : Bool
deriving DecidableEq, Repr

/-- Modelled from the spec: `frConstraint`, "a variant type over many rule
kinds"; the kinds that the LEF58 rule parsers build. -/
inductive Constraint where
  | spacingTable (c : Lef58SpacingTableConstraint)
  | spacingEndOfLine (c : Lef58SpacingEndOfLineConstraint)
  | minStep (c : Lef58MinStepConstraint)
  | cutSpacing (c : Lef58CutSpacingConstraint)
  | cutSpacingTable (c : Lef58CutSpacingTableConstraint)
  | cornerSpacing (c : Lef58CornerSpacingConstraint)
deriving DecidableEq, Repr

/-- Modelled from the spec: `frLayer`, declared outside `src/`: its number,
its cut-class index lookup (`getCutClassIdx`, -1 for an unknown name) and "the
owning layer's typed slot/list" for each rule kind; every `add...` method and
`push_back` appends to its list. -/
structure Layer where
  layerNum : Int
  getCutClassIdx : String → Int
  constraints : List Constraint
  lef58SpacingEndOfLineConstraints : List Constraint
  lef58MinStepConstraints : List Constraint
  lef58CutSpacingConstraints : List Constraint
  lef58CutSpacingTableConstraints : List Constraint
  lef58CornerSpacingConstraints : List Constraint

/-- Modelled from the spec: `frTechObject`, declared outside `src/`: "the
technology-wide flat constraint list", to which `addConstraint` and
`addUConstraint` append, and the layer table `name2layer` (name to layer
number). -/
structure Tech where
  constraints : List Constraint
  name2layer : String → Option Int

/-- The call `parser->tech->addConstraint(con)` (also `addUConstraint`). -/
def Tech.addConstraint (t : Tech) (c : Constraint) : Tech :=
  { t with constraints := t.constraints ++ [c] }

/-- The state that a rule parser works on: the layer `tmpLayer` and the
technology `parser->tech`. -/
structure RuleDb where
  layer : Layer
  tech : Tech

/-- The local variables of `getLef58Spacing_endOfLineWithin`. -/
structure EolLocals where
  eolSpace : Int := 0
  eolWidth : Int := 0
  hasExactWidth : Bool := false
  hasWrongDirSpacing : Bool := false
  wrongDirSpace : Int := 0
  hasOppositeWidth : Bool := false
  oppositeWidth : Int := 0
  eolWithin : Int := 0
  hasWrongDirWithin : Bool := false
  wrongDirWithin : Int := 0
  hasSameMask : Bool := false
  hasEndToEnd : Bool := false
  endToEndSpace : Int := 0
  hasCutSpace : Bool := false
  oneCutSpace : Int := 0
  twoCutSpace : Int := 0
  hasExtension : Bool := false
  extension : Int := 0
  hasWrongDirExtension : Bool := false
  wrongDirExtension : Int := 0
  hasOtherEndWidth : Bool := false
  otherEndWidth : Int := 0
  hasLength : Bool := false
  isMax : Bool := false
  length : Int := 0
  hasTwoSides : Bool := false
  hasParallelEdge : Bool := false
  hasSubtractEolWidth : Bool := false
  parSpace : Int := 0
  parWithin : Int := 0
  hasPrl : Bool := false
  prl : Int := 0
  hasParallelEdgeMinLength : Bool := false
  parallelEdgeMinLength : Int := 0
  hasTwoEdges : Bool := false
  hasSameMetal : Bool := false
  hasNonEolCornerOnly : Bool := false
  hasParallelSameMask : Bool := false
  skip : Bool := false
  stage : Int := 0


/-- The statement pattern `double tmp; if (istr >> tmp) { x = ...; } else { cout
<< "Error..."; }`: the update `f` is applied when the extraction succeeds. -/
def readInto {σ : Type} (nc : NumConv) (istr : IStream) (v : σ) (f : σ → Int → σ) : σ × IStream :=
  match istr.getDouble nc with
  | (some x, istr1) => (f v x, istr1)
  | (none, istr1) => (v, istr1)

/-- The `PARALLELEDGE` branch of the end-of-line loop after the keyword:
`parSpace` (after an optional `SUBTRACTEOLWIDTH`), then `WITHIN parWithin`;
`none` when `std::stod` throws. -/
def eolParallelEdge (nc : NumConv) (istr : IStream) (v0 : EolLocals) :
    Option (EolLocals × IStream) :=
  let v : EolLocals := { v0 with hasParallelEdge := true }
  -- read to parSpace
  let r1 : Option (EolLocals × IStream) :=
    match istr.getWord with
    | (some tmp, istr1) =>
      if tmp = "SUBTRACTEOLWIDTH" then
        some (readInto nc istr1 { v with hasSubtractEolWidth := true }
          (fun s x => { s with parSpace := x }))
      else
        match nc.stod tmp with
        | some x => some ({ v with parSpace := x }, istr1)
        | none => none
    | (none, istr1) => some (v, istr1)
  match r1 with
  | none => none
  | some (v1, istr2) =>
    -- read to parWithin
    match istr2.getWord with
    | (some tmp, istr3) =>
      if tmp = "WITHIN" then
        let r := readInto nc istr3 v1 (fun s x => { s with parWithin := x })
        some ({ r.1 with stage := 3 }, r.2)
      else some ({ v1 with stage := 3 }, istr3)
    | (none, istr3) => some ({ v1 with stage := 3 }, istr3)

/-- The last `else` branch of the end-of-line loop: a word that is no keyword
of the chain is read according to `stage`; `none` when `std::stod` throws. -/
def eolOtherWord (nc : NumConv) (istr : IStream) (v : EolLocals) (word : String) :
    Option (EolLocals × IStream) :=
  if v.stage = 1 then
    match nc.stod word with
    | some x => some ({ v with hasWrongDirWithin := true, wrongDirWithin := x, stage := 0 }, istr)
    | none => none
  else if v.stage = 2 then
    if word = "EXTENSION" then
      let r := readInto nc istr { v with hasExtension := true } (fun s x => { s with extension := x })
      some ({ r.1 with stage := 20 }, r.2)
    else if word = "OTHERENDWIDTH" then
      some (readInto nc istr { v with hasOtherEndWidth := true }
        (fun s x => { s with otherEndWidth := x }))
    else
      match nc.stod word with
      | some x =>
        some (readInto nc istr { v with hasCutSpace := true, oneCutSpace := x }
          (fun s y => { s with twoCutSpace := y }))
      | none => none
  else if v.stage = 20 then
    match nc.stod word with
    | some x =>
      some ({ v with hasWrongDirExtension := true, wrongDirExtension := x, stage := 2 }, istr)
    | none => none
  else if v.stage = 3 then
    if word = "PRL" then
      some (readInto nc istr { v with hasPrl := true } (fun s x => { s with prl := x }))
    else if word = "MINLENGTH" then
      some (readInto nc istr { v with hasParallelEdgeMinLength := true }
        (fun s x => { s with parallelEdgeMinLength := x }))
    else if word = "TWOEDGES" then some ({ v with hasTwoEdges := true }, istr)
    else if word = "SAMEMETAL" then some ({ v with hasSameMetal := true }, istr)
    else if word = "NONEOLCORNERONLY" then some ({ v with hasNonEolCornerOnly := true }, istr)
    else if word = "PARALLELSAMEMASK" then some ({ v with hasParallelSameMask := true }, istr)
    else some (v, istr)
  else some (v, istr)

/-- The body of the loop `while (istr >> word)` of
`getLef58Spacing_endOfLineWithin` for one word; `none` when `std::stod` throws. -/
def eolWord (nc : NumConv) (istr : IStream) (v : EolLocals) (word : String) :
    Option (EolLocals × IStream) :=
  if word = "SPACING" then
    let r := readInto nc istr v (fun s x => { s with eolSpace := x })
    some ({ r.1 with stage := 0 }, r.2)
  else if word = "ENDOFLINE" then
    let r := readInto nc istr v (fun s x => { s with eolWidth := x })
    some ({ r.1 with stage := 0 }, r.2)
  else if word = "EXACTWIDTH" then some ({ v with hasExactWidth := true, stage := 0 }, istr)
  else if word = "WRONGDIRSPACING" then
    let r := readInto nc istr { v with hasWrongDirSpacing := true }
      (fun s x => { s with wrongDirSpace := x })
    some ({ r.1 with stage := 0 }, r.2)
  else if word = "OPPOSITEWIDTH" then
    let r := readInto nc istr { v with hasOppositeWidth := true }
      (fun s x => { s with oppositeWidth := x })
    some ({ r.1 with stage := 0 }, r.2)
  else if word = "WITHIN" then
    let r := readInto nc istr v (fun s x => { s with eolWithin := x })
    some ({ r.1 with stage := 1 }, r.2)
  else if word = "SAMEMASK" then some ({ v with hasSameMask := true, stage := 0 }, istr)
  else if word = "EXCEPTEXACTWIDTH" then some ({ v with stage := 0, skip := true }, istr)
  else if word = "FILLCONCAVECORNER" then some ({ v with stage := 0, skip := true }, istr)
  else if word = "WITHCUT" then some ({ v with stage := 0 }, istr)
  else if word = "ENDPRLSPACING" then some ({ v with stage := 0, skip := true }, istr)
  else if word = "ENDTOEND" then
    let r := readInto nc istr { v with hasEndToEnd := true }
      (fun s x => { s with endToEndSpace := x })
    some ({ r.1 with stage := 2 }, r.2)
  else if word = "MAXLENGTH" then
    let r := readInto nc istr { v with hasLength := true, isMax := true }
      (fun s x => { s with length := x })
    some ({ r.1 with stage := 0 }, r.2)
  else if v.stage ≠ 3 ∧ word = "MINLENGTH" then
    let r := readInto nc istr { v with hasLength := true, isMax := false }
      (fun s x => { s with length := x })
    some ({ r.1 with stage := 0 }, r.2)
  else if word = "TWOSIDES" then some ({ v with hasTwoSides := true, stage := 0 }, istr)
  else if word = "EQUALRECTWIDTH" then some ({ v with stage := 0, skip := true }, istr)
  else if word = "PARALLELEDGE" then eolParallelEdge nc istr v
  else if word = "ENCLOSECUT" then some ({ v with stage := 0, skip := true }, istr)
  else if word = ";" then some ({ v with stage := 0 }, istr)
  else eolOtherWord nc istr v word

/-- The loop `while (istr >> word)` of `getLef58Spacing_endOfLineWithin`. -/
def eolLoop (nc : NumConv) : Nat → IStream → EolLocals → Outcome EolLocals
  | 0, _, _ => .outOfFuel
  | fuel + 1, istr, v =>
    match istr.getWord with
    | (none, _) => .returned v
    | (some word, istr1) =>
      match eolWord nc istr1 v word with
      | none => .threw
      | some (v1, istr2) => eolLoop nc fuel istr2 v1

/-- The constraint that `getLef58Spacing_endOfLineWithin` builds from its locals. -/
def eolConstraint (v : EolLocals) : Lef58SpacingEndOfLineConstraint :=
  { eolSpace := v.eolSpace, eolWidth := v.eolWidth, exactWidth := v.hasExactWidth,
    wrongDirSpace := if v.hasWrongDirSpacing then some v.wrongDirSpace else none,
    within :=
      { oppositeWidth := if v.hasOppositeWidth then some v.oppositeWidth else none,
        eolWithin := v.eolWithin,
        wrongDirWithin := if v.hasWrongDirWithin then some v.wrongDirWithin else none,
        sameMask := v.hasSameMask,
        endToEnd :=
          if v.hasEndToEnd then
            some { endToEndSpace := v.endToEndSpace,
                   cutSpace := if v.hasCutSpace then some (v.oneCutSpace, v.twoCutSpace) else none,
                   extension :=
                     if v.hasExtension then
                       some (v.extension,
                         if v.hasWrongDirExtension then some v.wrongDirExtension else none)
                     else none,
                   otherEndWidth := if v.hasOtherEndWidth then some v.otherEndWidth else none }
          else none,
        parallelEdge :=
          if v.hasParallelEdge then
            some { subtractEolWidth := v.hasSubtractEolWidth, parSpace := v.parSpace,
                   parWithin := v.parWithin,
                   prl := if v.hasPrl then some v.prl else none,
                   minLength :=
                     if v.hasParallelEdgeMinLength then some v.parallelEdgeMinLength else none,
                   twoEdges := v.hasTwoEdges, sameMetal := v.hasSameMetal,
                   nonEolCornerOnly := v.hasNonEolCornerOnly,
                   parallelSameMask := v.hasParallelSameMask }
          else none,
        maxMinLength :=
          if v.hasLength then some { isMax := v.isMax, length := v.length, twoSides := v.hasTwoSides }
          else none } }

/-- The function `io::Parser::getLef58Spacing_endOfLineWithin`. -/
def getLef58Spacing_endOfLineWithin (nc : NumConv) (fuel : Nat) (db : RuleDb) (sIn : String) :
    Outcome RuleDb :=
  match eolLoop nc fuel (IStream.ofString sIn) {} with
  | .returned v =>
    if v.skip then .returned db
    else
      let con := Constraint.spacingEndOfLine (eolConstraint v)
      .returned
        { tech := db.tech.addConstraint con,
          layer := { db.layer with
            lef58SpacingEndOfLineConstraints := db.layer.lef58SpacingEndOfLineConstraints ++ [con] } }
  | .threw => .threw
  | .outOfFuel => .outOfFuel

/-- The locals of `getLef58Spacing`: the text collected in `ss` and the two keywords. -/
structure SpacingLocals where
  ss : String := ""
  keyword : String := ""
  keyword2 : String := ""
deriving DecidableEq, Repr

/-- The loop `while (istr >> word)` of `getLef58Spacing`. `keyword` is reset
by the word `SPACING`; `keyword2` is never reset. -/
def spacingLoop (nc : NumConv) (fuel0 : Nat) : Nat → IStream → SpacingLocals → RuleDb →
    Outcome RuleDb
  | 0, _, _, _ => .outOfFuel
  | fuel + 1, istr, v, db =>
    match istr.getWord with
    | (none, _) => .returned db
    | (some word, istr1) =>
      if word = "SPACING" then
        spacingLoop nc fuel0 fuel istr1 { v with ss := word, keyword := "" } db
      else if word = "EOLPERPENDICULAR" ∨ word = "AREA" ∨ word = "LAYER" ∨ word = "NOTCHLENGTH" ∨
          word = "NOTCHSPAN" ∨ word = "ENDOFLINE" ∨ word = "CONVEXCORNERS" then
        spacingLoop nc fuel0 fuel istr1 { v with keyword := word, ss := v.ss ++ " " ++ word } db
      else if word = "TOCONCAVECORNER" ∨ word = "TONOTCHLENGTH" then
        spacingLoop nc fuel0 fuel istr1 { v with keyword2 := word, ss := v.ss ++ " " ++ word } db
      else if word = ";" then
        let v1 : SpacingLocals := { v with ss := v.ss ++ " " ++ word }
        if v1.keyword = "ENDOFLINE" ∧ v1.keyword2 = "" then
          match getLef58Spacing_endOfLineWithin nc fuel0 db v1.ss with
          | .returned db1 => spacingLoop nc fuel0 fuel istr1 v1 db1
          | .threw => .threw
          | .outOfFuel => .outOfFuel
        else spacingLoop nc fuel0 fuel istr1 v1 db
      else spacingLoop nc fuel0 fuel istr1 { v with ss := v.ss ++ " " ++ word } db

/-- The function `io::Parser::getLef58Spacing`. -/
def getLef58Spacing (nc : NumConv) (fuel : Nat) (db : RuleDb) (sIn : String) : Outcome RuleDb :=
  spacingLoop nc fuel fuel (IStream.ofString sIn) {} db


/-- The value of a run of decimal digits. -/
def digitsValue (ds : List Char) : Int :=
  (ds.foldl (fun a c => 10 * a + (c.toNat - 48)) 0 : Nat)

/-- Numeric conversions for examples: every number in the text is a run of
decimal digits and `DBUPerUU` is 1, so the converted value is the number. -/
def numConvExample : NumConv :=
  { getDouble := fun cs =>
      if (cs.takeWhile Char.isDigit).isEmpty then none
      else some (digitsValue (cs.takeWhile Char.isDigit), cs.dropWhile Char.isDigit),
    getInt := fun cs =>
      if (cs.takeWhile Char.isDigit).isEmpty then none
      else some (digitsValue (cs.takeWhile Char.isDigit), cs.dropWhile Char.isDigit),
    stod := fun w =>
      if (w.toList.takeWhile Char.isDigit).isEmpty then none
      else some (digitsValue (w.toList.takeWhile Char.isDigit)) }

/-- A layer (number 2, no cut classes) and a technology without constraints,
for examples. -/
def ruleDbExample : RuleDb :=
  { layer := { layerNum := 2, getCutClassIdx := fun _ => -1, constraints := [],
               lef58SpacingEndOfLineConstraints := [], lef58MinStepConstraints := [],
               lef58CutSpacingConstraints := [], lef58CutSpacingTableConstraints := [],
               lef58CornerSpacingConstraints := [] },
    tech := { constraints := [], name2layer := fun _ => none } }

/-- The constraints of the technology's list after a call, when it returns. -/
def Outcome.techConstraints (o : Outcome RuleDb) : Option (List Constraint) :=
  match o with
  | .returned db => some db.tech.constraints
  | _ => none

/-- The call `tmpLayer->addLef58MinStepConstraint(con)`. -/
def Layer.addLef58MinStepConstraint (l : Layer) (c : Constraint) : Layer :=
  { l with lef58MinStepConstraints := l.lef58MinStepConstraints ++ [c] }

/-- The call `tmpLayer->addLef58CutSpacingConstraint(con)`. -/
def Layer.addLef58CutSpacingConstraint (l : Layer) (c : Constraint) : Layer :=
  { l with lef58CutSpacingConstraints := l.lef58CutSpacingConstraints ++ [c] }

/-- The call `tmpLayer->addLef58CornerSpacingConstraint(con)`. -/
def Layer.addLef58CornerSpacingConstraint (l : Layer) (c : Constraint) : Layer :=
  { l with lef58CornerSpacingConstraints := l.lef58CornerSpacingConstraints ++ [c] }

/-- The call `tmpLayer->addConstraint(con)`. -/
def Layer.addConstraint (l : Layer) (c : Constraint) : Layer :=
  { l with constraints := l.constraints ++ [c] }

/-- The local variables of `getLef58MinStep`. -/
structure MinStepLocals where
  isSkip : Bool := false
  minStepLength : Int := -1
  maxEdges : Int := -1
  minAdjLength : Int := -1
  eolWidth : Int := -1

/-- The loop `while (istr >> word)` of `getLef58MinStep`: a constraint is
registered at every `;` reached while `isSkip` is false. The four value
locals are set once before the loop and not reset between rules. -/
def minStepLoop (nc : NumConv) : Nat → IStream → MinStepLocals → RuleDb → Outcome RuleDb
  | 0, _, _, _ => .outOfFuel
  | fuel + 1, istr, v, db =>
    match istr.getWord with
    | (none, _) => .returned db
    | (some word, istr1) =>
      if word = "MINSTEP" then
        match istr1.getDouble nc with
        | (some x, istr2) => minStepLoop nc fuel istr2 { v with isSkip := false, minStepLength := x } db
        | (none, istr2) => minStepLoop nc fuel istr2 { v with isSkip := true } db
      else if word = "MAXEDGES" then
        match istr1.getInt nc with
        | (some x, istr2) => minStepLoop nc fuel istr2 { v with maxEdges := x } db
        | (none, istr2) => minStepLoop nc fuel istr2 { v with isSkip := true } db
      else if word = "MINADJACENTLENGTH" then
        match istr1.getDouble nc with
        | (some x, istr2) => minStepLoop nc fuel istr2 { v with minAdjLength := x } db
        | (none, istr2) => minStepLoop nc fuel istr2 { v with isSkip := true } db
      else if word = "NOBETWEENEOL" then
        match istr1.getDouble nc with
        | (some x, istr2) => minStepLoop nc fuel istr2 { v with eolWidth := x } db
        | (none, istr2) => minStepLoop nc fuel istr2 { v with isSkip := true } db
      else if word = ";" then
        if !v.isSkip then
          let con := Constraint.minStep
            { minStepLength := v.minStepLength, maxEdges := v.maxEdges,
              minAdjacentLength := v.minAdjLength, eolWidth := v.eolWidth }
          minStepLoop nc fuel istr1 v
            { layer := db.layer.addLef58MinStepConstraint con, tech := db.tech.addConstraint con }
        else minStepLoop nc fuel istr1 v db
      else minStepLoop nc fuel istr1 { v with isSkip := true } db

/-- The function `io::Parser::getLef58MinStep`. -/
def getLef58MinStep (nc : NumConv) (fuel : Nat) (db : RuleDb) (sIn : String) : Outcome RuleDb :=
  minStepLoop nc fuel (IStream.ofString sIn) {} db

/-- The constraint `con`, the flag `isSkip` and the stream of the two
cut-spacing parsers. -/
structure CutSt where
  con : Lef58CutSpacingConstraint := {}
  isSkip : Bool := false
  istr : IStream

/-- The pattern `if (istr >> tmp) { x = ...; con->setX(x); } else { isSkip = true; }`;
the result also tells whether the extraction succeeded. -/
def CutSt.dbl (nc : NumConv) (s : CutSt)
    (set : Lef58CutSpacingConstraint → Int → Lef58CutSpacingConstraint) : Bool × CutSt :=
  match s.istr.getDouble nc with
  | (some x, istr1) => (true, { s with con := set s.con x, istr := istr1 })
  | (none, istr1) => (false, { s with isSkip := true, istr := istr1 })

/-- The same pattern for an `int` target. -/
def CutSt.int (nc : NumConv) (s : CutSt)
    (set : Lef58CutSpacingConstraint → Int → Lef58CutSpacingConstraint) : Bool × CutSt :=
  match s.istr.getInt nc with
  | (some x, istr1) => (true, { s with con := set s.con x, istr := istr1 })
  | (none, istr1) => (false, { s with isSkip := true, istr := istr1 })

/-- The extraction `istr >> word` on the parser state. -/
def CutSt.word (s : CutSt) : Option String × CutSt :=
  match s.istr.getWord with
  | (w, istr1) => (w, { s with istr := istr1 })

/-- The statement `isSkip = true`. -/
def CutSt.skip (s : CutSt) : CutSt := { s with isSkip := true }

/-- The pattern `if (istr >> className) { con->setCutClassName(className); idx =
tmpLayer->getCutClassIdx(className); if (idx != -1) con->setCutClassIdx(idx); else
isSkip = true; } else { isSkip = true; }`. -/
def CutSt.cutClass (layer : Layer) (s : CutSt) : CutSt :=
  match s.word with
  | (some className, s1) =>
    let s2 : CutSt := { s1 with con := { s1.con with cutClassName := some className } }
    if layer.getCutClassIdx className ≠ -1 then
      { s2 with con := { s2.con with cutClassIdx := some (layer.getCutClassIdx className) } }
    else s2.skip
  | (none, s1) => s1.skip

/-- The five branches that the two cut-spacing parsers share:
`SPACING`, `CENTERTOCENTER`, `SAMENET`, `SAMEMETAL`, `SAMEVIA`; `none` for
another word. -/
def cutCommonWord (nc : NumConv) (s : CutSt) (word : String) : Option CutSt :=
  if word = "SPACING" then some (s.dbl nc (fun c x => { c with cutSpacing := some x })).2
  else if word = "CENTERTOCENTER" then some { s with con := { s.con with centerToCenter := some true } }
  else if word = "SAMENET" then some { s with con := { s.con with sameNet := some true } }
  else if word = "SAMEMETAL" then some { s with con := { s.con with sameMetal := some true } }
  else if word = "SAMEVIA" then some { s with con := { s.con with sameVia := some true } }
  else none

/-- The `CONCAVECORNER` branch of `getLef58CutSpacing_layer` after the keyword. -/
def cutLayerConcaveCorner (nc : NumConv) (s0 : CutSt) : CutSt :=
  let s : CutSt := { s0 with con := { s0.con with concaveCorner := some true } }
  match s.word with
  | (none, s1) => s1.skip
  | (some word, s1) =>
    if word = "WIDTH" then
      match s1.dbl nc (fun c x => { c with width := some x }) with
      | (false, s2) => s2
      | (true, s2) =>
        match s2.word with
        | (none, s3) => s3.skip
        | (some w3, s3) =>
          if w3 = "ENCLOSURE" then
            match s3.dbl nc (fun c x => { c with enclosure := some x }) with
            | (false, s4) => s4
            | (true, s4) =>
              match s4.word with
              | (none, s5) => s5.skip
              | (some w5, s5) =>
                if w5 = "EDGELENGTH" then (s5.dbl nc (fun c x => { c with edgeLength := some x })).2
                else s5.skip
          else s3.skip
    else if word = "PARALLEL" then
      match s1.dbl nc (fun c x => { c with parLength := some x }) with
      | (false, s2) => s2
      | (true, s2) =>
        match s2.word with
        | (none, s3) => s3.skip
        | (some w3, s3) =>
          if w3 = "WITHIN" then
            match s3.dbl nc (fun c x => { c with parWithin := some x }) with
            | (false, s4) => s4
            | (true, s4) =>
              match s4.word with
              | (none, s5) => s5.skip
              | (some w5, s5) =>
                if w5 = "ENCLOSURE" then (s5.dbl nc (fun c x => { c with enclosure := some x })).2
                else s5.skip
          else s3.skip
    else if word = "EDGELENGTH" then
      match s1.dbl nc (fun c x => { c with edgeLength := some x }) with
      | (false, s2) => s2
      | (true, s2) =>
        match s2.word with
        | (none, s3) => s3.skip
        | (some w3, s3) =>
          if w3 = "ENCLOSURE" then
            match s3.dbl nc (fun c x => { c with edgeEnclosure := some x }) with
            | (false, s4) => s4
            | (true, s4) => (s4.dbl nc (fun c x => { c with adjEnclosure := some x })).2
          else s3.skip
    else s1

/-- The "cut class branch" of `getLef58CutSpacing_layer`: the word after
`CUTCLASS className`. -/
def cutLayerClassBranch (nc : NumConv) (s : CutSt) : CutSt :=
  match s.word with
  | (none, s1) => s1
  | (some word, s1) =>
    if word = "SHORTEDGEONLY" then
      let s2 : CutSt := { s1 with con := { s1.con with shortEdgeOnly := some true } }
      match s2.word with
      | (none, s3) => s3
      | (some w3, s3) =>
        if w3 = "PRL" then (s3.dbl nc (fun c x => { c with prl := some x })).2 else s3
    else if word = "CONCAVECORNER" then cutLayerConcaveCorner nc s1
    else if word = "EXTENSION" then (s1.dbl nc (fun c x => { c with extension := some x })).2
    else if word = "NONEOLCONVEXCORNER" then
      match s1.istr.getDouble nc with
      | (none, istr2) => { s1 with istr := istr2 }
      | (some x, istr2) =>
        let s2 : CutSt := { s1 with con := { s1.con with eolWidth := some x }, istr := istr2 }
        match s2.word with
        | (none, s3) => s3
        | (some w3, s3) =>
          if w3 = "MINLENGTH" then (s3.dbl nc (fun c x => { c with minLength := some x })).2
          else s3
    else if word = "ABOVEWIDTH" then
      match s1.dbl nc (fun c x => { c with width := some x }) with
      | (false, s2) => s2
      | (true, s2) =>
        match s2.word with
        | (none, s3) => s3
        | (some w3, s3) =>
          if w3 = "ENCLOSURE" then (s3.dbl nc (fun c x => { c with enclosure := some x })).2
          else s3.skip
    else if word = "MASKOVERLAP" then { s1 with con := { s1.con with maskOverlap := some true } }
    else if word = "WRONGDIRECTION" then
      { s1 with con := { s1.con with wrongDirection := some true } }
    else s1.skip

/-- The `LAYER` branch of `getLef58CutSpacing_layer` after the keyword. -/
def cutLayerBranch (nc : NumConv) (layer : Layer) (s : CutSt) : CutSt :=
  let s1 : CutSt :=
    match s.word with
    | (some secondLayerName, s0) =>
      { s0 with con := { s0.con with secondLayerName := some secondLayerName } }
    | (none, s0) => s0.skip
  match s1.word with
  | (none, s2) => s2
  | (some word, s2) =>
    if word = "STACK" then { s2 with con := { s2.con with stack := some true } }
    else if word = "ORTHOGONALSPACING" then
      (s2.dbl nc (fun c x => { c with orthogonalSpacing := some x })).2
    else if word = "CUTCLASS" then cutLayerClassBranch nc (s2.cutClass layer)
    else s2

/-- The loop `while (istr >> word)` of `getLef58CutSpacing_layer`. -/
def cutLayerLoop (nc : NumConv) (layer : Layer) : Nat → CutSt → Outcome CutSt
  | 0, _ => .outOfFuel
  | fuel + 1, s =>
    match s.word with
    | (none, s1) => .returned s1
    | (some word, s1) =>
      match cutCommonWord nc s1 word with
      | some s2 => cutLayerLoop nc layer fuel s2
      | none =>
        if word = "LAYER" then cutLayerLoop nc layer fuel (cutLayerBranch nc layer s1)
        else cutLayerLoop nc layer fuel s1

/-- The end of both cut-spacing parsers: the constraint is registered on the
layer and on the technology unless `isSkip` is set. -/
def cutRegister (db : RuleDb) (s : CutSt) : RuleDb :=
  if s.isSkip then db
  else
    { layer := db.layer.addLef58CutSpacingConstraint (.cutSpacing s.con),
      tech := db.tech.addConstraint (.cutSpacing s.con) }

/-- The function `io::Parser::getLef58CutSpacing_layer`. -/
def getLef58CutSpacing_layer (nc : NumConv) (fuel : Nat) (db : RuleDb) (sIn : String) :
    Outcome RuleDb :=
  match cutLayerLoop nc db.layer fuel { istr := IStream.ofString sIn } with
  | .returned s => .returned (cutRegister db s)
  | .threw => .threw
  | .outOfFuel => .outOfFuel

/-- The loop `while (!done)` of the `TWOCUTS` branch; `pos` is the position to
seek back to. While the extraction `istr >> word` fails, an iteration changes
nothing, so the loop only ends by running out of fuel. -/
def adjTwoCutsLoop (nc : NumConv) : Nat → CutSt → Option (List Char) → Outcome CutSt
  | 0, _, _ => .outOfFuel
  | fuel + 1, s, pos =>
    match s.word with
    | (none, s1) => adjTwoCutsLoop nc fuel s1 pos
    | (some word, s1) =>
      if word = "TWOCUTSSPACING" then
        match s1.dbl nc (fun c x => { c with twoCutsSpacing := some x }) with
        | (true, s2) =>
          let t := s2.istr.tellg
          adjTwoCutsLoop nc fuel { s2 with istr := t.2 } t.1
        | (false, s2) => adjTwoCutsLoop nc fuel s2 pos
      else if word = "SAMECUT" then
        let s2 : CutSt := { s1 with con := { s1.con with sameCut := some true } }
        let t := s2.istr.tellg
        adjTwoCutsLoop nc fuel { s2 with istr := t.2 } t.1
      else
        -- done = true; after the loop: istr.seekg(pos)
        .returned { s1 with istr := s1.istr.seekg pos }

/-- The body of the inner loop `while (istr >> word)` of the `ADJACENTCUTS`
branch for one word. -/
def adjInnerWord (nc : NumConv) (layer : Layer) (fuel0 : Nat) (s : CutSt) (word : String) :
    Outcome CutSt :=
  if word = "EXACTALIGNED" then
    .returned (s.int nc (fun c x => { c with exactAlignedCut := some x })).2
  else if word = "TWOCUTS" then
    match s.int nc (fun c x => { c with twoCuts := some x }) with
    | (true, s1) =>
      let t := s1.istr.tellg
      adjTwoCutsLoop nc fuel0 { s1 with istr := t.2 } t.1
    | (false, s1) => .returned s1
  else if word = "WITHIN" then
    -- a failed extraction leaves 0 in `tmp1`, and `setCutWithin` is called in both cases
    let t := s.istr.tellg
    match t.2.getDouble nc with
    | (some x, istr1) =>
      let t1 := istr1.tellg
      .returned { s with con := { s.con with cutWithin := some x }, istr := t1.2 }
    | (none, istr1) =>
      .returned { s with con := { s.con with cutWithin := some 0 }, isSkip := true, istr := istr1 }
  else if word = "EXCEPTSAMEPGNET" then
    .returned { s with con := { s.con with exceptSamePGNet := some true } }
  else if word = "EXCEPTALLWITHIN" then
    .returned (s.dbl nc (fun c x => { c with exceptAllWithin := some x })).2
  else if word = "ENCLOSURE" then
    let t := s.istr.tellg
    let s1 : CutSt :=
      match t.2.getWord with
      | (some w, istr1) =>
        if w = "ABOVE" then { s with con := { s.con with above := some true }, istr := istr1 }
        else if w = "BELOW" then { s with con := { s.con with below := some true }, istr := istr1 }
        else { s with istr := istr1.seekg t.1 }
      | (none, istr1) => { s with istr := istr1 }
    .returned (s1.dbl nc (fun c x => { c with enclosure := some x })).2
  else if word = "CUTCLASS" then
    let s1 := s.cutClass layer
    let t := s1.istr.tellg
    match t.2.getWord with
    | (none, istr1) => .returned { s1 with istr := istr1 }
    | (some word1, istr1) =>
      match istr1.getWord with
      | (none, istr2) => .returned { s1 with istr := istr2 }
      | (some word2, istr2) =>
        if word1 = "TO" ∧ word2 = "ALL" then
          .returned { s1 with con := { s1.con with toAll := some true }, istr := istr2 }
        else .returned { s1 with istr := istr2.seekg t.1 }
  else if word = "NOPRL" then .returned { s with con := { s.con with noPrl := some true } }
  else if word = "SIDEPARALLELOVERLAP" then
    .returned { s with con := { s.con with sideParallelOverlap := some true } }
  else if word = "SAMEMASK" then .returned { s with con := { s.con with sameMask := some true } }
  else .returned s.skip

/-- The inner loop `while (istr >> word)` of the `ADJACENTCUTS` branch. -/
def adjInnerLoop (nc : NumConv) (layer : Layer) (fuel0 : Nat) : Nat → CutSt → Outcome CutSt
  | 0, _ => .outOfFuel
  | fuel + 1, s =>
    match s.word with
    | (none, s1) => .returned s1
    | (some word, s1) =>
      match adjInnerWord nc layer fuel0 s1 word with
      | .returned s2 => adjInnerLoop nc layer fuel0 fuel s2
      | .threw => .threw
      | .outOfFuel => .outOfFuel

/-- The outer loop `while (istr >> word)` of `getLef58CutSpacing_adjacentCuts`. -/
def adjLoop (nc : NumConv) (layer : Layer) (fuel0 : Nat) : Nat → CutSt → Outcome CutSt
  | 0, _ => .outOfFuel
  | fuel + 1, s =>
    match s.word with
    | (none, s1) => .returned s1
    | (some word, s1) =>
      match cutCommonWord nc s1 word with
      | some s2 => adjLoop nc layer fuel0 fuel s2
      | none =>
        if word = "ADJACENTCUTS" then
          match adjInnerLoop nc layer fuel0 fuel0
              (s1.int nc (fun c x => { c with adjacentCuts := some x })).2 with
          | .returned s2 => adjLoop nc layer fuel0 fuel s2
          | .threw => .threw
          | .outOfFuel => .outOfFuel
        else adjLoop nc layer fuel0 fuel s1

/-- The function `io::Parser::getLef58CutSpacing_adjacentCuts`. -/
def getLef58CutSpacing_adjacentCuts (nc : NumConv) (fuel : Nat) (db : RuleDb) (sIn : String) :
    Outcome RuleDb :=
  match adjLoop nc db.layer fuel fuel { istr := IStream.ofString sIn } with
  | .returned s => .returned (cutRegister db s)
  | .threw => .threw
  | .outOfFuel => .outOfFuel

/-- The local variables of `getLef58SpacingTable_parallelRunLength`. -/
structure PrlLocals where
  isWrongDirection : Bool := false
  isSameMask : Bool := false
  exceptEol : Bool := false
  eolWidth : Int := 0
  lowExcludeSpacing : Int := 0
  highExcludeSpacing : Int := 0
  rowVals : List Int := []
  colVals : List Int := []
  tblVals : List (List Int) := []
  tblRowVals : List Int := []
  ewVals : List (Int × (Int × Int)) := []
  stage : Int := 0

/-- The loop `while (istr >> word)` of `getLef58SpacingTable_parallelRunLength`;
`threw` when `std::stod` throws. The key of `ewVals` is `rowVals.size()-1`
converted to `frCoord` (-1 for an empty `rowVals`). -/
def prlLoop (nc : NumConv) : Nat → IStream → PrlLocals → Outcome PrlLocals
  | 0, _, _ => .outOfFuel
  | fuel + 1, istr, v =>
    match istr.getWord with
    | (none, _) => .returned v
    | (some word, istr1) =>
      if word = "WRONGDIRECTION" then prlLoop nc fuel istr1 v
      else if word = "SAMEMASK" then prlLoop nc fuel istr1 { v with isSameMask := true }
      else if word = "EXCEPTEOL" then prlLoop nc fuel (istr1.getDouble nc).2 v
      else if word = "EXCEPTWITHIN" then
        let r1 := readInto nc istr1 v (fun s x => { s with lowExcludeSpacing := x })
        let r2 := readInto nc r1.2 r1.1 (fun s x => { s with highExcludeSpacing := x })
        let ew := mapModify coordLt (0, 0)
          (fun _ => (r2.1.lowExcludeSpacing, r2.1.highExcludeSpacing))
          r2.1.ewVals ((r2.1.rowVals.length : Int) - 1)
        prlLoop nc fuel r2.2 { r2.1 with ewVals := ew }
      else if word = "WIDTH" then
        let v1 : PrlLocals :=
          if v.tblRowVals.length ≠ 0 then
            { v with tblVals := v.tblVals ++ [v.tblRowVals], tblRowVals := [] }
          else v
        let r := readInto nc istr1 { v1 with stage := 1 }
          (fun s x => { s with rowVals := s.rowVals ++ [x] })
        prlLoop nc fuel r.2 r.1
      else if word = ";" then
        if v.stage = 1 ∧ v.tblRowVals.length ≠ 0 then
          prlLoop nc fuel istr1 { v with tblVals := v.tblVals ++ [v.tblRowVals], tblRowVals := [] }
        else prlLoop nc fuel istr1 v
      else if v.stage = 0 then
        match nc.stod word with
        | some x => prlLoop nc fuel istr1 { v with colVals := v.colVals ++ [x] }
        | none => .threw
      else if v.stage = 1 then
        match nc.stod word with
        | some x => prlLoop nc fuel istr1 { v with tblRowVals := v.tblRowVals ++ [x] }
        | none => .threw
      else prlLoop nc fuel istr1 v

/-- The function `io::Parser::getLef58SpacingTable_parallelRunLength`. -/
def getLef58SpacingTable_parallelRunLength (nc : NumConv) (fuel : Nat) (db : RuleDb)
    (sIn : String) : Outcome RuleDb :=
  match prlLoop nc fuel (IStream.ofString sIn) {} with
  | .returned v =>
    let con := Constraint.spacingTable
      { rowVals := v.rowVals, colVals := v.colVals, tblVals := v.tblVals, ewVals := v.ewVals,
        wrongDirection := v.isWrongDirection, sameMask := v.isSameMask,
        eolWidth := if v.exceptEol then some v.eolWidth else none }
    .returned { tech := db.tech.addConstraint con, layer := db.layer.addConstraint con }
  | .threw => .threw
  | .outOfFuel => .outOfFuel

/-- The words that a loop `while (istr >> word)` extracts from a stream when
nothing else reads from it. -/
def wordsLoop : Nat → IStream → List String
  | 0, _ => []
  | fuel + 1, istr =>
    match istr.getWord with
    | (some w, istr1) => w :: wordsLoop fuel istr1
    | (none, _) => []

/-- The words of `istringstream istr(sIn)`: every extraction consumes a
character, so `sIn.length + 1` iterations are enough. -/
def words (sIn : String) : List String :=
  wordsLoop (sIn.length + 1) (IStream.ofString sIn)

/-- Library behaviour that the cut-spacing-table parser depends on and that is
not modelled: the numeric conversions `nc`; `to_string d`, the word
`to_string(d * 1.0 / DBUPerUU)`; `sort`, the call `std::sort` with the
comparator on the first component (the order of equal names is unspecified);
`defaultCutSpacing`, the default cut spacing of a constraint made by
`make_shared<frLef58CutSpacingTableConstraint>()`. -/
structure CutTblEnv where
  nc : NumConv
  to_string : Int → String
  sort : List (String × Nat) → List (String × Nat)
  defaultCutSpacing : Int

/-- The loop of `getLef58CutSpacingTable_default`. -/
def cutTblDefaultLoop (nc : NumConv) : Nat → IStream → Int → Outcome Int
  | 0, _, _ => .outOfFuel
  | fuel + 1, istr, d =>
    match istr.getWord with
    | (none, _) => .returned d
    | (some word, istr1) =>
      if word = "DEFAULT" then
        match istr1.getDouble nc with
        | (some x, istr2) => cutTblDefaultLoop nc fuel istr2 x
        | (none, istr2) => cutTblDefaultLoop nc fuel istr2 d
      else cutTblDefaultLoop nc fuel istr1 d

/-- The function `io::Parser::getLef58CutSpacingTable_default`. -/
def getLef58CutSpacingTable_default (nc : NumConv) (fuel : Nat) (sIn : String)
    (con : Lef58CutSpacingTableConstraint) : Outcome Lef58CutSpacingTableConstraint :=
  match cutTblDefaultLoop nc fuel (IStream.ofString sIn) 0 with
  | .returned d => .returned { con with defaultCutSpacing := d }
  | .threw => .threw
  | .outOfFuel => .outOfFuel

/-- The locals of `getLef58CutSpacingTable_prl`. -/
structure CutTblPrlLocals where
  prl : Int := 0
  isHorizontal : Bool := false
  isVertical : Bool := false
  isMaxXY : Bool := false

/-- The loop of `getLef58CutSpacingTable_prl`. -/
def cutTblPrlLoop (nc : NumConv) : Nat → IStream → CutTblPrlLocals → Outcome CutTblPrlLocals
  | 0, _, _ => .outOfFuel
  | fuel + 1, istr, v =>
    match istr.getWord with
    | (none, _) => .returned v
    | (some word, istr1) =>
      if word = "PRL" then
        match istr1.getDouble nc with
        | (some x, istr2) => cutTblPrlLoop nc fuel istr2 { v with prl := x }
        | (none, istr2) => cutTblPrlLoop nc fuel istr2 v
      else if word = "HORIZONTAL" then cutTblPrlLoop nc fuel istr1 { v with isHorizontal := true }
      else if word = "VERTICAL" then cutTblPrlLoop nc fuel istr1 { v with isVertical := true }
      else if word = "MAXXY" then cutTblPrlLoop nc fuel istr1 { v with isMaxXY := true }
      else cutTblPrlLoop nc fuel istr1 v

/-- The function `io::Parser::getLef58CutSpacingTable_prl`. -/
def getLef58CutSpacingTable_prl (nc : NumConv) (fuel : Nat) (sIn : String)
    (con : Lef58CutSpacingTableConstraint) : Outcome Lef58CutSpacingTableConstraint :=
  match cutTblPrlLoop nc fuel (IStream.ofString sIn) {} with
  | .returned v =>
    .returned { con with prlConstraint := some (v.prl, v.isHorizontal, v.isVertical, v.isMaxXY) }
  | .threw => .threw
  | .outOfFuel => .outOfFuel

/-- The loop of `getLef58CutSpacingTable_layer` over the words of the text:
`secondLayerName` keeps its value when the extraction after `LAYER` fails. -/
def cutTblLayerLoop : List String → String → Bool → String × Bool
  | [], name, enc => (name, enc)
  | word :: rest, name, enc =>
    if word = "LAYER" then
      match rest with
      | name1 :: rest1 => cutTblLayerLoop rest1 name1 enc
      | [] => (name, enc)
    else if word = "NONZEROENCLOSURE" then cutTblLayerLoop rest name true
    else cutTblLayerLoop rest name enc

/-- The function `io::Parser::getLef58CutSpacingTable_layer`; the second
component is the output parameter `secondLayerNum`. `threw` when
`name2layer.at(secondLayerName)` throws. -/
def getLef58CutSpacingTable_layer (tech : Tech) (sIn : String)
    (con : Lef58CutSpacingTableConstraint) : Outcome (Lef58CutSpacingTableConstraint × Int) :=
  let r := cutTblLayerLoop (words sIn) "" false
  match tech.name2layer r.1 with
  | none => .threw
  | some secondLayerNum =>
    .returned ({ con with layerConstraint := some (secondLayerNum, r.2) }, secondLayerNum)

/-- The test `stringstream tmpss(word); tmpss >> tmpd`: the converted value
when the word starts with a number. -/
def wordNumber (nc : NumConv) (word : String) : Option Int :=
  ((IStream.ofString word).getDouble nc).1

/-- The first loop of `getLef58CutSpacingTable_cutClass` (`while (istr1 >>
word)`), over the words of the text: the final `numCols` and `numRows`. -/
def cutClassCount (nc : NumConv) : List String → Int → Int → Bool → Int × Int
  | [], numCols, numRows, _ => (numCols, numRows)
  | word0 :: rest, numCols, numRows, isPrevNum =>
    -- "-" is treated as number 0
    let word := if word0 = "-" then "0" else word0
    if (wordNumber nc word).isSome then cutClassCount nc rest (numCols + 1) numRows true
    else if word = ";" then cutClassCount nc rest numCols (numRows + 1) false
    else if isPrevNum then cutClassCount nc rest 0 (numRows + 1) false
    else cutClassCount nc rest numCols numRows false

/-- The locals of the second loop of `getLef58CutSpacingTable_cutClass`. -/
structure CutClassLocals where
  colNames : List String := []
  dupColNames : List Int := []
  rowNames : List String := []
  dupRowNames : List Int := []
  tmpTbl : List (List (Int × Int)) := []
  tmpTblRow : List (Int × Int) := []
  stage : Int := 0
  readNum : Int := 0
deriving DecidableEq, Repr

/-- The two statements `*(--names.end()) = *(--names.end()) + word;
*(--dups.end()) = 1;`; `none` when a vector is empty (undefined behaviour). -/
def qualifyLast (names : List String) (dups : List Int) (word : String) :
    Option (List String × List Int) :=
  match names.getLast?, dups.getLast? with
  | some n, some _ => some (names.dropLast ++ [n ++ word], dups.dropLast ++ [1])
  | _, _ => none

/-- The body of the second loop of `getLef58CutSpacingTable_cutClass` for the
word `word0`; `tmpS` is what the extraction `istr2 >> tmpS` would give: the
next word, or the empty string when there is none. The result tells whether
that extraction was made; `none` stands for undefined behaviour. -/
def cutClassWord (cv : CutTblEnv) (defaultCutSpacing numCols : Int) (word0 tmpS : String)
    (v : CutClassLocals) : Option (CutClassLocals × Bool) :=
  let word := if word0 = "-" then cv.to_string defaultCutSpacing else word0
  if word = "CUTCLASS" then some (v, false)
  else if (v.colNames.length : Int) < numCols then
    if word = "SIDE" ∨ word = "END" then
      match qualifyLast v.colNames v.dupColNames word with
      | some (ns, ds) => some ({ v with colNames := ns, dupColNames := ds }, false)
      | none => none
    else
      some ({ v with colNames := v.colNames ++ [word], dupColNames := v.dupColNames ++ [2] }, false)
  else if v.stage = 0 ∧ (v.colNames.length : Int) = numCols then
    -- last word of column, or first word of row
    if word = "SIDE" ∨ word = "END" then
      match qualifyLast v.colNames v.dupColNames word with
      | some (ns, ds) => some ({ v with colNames := ns, dupColNames := ds, stage := 1 }, false)
      | none => none
    else
      some ({ v with rowNames := v.rowNames ++ [word], dupRowNames := v.dupRowNames ++ [2],
                     stage := 1 }, false)
  else if word = ";" then some ({ v with tmpTbl := v.tmpTbl ++ [v.tmpTblRow] }, false)
  else if v.stage = 1 then
    if word = "SIDE" ∨ word = "END" then
      match qualifyLast v.rowNames v.dupRowNames word with
      | some (ns, ds) => some ({ v with rowNames := ns, dupRowNames := ds }, false)
      | none => none
    else
      match wordNumber cv.nc word with
      | some val1 =>
        -- a second word that is no number ("-") stands for the default spacing
        let val2 := (wordNumber cv.nc tmpS).getD defaultCutSpacing
        some ({ v with tmpTblRow := v.tmpTblRow ++ [(val1, val2)], readNum := v.readNum + 1 }, true)
      | none =>
        -- first word of a row
        let v1 : CutClassLocals :=
          { v with rowNames := v.rowNames ++ [word], dupRowNames := v.dupRowNames ++ [2] }
        let v2 : CutClassLocals :=
          if v1.readNum ≠ 0 then { v1 with tmpTbl := v1.tmpTbl ++ [v1.tmpTblRow], tmpTblRow := [] }
          else v1
        some ({ v2 with readNum := 0 }, false)
  else some (v, false)

/-- The second loop of `getLef58CutSpacingTable_cutClass` (`while (istr2 >>
word)`), over the words of the text; the extraction `istr2 >> tmpS` takes the
next word, and ends the loop when there is none. -/
def cutClassRead (cv : CutTblEnv) (defaultCutSpacing numCols : Int) :
    List String → CutClassLocals → Outcome CutClassLocals
  | [], v => .returned v
  | word0 :: rest, v =>
    match cutClassWord cv defaultCutSpacing numCols word0 (rest.headD "") v with
    | none => .threw
    | some (v1, false) => cutClassRead cv defaultCutSpacing numCols rest v1
    | some (v1, true) =>
      match rest with
      | _ :: rest1 => cutClassRead cv defaultCutSpacing numCols rest1 v1
      | [] => .returned v1

/-- The loops that build `expColNames` and `expRowNames`: a name with
multiplicity 2 gives `name + "SIDE"` and `name + "END"`, another name is
copied; `none` when `dups.at(i)` throws. -/
def expandNames (dups : List Int) : List String → Nat → Option (List String)
  | [], _ => some []
  | name :: names, i =>
    match dups.get? i with
    | none => none
    | some d =>
      (expandNames dups names (i + 1)).map
        (fun r => (if d = 2 then [name ++ "SIDE", name ++ "END"] else [name]) ++ r)

/-- The inner loop over `j` that builds `expTmpTblRow` from `tmpTbl.at(i)`
(`row`, `none` when `tmpTbl.at(i)` throws); `cols` are the column names from
index `j` on. -/
def expandRow (dupColNames : List Int) (row : Option (List (Int × Int))) :
    List String → Nat → Option (List (Int × Int))
  | [], _ => some []
  | _ :: cols, j =>
    match row.bind (fun r => r.get? j), dupColNames.get? j with
    | some x, some d =>
      (expandRow dupColNames row cols (j + 1)).map (fun r => (if d = 2 then [x, x] else [x]) ++ r)
    | _, _ => none

/-- The loop over `i` that builds `expTmpTbl`; `rows` are the row names from
index `i` on. -/
def expandTbl (v : CutClassLocals) : List String → Nat → Option (List (List (Int × Int)))
  | [], _ => some []
  | _ :: rows, i =>
    match expandRow v.dupColNames (v.tmpTbl.get? i) v.colNames 0, v.dupRowNames.get? i with
    | some r, some d =>
      (expandTbl v rows (i + 1)).map (fun t => (if d = 2 then [r, r] else [r]) ++ t)
    | _, _ => none

/-- The expanded names and table of `getLef58CutSpacingTable_cutClass`, before
they are sorted. -/
structure CutClassExpanded where
  expColNames : List String
  expRowNames : List String
  expTmpTbl : List (List (Int × Int))
deriving DecidableEq, Repr

/-- The part of `getLef58CutSpacingTable_cutClass` up to the expanded table:
the count of the columns, the reading of names and values, the expansion. -/
def cutClassExpand (cv : CutTblEnv) (sIn : String) (defaultCutSpacing : Int) :
    Outcome CutClassExpanded :=
  let numCols := (cutClassCount cv.nc (words sIn) 0 0 false).1 / 2
  match cutClassRead cv defaultCutSpacing numCols (words sIn) {} with
  | .returned v =>
    match expandNames v.dupColNames v.colNames 0, expandNames v.dupRowNames v.rowNames 0,
        expandTbl v v.rowNames 0 with
    | some c, some r, some t => .returned ⟨c, r, t⟩
    | _, _, _ => .threw
  | .threw => .threw
  | .outOfFuel => .outOfFuel

/-- The comparison `a < b` of two `std::string`s, on their characters. -/
def charsLt : List Char → List Char → Bool
  | _, [] => false
  | [], _ :: _ => true
  | a :: as, b :: bs =>
    if a.toNat < b.toNat then true
    else if b.toNat < a.toNat then false
    else charsLt as bs

/-- The insertion of a name into a sorted vector of names. -/
def insertName (a : String) : List String → List String
  | [] => [a]
  | b :: bs => if charsLt b.toList a.toList then b :: insertName a bs else a :: b :: bs

/-- The call `sort(names.begin(), names.end())` on a vector of strings. -/
def sortNames (names : List String) : List String :=
  names.foldr insertName []

/-- The vector `expColNames_helper` (`expRowNames_helper`) before it is
sorted: every name with its index. -/
def namesHelper (names : List String) : List (String × Nat) :=
  names.zip (List.range names.length)

/-- The assignment `tblVals.at(i).at(j) = x`; `none` when an `at` throws. -/
def setCell (tblVals : List (List (Int × Int))) (i j : Nat) (x : Int × Int) :
    Option (List (List (Int × Int))) :=
  match tblVals.get? i with
  | none => none
  | some row => if j < row.length then some (tblVals.set i (row.set j x)) else none

/-- The inner loop over `j` of the loop that permutes `tblVals`; `helper` is
`expColNames_helper` from index `j` on. -/
def permuteRow (expTmpTbl : List (List (Int × Int))) (i orig_i : Nat) :
    List (String × Nat) → Nat → List (List (Int × Int)) → Option (List (List (Int × Int)))
  | [], _, tblVals => some tblVals
  | (_, orig_j) :: helper, j, tblVals =>
    match (expTmpTbl.get? orig_i).bind (fun r => r.get? orig_j) with
    | none => none
    | some x =>
      match setCell tblVals i j x with
      | none => none
      | some t => permuteRow expTmpTbl i orig_i helper (j + 1) t

/-- The loop over `i` that permutes `tblVals`; `helper` is
`expRowNames_helper` from index `i` on. -/
def permuteTbl (expTmpTbl : List (List (Int × Int))) (colHelper : List (String × Nat)) :
    List (String × Nat) → Nat → List (List (Int × Int)) → Option (List (List (Int × Int)))
  | [], _, tblVals => some tblVals
  | (_, orig_i) :: helper, i, tblVals =>
    match permuteRow expTmpTbl i orig_i colHelper 0 tblVals with
    | none => none
    | some t => permuteTbl expTmpTbl colHelper helper (i + 1) t

/-- The function `io::Parser::getLef58CutSpacingTable_cutClass`; the
parameters `hasSecondLayer` and `secondLayerNum` are not used by it. -/
def getLef58CutSpacingTable_cutClass (cv : CutTblEnv) (sIn : String)
    (con : Lef58CutSpacingTableConstraint) (_hasSecondLayer : Bool) (_secondLayerNum : Int) :
    Outcome Lef58CutSpacingTableConstraint :=
  match cutClassExpand cv sIn con.defaultCutSpacing with
  | .returned e =>
    let expColNames_helper := cv.sort (namesHelper e.expColNames)
    let expRowNames_helper := cv.sort (namesHelper e.expRowNames)
    match permuteTbl e.expTmpTbl expColNames_helper expRowNames_helper 0 e.expTmpTbl with
    | some tblVals =>
      .returned { con with
        cutClassTbl := some (sortNames e.expRowNames, sortNames e.expColNames, tblVals) }
    | none => .threw
  | .threw => .threw
  | .outOfFuel => .outOfFuel

/-- Sequencing of two steps: the second one runs when the first one returns. -/
def Outcome.bind {α β : Type} (o : Outcome α) (f : α → Outcome β) : Outcome β :=
  match o with
  | .returned a => f a
  | .threw => .threw
  | .outOfFuel => .outOfFuel

/-- The string streams and the keyword of `getLef58CutSpacingTable_others`. -/
structure CutTblOthersLocals where
  ssDefault : String := ""
  ssLayer : String := ""
  ssPrl : String := ""
  ssCutClass : String := ""
  keyword : String := ""
deriving DecidableEq, Repr

/-- The loop `while (istr >> word)` of `getLef58CutSpacingTable_others`, over
the words of the text. -/
def cutTblOthersLoop : List String → CutTblOthersLocals → CutTblOthersLocals
  | [], v => v
  | word :: rest, v =>
    if word = "SPACINGTABLE" then cutTblOthersLoop rest v
    else if word = "DEFAULT" then
      cutTblOthersLoop rest { v with keyword := "DEFAULT", ssDefault := v.ssDefault ++ word }
    else if word = "SAMEMASK" then cutTblOthersLoop rest { v with keyword := "SAMEMASK" }
    else if word = "SAMENET" ∨ word = "SAMEMETAL" ∨ word = "SAMEVIA" then
      cutTblOthersLoop rest { v with keyword := "SAMENETMETALVIA" }
    else if word = "LAYER" then
      cutTblOthersLoop rest { v with keyword := "LAYER", ssLayer := v.ssLayer ++ word }
    else if word = "CENTERTOCENTER" then cutTblOthersLoop rest { v with keyword := "CENTERTOCENTER" }
    else if word = "CENTERANDEDGE" then cutTblOthersLoop rest { v with keyword := "CENTERANDEDGE" }
    else if word = "PRL" then
      cutTblOthersLoop rest { v with keyword := "PRL", ssPrl := v.ssPrl ++ "PRL" }
    else if word = "PRLTWOSIDES" then cutTblOthersLoop rest { v with keyword := "PRLTWOSIDES" }
    else if word = "ENDEXTENSION" then cutTblOthersLoop rest { v with keyword := "ENDEXTENSION" }
    else if word = "EXACTALIGNEDSPACING" then
      cutTblOthersLoop rest { v with keyword := "EXACTALIGNEDSPACING" }
    else if word = "NONOPPOSITEENCLOSURESPACING" then
      cutTblOthersLoop rest { v with keyword := "NONOPPOSITEENCLOSURESPACING" }
    else if word = "OPPOSITEENCLOSURERESIZESPACING" then
      cutTblOthersLoop rest { v with keyword := "OPPOSITEENCLOSURERESIZESPACING" }
    else if word = "CUTCLASS" then
      cutTblOthersLoop rest { v with keyword := "CUTCLASS", ssCutClass := v.ssCutClass ++ word }
    else if v.keyword = "DEFAULT" then
      cutTblOthersLoop rest { v with ssDefault := v.ssDefault ++ " " ++ word }
    else if v.keyword = "CUTCLASS" then
      cutTblOthersLoop rest { v with ssCutClass := v.ssCutClass ++ " " ++ word }
    else if v.keyword = "PRL" then
      cutTblOthersLoop rest { v with ssPrl := v.ssPrl ++ " " ++ word }
    else if v.keyword = "LAYER" then
      cutTblOthersLoop rest { v with ssLayer := v.ssLayer ++ " " ++ word }
    else cutTblOthersLoop rest v

/-- The constraint, `secondLayerNum` and `isFirstViaLayerHavingSecondLayerNum`
of `getLef58CutSpacingTable_others` after the `LAYER` part. -/
def cutTblLayerPart (db : RuleDb) (ssLayer : String) (con : Lef58CutSpacingTableConstraint) :
    Outcome (Lef58CutSpacingTableConstraint × Int × Bool) :=
  if ssLayer ≠ "" then
    if db.layer.layerNum = 1 then .returned (con, 0, true)
    else (getLef58CutSpacingTable_layer db.tech ssLayer con).bind
      (fun r => .returned (r.1, r.2, false))
  else .returned (con, 0, false)

/-- The function `io::Parser::getLef58CutSpacingTable_others`. -/
def getLef58CutSpacingTable_others (cv : CutTblEnv) (fuel : Nat) (db : RuleDb) (sIn : String) :
    Outcome RuleDb :=
  let v := cutTblOthersLoop (words sIn) {}
  let con : Lef58CutSpacingTableConstraint :=
    { defaultCutSpacing := cv.defaultCutSpacing, prlConstraint := none, layerConstraint := none,
      cutClassTbl := none }
  (if v.ssDefault ≠ "" then getLef58CutSpacingTable_default cv.nc fuel v.ssDefault con
   else .returned con).bind fun con1 =>
  (if v.ssPrl ≠ "" then getLef58CutSpacingTable_prl cv.nc fuel v.ssPrl con1
   else .returned con1).bind fun con2 =>
  (cutTblLayerPart db v.ssLayer con2).bind fun r =>
  (if v.ssCutClass ≠ "" ∧ r.2.2 = false then
     getLef58CutSpacingTable_cutClass cv v.ssCutClass r.1 false r.2.1
   else .returned r.1).bind fun con4 =>
  if r.2.2 then .returned db
  else
    .returned
      { layer := { db.layer with
          lef58CutSpacingTableConstraints :=
            db.layer.lef58CutSpacingTableConstraints ++ [.cutSpacingTable con4] },
        tech := db.tech.addConstraint (.cutSpacingTable con4) }

/-- The loop of `getLef58CutSpacingTable_helper` over the words of the text:
the keyword and the text collected in `ss`. -/
def cutTblHelperLoop : List String → String → String → String × String
  | [], keyword, ss => (keyword, ss)
  | word :: rest, keyword, ss =>
    if word = "SPACINGTABLE" then cutTblHelperLoop rest "" word
    else if word = "CENTERSPACING" then cutTblHelperLoop rest "CENTERSPACING" (ss ++ " " ++ word)
    else if word = "ORTHOGONAL" then cutTblHelperLoop rest "ORTHOGONAL" (ss ++ " " ++ word)
    else cutTblHelperLoop rest keyword (ss ++ " " ++ word)

/-- The function `io::Parser::getLef58CutSpacingTable_helper`. -/
def getLef58CutSpacingTable_helper (cv : CutTblEnv) (fuel : Nat) (db : RuleDb) (sIn : String) :
    Outcome RuleDb :=
  let r := cutTblHelperLoop (words sIn) "" ""
  if r.1 = "CENTERSPACING" then .returned db
  else if r.1 = "ORTHOGONAL" then .returned db
  else getLef58CutSpacingTable_others cv fuel db r.2

/-- The loop of `getLef58CutSpacingTable` over the words of the text; `ss` is
emptied by the word `SPACINGTABLE` only. -/
def cutTblLoop (cv : CutTblEnv) (fuel : Nat) : List String → String → RuleDb → Outcome RuleDb
  | [], _, db => .returned db
  | word :: rest, ss, db =>
    if word = "SPACINGTABLE" then cutTblLoop cv fuel rest word db
    else if word = ";" then
      match getLef58CutSpacingTable_helper cv fuel db (ss ++ " " ++ word) with
      | .returned db1 => cutTblLoop cv fuel rest (ss ++ " " ++ word) db1
      | .threw => .threw
      | .outOfFuel => .outOfFuel
    else cutTblLoop cv fuel rest (ss ++ " " ++ word) db

/-- The function `io::Parser::getLef58CutSpacingTable`. -/
def getLef58CutSpacingTable (cv : CutTblEnv) (fuel : Nat) (db : RuleDb) (sIn : String) :
    Outcome RuleDb :=
  cutTblLoop cv fuel (words sIn) "" db

/-- The locals of `getLef58CornerSpacing`. The `frUInt4` locals hold the
converted values; `notchLength` starts as `-1`. -/
structure CornerLocals where
  numSpacingEntry : Int := 0
  hasConvexCorner : Bool := false
  hasSameMask : Bool := false
  hasCornerOnly : Bool := false
  within : Int := 0
  hasExceptEol : Bool := false
  hasEdgeLength : Bool := false
  hasIncludeLShape : Bool := false
  hasExceptJogLength : Bool := false
  eolWidth : Int := 0
  length : Int := 0
  hasConcaveCorner : Bool := false
  hasMinLength : Bool := false
  minLength : Int := 0
  hasExceptNotch : Bool := false
  hasExceptNotchLength : Bool := false
  notchLength : Int := -1
  hasExceptSameNet : Bool := false
  hasExceptSameMetal : Bool := false
  widthSpacing : List (List Int) := []
  tmpWidthSpacing : List Int := []
  doCornerSpacing : Bool := false
  doConvexCorner : Bool := false
  doConcaveCorner : Bool := false
  doWidthSpacing : Bool := false

/-- The first loop of `getLef58CornerSpacing` (`while (testIstr >> word)`),
over the words of the text: whether the word after the first `EXCEPTNOTCH` is
a number for `std::stod`. -/
def cornerNotchScan (nc : NumConv) : List String → Bool
  | [] => false
  | word :: rest =>
    if word = "EXCEPTNOTCH" then (nc.stod (rest.headD "")).isSome
    else cornerNotchScan nc rest

/-- An unchecked extraction `istr >> tmp` followed by the conversion: a failed
extraction stores 0 in `tmp`; at the end of the stream `tmp` is left unset,
which is read as 0 here too. -/
def readOrZero (nc : NumConv) (istr : IStream) : Int × IStream :=
  match istr.getDouble nc with
  | (some x, istr1) => (x, istr1)
  | (none, istr1) => (0, istr1)

/-- How one iteration of the main loop of `getLef58CornerSpacing` ends: the
loop goes on, the function returns 1, or `std::stod` throws. -/
inductive CornerStep where
  | next (v : CornerLocals) (istr : IStream)
  | return1
  | threw

/-- The statements of the main loop of `getLef58CornerSpacing` that do not
end in `continue`, from `SAMEMASK` to `EXCEPTNOTCH`, in their order. -/
def cornerOptions (nc : NumConv) (v : CornerLocals) (istr : IStream) (word : String) :
    CornerLocals × IStream :=
  let v1 : CornerLocals :=
    if v.doConvexCorner ∧ word = "SAMEMASK" then { v with hasSameMask := true } else v
  let r2 : CornerLocals × IStream :=
    if v1.doConvexCorner ∧ word = "CORNERONLY" then
      ({ v1 with hasCornerOnly := true, within := (readOrZero nc istr).1 }, (readOrZero nc istr).2)
    else (v1, istr)
  let r3 : CornerLocals × IStream :=
    if r2.1.doConvexCorner ∧ word = "EXCEPTEOL" then
      ({ r2.1 with hasExceptEol := true, eolWidth := (readOrZero nc r2.2).1 },
        (readOrZero nc r2.2).2)
    else r2
  let r4 : CornerLocals × IStream :=
    if r3.1.doConcaveCorner ∧ r3.1.hasExceptEol ∧ word = "EXCEPTJOGLENGTH" then
      ({ r3.1 with hasExceptJogLength := true, length := (readOrZero nc r3.2).1 },
        (readOrZero nc r3.2).2)
    else r3
  let v5 : CornerLocals :=
    if r4.1.doConcaveCorner ∧ r4.1.hasExceptEol ∧ r4.1.hasExceptJogLength ∧ word = "EDGELENGTH" then
      { r4.1 with hasEdgeLength := true }
    else r4.1
  let v6 : CornerLocals :=
    if v5.doConcaveCorner ∧ v5.hasExceptEol ∧ v5.hasExceptJogLength ∧ word = "INCLUDELSHAPE" then
      { v5 with hasIncludeLShape := true }
    else v5
  let r7 : CornerLocals × IStream :=
    if v6.doConcaveCorner ∧ word = "MINLENGTH" then
      ({ v6 with hasMinLength := true, minLength := (readOrZero nc r4.2).1 },
        (readOrZero nc r4.2).2)
    else (v6, r4.2)
  if r7.1.doConcaveCorner ∧ word = "EXCEPTNOTCH" then
    if r7.1.hasExceptNotchLength then
      ({ r7.1 with hasExceptNotch := true, notchLength := (readOrZero nc r7.2).1 },
        (readOrZero nc r7.2).2)
    else ({ r7.1 with hasExceptNotch := true }, r7.2)
  else r7

/-- One iteration of the main loop of `getLef58CornerSpacing` for the word
`word`. -/
def cornerWord (nc : NumConv) (v : CornerLocals) (istr : IStream) (word : String) : CornerStep :=
  if word = ";" then
    .next { v with doCornerSpacing := false, doConvexCorner := false, doConcaveCorner := false,
                   doWidthSpacing := false } istr
  else if v.doCornerSpacing = false ∧ word = "CORNERSPACING" then
    .next { v with doCornerSpacing := true } istr
  else if v.doCornerSpacing ∧ word = "CONVEXCORNER" then
    .next { v with doConvexCorner := true, hasConvexCorner := true, doConcaveCorner := false,
                   doWidthSpacing := false } istr
  else if v.doCornerSpacing ∧ word = "CONCAVECORNER" then
    .next { v with doConvexCorner := false, doConcaveCorner := true, hasConcaveCorner := true,
                   doWidthSpacing := false } istr
  else if v.doCornerSpacing ∧ word = "EXCEPTSAMENET" then
    .next { v with doConvexCorner := false, doConcaveCorner := false, doWidthSpacing := false,
                   hasExceptSameNet := true } istr
  else if v.doCornerSpacing ∧ word = "EXCEPTSAMEMETAL" then
    .next { v with doConvexCorner := false, doConcaveCorner := false, doWidthSpacing := false,
                   hasExceptSameMetal := true } istr
  else if v.doCornerSpacing ∧ word = "WIDTH" then
    let v1 : CornerLocals :=
      { v with doConvexCorner := false, doConcaveCorner := false, doWidthSpacing := true }
    if v1.tmpWidthSpacing.isEmpty = false then
      let v2 : CornerLocals := { v1 with widthSpacing := v1.widthSpacing ++ [v1.tmpWidthSpacing] }
      if v2.numSpacingEntry = 0 then
        .next { v2 with numSpacingEntry := min (v2.tmpWidthSpacing.length : Int) 3,
                        tmpWidthSpacing := [] } istr
      else if v2.numSpacingEntry ≠ (v2.tmpWidthSpacing.length : Int) then .return1
      else .next { v2 with tmpWidthSpacing := [] } istr
    else .next { v1 with tmpWidthSpacing := [] } istr
  else
    let r := cornerOptions nc v istr word
    if r.1.doWidthSpacing ∧ word = "SPACING" then .next r.1 r.2
    else if r.1.doWidthSpacing ∧ word ≠ "SPACING" then
      match nc.stod word with
      | some tmp => .next { r.1 with tmpWidthSpacing := r.1.tmpWidthSpacing ++ [tmp] } r.2
      | none => .threw
    else .next r.1 r.2

/-- The main loop `while (istr >> word)` of `getLef58CornerSpacing`; `none`
in the result stands for `return 1` inside the loop. -/
def cornerLoop (nc : NumConv) : Nat → IStream → CornerLocals → Outcome (Option CornerLocals)
  | 0, _, _ => .outOfFuel
  | fuel + 1, istr, v =>
    match istr.getWord with
    | (none, _) => .returned (some v)
    | (some word, istr1) =>
      match cornerWord nc v istr1 word with
      | .next v1 istr2 => cornerLoop nc fuel istr2 v1
      | .return1 => .returned none
      | .threw => .threw

/-- The loop that builds `widths` and `spacings` from `widthSpacing`; `none`
when an index `widthSpacing[i][k]` is outside its row. -/
def cornerTable (numSpacingEntry : Int) : List (List Int) → Option (List Int × List (Int × Int))
  | [] => some ([], [])
  | row :: rows =>
    match row.get? 0, row.get? 1, (if numSpacingEntry = 3 then row.get? 2 else row.get? 1) with
    | some w, some s1, some s2 =>
      (cornerTable numSpacingEntry rows).map (fun t => (w :: t.1, (s1, s2) :: t.2))
    | _, _, _ => none

/-- The constraint that `getLef58CornerSpacing` builds from its locals and the
table; `none` when the rule has neither `CONVEXCORNER` nor `CONCAVECORNER`. -/
def cornerConstraint (v : CornerLocals) (widths : List Int) (spacings : List (Int × Int)) :
    Option Lef58CornerSpacingConstraint :=
  let hasSameXY : Bool := if v.numSpacingEntry = 3 then false else true
  if v.hasConvexCorner then
    some
      { widths := widths, spacings := spacings, cornerType := .CONVEX,
        sameMask := some v.hasSameMask,
        within := if v.hasCornerOnly then some v.within else none,
        eolWidth := if v.hasExceptEol then some v.eolWidth else none,
        length := if v.hasExceptEol ∧ v.hasExceptJogLength then some v.length else none,
        edgeLength := if v.hasExceptEol ∧ v.hasExceptJogLength then some v.hasEdgeLength else none,
        includeLShape :=
          if v.hasExceptEol ∧ v.hasExceptJogLength then some v.hasIncludeLShape else none,
        minLength := none, exceptNotch := none, exceptNotchLength := none,
        exceptSameNet := v.hasExceptSameNet, exceptSameMetal := v.hasExceptSameMetal,
        sameXY := hasSameXY }
  else if v.hasConcaveCorner then
    some
      { widths := widths, spacings := spacings, cornerType := .CONCAVE,
        sameMask := none, within := none, eolWidth := none, length := none, edgeLength := none,
        includeLShape := none,
        minLength := if v.hasMinLength then some v.minLength else none,
        exceptNotch := some v.hasExceptNotch,
        exceptNotchLength := if v.hasExceptNotchLength then some v.notchLength else none,
        exceptSameNet := v.hasExceptSameNet, exceptSameMetal := v.hasExceptSameMetal,
        sameXY := hasSameXY }
  else none

/-- The function `io::Parser::getLef58CornerSpacing`: its return value and the
layer and technology after the call. `threw` when `std::stod` throws or an
index of the table loop is outside its row. -/
def getLef58CornerSpacing (nc : NumConv) (fuel : Nat) (db : RuleDb) (stringIn : String) :
    Outcome (Int × RuleDb) :=
  let v0 : CornerLocals := { hasExceptNotchLength := cornerNotchScan nc (words stringIn) }
  match cornerLoop nc fuel (IStream.ofString stringIn) v0 with
  | .returned none => .returned (1, db)
  | .returned (some v) =>
    let v1 : CornerLocals :=
      if v.tmpWidthSpacing.isEmpty = false then
        { v with widthSpacing := v.widthSpacing ++ [v.tmpWidthSpacing] }
      else v
    match cornerTable v1.numSpacingEntry v1.widthSpacing with
    | none => .threw
    | some t =>
      match cornerConstraint v1 t.1 t.2 with
      | none => .returned (1, db)
      | some con =>
        .returned (0,
          { tech := db.tech.addConstraint (.cornerSpacing con),
            layer := db.layer.addLef58CornerSpacingConstraint (.cornerSpacing con) })
  | .threw => .threw
  | .outOfFuel => .outOfFuel

/-- The digits of a number, most significant first; `fuel` bounds their count. -/
def digitChars : Nat → Nat → List Char → List Char
  | 0, _, acc => acc
  | fuel + 1, n, acc =>
    if n < 10 then Char.ofNat (48 + n) :: acc
    else digitChars fuel (n / 10) (Char.ofNat (48 + n % 10) :: acc)

/-- The insertion of a pair into a vector sorted by the first component,
behind the pairs with an equal name. -/
def insertHelper (a : String × Nat) : List (String × Nat) → List (String × Nat)
  | [] => [a]
  | b :: bs => if charsLt a.1.toList b.1.toList then a :: b :: bs else b :: insertHelper a bs

/-- Library behaviour for examples: the numbers of `numConvExample`, decimal
digits for `to_string`, a stable insertion sort, default cut spacing 0. -/
def cutTblEnvExample : CutTblEnv :=
  { nc := numConvExample,
    to_string := fun d => String.mk (digitChars 20 d.toNat []),
    sort := fun l => l.foldl (fun acc a => insertHelper a acc) [],
    defaultCutSpacing := 0 }

/-- The kinds of typed constraint lists of a layer. -/
inductive Slot where
  | constraints
  | spacingEndOfLine
  | minStep
  | cutSpacing
  | cutSpacingTable
  | cornerSpacing
deriving DecidableEq, Repr

/-- The typed constraint list of a layer for a kind. -/
def Layer.slot (l : Layer) : Slot → List Constraint
  | .constraints => l.constraints
  | .spacingEndOfLine => l.lef58SpacingEndOfLineConstraints
  | .minStep => l.lef58MinStepConstraints
  | .cutSpacing => l.lef58CutSpacingConstraints
  | .cutSpacingTable => l.lef58CutSpacingTableConstraints
  | .cornerSpacing => l.lef58CornerSpacingConstraints

/-- Between `db` and `db1` the constraints `added` were appended, in this
order, both to the technology's list and to the layer's list of kind `s`, and
no other list of the layer changed. -/
def RegisteredBoth (s : Slot) (added : List Constraint) (db db1 : RuleDb) : Prop :=
  db1.tech.constraints = db.tech.constraints ++ added ∧
  ∀ t, db1.layer.slot t = if t = s then db.layer.slot t ++ added else db.layer.slot t

/-- Every constraint list of `db1` (the technology's list and the six typed
lists of the layer) is the list of `db` with constraints appended behind it. -/
def OnlyAppended (db db1 : RuleDb) : Prop :=
  (∃ added, db1.tech.constraints = db.tech.constraints ++ added) ∧
  (∃ added, db1.layer.constraints = db.layer.constraints ++ added) ∧
  (∃ added, db1.layer.lef58SpacingEndOfLineConstraints
      = db.layer.lef58SpacingEndOfLineConstraints ++ added) ∧
  (∃ added, db1.layer.lef58MinStepConstraints = db.layer.lef58MinStepConstraints ++ added) ∧
  (∃ added, db1.layer.lef58CutSpacingConstraints
      = db.layer.lef58CutSpacingConstraints ++ added) ∧
  (∃ added, db1.layer.lef58CutSpacingTableConstraints
      = db.layer.lef58CutSpacingTableConstraints ++ added) ∧
  (∃ added, db1.layer.lef58CornerSpacingConstraints
      = db.layer.lef58CornerSpacingConstraints ++ added)

/-- The LEF58 rule parsers that register constraints. -/
inductive RuleParser where
  | parallelRunLength
  | endOfLineWithin
  | minStep
  | cutSpacingLayer
  | adjacentCuts
  | cutSpacingTable
  | cornerSpacing
deriving DecidableEq, Repr

/-- The typed list of the layer that a rule parser registers in. -/
def RuleParser.slot : RuleParser → Slot
  | .parallelRunLength => .constraints
  | .endOfLineWithin => .spacingEndOfLine
  | .minStep => .minStep
  | .cutSpacingLayer => .cutSpacing
  | .adjacentCuts => .cutSpacing
  | .cutSpacingTable => .cutSpacingTable
  | .cornerSpacing => .cornerSpacing

/-- A call of a rule parser on the text `sIn`: the layer and the technology
after the call. -/
def RuleParser.run (p : RuleParser) (cv : CutTblEnv) (fuel : Nat) (db : RuleDb) (sIn : String) :
    Outcome RuleDb :=
  match p with
  | .parallelRunLength => getLef58SpacingTable_parallelRunLength cv.nc fuel db sIn
  | .endOfLineWithin => getLef58Spacing_endOfLineWithin cv.nc fuel db sIn
  | .minStep => getLef58MinStep cv.nc fuel db sIn
  | .cutSpacingLayer => getLef58CutSpacing_layer cv.nc fuel db sIn
  | .adjacentCuts => getLef58CutSpacing_adjacentCuts cv.nc fuel db sIn
  | .cutSpacingTable => getLef58CutSpacingTable cv fuel db sIn
  | .cornerSpacing => (getLef58CornerSpacing cv.nc fuel db sIn).bind (fun r => .returned r.2)

/-- A MINSTEP constraint for examples. -/
def minStepExample (minStepLength : Int) : Constraint :=
  .minStep { minStepLength := minStepLength, maxEdges := -1, minAdjacentLength := -1, eolWidth := -1 }

/-- The layer and technology of `ruleDbExample` with the MINSTEP constraints
`cs` registered. -/
def ruleDbMinSteps (cs : List Constraint) : RuleDb :=
  { layer := { ruleDbExample.layer with lef58MinStepConstraints := cs },
    tech := { ruleDbExample.tech with constraints := cs } }

/-- A row or column label of a cut-class table as it is written: the class
name, followed or not by the qualifier `SIDE` or `END`. -/
structure TblLabel where
  name : String
  qual : Option String
deriving DecidableEq, Repr

/-- The words of a label in the rule text. -/
def TblLabel.written (l : TblLabel) : List String := l.name :: l.qual.toList

/-- The multiplicity of a label: 1 with a qualifier, 2 without. -/
def TblLabel.mult (l : TblLabel) : Nat := if l.qual.isSome then 1 else 2

/-- The physical labels of a label: `name + qualifier` with a qualifier,
`nameSIDE` and `nameEND` without. -/
def TblLabel.expanded (l : TblLabel) : List String :=
  match l.qual with
  | some q => [l.name ++ q]
  | none => [l.name ++ "SIDE", l.name ++ "END"]

/-- The name that the parser stores for a label in `colNames` or `rowNames`:
the name, with the qualifier appended when there is one. -/
def TblLabel.stored (l : TblLabel) : String :=
  match l.qual with
  | some q => l.name ++ q
  | none => l.name

/-- The multiplicity that the parser stores for a label in `dupColNames` or
`dupRowNames`. -/
def TblLabel.dup (l : TblLabel) : Int := if l.qual.isSome then 1 else 2

/-- A row of a cut-class table as it is written: its label and one pair of
number words for every logical column. -/
structure TblRow where
  label : TblLabel
  vals : List (String × String)
deriving DecidableEq, Repr

/-- The words of a row in the rule text. -/
def TblRow.written (r : TblRow) : List String :=
  r.label.written ++ r.vals.flatMap (fun p => [p.1, p.2])

/-- The words of a cut-class table: `CUTCLASS`, the column labels, the rows,
and the closing `;`. -/
def tableWords (cols : List TblLabel) (rows : List TblRow) : List String :=
  "CUTCLASS" :: (cols.flatMap TblLabel.written ++ (rows.flatMap TblRow.written ++ [";"]))

/-- A word that the parser takes as a name: no keyword of the table, not `-`
and not a number. -/
def IsNameWord (nc : NumConv) (w : String) : Prop :=
  w ≠ "CUTCLASS" ∧ w ≠ "SIDE" ∧ w ≠ "END" ∧ w ≠ ";" ∧ w ≠ "-" ∧ wordNumber nc w = none

/-- A well-formed label: a name with no qualifier or with `SIDE` or `END`. -/
def LabelOK (nc : NumConv) (l : TblLabel) : Prop :=
  IsNameWord nc l.name ∧ (l.qual = none ∨ l.qual = some "SIDE" ∨ l.qual = some "END")

/-- A well-formed pair of value words: the first one is a number and no
keyword; the second one is a number or `-` (which counts as the number `0` in
the first loop). -/
def ValuePairOK (nc : NumConv) (p : String × String) : Prop :=
  (p.1 ≠ "CUTCLASS" ∧ p.1 ≠ "SIDE" ∧ p.1 ≠ "END" ∧ p.1 ≠ ";" ∧ p.1 ≠ "-" ∧
    (wordNumber nc p.1).isSome = true) ∧
  (wordNumber nc (if p.2 = "-" then "0" else p.2)).isSome = true

/-- A well-formed cut-class table with `rows.length` logical rows and
`cols.length` logical columns: the keywords are no numbers, there is a row and
a column, the labels are well formed and every row has one pair of value words
for every column. -/
def WellFormedTable (nc : NumConv) (cols : List TblLabel) (rows : List TblRow) : Prop :=
  (wordNumber nc "CUTCLASS" = none ∧ wordNumber nc "SIDE" = none ∧ wordNumber nc "END" = none ∧
    wordNumber nc ";" = none) ∧
  cols ≠ [] ∧ rows ≠ [] ∧ (∀ c ∈ cols, LabelOK nc c) ∧
  ∀ r ∈ rows, LabelOK nc r.label ∧ r.vals.length = cols.length ∧ ∀ p ∈ r.vals, ValuePairOK nc p

/-- The value pair that a pair of value words stands for; `d` is the default
cut spacing, taken for a second word that is no number. -/
def cellValue (nc : NumConv) (d : Int) (p : String × String) : Int × Int :=
  ((wordNumber nc p.1).getD 0, (wordNumber nc p.2).getD d)

/-- The expanded row of values: the value of every logical column, repeated
by the multiplicity of the column. -/
def expandedRow (nc : NumConv) (d : Int) (cols : List TblLabel) (vals : List (String × String)) :
    List (Int × Int) :=
  (cols.zip vals).flatMap (fun cv => List.replicate cv.1.mult (cellValue nc d cv.2))

/-- The expanded table: the expanded row of every logical row, repeated by
the multiplicity of the row. -/
def expandedTable (nc : NumConv) (d : Int) (cols : List TblLabel) (rows : List TblRow) :
    List (List (Int × Int)) :=
  rows.flatMap (fun r => List.replicate r.label.mult (expandedRow nc d cols r.vals))

/-- A table for examples: the columns `VA` and `VB END`, the rows `VA` and
`VB SIDE`. -/
def tableExample : List TblLabel × List TblRow :=
  ([⟨"VA", none⟩, ⟨"VB", some "END"⟩],
   [⟨⟨"VA", none⟩, [("1", "2"), ("3", "4")]⟩, ⟨⟨"VB", some "SIDE"⟩, [("5", "6"), ("7", "-")]⟩])

/-- The order of names that `std::sort` and `sort` compare by. -/
def nameLt (a b : String) : Bool := charsLt a.toList b.toList

/-- What the parser needs of `std::sort` with the comparator on the first
component: the result is a rearrangement of the vector, and no element stands
before one with a smaller name. -/
def IsStdSort (sort : List (String × Nat) → List (String × Nat)) : Prop :=
  ∀ l, (sort l).Perm l ∧ (sort l).Pairwise (fun a b => nameLt b.1 a.1 = false)

/-- The entry `t.at(i).at(j)` of a table, when both indices are valid. -/
def cellAt (t : List (List (Int × Int))) (i j : Nat) : Option (Int × Int) :=
  (t.get? i).bind (fun r => r.get? j)

/-- The table that the permuting loop leaves when every index is valid: row
`i`, column `j` holds the entry of `expTmpTbl` at the original indices of the
`i`-th row name and the `j`-th column name. -/
def permutedTbl (expTmpTbl : List (List (Int × Int))) (colHelper rowHelper : List (String × Nat)) :
    List (List (Int × Int)) :=
  rowHelper.map (fun r => colHelper.map (fun c => (cellAt expTmpTbl r.2 c.2).getD (0, 0)))

/-- The compiled table `(rowNames, colNames, tblVals)` is the sorted form of
the table with the logical columns `cols` and the logical rows `rows`: both
name lists are in ascending order and hold the expanded names, and at the
positions of a name `lr` expanded from a row `r` and of a name `lc` expanded
from a column `c` the table holds the value of the value words `p` that `r`
has in column `c`. -/
def AlignedTable (nc : NumConv) (d : Int) (cols : List TblLabel) (rows : List TblRow)
    (rowNames colNames : List String) (tblVals : List (List (Int × Int))) : Prop :=
  rowNames.Pairwise (fun a b => nameLt b a = false) ∧
  colNames.Pairwise (fun a b => nameLt b a = false) ∧
  rowNames.Perm (rows.flatMap (fun r => r.label.expanded)) ∧
  colNames.Perm (cols.flatMap TblLabel.expanded) ∧
  ∀ r ∈ rows, ∀ (j : Nat) (c : TblLabel) (p : String × String),
    cols[j]? = some c → r.vals[j]? = some p →
    ∀ lr ∈ r.label.expanded, ∀ lc ∈ c.expanded, ∀ I J : Nat,
      rowNames[I]? = some lr → colNames[J]? = some lc →
      cellAt tblVals I J = some (cellValue nc d p)

/-! ## Net geometry: via split calls and styles of merged segments -/

/-- The arguments `(layerNum, isH, trackLoc)` of the four calls of
`splitVia_helper` for a via at `(x, y)` with cut layer `cutLayerNum`, in the
order of the calls: `isH` is set to 1 before the first call and to 0 before
the second and the fourth, `trackLoc` is `(isH == 1) ? y : x`. -/
def splitViaCalls (x y cutLayerNum : Int) : List (Int × Int × Int) :=
  [(cutLayerNum - 1, 1, y), (cutLayerNum - 1, 0, x), (cutLayerNum + 1, 0, x),
   (cutLayerNum + 1, 0, x)]

/-- The begin part of the style `st` is what the merge pass computes from the
segments of `G` that begin at the coordinate `c`: no such segment has a larger
begin extension, and the begin style is "truncate" with extension 0 or style
and (positive) extension of one of these segments. -/
def BeginOK (G : List frPathSeg) (c : Int) (st : frSegStyle) : Prop :=
  (∀ q ∈ G, q.beginCoord = c → q.style.beginExt ≤ st.beginExt) ∧
  ((st.beginStyle = .truncate ∧ st.beginExt = 0) ∨
   (0 < st.beginExt ∧ ∃ q ∈ G, q.beginCoord = c ∧ q.style.beginStyle = st.beginStyle ∧
      q.style.beginExt = st.beginExt))

/-- The end part of the style `st` is what the merge pass computes from the
segments of `G` that end at the coordinate `c`. -/
def EndOK (G : List frPathSeg) (c : Int) (st : frSegStyle) : Prop :=
  (∀ q ∈ G, q.endCoord = c → q.style.endExt ≤ st.endExt) ∧
  ((st.endStyle = .truncate ∧ st.endExt = 0) ∨
   (0 < st.endExt ∧ ∃ q ∈ G, q.endCoord = c ∧ q.style.endStyle = st.endStyle ∧
      q.style.endExt = st.endExt))

/-- The style of the merged segment `m` of a group with the input segments `G`. -/
def StyleOK (G : List frPathSeg) (m : frPathSeg) : Prop :=
  BeginOK G m.beginCoord m.style ∧ EndOK G m.endCoord m.style

/-- The begin extension of the merged segment `m` is the maximum of the begin
extensions of the segments of `G` that begin where `m` begins (one of them,
which lies in `m`, has this extension and none has a larger one). -/
def MaxBeginExt (G : List frPathSeg) (m : frPathSeg) : Prop :=
  (∃ q ∈ G, Contains m q ∧ q.beginCoord = m.beginCoord ∧
    q.style.beginExt = m.style.beginExt) ∧
  ∀ q ∈ G, q.beginCoord = m.beginCoord → q.style.beginExt ≤ m.style.beginExt

/-- The end extension of the merged segment `m` is the maximum of the end
extensions of the segments of `G` that end where `m` ends. -/
def MaxEndExt (G : List frPathSeg) (m : frPathSeg) : Prop :=
  (∃ q ∈ G, Contains m q ∧ q.endCoord = m.endCoord ∧ q.style.endExt = m.style.endExt) ∧
  ∀ q ∈ G, q.endCoord = m.endCoord → q.style.endExt ≤ m.style.endExt

/-- The style part of the invariant of the sweep over one group. -/
def StyleInv (G : List frPathSeg) (st : MergeLoop) (O : List frPathSeg) : Prop :=
  (∀ mo ∈ O, StyleOK G mo) ∧
  (st.hasSeg = true → ∃ p0 p, st.newPathSeg = some p0 ∧ p ∈ G ∧ p0.beginPt = p.beginPt ∧
    BeginOK G p.beginCoord st.style ∧ st.style.endStyle = .truncate ∧ st.style.endExt = 0)

/-- No track of `mergedPathSegs` holds an empty vector. -/
def NoEmptyTracks (m : MergedPathSegs) : Prop :=
  ∀ l ∈ m, (∀ e ∈ l.vert, e.2 ≠ []) ∧ (∀ e ∈ l.horz, e.2 ≠ [])

/-! ## Via definitions of the technology (`io::Parser::Callbacks::getLefVias`) -/

/-- Modelled from the spec: one layer of "a via definition" of the technology
text as the LEF reader hands it to the callback (class `lefiVia`, declared
outside `src/`): `layerName(i)`, the rectangles and the polygons of layer `i`.
Coordinates are in database units, that is, after `round(x * DBUPerUU)`. -/
structure lefiViaLayer where
  layerName : String
  rects : List frBox
  polygons : List (List frPoint)
deriving DecidableEq, Repr

/-- Modelled from the spec: the via definition `lefiVia` that the callback
receives: `name()`, `hasDefault()` and the layers (`numLayers()` is their number). -/
structure lefiVia where
  name : String
  hasDefault : Bool
  layers : List lefiViaLayer
deriving DecidableEq, Repr

/-- A figure of a via definition: a `frRect` or a `frPolygon` on a layer. -/
inductive ViaFig where
  | rect (box : frBox) (layerNum : Int)
  | polygon (points : List frPoint) (layerNum : Int)
deriving DecidableEq, Repr

/-- The call `fig->getLayerNum()`. -/
def ViaFig.layerNum : ViaFig → Int
  | .rect _ l => l
  | .polygon _ l => l

/-- Modelled from the spec: `frViaDef`, declared outside `src/` ("via
definition"): its name, the default flag, the figures of the lower layer, of
the cut layer and of the upper layer, and the cut class index (`none` when
`setCutClassIdx` is not called). -/
structure frViaDef where
  name : String
  isDefault : Bool := false
  layer1Figs : List ViaFig := []
  cutFigs : List ViaFig := []
  layer2Figs : List ViaFig := []
  cutClassIdx : Option Int := none
deriving DecidableEq, Repr

/-- Modelled from the spec: what `getLefVias` reads and writes of the
technology (`frTechObject`, declared outside `src/`): the layer table
`name2layer` (name to layer number), the lookup
`getLayer(cutLayerNum)->getCutClassIdx(box.width(), box.length())` (-1 when the
box belongs to no cut class) and the via definitions, to which `addVia` appends. -/
structure ViaTech where
  name2layer : String → Option Int
  getCutClassIdx : Int → frBox → Int
  vias : List frViaDef

/-- How a call of `getLefVias` ends: it returns 0 and leaves the technology
`tech`, it ends the process by `exit(code)`, or it runs into behaviour that the
sources of `src/` do not define (`begin()` of an empty map, `getCutLayerNum()`
of a via definition without cut figure). -/
inductive CallbackEnd where
  | returned (tech : ViaTech)
  | exited (code : Nat)
  | undefined

/-- The first loop of `getLefVias` from index `i` on: `lNum2Int[layerNum] = i`
for every layer; `none` is the `return 0` after the warning for a layer name
that is not in `name2layer`. -/
def lNum2IntLoop (name2layer : String → Option Int) :
    List lefiViaLayer → Nat → List (Int × Nat) → Option (List (Int × Nat))
  | [], _, lNum2Int => some lNum2Int
  | l :: rest, i, lNum2Int =>
    match name2layer l.layerName with
    | none => none
    | some layerNum =>
      lNum2IntLoop name2layer rest (i + 1) (mapModify coordLt 0 (fun _ => i) lNum2Int layerNum)

/-- The `switch (cnt)` that files a figure: lower layer, cut layer, upper layer. -/
def addViaFig (viaDef : frViaDef) (cnt : Nat) (fig : ViaFig) : frViaDef :=
  match cnt with
  | 0 => { viaDef with layer1Figs := viaDef.layer1Figs ++ [fig] }
  | 1 => { viaDef with cutFigs := viaDef.cutFigs ++ [fig] }
  | _ => { viaDef with layer2Figs := viaDef.layer2Figs ++ [fig] }

/-- The loop over `lNum2Int` that files the rectangles and then the polygons
of every layer, in ascending order of the layer number; `cnt` counts the
entries. -/
def viaFigsLoop (via : lefiVia) : List (Int × Nat) → Nat → frViaDef → frViaDef
  | [], _, viaDef => viaDef
  | m :: rest, cnt, viaDef =>
    let figs : List ViaFig :=
      match via.layers.get? m.2 with
      | some l =>
        l.rects.map (fun b => ViaFig.rect b m.1) ++ l.polygons.map (fun pts => ViaFig.polygon pts m.1)
      | none => []
    viaFigsLoop via rest (cnt + 1) (figs.foldl (fun d fig => addViaFig d cnt fig) viaDef)

/-- The loop over the cut figures that looks for a cut class: the index of
the first rectangle that belongs to one. -/
def cutClassLoop (getIdx : frBox → Int) : List ViaFig → Option Int
  | [] => none
  | .rect box _ :: rest =>
    if getIdx box ≠ -1 then some (getIdx box) else cutClassLoop getIdx rest
  | .polygon _ _ :: rest => cutClassLoop getIdx rest

/-- The function `io::Parser::Callbacks::getLefVias` (the messages are left out). -/
def getLefVias (tech : ViaTech) (via : lefiVia) : CallbackEnd :=
  if via.layers.length ≠ 3 then .exited 1
  else
    match lNum2IntLoop tech.name2layer via.layers 0 [] with
    | none => .returned tech
    | some lNum2Int =>
      match lNum2Int.head?, lNum2Int.getLast? with
      | some first, some last =>
        if first.1 + 2 ≠ last.1 then .exited 1
        else
          let viaDef := viaFigsLoop via lNum2Int 0 { name := via.name, isDefault := via.hasDefault }
          match viaDef.cutFigs.head? with
          | none => .undefined
          | some cutFig =>
            let cutLayerNum := cutFig.layerNum
            let viaDef1 : frViaDef :=
              match cutClassLoop (tech.getCutClassIdx cutLayerNum) viaDef.cutFigs with
              | some cutClassIdx => { viaDef with cutClassIdx := some cutClassIdx }
              | none => viaDef
            .returned { tech with vias := tech.vias ++ [viaDef1] }
      | _, _ => .undefined

/-- A technology for examples: metal layers `M1` (2) and `M2` (4), the cut
layer `V1` (3) between them, no cut classes, no via definitions. -/
def viaTechExample : ViaTech :=
  { name2layer := fun n =>
      if n = "M1" then some 2 else if n = "V1" then some 3 else if n = "M2" then some 4 else none,
    getCutClassIdx := fun _ _ => -1,
    vias := [] }

/-- A via definition for examples with one square on each of the three named layers. -/
def lefiViaExample (n1 n2 n3 : String) : lefiVia :=
  ⟨"via12", false,
    [⟨n1, [⟨-10, -10, 10, 10⟩], []⟩, ⟨n2, [⟨-5, -5, 5, 5⟩], []⟩, ⟨n3, [⟨-10, -10, 10, 10⟩], []⟩]⟩

/-! ## Net geometry: pieces of merged segments -/

/-- A segment that lies in the group `key`, has positive length and, when it
is horizontal, is parallel to the x axis. -/
def GoodSeg (key : SegKey) (p : frPathSeg) : Prop :=
  p.key = key ∧ p.beginCoord < p.endCoord ∧ (p.isH = true → p.beginPt.y = p.endPt.y)

/-- The segments `B` are pieces of the segments `A` of the group `key`: every
piece lies in a segment of `A` and has its style at an end that it shares with
that segment, and the pieces cover the segments of `A`. -/
def Refines (key : SegKey) (A B : List frPathSeg) : Prop :=
  (∀ p ∈ B, GoodSeg key p ∧ ∃ t ∈ A, Contains t p ∧
      (p.beginCoord = t.beginCoord →
        p.style.beginStyle = t.style.beginStyle ∧ p.style.beginExt = t.style.beginExt) ∧
      (p.endCoord = t.endCoord →
        p.style.endStyle = t.style.endStyle ∧ p.style.endExt = t.style.endExt)) ∧
  (∀ t ∈ A, ∀ x, t.beginCoord ≤ x → x < t.endCoord → Covered B x)

/-- The tracks `t1` hold pieces of the segments of the tracks `t` (of layer
`i` and orientation `isH`), track by track. -/
def TrackRef (i : Int) (isH : Bool) (t t1 : TrackMap) : Prop :=
  List.Forall₂ (fun e e1 => e1.1 = e.1 ∧ Refines (i, isH, e.1) e.2 e1.2) t t1

/-- Every segment of the tracks `t` is a good segment of its group. -/
def TrackGood (i : Int) (isH : Bool) (t : TrackMap) : Prop :=
  ∀ e ∈ t, ∀ s ∈ e.2, GoodSeg (i, isH, e.1) s

/-- The segments of every track of every layer are good segments of their group. -/
def AllGood (m : MergedPathSegs) : Prop :=
  ∀ (i : Nat) (hi : i < m.length),
    TrackGood (i : Int) false (m.get ⟨i, hi⟩).vert ∧ TrackGood (i : Int) true (m.get ⟨i, hi⟩).horz

/-- In a style that the merge pass computes, an extension 0 goes with the
style "truncate". -/
def NormalStyle (st : frSegStyle) : Prop :=
  (st.beginExt = 0 → st.beginStyle = .truncate) ∧ (st.endExt = 0 → st.endStyle = .truncate)

/-! ## LEF58 cut spacing: the property text and its rules (io::Parser::getLef58CutSpacing) -/

/-- The loop of `getLef58CutSpacing_helper` over the words of the text: the
locals `keyword` and `ss` after it. -/
def cutSpacingHelperLoop : List String → String → String → String × String
  | [], keyword, ss => (keyword, ss)
  | word :: rest, keyword, ss =>
    if word = "SPACING" then cutSpacingHelperLoop rest "" word
    else if keyword = "" ∧ word = "SAMEMASK" then
      cutSpacingHelperLoop rest "SAMEMASK" (ss ++ " " ++ word)
    else if word = "MAXXY" ∨ word = "LAYER" ∨ word = "ADJACENTCUTS" ∨ word = "PARALLELOVERLAP" ∨
        word = "PARALLELWITHIN" ∨ word = "SAMEMETALSHAREDEDGE" ∨ word = "AREA" then
      cutSpacingHelperLoop rest word (ss ++ " " ++ word)
    else cutSpacingHelperLoop rest keyword (ss ++ " " ++ word)

/-- The function `io::Parser::getLef58CutSpacing_helper`. -/
def getLef58CutSpacing_helper (nc : NumConv) (fuel : Nat) (db : RuleDb) (sIn : String) :
    Outcome RuleDb :=
  let r := cutSpacingHelperLoop (words sIn) "" ""
  if r.1 = "LAYER" then getLef58CutSpacing_layer nc fuel db r.2
  else if r.1 = "ADJACENTCUTS" then getLef58CutSpacing_adjacentCuts nc fuel db r.2
  else .returned db

/-- The loop of `getLef58CutSpacing` over the words of the text; `ss` is
emptied by the word `SPACING` only. -/
def cutSpacingLoop (nc : NumConv) (fuel : Nat) : List String → String → RuleDb → Outcome RuleDb
  | [], _, db => .returned db
  | word :: rest, ss, db =>
    if word = "SPACING" then cutSpacingLoop nc fuel rest word db
    else if word = ";" then
      match getLef58CutSpacing_helper nc fuel db (ss ++ " " ++ word) with
      | .returned db1 => cutSpacingLoop nc fuel rest (ss ++ " " ++ word) db1
      | .threw => .threw
      | .outOfFuel => .outOfFuel
    else cutSpacingLoop nc fuel rest (ss ++ " " ++ word) db

/-- The function `io::Parser::getLef58CutSpacing`. -/
def getLef58CutSpacing (nc : NumConv) (fuel : Nat) (db : RuleDb) (sIn : String) : Outcome RuleDb :=
  cutSpacingLoop nc fuel (words sIn) "" db

/-! ## Design import and database update (`getFrOrient`, `setObstructions`,
`updateDbConn`, `getSBoxCoords`) -/

/-- Modelled from the spec: the database orientations "R0, R90, R180, R270,
MY, MYR90, MX and MXR90" (`odb::dbOrientType`, declared outside `src/`). -/
inductive dbOrientType where
  | R0
  | R90
  | R180
  | R270
  | MY
  | MYR90
  | MX
  | MXR90
deriving DecidableEq, Repr

/-- Modelled from the spec: the router orientations (`frOrientEnum`, declared
outside `src/`), for each database orientation "the router orientation of the
same name". -/
inductive frOrientEnum where
  | frcR0
  | frcR90
  | frcR180
  | frcR270
  | frcMY
  | frcMYR90
  | frcMX
  | frcMXR90
deriving DecidableEq, Repr

/-- The function `getFrOrient`. The `return frOrientEnum::frcR0` after the
`switch` is reached by no value of the enumeration. -/
def getFrOrient : dbOrientType → frOrientEnum
  | .R0 => .frcR0
  | .R90 => .frcR90
  | .R180 => .frcR180
  | .R270 => .frcR270
  | .MY => .frcMY
  | .MYR90 => .frcMXR90
  | .MX => .frcMX
  | .MXR90 => .frcMXR90

/-- Modelled from the spec: a "design obstruction" as the database hands it
over (`odb::dbObstruction`, declared outside `src/`): the name of the layer of
its bounding box and the four coordinates of the box. -/
structure dbObstruction where
  layerName : String
  xMin : Int
  yMin : Int
  xMax : Int
  yMax : Int
deriving DecidableEq, Repr

/-- Modelled from the spec: `frPin`, declared outside `src/`: its id and its
"pin shape"s. -/
structure frPin where
  id : Int
  pinFigs : List frRect
deriving DecidableEq, Repr

/-- Modelled from the spec: `frBlockage`, declared outside `src/`: a "blockage"
with its id and its pin. -/
structure frBlockage where
  id : Int
  pin : frPin
deriving DecidableEq, Repr

/-- What `setObstructions` writes: the counter `numBlockages` of the parser and
the blockages of `tmpBlock`, to which `addBlockage` appends. -/
structure ObstructionState where
  numBlockages : Int
  blockages : List frBlockage
deriving DecidableEq, Repr

/-- The function `io::Parser::setObstructions` over the obstructions of the
block. `name2layer` is the layer table of the technology (name to layer
number): `find(layerName) != end()` is `(name2layer layerName).isSome`, and
`name2layer[layerName]` is the layer of that name, a null pointer (inserted by
the access) when there is none. `none` stands for the call
`getLayerNum()` on a null pointer. -/
def setObstructions (name2layer : String → Option Int) :
    List dbObstruction → ObstructionState → Option ObstructionState
  | [], st => some st
  | blockage :: rest, st =>
    let layerName := blockage.layerName
    if (name2layer layerName).isSome then setObstructions name2layer rest st
    else
      match name2layer layerName with
      | none => none
      | some layerNum =>
        let pinFig : frRect := ⟨⟨blockage.xMin, blockage.yMin, blockage.xMax, blockage.yMax⟩, layerNum⟩
        let blkIn : frBlockage := ⟨st.numBlockages, ⟨0, [pinFig]⟩⟩
        setObstructions name2layer rest ⟨st.numBlockages + 1, st.blockages ++ [blkIn]⟩

/-- A call of `odb::dbWireEncoder` made for a path segment: `newPath` with the
database layer of the segment's layer and the wire type `ROUTED`,
`addPoint(x, y)` and `addPoint(x, y, ext)`. -/
inductive WireEncoderCall where
  | newPath (layerNum : Int)
  | addPoint (x y : Int)
  | addPointExt (x y : Int) (ext : Nat)
deriving DecidableEq, Repr

/-- The `case frcPathSeg` of the `switch` in `io::Writer::updateDbConn`: the
calls of the wire encoder for one path segment, in order. -/
def updateDbConnPathSeg (pathSeg : frPathSeg) : List WireEncoderCall :=
  let begin := pathSeg.beginPt
  let end1 := pathSeg.endPt
  let segStyle := pathSeg.style
  [WireEncoderCall.newPath pathSeg.layerNum] ++
  (if segStyle.beginStyle = .extend then [WireEncoderCall.addPoint begin.x begin.y]
   else if segStyle.beginStyle = .truncate then [WireEncoderCall.addPointExt begin.x begin.y 0]
   else if segStyle.beginStyle = .variable then
     [WireEncoderCall.addPointExt begin.x begin.y segStyle.beginExt]
   else []) ++
  (if segStyle.endStyle = .extend then [WireEncoderCall.addPoint end1.x end1.y]
   else if segStyle.endStyle = .truncate then [WireEncoderCall.addPointExt end1.x end1.y 0]
   else if segStyle.beginStyle = .variable then
     [WireEncoderCall.addPointExt end1.x end1.y segStyle.endExt]
   else [])

/-- The conversion of a value to `int` (32 bits, two's complement). -/
def toInt32 (v : Int) : Int := (v + 2147483648) % 4294967296 - 2147483648

/-- The conversion of a value to `uint` (32 bits). -/
def toUInt32 (v : Int) : Int := v % 4294967296

/-- The directions of a special-wire box (`odb::dbSBox::Direction`). -/
inductive SBoxDirection where
  | UNDEFINED
  | HORIZONTAL
  | VERTICAL
  | OCTILINEAR
deriving DecidableEq, Repr

/-- Modelled from the spec: the octagon of an octilinear "special-wire box"
(`odb::Oct`, declared outside `src/`): `getCenterLow()`, `getCenterHigh()` and
`getWidth()`. -/
structure Oct where
  centerLow : frPoint
  centerHigh : frPoint
  width : Int
deriving DecidableEq, Repr

/-- Modelled from the spec: a "special-wire box" (`odb::dbSBox`, declared
outside `src/`): its four coordinates, its direction and its octagon. -/
structure dbSBox where
  xMin : Int
  yMin : Int
  xMax : Int
  yMax : Int
  direction : SBoxDirection
  oct : Oct
deriving DecidableEq, Repr

/-- Modelled from the spec: the "box width dx" as the `uint` that `getDX()`
returns. -/
def dbSBox.getDX (box : dbSBox) : Int := toUInt32 (box.xMax - box.xMin)

/-- Modelled from the spec: the "box height dy" as the `uint` that `getDY()`
returns. -/
def dbSBox.getDY (box : dbSBox) : Int := toUInt32 (box.yMax - box.yMin)

/-- How a call of `getSBoxCoords` ends: it returns the five results, an
`assert` fails, or `logger->error` is called. -/
inductive SBoxEnd where
  | returned (beginX beginY endX endY width : Int)
  | assertFailed
  | error
deriving DecidableEq, Repr

/-- The last five statements of `getSBoxCoords`. The function `defdist` of the
block, which computes in `double`, is a parameter. -/
def sBoxResults (defdist : Int → Int) (x1 y1 x2 y2 w : Int) : SBoxEnd :=
  .returned (defdist x1) (defdist y1) (defdist x2) (defdist y2) (defdist (toInt32 w))

/-- The statements `w = dy; uint dw = dy >> 1; y1 += dw; y2 -= dw;
assert(y1 == y2);` followed by the end of the function. With `ndebug` the
`assert` is compiled out. -/
def sBoxCentreY (defdist : Int → Int) (ndebug : Bool) (x1 y1 x2 y2 dy : Int) : SBoxEnd :=
  let w := dy
  let dw := dy / 2
  let y1a := toInt32 (y1 + dw)
  let y2a := toInt32 (y2 - dw)
  if ndebug = true ∨ y1a = y2a then sBoxResults defdist x1 y1a x2 y2a w else .assertFailed

/-- The statements `w = dx; uint dw = dx >> 1; x1 += dw; x2 -= dw;
assert(x1 == x2);` followed by the end of the function. -/
def sBoxCentreX (defdist : Int → Int) (ndebug : Bool) (x1 y1 x2 y2 dx : Int) : SBoxEnd :=
  let w := dx
  let dw := dx / 2
  let x1a := toInt32 (x1 + dw)
  let x2a := toInt32 (x2 - dw)
  if ndebug = true ∨ x1a = x2a then sBoxResults defdist x1a y1 x2a y2 w else .assertFailed

/-- The function `io::Parser::getSBoxCoords`. The `default` of the `switch` is
reached by no value of the enumeration. -/
def getSBoxCoords (defdist : Int → Int) (ndebug : Bool) (box : dbSBox) : SBoxEnd :=
  let x1 := box.xMin
  let y1 := box.yMin
  let x2 := box.xMax
  let y2 := box.yMax
  let dx := box.getDX
  let dy := box.getDY
  match box.direction with
  | .UNDEFINED =>
    let dx_even := dx % 2 = 0
    let dy_even := dy % 2 = 0
    if dx_even ∧ dy_even then
      if dy < dx then sBoxCentreY defdist ndebug x1 y1 x2 y2 dy
      else sBoxCentreX defdist ndebug x1 y1 x2 y2 dx
    else if dx_even then sBoxCentreX defdist ndebug x1 y1 x2 y2 dx
    else if dy_even then sBoxCentreY defdist ndebug x1 y1 x2 y2 dy
    else .error
  | .HORIZONTAL => sBoxCentreY defdist ndebug x1 y1 x2 y2 dy
  | .VERTICAL => sBoxCentreX defdist ndebug x1 y1 x2 y2 dx
  | .OCTILINEAR =>
    sBoxResults defdist box.oct.centerLow.x box.oct.centerLow.y box.oct.centerHigh.x
      box.oct.centerHigh.y box.oct.width

/-! ## LEF58 spacing table: texts of PARALLELRUNLENGTH tables -/

theorem tokensAux_skip (r : List Char) : tokensAux r [] = tokensAux (r.dropWhile isspace) [] := by
  induction r with
  | nil => rfl
  | cons c cs ih =>
    by_cases hc : isspace c = true
    · simp [tokensAux, hc, List.dropWhile, ih]
    · simp [List.dropWhile, hc]

theorem tokensAux_word (r cur : List Char) :
    tokensAux r cur =
      if (cur ++ r.takeWhile (fun c => !isspace c)).isEmpty then
        tokensAux (r.dropWhile (fun c => !isspace c)) []
      else String.mk (cur ++ r.takeWhile (fun c => !isspace c)) ::
        tokensAux (r.dropWhile (fun c => !isspace c)) [] := by
  induction r generalizing cur with
  | nil => simp [tokensAux]; 
  | cons c cs ih =>
    by_cases hc : isspace c = true
    · by_cases hcur : cur = []
      · subst hcur
        simp [tokensAux, hc, List.takeWhile, List.dropWhile]
      · simp [tokensAux, hc, List.takeWhile, List.dropWhile, hcur]
    · simp only [Bool.not_eq_true] at hc
      rw [tokensAux]
      simp only [hc, Bool.false_eq_true, if_false]
      rw [ih]
      simp [List.takeWhile, List.dropWhile, hc]

theorem vLineLoop_eof (fuel : Nat) (buf : List Char) (f : Bool) (word : String) (acc : List String) :
    vLineLoop fuel ⟨buf, true, f⟩ word acc = acc := by
  cases fuel <;> simp [vLineLoop]

theorem dropWhile_nonspace_length (r : List Char) (h : r.dropWhile isspace ≠ []) :
    ((r.dropWhile isspace).dropWhile (fun c => !isspace c)).length < r.length := by
  have h1 : (r.dropWhile isspace).length ≤ r.length := (List.dropWhile_sublist _).length_le
  cases hr : r.dropWhile isspace with
  | nil => exact absurd hr h
  | cons c cs =>
    rw [hr] at h1
    have hc : isspace c = false := by
      have := List.head_dropWhile_not isspace r (by rw [hr]; simp)
      simpa [hr] using this
    have h2 : (cs.dropWhile (fun c => !isspace c)).length ≤ cs.length :=
      (List.dropWhile_sublist _).length_le
    simp [List.dropWhile, hc] at h1 ⊢
    omega

theorem getLastD_cons_swap {α : Type} (a w : α) (T : List α) :
    (a :: T).getLastD w = T.getLastD a := by
  cases T with
  | nil => rfl
  | cons b T => rfl

theorem vLineLoop_tokens (fuel : Nat) : ∀ (buf : List Char) (word : String) (acc : List String),
    buf.length < fuel →
    vLineLoop fuel ⟨buf, false, false⟩ word acc = acc ++ tokensAux buf [] ∨
    vLineLoop fuel ⟨buf, false, false⟩ word acc
      = acc ++ tokensAux buf [] ++ [(tokensAux buf []).getLastD word] := by
  induction fuel with
  | zero => intro buf word acc h; omega
  | succ fuel ih =>
    intro buf word acc hf
    rw [tokensAux_skip buf]
    by_cases hr : buf.dropWhile isspace = []
    · right
      simp [vLineLoop, IStream.getWord, IStream.sentry, IStream.good, hr, vLineLoop_eof, tokensAux]
    · have hlen := dropWhile_nonspace_length buf hr
      rw [tokensAux_word (buf.dropWhile isspace) []]
      obtain ⟨c, cs, hcs⟩ : ∃ c cs, buf.dropWhile isspace = c :: cs := by
        cases h : buf.dropWhile isspace with
        | nil => exact absurd h hr
        | cons c cs => exact ⟨c, cs, rfl⟩
      have hc : isspace c = false := by
        have := List.head_dropWhile_not isspace buf (by rw [hcs]; simp)
        simpa [hcs] using this
      have hw : ((buf.dropWhile isspace).takeWhile (fun c => !isspace c)) ≠ [] := by
        rw [hcs]; simp [List.takeWhile, hc]
      by_cases hr2 : (buf.dropWhile isspace).dropWhile (fun c => !isspace c) = []
      · left
        simp [vLineLoop, IStream.getWord, IStream.sentry, IStream.good, hr, hr2, vLineLoop_eof,
          tokensAux, hw]
      · have := ih ((buf.dropWhile isspace).dropWhile (fun c => !isspace c))
          (String.mk ((buf.dropWhile isspace).takeWhile (fun c => !isspace c)))
          (acc ++ [String.mk ((buf.dropWhile isspace).takeWhile (fun c => !isspace c))]) (by omega)
        simp only [vLineLoop, IStream.getWord, IStream.sentry, IStream.good, hr, hr2]
        simp only [Bool.not_false, Bool.and_self, if_true, List.isEmpty_eq_true, hr, hr2,
          if_false, Bool.false_eq_true, List.nil_append, hw]
        have he : ((buf.dropWhile isspace).dropWhile (fun c => !isspace c)).isEmpty = false := by
          simpa using hr2
        rw [he]
        rcases this with h | h
        · left; rw [h]; simp
        · right; rw [h, getLastD_cons_swap]; simp

theorem vLine_tokens (line : String) :
    vLine line = tokensOf line ∨ vLine line = tokensOf line ++ [(tokensOf line).getLastD ""] := by
  have := vLineLoop_tokens (line.length + 1) line.toList "" [] (Nat.lt_succ_self _)
  simpa [vLine, tokensOf, IStream.ofString] using this

/-- The three ways in which `readGuideLine` accepts a line. -/
theorem readGuideLine_ok (env : GuideEnv) (s s1 : GuideState) (l : String)
    (h : readGuideLine env s l = .ok s1) :
    ((l = "(" ∨ l = ")" ∨ l = "") ∧ s1 = s) ∨
    (¬ (l = "(" ∨ l = ")" ∨ l = "") ∧ ∃ w n, vLine l = [w] ∧ env.name2net w = some n ∧
        s1 = ⟨w, some n, s.numGuides, s.tmpGuides⟩) ∨
    (¬ (l = "(" ∨ l = ")" ∨ l = "") ∧ ∃ w0 w1 w2 w3 w4 x0 y0 x1 y1 ln,
        vLine l = [w0, w1, w2, w3, w4] ∧ env.name2layer w4 = some ln ∧
        stoi w0 = some x0 ∧ stoi w1 = some y0 ∧ stoi w2 = some x1 ∧ stoi w3 = some y1 ∧
        s1 = ⟨s.netName, s.net, s.numGuides + 1,
              pushGuide s.tmpGuides s.net ⟨⟨x0, y0, x1, y1⟩, ln⟩⟩) := by
  unfold readGuideLine at h
  by_cases h1 : l = "(" ∨ l = ""
  · left
    rw [if_pos h1] at h
    injection h with h
    exact ⟨by tauto, h.symm⟩
  · rw [if_neg h1] at h
    by_cases h2 : l = ")"
    · left
      rw [if_pos h2] at h
      injection h with h
      exact ⟨by tauto, h.symm⟩
    · rw [if_neg h2] at h
      have hsep : ¬ (l = "(" ∨ l = ")" ∨ l = "") := by tauto
      right
      split at h
      · cases h
      · rename_i w0 hv
        left
        refine ⟨hsep, w0, ?_⟩
        cases hn : env.name2net w0 with
        | none => rw [hn] at h; cases h
        | some n =>
          rw [hn] at h
          injection h with h
          exact ⟨n, hv, rfl, h.symm⟩
      · rename_i w0 w1 w2 w3 w4 hv
        right
        refine ⟨hsep, w0, w1, w2, w3, w4, ?_⟩
        cases hl : env.name2layer w4 with
        | none => rw [hl] at h; cases h
        | some ln =>
          rw [hl] at h
          simp only at h
          split at h
          · cases h
          · split at h
            · rename_i x0 y0 x1 y1 e0 e1 e2 e3
              injection h with h
              exact ⟨x0, y0, x1, y1, ln, hv, rfl, e0, e1, e2, e3, h.symm⟩
            · cases h
      · cases h

theorem tokensOf_separator (l : String) (h : l = "(" ∨ l = ")" ∨ l = "") :
    (tokensOf l).length ≤ 1 := by
  rcases h with rfl | rfl | rfl <;> decide

theorem netAfterLine_of_length (env : GuideEnv) (cur : Option Nat) (l : String)
    (h : (tokensOf l).length ≠ 1) : netAfterLine env cur l = cur := by
  unfold netAfterLine
  split
  · rfl
  · split
    · rename_i w hw; rw [hw] at h; simp at h
    · rfl

theorem readGuideLine_net (env : GuideEnv) (hname : env.name2net "" = none)
    (s s1 : GuideState) (l : String) (h : readGuideLine env s l = .ok s1) :
    s1.net = netAfterLine env s.net l := by
  rcases readGuideLine_ok env s s1 l h with ⟨hsep, rfl⟩ | ⟨hsep, w, n, hv, hn, rfl⟩ |
    ⟨hsep, w0, w1, w2, w3, w4, x0, y0, x1, y1, ln, hv, -, -, -, -, -, rfl⟩
  · simp [netAfterLine, hsep]
  · rcases vLine_tokens l with ht | ht
    · rw [hv] at ht
      simp [netAfterLine, hsep, ← ht, hn]
    · rw [hv] at ht
      have hlen := congrArg List.length ht
      simp at hlen
      rw [hlen] at ht
      simp at ht
      rw [ht, hname] at hn
      cases hn
  · rcases vLine_tokens l with ht | ht
    · rw [hv] at ht
      rw [netAfterLine_of_length]
      rw [← ht]; simp
    · rw [hv] at ht
      have hlen := congrArg List.length ht
      simp at hlen
      rw [netAfterLine_of_length]
      omega

theorem readGuideFrom_net (env : GuideEnv) (hname : env.name2net "" = none) (lines : List String) :
    ∀ (s s1 : GuideState), readGuideFrom env s lines = .ok s1 →
      s1.net = lines.foldl (netAfterLine env) s.net := by
  induction lines with
  | nil => intro s s1 h; simp [readGuideFrom] at h; simp [← h]
  | cons l rest ih =>
    intro s s1 h
    rw [readGuideFrom] at h
    cases hl : readGuideLine env s l with
    | error e => rw [hl] at h; cases h
    | ok s2 =>
      rw [hl] at h
      simp only at h
      rw [ih s2 s1 h, readGuideLine_net env hname s s2 l hl]
      rfl

theorem readGuideFrom_append (env : GuideEnv) (pre : List String) (line : String) (post : List String) :
    ∀ (s st : GuideState), readGuideFrom env s (pre ++ line :: post) = .ok st →
      ∃ s0 s1, readGuideFrom env s pre = .ok s0 ∧ readGuideLine env s0 line = .ok s1 ∧
        readGuideFrom env s1 post = .ok st := by
  induction pre with
  | nil =>
    intro s st h
    rw [List.nil_append, readGuideFrom] at h
    cases hl : readGuideLine env s line with
    | error e => rw [hl] at h; cases h
    | ok s2 => rw [hl] at h; exact ⟨s, s2, rfl, hl, h⟩
  | cons l rest ih =>
    intro s st h
    rw [List.cons_append, readGuideFrom] at h
    cases hl : readGuideLine env s l with
    | error e => rw [hl] at h; cases h
    | ok s2 =>
      rw [hl] at h
      obtain ⟨s0, s1, h0, h1, h2⟩ := ih s2 st h
      refine ⟨s0, s1, ?_, h1, h2⟩
      rw [readGuideFrom, hl]; exact h0

/-- C5 (amended): in every guide file that `readGuide` accepts (the net table
holding no net with the empty name), at every line: the current net is the
net named by the most recent preceding single-token line, or the null net
when there is none; a 5-token line `minX minY maxX maxY layerName` adds exactly
one rectangle, with the four `stoi` values as coordinates and on the layer of
that name, to the list of the current net; the lines `(`, `)` and the empty line
add nothing; and no line changes the list of any other net. -/
theorem readGuide_rectangles_current_net (env : GuideEnv) (hname : env.name2net "" = none)
    (pre : List String) (line : String) (post : List String) (st : GuideState)
    (h : readGuide env (some (pre ++ line :: post)) = .ok st) :
    ∃ s0 s1, readGuideFrom env GuideState.init pre = .ok s0 ∧
      readGuideLine env s0 line = .ok s1 ∧ readGuideFrom env s1 post = .ok st ∧
      s0.net = currentNet env pre ∧
      (∀ t0 t1 t2 t3 t4, tokensOf line = [t0, t1, t2, t3, t4] →
        ∃ x0 y0 x1 y1 ln, stoi t0 = some x0 ∧ stoi t1 = some y0 ∧ stoi t2 = some x1 ∧
          stoi t3 = some y1 ∧ env.name2layer t4 = some ln ∧
          s1.tmpGuides = pushGuide s0.tmpGuides s0.net ⟨⟨x0, y0, x1, y1⟩, ln⟩) ∧
      ((line = "(" ∨ line = ")" ∨ line = "") → s1.tmpGuides = s0.tmpGuides) ∧
      (∀ k, k ≠ s0.net → s1.tmpGuides k = s0.tmpGuides k) := by
  obtain ⟨s0, s1, h0, h1, h2⟩ := readGuideFrom_append env pre line post _ st h
  refine ⟨s0, s1, h0, h1, h2, readGuideFrom_net env hname pre _ s0 h0, ?_, ?_, ?_⟩
  · intro t0 t1 t2 t3 t4 ht
    rcases readGuideLine_ok env s0 s1 line h1 with ⟨hsep, -⟩ | ⟨-, w, n, hv, -, -⟩ |
      ⟨-, w0, w1, w2, w3, w4, x0, y0, x1, y1, ln, hv, hl, e0, e1, e2, e3, rfl⟩
    · have h5 := tokensOf_separator line hsep
      rw [ht] at h5
      simp at h5
    · rcases vLine_tokens line with hvt | hvt <;> rw [hv, ht] at hvt <;> simp at hvt
    · rcases vLine_tokens line with hvt | hvt
      · rw [hv, ht] at hvt
        simp only [List.cons.injEq, and_true] at hvt
        obtain ⟨rfl, rfl, rfl, rfl, rfl⟩ := hvt
        exact ⟨x0, y0, x1, y1, ln, e0, e1, e2, e3, hl, rfl⟩
      · rw [hv, ht] at hvt; simp at hvt
  · intro hsep
    rcases readGuideLine_ok env s0 s1 line h1 with ⟨-, rfl⟩ | ⟨hn, -⟩ | ⟨hn, -⟩
    · rfl
    · exact absurd hsep hn
    · exact absurd hsep hn
  · intro k hk
    rcases readGuideLine_ok env s0 s1 line h1 with ⟨-, rfl⟩ | ⟨-, w, n, -, -, rfl⟩ |
      ⟨-, w0, w1, w2, w3, w4, x0, y0, x1, y1, ln, -, -, -, -, -, -, rfl⟩
    · rfl
    · rfl
    · simp [pushGuide, hk]

/-- Witness of `readGuide_rectangles_current_net`: the file `n1`, `0 0 10 10 M2`. -/
theorem readGuide_rectangles_current_net_witness :
    guideEnvExample.name2net "" = none ∧
    readGuide guideEnvExample (some (["n1"] ++ "0 0 10 10 M2" :: [])) = .ok guideStateExample ∧
    ∃ s0 s1, readGuideFrom guideEnvExample GuideState.init ["n1"] = .ok s0 ∧
      readGuideLine guideEnvExample s0 "0 0 10 10 M2" = .ok s1 ∧
      readGuideFrom guideEnvExample s1 [] = .ok guideStateExample ∧
      s0.net = currentNet guideEnvExample ["n1"] ∧
      (∀ t0 t1 t2 t3 t4, tokensOf "0 0 10 10 M2" = [t0, t1, t2, t3, t4] →
        ∃ x0 y0 x1 y1 ln, stoi t0 = some x0 ∧ stoi t1 = some y0 ∧ stoi t2 = some x1 ∧
          stoi t3 = some y1 ∧ guideEnvExample.name2layer t4 = some ln ∧
          s1.tmpGuides = pushGuide s0.tmpGuides s0.net ⟨⟨x0, y0, x1, y1⟩, ln⟩) ∧
      (("0 0 10 10 M2" = "(" ∨ "0 0 10 10 M2" = ")" ∨ "0 0 10 10 M2" = "") →
        s1.tmpGuides = s0.tmpGuides) ∧
      (∀ k, k ≠ s0.net → s1.tmpGuides k = s0.tmpGuides k) :=
  ⟨rfl, rfl,
    readGuide_rectangles_current_net guideEnvExample rfl ["n1"] "0 0 10 10 M2" [] guideStateExample rfl⟩

/-- C5, as stated, fails: the one-line file `0 0 10 10 M2` is accepted and its
rectangle is recorded although no single-token line precedes it; the
rectangle is filed under the null net. -/
theorem readGuide_rectangle_without_net :
    currentNet guideEnvExample [] = none ∧
    (readGuide guideEnvExample (some ["0 0 10 10 M2"])).toOption.map
        (fun s => (s.net, s.tmpGuides none)) =
      some (none, [⟨⟨0, 0, 10, 10⟩, 4⟩]) := by
  decide

/-- C4: evaluation at the failing input. Layer `M2` has number 4, below
`BOTTOM_ROUTING_LAYER = 6` and different from `VIA_ACCESS_LAYERNUM = 2`, yet
the file is accepted and the rectangle of the line is recorded for net `n1`. -/
theorem readGuide_accepts_layer_below_bottom :
    guideEnvExample.name2layer "M2" = some 4 ∧
    (4 : Int) < guideEnvExample.BOTTOM_ROUTING_LAYER ∧
    (4 : Int) ≠ guideEnvExample.VIA_ACCESS_LAYERNUM ∧
    (readGuide guideEnvExample (some ["n1", "0 0 10 10 M2"])).toOption.map
        (fun s => s.tmpGuides (some 0)) =
      some [⟨⟨0, 0, 10, 10⟩, 4⟩] := by
  decide

/-- C6: evaluation at the failing input. The line `n1 ` (one token followed
by a blank) names the existing net `n1`, but the word loop pushes the token
twice and the import is rejected with "Error: reading guide file!". -/
theorem readGuide_rejects_token_with_trailing_blank :
    tokensOf "n1 " = ["n1"] ∧ guideEnvExample.name2net "n1" = some 0 ∧
    vLine "n1 " = ["n1", "n1"] ∧
    readGuide guideEnvExample (some ["n1 "]) = .error .readingGuideFile ∧
    (readGuide guideEnvExample (some ["n1"])).toOption.map (fun s => s.net) = some (some 0) := by
  refine ⟨by decide, by decide, by decide, rfl, by decide⟩

/-! ## Merge and split of net geometry -/

/-- C2: evaluation at the failing input (Scenario B). The segment
`(0,100)-(200,100)` on layer 2 and a via at `(150,100)` whose cut layer is 3
(the segment is directly below the cut) or 1 (directly above): the output
holds the segment uncut. -/
theorem mergeSplit_via_inside_segment_not_split :
    mergeSplitConnFigs writerTechExample
        [.pathSeg (segExample 2 0 100 200 100), .via ⟨⟨150, 100⟩, 3, 0⟩] =
      some [.pathSeg (segExample 2 0 100 200 100), .via ⟨⟨150, 100⟩, 3, 0⟩] ∧
    mergeSplitConnFigs writerTechExample
        [.pathSeg (segExample 2 0 100 200 100), .via ⟨⟨150, 100⟩, 1, 0⟩] =
      some [.pathSeg (segExample 2 0 100 200 100), .via ⟨⟨150, 100⟩, 1, 0⟩] := by
  decide


theorem coordLt_strict : StrictOrder coordLt where
  irrefl := by intro a; simp [coordLt]
  trans := by intro a b c; simp only [coordLt, decide_eq_true_eq]; omega
  tri := by intro a b; simp only [coordLt, decide_eq_false_iff_not]; omega

theorem segKeyLt_strict : StrictOrder segKeyLt where
  irrefl := by
    intro ⟨a, b, c⟩
    cases b <;> simp [segKeyLt]
  trans := by
    intro ⟨a1, b1, c1⟩ ⟨a2, b2, c2⟩ ⟨a3, b3, c3⟩
    cases b1 <;> cases b2 <;> cases b3 <;> simp [segKeyLt] <;> omega
  tri := by
    intro ⟨a1, b1, c1⟩ ⟨a2, b2, c2⟩
    cases b1 <;> cases b2 <;> simp [segKeyLt] <;> omega

variable {K V : Type} {lt : K → K → Bool}

theorem mapSorted_tail {a : K × V} {m : List (K × V)} (h : MapSorted lt (a :: m)) :
    MapSorted lt m := (List.pairwise_cons.mp h).2

theorem mapSorted_head {a : K × V} {m : List (K × V)} (h : MapSorted lt (a :: m)) :
    ∀ b ∈ m, lt a.1 b.1 = true := (List.pairwise_cons.mp h).1

theorem mapFind_eq_some_iff (so : StrictOrder lt) (m : List (K × V)) (hs : MapSorted lt m)
    (k : K) (v : V) : mapFind lt m k = some v ↔ (k, v) ∈ m := by
  induction m with
  | nil => simp [mapFind]
  | cons a m ih =>
    obtain ⟨k1, v1⟩ := a
    have hh := mapSorted_head hs
    have ih' := ih (mapSorted_tail hs)
    rw [mapFind]
    by_cases h1 : lt k k1 = true
    · simp only [h1, if_true, List.mem_cons, Prod.mk.injEq]
      constructor
      · intro h; cases h
      · rintro (⟨rfl, -⟩ | hm)
        · rw [so.irrefl] at h1; cases h1
        · have := hh _ hm
          have := so.trans _ _ _ this h1
          rw [so.irrefl] at this; cases this
    · simp only [h1, if_false, Bool.false_eq_true]
      by_cases h2 : lt k1 k = true
      · simp only [h2, if_true, ih', List.mem_cons, Prod.mk.injEq]
        constructor
        · intro h; exact Or.inr h
        · rintro (⟨rfl, -⟩ | hm)
          · rw [so.irrefl] at h2; cases h2
          · exact hm
      · simp only [h2, if_false, Bool.false_eq_true, List.mem_cons, Prod.mk.injEq, Option.some.injEq]
        have hk : k = k1 := so.tri _ _ (by simpa using h1) (by simpa using h2)
        subst hk
        constructor
        · intro h; exact Or.inl ⟨rfl, h.symm⟩
        · rintro (⟨-, rfl⟩ | hm)
          · rfl
          · have := hh _ hm
            rw [so.irrefl] at this; cases this

theorem mapFind_eq_none_iff (so : StrictOrder lt) (m : List (K × V)) (hs : MapSorted lt m)
    (k : K) : mapFind lt m k = none ↔ k ∉ m.map Prod.fst := by
  constructor
  · intro h hk
    obtain ⟨⟨k1, v⟩, hm, rfl⟩ := List.mem_map.mp hk
    rw [(mapFind_eq_some_iff so m hs _ v).mpr hm] at h
    cases h
  · intro h
    cases hf : mapFind lt m k with
    | none => rfl
    | some v =>
      exact absurd (List.mem_map.mpr ⟨(k, v), (mapFind_eq_some_iff so m hs k v).mp hf, rfl⟩) h

theorem mem_mapModify (so : StrictOrder lt) (d : V) (f : V → V) (m : List (K × V))
    (hs : MapSorted lt m) (k : K) (x : K × V) :
    x ∈ mapModify lt d f m k ↔
      (x.1 ≠ k ∧ x ∈ m) ∨ (x.1 = k ∧ x.2 = f ((mapFind lt m k).getD d)) := by
  induction m with
  | nil =>
    obtain ⟨xk, xv⟩ := x
    simp only [mapModify, mapFind, List.mem_singleton, Prod.mk.injEq, Option.getD_none,
      List.not_mem_nil, and_false, false_or]
  | cons a m ih =>
    obtain ⟨k1, v1⟩ := a
    obtain ⟨xk, xv⟩ := x
    have hh := mapSorted_head hs
    have ih' := ih (mapSorted_tail hs)
    rw [mapModify, mapFind]
    by_cases h1 : lt k k1 = true
    · simp only [h1, if_true, List.mem_cons, Prod.mk.injEq, Option.getD_none]
      constructor
      · rintro (⟨rfl, rfl⟩ | ⟨rfl, rfl⟩ | hm)
        · exact Or.inr ⟨rfl, rfl⟩
        · left
          refine ⟨?_, Or.inl ⟨rfl, rfl⟩⟩
          rintro rfl; rw [so.irrefl] at h1; cases h1
        · left
          refine ⟨?_, Or.inr hm⟩
          rintro rfl
          have := so.trans _ _ _ (hh _ hm) h1
          rw [so.irrefl] at this; cases this
      · rintro (⟨hne, ⟨rfl, rfl⟩ | hm⟩ | ⟨rfl, rfl⟩)
        · exact Or.inr (Or.inl ⟨rfl, rfl⟩)
        · exact Or.inr (Or.inr hm)
        · exact Or.inl ⟨rfl, rfl⟩
    · simp only [h1, if_false, Bool.false_eq_true]
      by_cases h2 : lt k1 k = true
      · simp only [h2, if_true, List.mem_cons, Prod.mk.injEq, ih']
        have hne : k1 ≠ k := by rintro rfl; rw [so.irrefl] at h2; cases h2
        constructor
        · rintro (⟨rfl, rfl⟩ | ⟨hk, hm⟩ | ⟨rfl, hv⟩)
          · exact Or.inl ⟨hne, Or.inl ⟨rfl, rfl⟩⟩
          · exact Or.inl ⟨hk, Or.inr hm⟩
          · exact Or.inr ⟨rfl, hv⟩
        · rintro (⟨hk, ⟨rfl, rfl⟩ | hm⟩ | ⟨rfl, hv⟩)
          · exact Or.inl ⟨rfl, rfl⟩
          · exact Or.inr (Or.inl ⟨hk, hm⟩)
          · exact Or.inr (Or.inr ⟨rfl, hv⟩)
      · simp only [h2, if_false, Bool.false_eq_true, List.mem_cons, Prod.mk.injEq, Option.getD_some]
        have hk : k = k1 := so.tri _ _ (by simpa using h1) (by simpa using h2)
        subst hk
        constructor
        · rintro (⟨rfl, rfl⟩ | hm)
          · exact Or.inr ⟨rfl, rfl⟩
          · left
            refine ⟨?_, Or.inr hm⟩
            rintro rfl
            have := hh _ hm
            rw [so.irrefl] at this; cases this
        · rintro (⟨hne, ⟨rfl, rfl⟩ | hm⟩ | ⟨rfl, rfl⟩)
          · exact absurd rfl hne
          · exact Or.inr hm
          · exact Or.inl ⟨rfl, rfl⟩

theorem mapModify_sorted (so : StrictOrder lt) (d : V) (f : V → V) (m : List (K × V))
    (hs : MapSorted lt m) (k : K) : MapSorted lt (mapModify lt d f m k) := by
  induction m with
  | nil => simp [mapModify, MapSorted]
  | cons a m ih =>
    obtain ⟨k1, v1⟩ := a
    have hh := mapSorted_head hs
    have ht := mapSorted_tail hs
    have ih' := ih ht
    rw [mapModify]
    by_cases h1 : lt k k1 = true
    · simp only [h1, if_true]
      refine List.pairwise_cons.mpr ⟨?_, hs⟩
      intro b hb
      rcases List.mem_cons.mp hb with rfl | hb
      · exact h1
      · exact so.trans _ _ _ h1 (hh b hb)
    · simp only [h1, if_false, Bool.false_eq_true]
      by_cases h2 : lt k1 k = true
      · simp only [h2, if_true]
        refine List.pairwise_cons.mpr ⟨?_, ih'⟩
        intro b hb
        rcases (mem_mapModify so d f m ht k b).mp hb with ⟨-, hm⟩ | ⟨hk, -⟩
        · exact hh b hm
        · simpa [hk] using h2
      · simp only [h2, if_false, Bool.false_eq_true]
        exact List.pairwise_cons.mpr ⟨hh, ht⟩

theorem mapFind_mapModify_eq (so : StrictOrder lt) (d : V) (f : V → V) (m : List (K × V))
    (hs : MapSorted lt m) (k : K) :
    mapFind lt (mapModify lt d f m k) k = some (f ((mapFind lt m k).getD d)) := by
  rw [mapFind_eq_some_iff so _ (mapModify_sorted so d f m hs k)]
  exact (mem_mapModify so d f m hs k _).mpr (Or.inr ⟨rfl, rfl⟩)

theorem mapFind_mapModify_ne (so : StrictOrder lt) (d : V) (f : V → V) (m : List (K × V))
    (hs : MapSorted lt m) (k k1 : K) (h : k1 ≠ k) :
    mapFind lt (mapModify lt d f m k) k1 = mapFind lt m k1 := by
  cases hf : mapFind lt m k1 with
  | some v =>
    rw [mapFind_eq_some_iff so _ (mapModify_sorted so d f m hs k)]
    exact (mem_mapModify so d f m hs k _).mpr
      (Or.inl ⟨h, (mapFind_eq_some_iff so m hs k1 v).mp hf⟩)
  | none =>
    rw [mapFind_eq_none_iff so _ (mapModify_sorted so d f m hs k)]
    rw [mapFind_eq_none_iff so _ hs] at hf
    intro hk
    obtain ⟨x, hx, rfl⟩ := List.mem_map.mp hk
    rcases (mem_mapModify so d f m hs k x).mp hx with ⟨-, hm⟩ | ⟨hk, -⟩
    · exact hf (List.mem_map.mpr ⟨x, hm, rfl⟩)
    · exact h hk

theorem layerSegs_at_setAt (l : LayerSegs) (h : Bool) (t : TrackMap) : (l.setAt h t).at h = t := by
  cases h <;> simp [LayerSegs.at, LayerSegs.setAt]

theorem layerSegs_at_setAt_ne (l : LayerSegs) (h h1 : Bool) (t : TrackMap) (hne : h1 ≠ h) :
    (l.setAt h t).at h1 = l.at h1 := by
  cases h <;> cases h1 <;> simp_all [LayerSegs.at, LayerSegs.setAt]

theorem layerSegs_at_sorted (l : LayerSegs) (hs : MapSorted coordLt l.vert ∧ MapSorted coordLt l.horz)
    (h : Bool) : MapSorted coordLt (l.at h) := by
  cases h <;> simp [LayerSegs.at, hs.1, hs.2]

theorem pushMerged_spec (m : MergedPathSegs) (key : SegKey) (q : frPathSeg)
    (hr : layerInRange m.length key.1 = true) (hs : TracksSorted m) :
    ∃ m1, pushMerged m key q = some m1 ∧ m1.length = m.length ∧ TracksSorted m1 ∧
      mergedGroup m1 key = mergedGroup m key ++ [q] ∧
      ∀ k1, k1 ≠ key → mergedGroup m1 k1 = mergedGroup m k1 := by
  obtain ⟨ly, ih, tr⟩ := key
  simp only [layerInRange, Bool.and_eq_true, decide_eq_true_eq] at hr
  have hn : ly.toNat < m.length := by omega
  refine ⟨List.modify (fun l => l.setAt ih (mapModify coordLt [] (fun v => v ++ [q]) (l.at ih) tr))
    ly.toNat m, by simp [pushMerged, layerInRange, hr.1, hr.2], by simp, ?_, ?_, ?_⟩
  · intro l hl
    obtain ⟨i, hi, rfl⟩ := List.getElem_of_mem hl
    simp only [List.length_modify] at hi
    rw [List.getElem_modify]
    split
    · have hsl := hs _ (List.getElem_mem (l := m) hi)
      have := mapModify_sorted coordLt_strict [] (fun v => v ++ [q]) _
        (layerSegs_at_sorted _ hsl ih) tr
      cases ih <;> simp_all [LayerSegs.setAt, LayerSegs.at]
    · exact hs _ (List.getElem_mem (l := m) hi)
  · have hsl := hs _ (List.getElem_mem (l := m) hn)
    simp only [mergedGroup, layerInRange, List.length_modify, hr.1, hr.2, decide_True,
      Bool.and_self, if_true, List.get?_eq_getElem?, List.getElem?_modify_eq,
      List.getElem?_eq_getElem hn, Option.map_eq_map, Option.map_some', layerSegs_at_setAt]
    rw [mapFind_mapModify_eq coordLt_strict _ _ _ (layerSegs_at_sorted _ hsl ih)]
    simp
  · intro ⟨ly1, ih1, tr1⟩ hne
    simp only [mergedGroup, List.length_modify]
    split
    · rename_i hr1
      simp only [layerInRange, Bool.and_eq_true, decide_eq_true_eq] at hr1
      have hn1 : ly1.toNat < m.length := by omega
      by_cases hly : ly1 = ly
      · subst hly
        have hsl := hs _ (List.getElem_mem (l := m) hn)
        simp only [List.get?_eq_getElem?, List.getElem?_modify_eq, List.getElem?_eq_getElem hn,
          Option.map_eq_map, Option.map_some']
        by_cases hih : ih1 = ih
        · subst hih
          have htr : tr1 ≠ tr := by rintro rfl; exact hne rfl
          simp only [layerSegs_at_setAt]
          rw [mapFind_mapModify_ne coordLt_strict _ _ _ (layerSegs_at_sorted _ hsl ih1) _ _ htr]
        · simp only [layerSegs_at_setAt_ne _ _ _ _ hih]
      · have hidx : ly.toNat ≠ ly1.toNat := by omega
        simp only [List.get?_eq_getElem?, List.getElem?_modify_ne _ _ hidx]
    · rfl

theorem countP_split {α : Type} (P Q : α → Bool) (l : List α) (h : ∀ x ∈ l, Q x = true → P x = true) :
    l.countP P = l.countP Q + l.countP (fun x => P x && !Q x) := by
  induction l with
  | nil => simp
  | cons a l ih =>
    have ih' := ih (fun x hx => h x (List.mem_cons_of_mem _ hx))
    have ha := h a (List.mem_cons_self _ _)
    simp only [List.countP_cons]
    cases hP : P a <;> cases hQ : Q a <;> simp_all <;> omega

theorem exists_of_countP_lt {α : Type} (P Q : α → Bool) (l : List α)
    (h : l.countP Q < l.countP P) : ∃ x ∈ l, P x = true ∧ Q x = false := by
  by_contra hc
  have : l.countP P ≤ l.countP Q := by
    apply List.countP_mono_left
    intro x hx hP
    by_contra hQ
    exact hc ⟨x, hx, hP, by simpa using hQ⟩
  omega

theorem countEvents_eq (evs : List (frPathSeg × Bool)) : ∀ n : Int,
    countEvents n evs = n + (evs.countP (fun e => e.2) : Int) - (evs.countP (fun e => !e.2) : Int) := by
  induction evs with
  | nil => intro n; simp [countEvents]
  | cons e evs ih =>
    intro n
    have := ih (n + (if e.2 then 1 else -1))
    simp only [countEvents, List.foldl_cons] at this ⊢
    rw [this]
    cases he : e.2 <;> simp [List.countP_cons, he] <;> omega

theorem openLoop_fields (evs : List (frPathSeg × Bool)) : ∀ st : MergeLoop,
    (openLoop st evs).hasSeg = st.hasSeg ∧ (openLoop st evs).cnt = st.cnt ∧
    (openLoop st evs).newPathSeg = st.newPathSeg := by
  induction evs with
  | nil => intro st; simp [openLoop]
  | cons e evs ih =>
    intro st
    simp only [openLoop, List.foldl_cons] at ih ⊢
    split
    · split
      · exact ih _
      · exact ih _
    · exact ih _

theorem closeLoop_fields (evs : List (frPathSeg × Bool)) : ∀ st : MergeLoop,
    (closeLoop st evs).hasSeg = st.hasSeg ∧ (closeLoop st evs).cnt = st.cnt ∧
    (closeLoop st evs).newPathSeg = st.newPathSeg ∧ (closeLoop st evs).beginPt = st.beginPt := by
  induction evs with
  | nil => intro st; simp [closeLoop]
  | cons e evs ih =>
    intro st
    simp only [closeLoop, List.foldl_cons] at ih ⊢
    split
    · split
      · exact ih _
      · exact ih _
    · exact ih _

theorem closeLoop_endPt (evs : List (frPathSeg × Bool)) : ∀ st : MergeLoop,
    ((closeLoop st evs).endPt = st.endPt ∧ ∀ q, (q, false) ∉ evs) ∨
    ∃ q, (q, false) ∈ evs ∧ (closeLoop st evs).endPt = q.endPt := by
  induction evs with
  | nil => intro st; left; simp [closeLoop]
  | cons e evs ih =>
    intro st
    obtain ⟨q0, b0⟩ := e
    cases b0 with
    | true =>
      have h1 : closeLoop st ((q0, true) :: evs) = closeLoop st evs := by
        simp [closeLoop]
      rw [h1]
      rcases ih st with ⟨h, hn⟩ | ⟨q, hq, h⟩
      · left; refine ⟨h, ?_⟩; intro q hq; simp at hq; exact hn q hq
      · right; exact ⟨q, List.mem_cons_of_mem _ hq, h⟩
    | false =>
      right
      simp only [closeLoop, List.foldl_cons] at ih ⊢
      simp only [Bool.not_false, if_true]
      split
      · rcases ih _ with ⟨h, hn⟩ | ⟨q, hq, h⟩
        · exact ⟨q0, List.mem_cons_self _ _, h⟩
        · exact ⟨q, List.mem_cons_of_mem _ hq, h⟩
      · rcases ih _ with ⟨h, hn⟩ | ⟨q, hq, h⟩
        · exact ⟨q0, List.mem_cons_self _ _, h⟩
        · exact ⟨q, List.mem_cons_of_mem _ hq, h⟩

theorem frontOK_tail (G : List frPathSeg) (e : Int × List (frPathSeg × Bool)) (R : EventMap)
    (h : FrontOK G (e :: R)) : FrontOK G R := by
  obtain ⟨h1, h2, h3⟩ := h
  refine ⟨(List.pairwise_cons.mp h1).2, fun e1 he1 => h2 e1 (List.mem_cons_of_mem _ he1), ?_⟩
  have hlt : ∀ c ∈ coordsOf R, e.1 < c := by
    intro c hc
    obtain ⟨x, hx, rfl⟩ := List.mem_map.mp hc
    exact (List.pairwise_cons.mp h1).1 x hx
  have key : ∀ v : Int, (v ∈ coordsOf (e :: R) ∨ ∀ c ∈ coordsOf (e :: R), v < c) →
      (v ∈ coordsOf R ∨ ∀ c ∈ coordsOf R, v < c) := by
    intro v hv
    rcases hv with hv | hv
    · simp only [coordsOf, List.map_cons, List.mem_cons] at hv
      rcases hv with rfl | hv
      · exact Or.inr hlt
      · exact Or.inl hv
    · right
      intro c hc
      exact hv c (by simp only [coordsOf, List.map_cons, List.mem_cons]; exact Or.inr hc)
  intro q hq
  exact ⟨key _ (h3 q hq).1, key _ (h3 q hq).2⟩

theorem frontOK_head_lt (G : List frPathSeg) (e : Int × List (frPathSeg × Bool)) (R : EventMap)
    (h : FrontOK G (e :: R)) : ∀ c ∈ coordsOf R, e.1 < c := by
  intro c hc
  obtain ⟨x, hx, rfl⟩ := List.mem_map.mp hc
  exact (List.pairwise_cons.mp h.1).1 x hx

/-- A finished end event implies a finished begin event. -/
theorem frontOK_end_begin (G : List frPathSeg) (R : EventMap) (h : FrontOK G R)
    (hlt : ∀ q ∈ G, q.beginCoord < q.endCoord) :
    ∀ q ∈ G, q.endCoord ∉ coordsOf R → q.beginCoord ∉ coordsOf R := by
  intro q hq he hb
  rcases (h.2.2 q hq).2 with h1 | h1
  · exact he h1
  · have := h1 _ hb
    have := hlt q hq
    omega

theorem cntOf_eq (G : List frPathSeg) (R : EventMap) (h : FrontOK G R)
    (hlt : ∀ q ∈ G, q.beginCoord < q.endCoord) :
    cntOf G R = (G.countP (fun q => decide (q.beginCoord ∉ coordsOf R) &&
      !decide (q.endCoord ∉ coordsOf R)) : Int) := by
  have := countP_split (fun q : frPathSeg => decide (q.beginCoord ∉ coordsOf R))
    (fun q => decide (q.endCoord ∉ coordsOf R)) G
    (by
      intro q hq hx
      simp only [decide_eq_true_eq] at hx ⊢
      exact frontOK_end_begin G R h hlt q hq hx)
  unfold cntOf
  rw [this]
  push_cast
  ring

theorem cntOf_nonneg (G : List frPathSeg) (R : EventMap) (h : FrontOK G R)
    (hlt : ∀ q ∈ G, q.beginCoord < q.endCoord) : 0 ≤ cntOf G R := by
  rw [cntOf_eq G R h hlt]; exact Int.natCast_nonneg _

theorem cntOf_pos (G : List frPathSeg) (R : EventMap) (h : FrontOK G R)
    (hlt : ∀ q ∈ G, q.beginCoord < q.endCoord) (hp : 0 < cntOf G R) :
    ∃ q ∈ G, q.beginCoord ∉ coordsOf R ∧ q.endCoord ∈ coordsOf R := by
  rw [cntOf_eq G R h hlt] at hp
  have hp' : 0 < G.countP (fun q => decide (q.beginCoord ∉ coordsOf R) &&
      !decide (q.endCoord ∉ coordsOf R)) := by exact_mod_cast hp
  obtain ⟨q, hq, hx⟩ := List.countP_pos_iff.mp hp'
  refine ⟨q, hq, ?_⟩
  simpa using hx

theorem cntOf_zero (G : List frPathSeg) (R : EventMap) (h : FrontOK G R)
    (hlt : ∀ q ∈ G, q.beginCoord < q.endCoord) (hz : cntOf G R = 0) :
    ∀ q ∈ G, q.beginCoord ∉ coordsOf R → q.endCoord ∉ coordsOf R := by
  rw [cntOf_eq G R h hlt] at hz
  have hz' : G.countP (fun q => decide (q.beginCoord ∉ coordsOf R) &&
      !decide (q.endCoord ∉ coordsOf R)) = 0 := by exact_mod_cast hz
  rw [List.countP_eq_zero] at hz'
  intro q hq hb he
  exact hz' q hq (by simp [hb, he])

/-- An endpoint that is no longer in `R` lies before every coordinate of `R`. -/
theorem frontOK_lt (G : List frPathSeg) (R : EventMap) (h : FrontOK G R) (q : frPathSeg)
    (hq : q ∈ G) :
    (q.beginCoord ∉ coordsOf R → ∀ c ∈ coordsOf R, q.beginCoord < c) ∧
    (q.endCoord ∉ coordsOf R → ∀ c ∈ coordsOf R, q.endCoord < c) := by
  constructor
  · intro hn
    rcases (h.2.2 q hq).1 with h1 | h1
    · exact absurd h1 hn
    · exact h1
  · intro hn
    rcases (h.2.2 q hq).2 with h1 | h1
    · exact absurd h1 hn
    · exact h1

theorem coordsOf_cons (e : Int × List (frPathSeg × Bool)) (R : EventMap) :
    coordsOf (e :: R) = e.1 :: coordsOf R := rfl

theorem countP_or_disjoint {α : Type} (P Q : α → Bool) (l : List α)
    (h : ∀ x ∈ l, ¬ (P x = true ∧ Q x = true)) :
    l.countP (fun x => P x || Q x) = l.countP P + l.countP Q := by
  induction l with
  | nil => simp
  | cons a l ih =>
    have ih' := ih (fun x hx => h x (List.mem_cons_of_mem _ hx))
    have ha := h a (List.mem_cons_self _ _)
    simp only [List.countP_cons, ih']
    cases hP : P a <;> cases hQ : Q a <;> simp_all <;> omega

/-- The counter after the events of the head coordinate. -/
theorem cntOf_step (G : List frPathSeg) (c : Int) (evs : List (frPathSeg × Bool)) (R : EventMap)
    (h : FrontOK G ((c, evs) :: R)) :
    countEvents (cntOf G ((c, evs) :: R)) evs = cntOf G R := by
  have hlt := frontOK_head_lt G _ R h
  have hc : c ∉ coordsOf R := fun hc => by have := hlt c hc; omega
  have hE := h.2.1 (c, evs) (List.mem_cons_self _ _)
  obtain ⟨-, -, hb, he⟩ := hE
  simp only at hb he
  rw [countEvents_eq, hb, he]
  have key : ∀ f : frPathSeg → Int,
      G.countP (fun q => decide (f q ∉ coordsOf R)) =
        G.countP (fun q => decide (f q ∉ coordsOf ((c, evs) :: R))) +
          G.countP (fun q => decide (f q = c)) := by
    intro f
    rw [← countP_or_disjoint]
    · apply List.countP_congr
      intro q _
      simp only [coordsOf_cons, List.mem_cons, not_or, decide_eq_true_eq, Bool.or_eq_true]
      constructor
      · intro hq
        by_cases hfc : f q = c
        · exact Or.inr hfc
        · exact Or.inl ⟨hfc, hq⟩
      · rintro (⟨-, hq⟩ | hq)
        · exact hq
        · rw [hq]; exact hc
    · intro q _
      simp only [coordsOf_cons, List.mem_cons, not_or, decide_eq_true_eq]
      rintro ⟨⟨h1, -⟩, h2⟩
      exact h1 h2
  unfold cntOf
  rw [key (fun q => q.beginCoord), key (fun q => q.endCoord)]
  push_cast
  ring

/-- A merged segment that starts where `p` starts and ends where `q` ends lies in
the group of `p` and `q`. -/
theorem merged_key (key : SegKey) (p q mo : frPathSeg) (hp : p.key = key) (hq : q.key = key)
    (hlt : p.beginCoord < q.endCoord) (hl : mo.layerNum = key.1)
    (hb : mo.beginPt = p.beginPt) (he : mo.endPt = q.endPt) :
    mo.key = key ∧ mo.beginCoord = p.beginCoord ∧ mo.endCoord = q.endCoord := by
  obtain ⟨ly, ih, tr⟩ := key
  simp only [frPathSeg.key, Prod.mk.injEq] at hp hq
  obtain ⟨hp1, hp2, hp3⟩ := hp
  obtain ⟨hq1, hq2, hq3⟩ := hq
  simp only at hl
  cases ih with
  | true =>
    simp only [frPathSeg.beginCoord, frPathSeg.endCoord, frPathSeg.trackLoc, hp2, hq2,
      if_true] at hlt hp3 hq3 ⊢
    have hmo : mo.isH = true := by
      simp only [frPathSeg.isH, hb, he, Bool.not_eq_true', decide_eq_false_iff_not]
      omega
    simp only [frPathSeg.key, frPathSeg.beginCoord, frPathSeg.endCoord, frPathSeg.trackLoc, hmo,
      if_true, hl, hb, he, hp3]
    exact ⟨trivial, trivial, trivial⟩
  | false =>
    have hpx : p.beginPt.x = p.endPt.x := by
      simpa [frPathSeg.isH] using hp2
    have hqx : q.beginPt.x = q.endPt.x := by
      simpa [frPathSeg.isH] using hq2
    simp only [frPathSeg.beginCoord, frPathSeg.endCoord, frPathSeg.trackLoc, hp2, hq2,
      Bool.false_eq_true, if_false] at hlt hp3 hq3 ⊢
    have hmo : mo.isH = false := by
      simp only [frPathSeg.isH, hb, he, Bool.not_eq_false', decide_eq_true_eq]
      omega
    simp only [frPathSeg.key, frPathSeg.beginCoord, frPathSeg.endCoord, frPathSeg.trackLoc, hmo,
      Bool.false_eq_true, if_false, hl, hb, he, hp3]
    exact ⟨trivial, trivial, trivial⟩



theorem mergeStep_open (key : SegKey) (st : MergeLoop) (m : MergedPathSegs) (c : Int)
    (first : frPathSeg × Bool) (rest : List (frPathSeg × Bool))
    (h1 : st.hasSeg = false) (h2 : 0 < countEvents st.cnt (first :: rest)) :
    ∃ st1 p0, mergeStep key (st, m) (c, first :: rest) = some (st1, m) ∧ st1.hasSeg = true ∧
      st1.cnt = countEvents st.cnt (first :: rest) ∧
      st1.newPathSeg = some p0 ∧ p0.layerNum = first.1.layerNum ∧
      p0.beginPt = first.1.beginPt := by
  simp only [mergeStep, h1, Bool.not_false, Bool.true_and, decide_eq_true_eq, h2, if_true]
  simp only [(openLoop_fields _ _).2.2, (openLoop_fields _ _).2.1, Option.map_some']
  exact ⟨_, _, rfl, rfl, rfl, rfl, rfl, rfl⟩

theorem mergeStep_close (key : SegKey) (st : MergeLoop) (m : MergedPathSegs) (c : Int)
    (evs : List (frPathSeg × Bool)) (p0 : frPathSeg)
    (h1 : st.hasSeg = true) (h2 : countEvents st.cnt evs = 0) (h3 : st.newPathSeg = some p0) :
    ∃ st1 q, mergeStep key (st, m) (c, evs) = (pushMerged m key q).map (fun m1 => (st1, m1)) ∧
      st1.hasSeg = false ∧ st1.cnt = 0 ∧ q.layerNum = p0.layerNum ∧ q.beginPt = p0.beginPt ∧
      ((q.endPt = p0.endPt ∧ ∀ q2, (q2, false) ∉ evs) ∨
        ∃ q2, (q2, false) ∈ evs ∧ q.endPt = q2.endPt) := by
  simp only [mergeStep, h1, Bool.not_true, Bool.false_and, h2, lt_self_iff_false,
    decide_False, Bool.false_eq_true, if_false, Bool.true_and, decide_True, if_true, h3]
  refine ⟨_, _, rfl, rfl, ?_, rfl, ?_, ?_⟩
  · simp only
    rw [(closeLoop_fields _ _).2.1]
  · simp only
    rw [(closeLoop_fields _ _).2.2.2]
  · simp only
    exact closeLoop_endPt evs _

theorem mergeStep_keep (key : SegKey) (st : MergeLoop) (m : MergedPathSegs) (c : Int)
    (evs : List (frPathSeg × Bool))
    (h1 : ¬ (st.hasSeg = false ∧ 0 < countEvents st.cnt evs))
    (h2 : ¬ (st.hasSeg = true ∧ countEvents st.cnt evs = 0)) :
    mergeStep key (st, m) (c, evs) = some ({ st with cnt := countEvents st.cnt evs }, m) := by
  unfold mergeStep
  simp only
  rw [if_neg, if_neg]
  · simpa using h2
  · simpa using h1



theorem mergeStep_inv (G : List frPathSeg) (key : SegKey)
    (hG : ∀ p ∈ G, p.key = key ∧ p.beginCoord < p.endCoord)
    (c : Int) (evs : List (frPathSeg × Bool)) (R : EventMap) (st : MergeLoop)
    (m : MergedPathSegs)
    (hF : FrontOK G ((c, evs) :: R))
    (hI : SweepInv G key ((c, evs) :: R) st (mergedGroup m key))
    (hr : layerInRange m.length key.1 = true) (hs : TracksSorted m) :
    ∃ st1 m1, mergeStep key (st, m) (c, evs) = some (st1, m1) ∧
      SweepInv G key R st1 (mergedGroup m1 key) ∧ m1.length = m.length ∧ TracksSorted m1 ∧
      ∀ k1, k1 ≠ key → mergedGroup m1 k1 = mergedGroup m k1 := by
  have hlt : ∀ q ∈ G, q.beginCoord < q.endCoord := fun q hq => (hG q hq).2
  have hFR := frontOK_tail G _ R hF
  have hcR : ∀ c1 ∈ coordsOf R, c < c1 := frontOK_head_lt G _ R hF
  have hcn : c ∉ coordsOf R := fun hc => by have := hcR c hc; omega
  obtain ⟨hcnt, hpw, hout, hstate⟩ := hI
  have hcnt1 : countEvents st.cnt evs = cntOf G R := by rw [hcnt]; exact cntOf_step G c evs R hF
  obtain ⟨hEb, hEe, -, -⟩ := hF.2.1 (c, evs) (List.mem_cons_self _ _)
  simp only at hEb hEe
  have hcmem : c ∈ coordsOf ((c, evs) :: R) := by simp [coordsOf]
  -- an endpoint finished after this step was finished before, or lies at `c`
  have hdone : ∀ v : Int, v ∉ coordsOf R → v = c ∨ v ∉ coordsOf ((c, evs) :: R) := by
    intro v hv
    by_cases hvc : v = c
    · exact Or.inl hvc
    · right; simp only [coordsOf_cons, List.mem_cons, not_or]; exact ⟨hvc, hv⟩
  have hdone2 : ∀ v : Int, v ∉ coordsOf ((c, evs) :: R) → v ∉ coordsOf R := by
    intro v hv hv2
    exact hv (by simp only [coordsOf_cons, List.mem_cons]; exact Or.inr hv2)
  have hbl : ∀ q ∈ G, q.beginCoord ∉ coordsOf ((c, evs) :: R) → q.beginCoord < c :=
    fun q hq h => (frontOK_lt G _ hF q hq).1 h c hcmem
  have hel : ∀ q ∈ G, q.endCoord ∉ coordsOf ((c, evs) :: R) → q.endCoord < c :=
    fun q hq h => (frontOK_lt G _ hF q hq).2 h c hcmem
  have hble : ∀ q ∈ G, q.beginCoord ∉ coordsOf R → q.beginCoord ≤ c := by
    intro q hq h
    rcases hdone _ h with h1 | h1
    · omega
    · have := hbl q hq h1; omega
  have hele : ∀ q ∈ G, q.endCoord ∉ coordsOf R → q.endCoord ≤ c := by
    intro q hq h
    rcases hdone _ h with h1 | h1
    · omega
    · have := hel q hq h1; omega
  have hout1 : ∀ mo ∈ mergedGroup m key, GoodOut G key mo ∧ ∀ c1 ∈ coordsOf R, mo.endCoord < c1 := by
    intro mo hmo
    refine ⟨(hout mo hmo).1, fun c1 hc1 => (hout mo hmo).2 c1 ?_⟩
    simp only [coordsOf_cons, List.mem_cons]; exact Or.inr hc1
  by_cases hopen : st.hasSeg = false ∧ 0 < countEvents st.cnt evs
  · -- a merged segment begins at `c`
    obtain ⟨hhs, hpos⟩ := hopen
    rcases hstate with ⟨-, hz, hcl⟩ | ⟨hhs2, -⟩
    swap
    · rw [hhs] at hhs2; cases hhs2
    rw [hcnt] at hz
    have hzero := cntOf_zero G _ hF hlt hz
    rw [hcnt1] at hpos
    obtain ⟨q0, hq0, hq0b, hq0e⟩ := cntOf_pos G R hFR hlt hpos
    have hnoend : ∀ q ∈ G, q.endCoord ≠ c := by
      intro q hq he
      have h1 : q.beginCoord ∉ coordsOf ((c, evs) :: R) := by
        intro hb
        simp only [coordsOf_cons, List.mem_cons] at hb
        have := hlt q hq
        rcases hb with hb | hb
        · omega
        · have := hcR _ hb; omega
      exact hzero q hq h1 (by rw [he]; exact hcmem)
    have hq0c : q0.beginCoord = c := by
      rcases hdone _ hq0b with h | h
      · exact h
      · exact absurd (hdone2 _ (hzero q0 hq0 h)) (fun h2 => h2 hq0e)
    cases hevs : evs with
    | nil =>
      have := (hEb q0).mpr ⟨hq0, hq0c⟩
      rw [hevs] at this; cases this
    | cons first rest =>
      obtain ⟨p, isB⟩ := first
      have hfirst : (p, isB) ∈ evs := by rw [hevs]; exact List.mem_cons_self _ _
      cases isB with
      | false => exact absurd ((hEe p).mp hfirst).2 (hnoend p ((hEe p).mp hfirst).1)
      | true =>
        obtain ⟨hpG, hpc⟩ := (hEb p).mp hfirst
        rw [← hcnt1, hevs] at hpos
        obtain ⟨st1, p0, hstep, h1, h2, h3, h4, h5⟩ :=
          mergeStep_open key st m c (p, true) rest hhs hpos
        refine ⟨st1, m, hstep, ⟨?_, hpw, hout1, Or.inr ⟨h1, ?_, p0, p, h3, ?_, hpG, h5, ?_, ?_, ?_, ?_⟩⟩,
          rfl, hs, fun _ _ => rfl⟩
        · rw [h2, ← hevs, hcnt1]
        · rw [h2]; exact hpos
        · rw [h4]; have := (hG p hpG).1; rw [← this]; rfl
        · rw [hpc]; exact hcn
        · intro q hq hqb
          rcases hdone _ hqb with h | h
          · right; omega
          · left; exact hcl q hq h
        · intro x hx1 hx2
          exact ⟨q0, hq0, by omega, hx2 _ hq0e⟩
        · intro mo hmo
          rw [hpc]; exact (hout mo hmo).2 c hcmem
  · by_cases hclose : st.hasSeg = true ∧ countEvents st.cnt evs = 0
    · -- the merged segment ends at `c`
      obtain ⟨hhs, hz⟩ := hclose
      rcases hstate with ⟨hhs2, -⟩ | ⟨-, hpos, p0, p, hnp, hp0l, hpG, hp0b, hpd, hstart, hcov, hsep⟩
      · rw [hhs] at hhs2; cases hhs2
      rw [hcnt] at hpos
      rw [hcnt1] at hz
      have hzero := cntOf_zero G R hFR hlt hz
      obtain ⟨q1, hq1, hq1b, hq1e⟩ := cntOf_pos G _ hF hlt hpos
      have hq1c : q1.endCoord = c := by
        have := hzero q1 hq1 (hdone2 _ hq1b)
        simp only [coordsOf_cons, List.mem_cons] at hq1e
        rcases hq1e with h | h
        · exact h
        · exact absurd h this
      have hend1 : (q1, false) ∈ evs := (hEe q1).mpr ⟨hq1, hq1c⟩
      rw [← hcnt1] at hz
      obtain ⟨st1, mo, hstep, h1, h2, h3, h4, h5⟩ := mergeStep_close key st m c evs p0 hhs hz hnp
      rcases h5 with ⟨-, hno⟩ | ⟨q2, hq2, hmoe⟩
      · exact absurd hend1 (hno q1)
      obtain ⟨hq2G, hq2c⟩ := (hEe q2).mp hq2
      have hpc : p.beginCoord < c := hbl p hpG hpd
      obtain ⟨hk, hkb, hke⟩ := merged_key key p q2 mo (hG p hpG).1 (hG q2 hq2G).1
        (by rw [hq2c]; exact hpc) (by rw [h3, hp0l]) (by rw [h4, hp0b]) hmoe
      obtain ⟨m1, hpush, hlen, hsort, hgrp, hoth⟩ := pushMerged_spec m key mo hr hs
      refine ⟨st1, m1, by rw [hstep, hpush]; rfl, ⟨?_, ?_, ?_, Or.inl ⟨h1, h2, ?_⟩⟩,
        hlen, hsort, hoth⟩
      · rw [h2, ← hcnt1, hz]
      · rw [hgrp]
        refine List.pairwise_append.mpr ⟨hpw, List.pairwise_singleton _ _, ?_⟩
        intro a ha b hb
        rw [List.mem_singleton] at hb
        rw [hb, hkb]; exact hsep a ha
      · rw [hgrp]
        intro mo1 hmo1
        rcases List.mem_append.mp hmo1 with h | h
        · exact hout1 mo1 h
        · rw [List.mem_singleton] at h
          subst h
          refine ⟨⟨hk, by rw [hkb, hke, hq2c]; exact hpc, ?_, ⟨p, hpG, by rw [h4, hp0b], hkb⟩,
            ⟨q2, hq2G, hmoe, hke⟩⟩, ?_⟩
          · intro x hx1 hx2
            rw [hkb] at hx1
            rw [hke, hq2c] at hx2
            apply hcov x hx1
            intro c1 hc1
            simp only [coordsOf_cons, List.mem_cons] at hc1
            rcases hc1 with rfl | hc1
            · exact hx2
            · have := hcR c1 hc1; omega
          · intro c1 hc1
            rw [hke, hq2c]; exact hcR c1 hc1
      · rw [hgrp]
        intro q hq hqb
        have hqe : q.endCoord ≤ c := hele q hq (hzero q hq hqb)
        have hqlt := hlt q hq
        rcases hdone _ hqb with h | h
        · omega
        · rcases hstart q hq h with ⟨mo1, hmo1, hc1⟩ | h2
          · exact ⟨mo1, List.mem_append_left _ hmo1, hc1⟩
          · refine ⟨mo, List.mem_append_right _ (List.mem_singleton.mpr rfl), ?_, ?_⟩
            · rw [hkb]; exact h2
            · rw [hke, hq2c]; exact hqe
    · -- nothing begins or ends
      have hstep := mergeStep_keep key st m c evs hopen hclose
      have hnn := cntOf_nonneg G R hFR hlt
      refine ⟨_, m, hstep, ⟨hcnt1, hpw, hout1, ?_⟩, rfl, hs, fun _ _ => rfl⟩
      rcases hstate with ⟨hhs, -, hcl⟩ | ⟨hhs, -, p0, p, hnp, hp0l, hpG, hp0b, hpd, hstart, hcov, hsep⟩
      · left
        have hz : cntOf G R = 0 := by
          by_contra hne
          apply hopen
          refine ⟨hhs, ?_⟩
          rw [hcnt1]; omega
        have hzero := cntOf_zero G R hFR hlt hz
        refine ⟨hhs, by simp only; rw [hcnt1, hz], ?_⟩
        intro q hq hqb
        have hqe : q.endCoord ≤ c := hele q hq (hzero q hq hqb)
        have hqlt := hlt q hq
        rcases hdone _ hqb with h | h
        · omega
        · exact hcl q hq h
      · right
        have hpos : 0 < cntOf G R := by
          by_contra hne
          apply hclose
          refine ⟨hhs, ?_⟩
          rw [hcnt1]; omega
        obtain ⟨q0, hq0, hq0b, hq0e⟩ := cntOf_pos G R hFR hlt hpos
        refine ⟨hhs, by simp only; rw [hcnt1]; exact hpos, p0, p, hnp, hp0l, hpG, hp0b,
          hdone2 _ hpd, ?_, ?_, hsep⟩
        · intro q hq hqb
          rcases hdone _ hqb with h | h
          · right; have := hbl p hpG hpd; omega
          · exact hstart q hq h
        · intro x hx1 hx2
          by_cases hxc : x < c
          · apply hcov x hx1
            intro c1 hc1
            simp only [coordsOf_cons, List.mem_cons] at hc1
            rcases hc1 with rfl | hc1
            · exact hxc
            · exact hx2 c1 hc1
          · have := hble q0 hq0 hq0b
            exact ⟨q0, hq0, by omega, hx2 _ hq0e⟩

theorem mergeSweep_inv (G : List frPathSeg) (key : SegKey)
    (hG : ∀ p ∈ G, p.key = key ∧ p.beginCoord < p.endCoord) (R : EventMap) :
    ∀ (st : MergeLoop) (m : MergedPathSegs), FrontOK G R →
      SweepInv G key R st (mergedGroup m key) → layerInRange m.length key.1 = true →
      TracksSorted m →
      ∃ st1 m1, mergeSweep key (st, m) R = some (st1, m1) ∧
        SweepInv G key [] st1 (mergedGroup m1 key) ∧ m1.length = m.length ∧ TracksSorted m1 ∧
        ∀ k1, k1 ≠ key → mergedGroup m1 k1 = mergedGroup m k1 := by
  induction R with
  | nil =>
    intro st m _ hI _ hs
    exact ⟨st, m, rfl, hI, rfl, hs, fun _ _ => rfl⟩
  | cons e R ih =>
    intro st m hF hI hr hs
    obtain ⟨c, evs⟩ := e
    obtain ⟨st1, m1, hstep, hI1, hlen1, hs1, hoth1⟩ := mergeStep_inv G key hG c evs R st m hF hI hr hs
    obtain ⟨st2, m2, hsw, hI2, hlen2, hs2, hoth2⟩ :=
      ih st1 m1 (frontOK_tail G _ R hF) hI1 (by rw [hlen1]; exact hr) hs1
    refine ⟨st2, m2, ?_, hI2, by rw [hlen2, hlen1], hs2, ?_⟩
    · rw [mergeSweep, hstep]; exact hsw
    · intro k1 hk1; rw [hoth2 k1 hk1, hoth1 k1 hk1]

theorem sweepInv_final (G : List frPathSeg) (key : SegKey) (st : MergeLoop) (O : List frPathSeg)
    (h : SweepInv G key [] st O) : GroupOK G key O := by
  obtain ⟨hcnt, hpw, hout, hstate⟩ := h
  have hz : cntOf G [] = 0 := by simp [cntOf, coordsOf]
  refine ⟨hpw, fun m hm => (hout m hm).1, ?_⟩
  rcases hstate with ⟨-, -, hcl⟩ | ⟨-, hpos, -⟩
  · intro q hq; exact hcl q hq (by simp [coordsOf])
  · rw [hcnt, hz] at hpos; exact absurd hpos (lt_irrefl _)

theorem sweepInv_init (G : List frPathSeg) (key : SegKey) (R : EventMap)
    (h : ∀ q ∈ G, q.beginCoord ∈ coordsOf R ∧ q.endCoord ∈ coordsOf R) :
    SweepInv G key R MergeLoop.init [] := by
  have hz : cntOf G R = 0 := by
    unfold cntOf
    have h1 : G.countP (fun q => decide (q.beginCoord ∉ coordsOf R)) = 0 := by
      rw [List.countP_eq_zero]; intro q hq; simp [(h q hq).1]
    have h2 : G.countP (fun q => decide (q.endCoord ∉ coordsOf R)) = 0 := by
      rw [List.countP_eq_zero]; intro q hq; simp [(h q hq).2]
    rw [h1, h2]; rfl
  refine ⟨by rw [hz]; rfl, List.Pairwise.nil, by simp, Or.inl ⟨rfl, rfl, ?_⟩⟩
  intro q hq hb
  exact absurd (h q hq).1 hb

theorem innerOK_nil : InnerOK [] [] := by
  refine ⟨List.Pairwise.nil, ?_, ?_⟩ <;> simp

theorem innerOK_push (EVk : List (frPathSeg × Bool)) (em : EventMap) (e : frPathSeg × Bool)
    (h : InnerOK EVk em) :
    InnerOK (EVk ++ [e]) (mapModify coordLt [] (fun v => v ++ [e]) em (evCoord e)) := by
  obtain ⟨hs, hent, hcov⟩ := h
  refine ⟨mapModify_sorted coordLt_strict _ _ em hs _, ?_, ?_⟩
  · intro c evs hmem
    rcases (mem_mapModify coordLt_strict _ _ em hs _ (c, evs)).mp hmem with ⟨hne, hm⟩ | ⟨hc, hv⟩
    · simp only at hne
      obtain ⟨h1, h2⟩ := hent c evs hm
      refine ⟨?_, h2⟩
      rw [List.filter_append, ← h1]
      have : decide (evCoord e = c) = false := by simpa using fun h => hne h.symm
      simp [List.filter_cons, this]
    · simp only at hc hv
      subst hc
      refine ⟨?_, by rw [hv]; simp⟩
      rw [hv, List.filter_append]
      have hself : List.filter (fun e1 => decide (evCoord e1 = evCoord e)) [e] = [e] := by simp
      rw [hself]
      congr 1
      cases hf : mapFind coordLt em (evCoord e) with
      | some old =>
        simp only [Option.getD_some]
        exact (hent _ old ((mapFind_eq_some_iff coordLt_strict em hs _ old).mp hf)).1
      | none =>
        simp only [Option.getD_none]
        have hnk := (mapFind_eq_none_iff coordLt_strict em hs _).mp hf
        symm
        rw [List.filter_eq_nil_iff]
        intro e1 he1 hc1
        simp only [decide_eq_true_eq] at hc1
        exact hnk (hc1 ▸ hcov e1 he1)
  · intro e1 he1
    have hkeys : ∀ c, c ∈ em.map Prod.fst ∨ c = evCoord e →
        c ∈ (mapModify coordLt [] (fun v => v ++ [e]) em (evCoord e)).map Prod.fst := by
      intro c hc
      by_cases hce : c = evCoord e
      · exact List.mem_map.mpr ⟨(c, _),
          (mem_mapModify coordLt_strict _ _ em hs _ _).mpr (Or.inr ⟨hce, rfl⟩), rfl⟩
      · rcases hc with hc | hc
        · obtain ⟨x, hx, rfl⟩ := List.mem_map.mp hc
          exact List.mem_map.mpr ⟨x,
            (mem_mapModify coordLt_strict _ _ em hs _ _).mpr (Or.inl ⟨hce, hx⟩), rfl⟩
        · exact absurd hc hce
    rcases List.mem_append.mp he1 with h1 | h1
    · exact hkeys _ (Or.inl (hcov e1 h1))
    · rw [List.mem_singleton] at h1
      subst h1
      exact hkeys _ (Or.inr rfl)

theorem mapOK_nil : MapOK [] [] := by
  refine ⟨List.Pairwise.nil, ?_, ?_, ?_⟩ <;> simp

theorem mapOK_push (EV : List (frPathSeg × Bool)) (M : PathSegMergeMap) (e : frPathSeg × Bool)
    (h : MapOK EV M) : MapOK (EV ++ [e]) (pushEv M e) := by
  obtain ⟨hs, hent, hcov, hex⟩ := h
  unfold pushEv pushEvent
  refine ⟨mapModify_sorted segKeyLt_strict _ _ M hs _, ?_, ?_, ?_⟩
  rotate_left 2
  · intro k em hmem
    rcases (mem_mapModify segKeyLt_strict _ _ M hs _ (k, em)).mp hmem with ⟨-, hm⟩ | ⟨hc, -⟩
    · obtain ⟨e1, he1, hk1⟩ := hex k em hm
      exact ⟨e1, List.mem_append_left _ he1, hk1⟩
    · exact ⟨e, List.mem_append_right _ (List.mem_singleton.mpr rfl), hc.symm⟩
  · intro k em hmem
    rcases (mem_mapModify segKeyLt_strict _ _ M hs _ (k, em)).mp hmem with ⟨hne, hm⟩ | ⟨hc, hv⟩
    · simp only at hne
      have := hent k em hm
      rw [List.filter_append]
      have hk : decide (e.1.key = k) = false := by simpa using fun h => hne h.symm
      simpa [List.filter_cons, hk] using this
    · simp only at hc hv
      subst hc
      rw [hv, List.filter_append]
      have hself : List.filter (fun e1 => decide (e1.1.key = e.1.key)) [e] = [e] := by simp
      rw [hself]
      apply innerOK_push
      cases hf : mapFind segKeyLt M e.1.key with
      | some old =>
        simp only [Option.getD_some]
        exact hent _ old ((mapFind_eq_some_iff segKeyLt_strict M hs _ old).mp hf)
      | none =>
        simp only [Option.getD_none]
        have hnk := (mapFind_eq_none_iff segKeyLt_strict M hs _).mp hf
        have : List.filter (fun e1 => decide (e1.1.key = e.1.key)) EV = [] := by
          rw [List.filter_eq_nil_iff]
          intro e1 he1 hc1
          simp only [decide_eq_true_eq] at hc1
          exact hnk (hc1 ▸ hcov e1 he1)
        rw [this]
        exact innerOK_nil
  · intro e1 he1
    have hkeys : ∀ k, k ∈ M.map Prod.fst ∨ k = e.1.key →
        k ∈ (mapModify segKeyLt []
          (fun em => mapModify coordLt [] (fun v => v ++ [e]) em (evCoord e)) M e.1.key).map
            Prod.fst := by
      intro k hk
      by_cases hke : k = e.1.key
      · exact List.mem_map.mpr ⟨(k, _),
          (mem_mapModify segKeyLt_strict _ _ M hs _ _).mpr (Or.inr ⟨hke, rfl⟩), rfl⟩
      · rcases hk with hk | hk
        · obtain ⟨x, hx, rfl⟩ := List.mem_map.mp hk
          exact List.mem_map.mpr ⟨x,
            (mem_mapModify segKeyLt_strict _ _ M hs _ _).mpr (Or.inl ⟨hke, hx⟩), rfl⟩
        · exact absurd hk hke
    rcases List.mem_append.mp he1 with h1 | h1
    · exact hkeys _ (Or.inl (hcov e1 h1))
    · rw [List.mem_singleton] at h1
      subst h1
      exact hkeys _ (Or.inr rfl)

theorem mapOK_foldl (evs : List (frPathSeg × Bool)) : ∀ (EV : List (frPathSeg × Bool))
    (M : PathSegMergeMap), MapOK EV M → MapOK (EV ++ evs) (evs.foldl pushEv M) := by
  induction evs with
  | nil => intro EV M h; simpa using h
  | cons e evs ih =>
    intro EV M h
    have := ih (EV ++ [e]) (pushEv M e) (mapOK_push EV M e h)
    simpa using this

theorem buildPathSegMergeMap_eq (connFigs : List frConnFig) :
    buildPathSegMergeMap connFigs = (eventsOfSegs (segsOf connFigs)).foldl pushEv [] := by
  unfold buildPathSegMergeMap
  generalize ([] : PathSegMergeMap) = M
  induction connFigs generalizing M with
  | nil => rfl
  | cons c cs ih =>
    rw [List.foldl_cons, ih]
    cases c with
    | pathSeg p =>
      by_cases hp : p.beginPt = p.endPt
      · simp [segsOf, eventsOfSegs, addPathSeg, hp]
      · simp [segsOf, eventsOfSegs, addPathSeg, hp, pushEv, evCoord, List.flatMap_cons]
    | via v => simp [segsOf, eventsOfSegs, List.flatMap_cons]
    | patchWire i => simp [segsOf, eventsOfSegs, List.flatMap_cons]

theorem buildPathSegMergeMap_ok (connFigs : List frConnFig) :
    MapOK (eventsOfSegs (segsOf connFigs)) (buildPathSegMergeMap connFigs) := by
  rw [buildPathSegMergeMap_eq]
  have := mapOK_foldl (eventsOfSegs (segsOf connFigs)) [] [] mapOK_nil
  simpa using this

theorem eventsOfSegs_filter (S : List frPathSeg) (k : SegKey) :
    (eventsOfSegs S).filter (fun e => decide (e.1.key = k)) =
      eventsOfSegs (S.filter (fun p => decide (p.key = k))) := by
  induction S with
  | nil => rfl
  | cons p S ih =>
    have h1 : eventsOfSegs (p :: S) = (p, true) :: (p, false) :: eventsOfSegs S := by
      simp [eventsOfSegs, List.flatMap_cons]
    rw [h1]
    by_cases hp : p.key = k
    · simp only [List.filter_cons, hp, decide_True, if_true, ih]
      simp [eventsOfSegs, List.flatMap_cons]
    · simp only [List.filter_cons, hp, decide_False, Bool.false_eq_true, if_false, ih]

theorem mem_eventsOfSegs (G : List frPathSeg) (q : frPathSeg) (b : Bool) :
    (q, b) ∈ eventsOfSegs G ↔ q ∈ G := by
  simp only [eventsOfSegs, List.mem_flatMap, List.mem_cons, Prod.mk.injEq, List.mem_singleton,
    List.not_mem_nil, or_false]
  constructor
  · rintro ⟨p, hp, ⟨rfl, -⟩ | ⟨rfl, -⟩⟩ <;> exact hp
  · intro hq
    refine ⟨q, hq, ?_⟩
    cases b <;> simp

theorem evsOK_filter (G : List frPathSeg) (c : Int) :
    EvsOK G c ((eventsOfSegs G).filter (fun e => decide (evCoord e = c))) := by
  refine ⟨?_, ?_, ?_, ?_⟩
  · intro q
    simp [List.mem_filter, mem_eventsOfSegs, evCoord]
  · intro q
    simp [List.mem_filter, mem_eventsOfSegs, evCoord]
  · induction G with
    | nil => rfl
    | cons p G ih =>
      have h1 : eventsOfSegs (p :: G) = (p, true) :: (p, false) :: eventsOfSegs G := by
        simp [eventsOfSegs, List.flatMap_cons]
      have e1 : evCoord (p, true) = p.beginCoord := rfl
      have e2 : evCoord (p, false) = p.endCoord := rfl
      rw [h1]
      simp only [List.filter_cons, e1, e2]
      by_cases hb : p.beginCoord = c <;> by_cases he : p.endCoord = c <;>
        simp [hb, he, ih, List.countP_cons]
  · induction G with
    | nil => rfl
    | cons p G ih =>
      have h1 : eventsOfSegs (p :: G) = (p, true) :: (p, false) :: eventsOfSegs G := by
        simp [eventsOfSegs, List.flatMap_cons]
      have e1 : evCoord (p, true) = p.beginCoord := rfl
      have e2 : evCoord (p, false) = p.endCoord := rfl
      rw [h1]
      simp only [List.filter_cons, e1, e2]
      by_cases hb : p.beginCoord = c <;> by_cases he : p.endCoord = c <;>
        simp [hb, he, ih, List.countP_cons]

theorem frontOK_of_innerOK (G : List frPathSeg) (em : EventMap)
    (h : InnerOK (eventsOfSegs G) em) :
    FrontOK G em ∧ ∀ q ∈ G, q.beginCoord ∈ coordsOf em ∧ q.endCoord ∈ coordsOf em := by
  obtain ⟨hs, hent, hcov⟩ := h
  have hall : ∀ q ∈ G, q.beginCoord ∈ coordsOf em ∧ q.endCoord ∈ coordsOf em := by
    intro q hq
    have h1 := hcov (q, true) ((mem_eventsOfSegs G q true).mpr hq)
    have h2 := hcov (q, false) ((mem_eventsOfSegs G q false).mpr hq)
    exact ⟨h1, h2⟩
  refine ⟨⟨?_, ?_, ?_⟩, hall⟩
  · refine List.Pairwise.imp ?_ hs
    intro a b hab
    simpa [coordLt] using hab
  · intro e he
    obtain ⟨c, evs⟩ := e
    rw [(hent c evs he).1]
    exact evsOK_filter G c
  · intro q hq
    exact ⟨Or.inl (hall q hq).1, Or.inl (hall q hq).2⟩

theorem mergeGroups_inv (Gof : SegKey → List frPathSeg)
    (hG : ∀ k, ∀ p ∈ Gof k, p.key = k ∧ p.beginCoord < p.endCoord) (M : PathSegMergeMap) :
    ∀ (m : MergedPathSegs), MapSorted segKeyLt M →
      (∀ k em, (k, em) ∈ M → InnerOK (eventsOfSegs (Gof k)) em ∧
        layerInRange m.length k.1 = true ∧ mergedGroup m k = []) →
      TracksSorted m →
      ∃ m1, mergeGroups m M = some m1 ∧ m1.length = m.length ∧ TracksSorted m1 ∧
        (∀ k em, (k, em) ∈ M → GroupOK (Gof k) k (mergedGroup m1 k)) ∧
        (∀ k, k ∉ M.map Prod.fst → mergedGroup m1 k = mergedGroup m k) := by
  induction M with
  | nil =>
    intro m _ _ hs
    exact ⟨m, rfl, rfl, hs, by simp, fun _ _ => rfl⟩
  | cons e M ih =>
    intro m hsM hent hs
    obtain ⟨k, em⟩ := e
    obtain ⟨hin, hr, hempty⟩ := hent k em (List.mem_cons_self _ _)
    obtain ⟨hF, hall⟩ := frontOK_of_innerOK (Gof k) em hin
    have hI : SweepInv (Gof k) k em MergeLoop.init (mergedGroup m k) := by
      rw [hempty]; exact sweepInv_init (Gof k) k em hall
    obtain ⟨st1, m1, hsw, hI1, hlen1, hs1, hoth1⟩ :=
      mergeSweep_inv (Gof k) k (hG k) em MergeLoop.init m hF hI hr hs
    have hne : ∀ k1 em1, (k1, em1) ∈ M → k1 ≠ k := by
      intro k1 em1 hm1 heq
      have := mapSorted_head hsM (k1, em1) hm1
      simp only [heq] at this
      rw [segKeyLt_strict.irrefl] at this; cases this
    obtain ⟨m2, hmg, hlen2, hs2, hok2, hoth2⟩ := ih m1 (mapSorted_tail hsM)
      (by
        intro k1 em1 hm1
        obtain ⟨h1, h2, h3⟩ := hent k1 em1 (List.mem_cons_of_mem _ hm1)
        refine ⟨h1, by rw [hlen1]; exact h2, ?_⟩
        rw [hoth1 k1 (hne k1 em1 hm1)]; exact h3) hs1
    refine ⟨m2, ?_, by rw [hlen2, hlen1], hs2, ?_, ?_⟩
    · rw [mergeGroups, hsw]; exact hmg
    · intro k1 em1 hm1
      rcases List.mem_cons.mp hm1 with heq | hm1
      · simp only [Prod.mk.injEq] at heq
        obtain ⟨rfl, rfl⟩ := heq
        have hnk : k1 ∉ M.map Prod.fst := by
          intro hk
          obtain ⟨x, hx, hxk⟩ := List.mem_map.mp hk
          exact hne x.1 x.2 hx hxk
        rw [hoth2 k1 hnk]
        exact sweepInv_final (Gof k1) k1 st1 _ hI1
      · exact hok2 k1 em1 hm1
    · intro k1 hk1
      simp only [List.map_cons, List.mem_cons, not_or] at hk1
      rw [hoth2 k1 hk1.2, hoth1 k1 hk1.1]

theorem mergedGroup_replicate (n : Nat) (k : SegKey) :
    mergedGroup (List.replicate n (⟨[], []⟩ : LayerSegs)) k = [] := by
  unfold mergedGroup
  split
  · rename_i h
    simp only [layerInRange, List.length_replicate, Bool.and_eq_true, decide_eq_true_eq] at h
    have hn : k.1.toNat < n := by omega
    simp only [List.get?_eq_getElem?, List.getElem?_replicate, hn, if_true]
    cases k.2.1 <;> simp [LayerSegs.at, mapFind]
  · rfl

theorem tracksSorted_replicate (n : Nat) :
    TracksSorted (List.replicate n (⟨[], []⟩ : LayerSegs)) := by
  intro l hl
  rw [List.eq_of_mem_replicate hl]
  exact ⟨List.Pairwise.nil, List.Pairwise.nil⟩

theorem mem_segsOf (connFigs : List frConnFig) (p : frPathSeg) :
    p ∈ segsOf connFigs ↔ frConnFig.pathSeg p ∈ connFigs ∧ p.beginPt ≠ p.endPt := by
  simp only [segsOf, List.mem_flatMap]
  constructor
  · rintro ⟨c, hc, hp⟩
    cases c with
    | pathSeg p1 =>
      by_cases h : p1.beginPt = p1.endPt
      · simp [h] at hp
      · simp only [h, if_false, List.mem_singleton] at hp
        subst hp
        exact ⟨hc, h⟩
    | via v => simp at hp
    | patchWire i => simp at hp
  · rintro ⟨hc, hne⟩
    exact ⟨_, hc, by simp [hne]⟩

theorem mem_groupSegs (connFigs : List frConnFig) (key : SegKey) (p : frPathSeg) :
    p ∈ groupSegs connFigs key ↔
      frConnFig.pathSeg p ∈ connFigs ∧ p.beginPt ≠ p.endPt ∧ p.key = key := by
  simp only [groupSegs, List.mem_filter, mem_segsOf, decide_eq_true_eq]
  tauto

theorem beginPt_ne_of_lt (p : frPathSeg) (h : p.beginCoord < p.endCoord) :
    p.beginPt ≠ p.endPt := by
  intro heq
  simp only [frPathSeg.beginCoord, frPathSeg.endCoord, heq] at h
  split at h <;> omega

theorem groupOK_nil (key : SegKey) : GroupOK [] key [] := by
  refine ⟨List.Pairwise.nil, ?_, ?_⟩ <;> simp

/-- The merge pass returns, and every group of its result is as `GroupOK` says. -/
theorem mergePass_groupOK (tech : WriterTech) (connFigs : List frConnFig)
    (hlay : ∀ p, frConnFig.pathSeg p ∈ connFigs →
      0 ≤ p.layerNum ∧ p.layerNum < (tech.numLayers : Int))
    (hlt : ∀ p, frConnFig.pathSeg p ∈ connFigs → p.beginCoord < p.endCoord) :
    ∃ merged, mergePass tech connFigs = some merged ∧ merged.length = tech.numLayers ∧
      TracksSorted merged ∧
      ∀ key, GroupOK (groupSegs connFigs key) key (mergedGroup merged key) := by
  obtain ⟨hsM, hent, hcov, hex⟩ := buildPathSegMergeMap_ok connFigs
  have hG : ∀ k, ∀ p ∈ groupSegs connFigs k, p.key = k ∧ p.beginCoord < p.endCoord := by
    intro k p hp
    obtain ⟨h1, -, h3⟩ := (mem_groupSegs connFigs k p).mp hp
    exact ⟨h3, hlt p h1⟩
  obtain ⟨m1, hmg, hlen, hs1, hok, hoth⟩ := mergeGroups_inv (groupSegs connFigs) hG
    (buildPathSegMergeMap connFigs) (List.replicate tech.numLayers ⟨[], []⟩) hsM
    (by
      intro k em hm
      refine ⟨?_, ?_, mergedGroup_replicate _ _⟩
      · have := hent k em hm
        rw [eventsOfSegs_filter] at this
        exact this
      · obtain ⟨e, he, hk⟩ := hex k em hm
        obtain ⟨q, b⟩ := e
        have hq := (mem_segsOf connFigs q).mp ((mem_eventsOfSegs _ q b).mp he)
        have := hlay q hq.1
        simp only at hk
        rw [← hk]
        simp [layerInRange, frPathSeg.key, this.1, this.2])
    (tracksSorted_replicate _)
  refine ⟨m1, hmg, by rw [hlen]; simp, hs1, ?_⟩
  intro key
  by_cases hk : key ∈ (buildPathSegMergeMap connFigs).map Prod.fst
  · obtain ⟨x, hx, rfl⟩ := List.mem_map.mp hk
    exact hok x.1 x.2 hx
  · rw [hoth key hk, mergedGroup_replicate]
    have : groupSegs connFigs key = [] := by
      rw [List.eq_nil_iff_forall_not_mem]
      intro p hp
      obtain ⟨h1, h2, h3⟩ := (mem_groupSegs connFigs key p).mp hp
      have := hcov (p, true) ((mem_eventsOfSegs _ p true).mpr ((mem_segsOf connFigs p).mpr ⟨h1, h2⟩))
      simp only at this
      rw [h3] at this
      exact hk this
    rw [this]
    exact groupOK_nil key

/-- Two members of a list of pairwise separated segments are equal or separated. -/
theorem pairwise_sep_cases (O : List frPathSeg)
    (h : O.Pairwise (fun a b => a.endCoord < b.beginCoord)) (a b : frPathSeg) (ha : a ∈ O)
    (hb : b ∈ O) : a = b ∨ a.endCoord < b.beginCoord ∨ b.endCoord < a.beginCoord := by
  by_cases hab : a = b
  · exact Or.inl hab
  · right
    have h2 : O.Pairwise (fun a b => a.endCoord < b.beginCoord ∨ b.endCoord < a.beginCoord) :=
      List.Pairwise.imp (fun h => Or.inl h) h
    exact List.Pairwise.forall (fun x y hxy => hxy.symm) h2 ha hb hab

/-- A point of the track that lies on a merged segment lies on an input segment. -/
theorem covered_point (G : List frPathSeg) (key : SegKey) (m : frPathSeg) (hm : GoodOut G key m)
    (t : ℚ) (h1 : (m.beginCoord : ℚ) ≤ t) (h2 : t ≤ (m.endCoord : ℚ)) :
    ∃ p ∈ G, (p.beginCoord : ℚ) ≤ t ∧ t ≤ (p.endCoord : ℚ) := by
  obtain ⟨-, hlt, hcov, -, -⟩ := hm
  by_cases hte : t = (m.endCoord : ℚ)
  · obtain ⟨p, hp, hp1, hp2⟩ := hcov (m.endCoord - 1) (by omega) (by omega)
    refine ⟨p, hp, ?_, ?_⟩
    · rw [hte]
      have : p.beginCoord ≤ m.endCoord := by omega
      exact_mod_cast this
    · rw [hte]
      have : m.endCoord ≤ p.endCoord := by omega
      exact_mod_cast this
  · have hlt2 : t < (m.endCoord : ℚ) := lt_of_le_of_ne h2 hte
    have hf1 : m.beginCoord ≤ ⌊t⌋ := Int.le_floor.mpr h1
    have hf2 : ⌊t⌋ < m.endCoord := Int.floor_lt.mpr hlt2
    obtain ⟨p, hp, hp1, hp2⟩ := hcov ⌊t⌋ hf1 hf2
    refine ⟨p, hp, ?_, ?_⟩
    · have : (p.beginCoord : ℚ) ≤ (⌊t⌋ : ℚ) := by exact_mod_cast hp1
      exact le_trans this (Int.floor_le t)
    · have h3 : ⌊t⌋ + 1 ≤ p.endCoord := by omega
      have h4 : ((⌊t⌋ + 1 : Int) : ℚ) ≤ (p.endCoord : ℚ) := by exact_mod_cast h3
      have h5 : t < (⌊t⌋ : ℚ) + 1 := Int.lt_floor_add_one t
      push_cast at h4
      linarith

/-- C1: for every list of connFigs whose path segments lie on layers of the
technology and have their begin coordinate below their end coordinate, the
merge pass returns, and for every group `(layer, orientation, track)`:
each merged segment lies in the group and has positive length; the merged
segments cover exactly the points of the track that the input segments of the
group cover; two merged segments of the group never overlap or touch (the
earlier one ends strictly before the later one begins); and two input
segments that overlap or abut lie in one merged segment. -/
theorem mergePass_maximal_runs (tech : WriterTech) (connFigs : List frConnFig)
    (hlay : ∀ p, frConnFig.pathSeg p ∈ connFigs →
      0 ≤ p.layerNum ∧ p.layerNum < (tech.numLayers : Int))
    (hlt : ∀ p, frConnFig.pathSeg p ∈ connFigs → p.beginCoord < p.endCoord) :
    ∃ merged, mergePass tech connFigs = some merged ∧
      ∀ key : SegKey,
        (∀ m ∈ mergedGroup merged key, m.key = key ∧ m.beginCoord < m.endCoord) ∧
        (∀ t : ℚ,
          (∃ p, frConnFig.pathSeg p ∈ connFigs ∧ p.key = key ∧
              (p.beginCoord : ℚ) ≤ t ∧ t ≤ (p.endCoord : ℚ)) ↔
          (∃ m ∈ mergedGroup merged key, (m.beginCoord : ℚ) ≤ t ∧ t ≤ (m.endCoord : ℚ))) ∧
        (mergedGroup merged key).Pairwise (fun a b => a.endCoord < b.beginCoord) ∧
        (∀ p q, frConnFig.pathSeg p ∈ connFigs → frConnFig.pathSeg q ∈ connFigs →
          p.key = key → q.key = key →
          q.beginCoord ≤ p.endCoord → p.beginCoord ≤ q.endCoord →
          ∃ m ∈ mergedGroup merged key, Contains m p ∧ Contains m q) := by
  obtain ⟨merged, hmp, -, -, hok⟩ := mergePass_groupOK tech connFigs hlay hlt
  refine ⟨merged, hmp, ?_⟩
  intro key
  obtain ⟨hpw, hgood, hcont⟩ := hok key
  have hmem : ∀ p, frConnFig.pathSeg p ∈ connFigs → p.key = key → p ∈ groupSegs connFigs key :=
    fun p hp hk => (mem_groupSegs connFigs key p).mpr ⟨hp, beginPt_ne_of_lt p (hlt p hp), hk⟩
  refine ⟨fun m hm => ⟨(hgood m hm).1, (hgood m hm).2.1⟩, ?_, hpw, ?_⟩
  · intro t
    constructor
    · rintro ⟨p, hp, hk, h1, h2⟩
      obtain ⟨m, hm, hc1, hc2⟩ := hcont p (hmem p hp hk)
      refine ⟨m, hm, ?_, ?_⟩
      · have : (m.beginCoord : ℚ) ≤ (p.beginCoord : ℚ) := by exact_mod_cast hc1
        linarith
      · have : (p.endCoord : ℚ) ≤ (m.endCoord : ℚ) := by exact_mod_cast hc2
        linarith
    · rintro ⟨m, hm, h1, h2⟩
      obtain ⟨p, hp, h3, h4⟩ := covered_point _ key m (hgood m hm) t h1 h2
      obtain ⟨hp1, -, hp3⟩ := (mem_groupSegs connFigs key p).mp hp
      exact ⟨p, hp1, hp3, h3, h4⟩
  · intro p q hp hq hkp hkq h1 h2
    obtain ⟨m1, hm1, hc1⟩ := hcont p (hmem p hp hkp)
    obtain ⟨m2, hm2, hc2⟩ := hcont q (hmem q hq hkq)
    have hpl := hlt p hp
    have hql := hlt q hq
    rcases pairwise_sep_cases _ hpw m1 m2 hm1 hm2 with h | h | h
    · subst h; exact ⟨m1, hm1, hc1, hc2⟩
    · obtain ⟨a1, a2⟩ := hc1
      obtain ⟨b1, b2⟩ := hc2
      omega
    · obtain ⟨a1, a2⟩ := hc1
      obtain ⟨b1, b2⟩ := hc2
      omega

/-- Witness of `mergePass_maximal_runs`: Scenario A, the segments
`(0,100)-(100,100)` and `(100,100)-(200,100)` on layer 2. -/
theorem mergePass_maximal_runs_witness :
    ∃ merged, mergePass writerTechExample
        [.pathSeg (segExample 2 0 100 100 100), .pathSeg (segExample 2 100 100 200 100)]
        = some merged ∧
      ∀ key : SegKey,
        (∀ m ∈ mergedGroup merged key, m.key = key ∧ m.beginCoord < m.endCoord) ∧
        (∀ t : ℚ,
          (∃ p, frConnFig.pathSeg p ∈
                [frConnFig.pathSeg (segExample 2 0 100 100 100),
                 .pathSeg (segExample 2 100 100 200 100)] ∧ p.key = key ∧
              (p.beginCoord : ℚ) ≤ t ∧ t ≤ (p.endCoord : ℚ)) ↔
          (∃ m ∈ mergedGroup merged key, (m.beginCoord : ℚ) ≤ t ∧ t ≤ (m.endCoord : ℚ))) ∧
        (mergedGroup merged key).Pairwise (fun a b => a.endCoord < b.beginCoord) ∧
        (∀ p q, frConnFig.pathSeg p ∈
              [frConnFig.pathSeg (segExample 2 0 100 100 100),
               .pathSeg (segExample 2 100 100 200 100)] →
          frConnFig.pathSeg q ∈
              [frConnFig.pathSeg (segExample 2 0 100 100 100),
               .pathSeg (segExample 2 100 100 200 100)] →
          p.key = key → q.key = key →
          q.beginCoord ≤ p.endCoord → p.beginCoord ≤ q.endCoord →
          ∃ m ∈ mergedGroup merged key, Contains m p ∧ Contains m q) :=
  mergePass_maximal_runs writerTechExample
    [.pathSeg (segExample 2 0 100 100 100), .pathSeg (segExample 2 100 100 200 100)]
    (by
      intro p hp
      simp only [List.mem_cons, frConnFig.pathSeg.injEq, List.mem_singleton, List.not_mem_nil,
        or_false] at hp
      rcases hp with rfl | rfl <;> decide)
    (by
      intro p hp
      simp only [List.mem_cons, frConnFig.pathSeg.injEq, List.mem_singleton, List.not_mem_nil,
        or_false] at hp
      rcases hp with rfl | rfl <;> decide)

/-- C3, as stated, fails (Scenario A): the input has no via and no vertical
segment at all, yet the output is not the original segment set: the two
abutting segments are returned as the one segment `(0,100)-(200,100)`. -/
theorem mergeSplit_clean_input_changed :
    mergeSplitConnFigs writerTechExample
        [.pathSeg (segExample 2 0 100 100 100), .pathSeg (segExample 2 100 100 200 100)] =
      some [.pathSeg (segExample 2 0 100 200 100)] ∧
    frConnFig.pathSeg (segExample 2 0 100 100 100) ∉
      [frConnFig.pathSeg (segExample 2 0 100 200 100)] := by
  decide

theorem crossScan2_none (tech : WriterTech) (seg1 : frPathSeg) (segs2 : List frPathSeg)
    (h : ∀ seg2 ∈ segs2, NoCross seg1 seg2) : crossScan2 tech seg1 segs2 = none := by
  induction segs2 with
  | nil => rfl
  | cons seg2 rest ih =>
    have h2 := h seg2 (List.mem_cons_self _ _)
    have ih' := ih (fun s hs => h s (List.mem_cons_of_mem _ hs))
    obtain ⟨n1, n2⟩ := h2
    have c1 : (decide (seg2.beginPt.y > seg1.beginPt.y) && decide (seg2.beginPt.y < seg1.endPt.y))
        = false := by
      simpa using fun a => by simpa using fun b => n1 ⟨a, b⟩
    have c2 : (decide (seg1.beginPt.x > seg2.beginPt.x) && decide (seg1.beginPt.x < seg2.endPt.x))
        = false := by
      simpa using fun a => by simpa using fun b => n2 ⟨a, b⟩
    simp only [crossScan2, c1, c2, Bool.or_self, Bool.false_eq_true, if_false, ih', Option.map_none']

theorem crossPair_id (tech : WriterTech) (segs1 segs2 : List frPathSeg)
    (h : ∀ seg1 ∈ segs1, ∀ seg2 ∈ segs2, NoCross seg1 seg2) :
    crossPair tech segs1 segs2 = (segs1, segs2) := by
  induction segs1 with
  | nil => rfl
  | cons seg1 rest ih =>
    have ih' := ih (fun s hs => h s (List.mem_cons_of_mem _ hs))
    simp only [crossPair, crossScan2_none tech seg1 segs2 (h seg1 (List.mem_cons_self _ _)), ih']

theorem crossRow_id (tech : WriterTech) (segs1 : List frPathSeg) (horz : TrackMap)
    (h : ∀ seg1 ∈ segs1, ∀ e ∈ horz, ∀ seg2 ∈ e.2, NoCross seg1 seg2) :
    crossRow tech segs1 horz = (segs1, horz) := by
  induction horz with
  | nil => rfl
  | cons e rest ih =>
    have ih' := ih (fun s hs e1 he1 => h s hs e1 (List.mem_cons_of_mem _ he1))
    have hp := crossPair_id tech segs1 e.2 (fun s hs => h s hs e (List.mem_cons_self _ _))
    simp only [crossRow, hp, ih']

theorem crossLayer_id (tech : WriterTech) (vert horz : TrackMap)
    (h : ∀ e1 ∈ vert, ∀ seg1 ∈ e1.2, ∀ e ∈ horz, ∀ seg2 ∈ e.2, NoCross seg1 seg2) :
    crossLayer tech vert horz = (vert, horz) := by
  induction vert with
  | nil => rfl
  | cons e1 rest ih =>
    have ih' := ih (fun e he => h e (List.mem_cons_of_mem _ he))
    have hp := crossRow_id tech e1.2 horz (h e1 (List.mem_cons_self _ _))
    simp only [crossLayer, hp, ih']

theorem crossPass_id (tech : WriterTech) (merged : MergedPathSegs)
    (h : ∀ l ∈ merged, ∀ e1 ∈ l.vert, ∀ seg1 ∈ e1.2, ∀ e ∈ l.horz, ∀ seg2 ∈ e.2,
      NoCross seg1 seg2) :
    crossPass tech merged = merged := by
  unfold crossPass
  conv_rhs => rw [← List.map_id merged]
  apply List.map_congr_left
  intro l hl
  simp only [crossLayer_id tech l.vert l.horz (h l hl), id]

/-- Membership in the written-back list, by group. -/
theorem mem_writeBackSegs (merged : MergedPathSegs) (hs : TracksSorted merged) (m : frPathSeg) :
    m ∈ writeBackSegs merged ↔ ∃ key, m ∈ mergedGroup merged key := by
  constructor
  · intro hm
    simp only [writeBackSegs, List.mem_flatMap, List.mem_append] at hm
    obtain ⟨l, hl, hm⟩ := hm
    obtain ⟨i, hi, rfl⟩ := List.getElem_of_mem hl
    have hsl := hs _ (List.getElem_mem (l := merged) hi)
    have hfind : ∀ (isH : Bool) (e : Int × List frPathSeg), e ∈ (merged[i]).at isH → m ∈ e.2 →
        m ∈ mergedGroup merged ((i : Int), isH, e.1) := by
      intro isH e he hme
      have hf := (mapFind_eq_some_iff coordLt_strict _ (layerSegs_at_sorted _ hsl isH) e.1 e.2).mpr he
      have hr : layerInRange merged.length (i : Int) = true := by
        simp [layerInRange, hi]
      simp only [mergedGroup, hr, if_true, Int.toNat_ofNat, List.get?_eq_getElem?,
        List.getElem?_eq_getElem hi, hf, Option.getD_some]
      exact hme
    rcases hm with ⟨e, he, hme⟩ | ⟨e, he, hme⟩
    · exact ⟨_, hfind false e (by simpa [LayerSegs.at] using he) hme⟩
    · exact ⟨_, hfind true e (by simpa [LayerSegs.at] using he) hme⟩
  · rintro ⟨⟨ly, isH, tr⟩, hm⟩
    unfold mergedGroup at hm
    split at hm
    · rename_i hr
      simp only [layerInRange, Bool.and_eq_true, decide_eq_true_eq] at hr
      have hn : ly.toNat < merged.length := by omega
      simp only [List.get?_eq_getElem?, List.getElem?_eq_getElem hn] at hm
      have hsl := hs _ (List.getElem_mem (l := merged) hn)
      cases hf : mapFind coordLt ((merged[ly.toNat]).at isH) tr with
      | none => rw [hf] at hm; simp at hm
      | some v =>
        rw [hf] at hm
        simp only [Option.getD_some] at hm
        have he := (mapFind_eq_some_iff coordLt_strict _ (layerSegs_at_sorted _ hsl isH) tr v).mp hf
        simp only [writeBackSegs, List.mem_flatMap, List.mem_append]
        refine ⟨merged[ly.toNat], List.getElem_mem (l := merged) hn, ?_⟩
        cases isH with
        | false => exact Or.inl ⟨(tr, v), by simpa [LayerSegs.at] using he, hm⟩
        | true => exact Or.inr ⟨(tr, v), by simpa [LayerSegs.at] using he, hm⟩
    · simp at hm

/-- Every segment stored in a layer of `merged` belongs to the group of its place. -/
theorem mem_layer_group (merged : MergedPathSegs) (hs : TracksSorted merged) (i : Nat)
    (hi : i < merged.length) (isH : Bool) (e : Int × List frPathSeg)
    (he : e ∈ (merged[i]).at isH) (m : frPathSeg) (hm : m ∈ e.2) :
    m ∈ mergedGroup merged ((i : Int), isH, e.1) := by
  have hsl := hs _ (List.getElem_mem (l := merged) hi)
  have hf := (mapFind_eq_some_iff coordLt_strict _ (layerSegs_at_sorted _ hsl isH) e.1 e.2).mpr he
  have hr : layerInRange merged.length (i : Int) = true := by
    simp [layerInRange, hi]
  simp only [mergedGroup, hr, if_true, Int.toNat_ofNat, List.get?_eq_getElem?,
    List.getElem?_eq_getElem hi, hf, Option.getD_some]
  exact hm

theorem groupOK_apart (G : List frPathSeg) (key : SegKey) (O : List frPathSeg)
    (hok : GroupOK G key O) (hG : ∀ p ∈ G, p.key = key ∧ p.beginCoord < p.endCoord)
    (hap : ∀ p ∈ G, ∀ q ∈ G, p = q ∨ p.endCoord < q.beginCoord ∨ q.endCoord < p.beginCoord) :
    (∀ m ∈ O, ∃ p ∈ G, m.layerNum = p.layerNum ∧ m.beginPt = p.beginPt ∧ m.endPt = p.endPt ∧
      m.beginCoord = p.beginCoord ∧ m.endCoord = p.endCoord) ∧
    (∀ p ∈ G, ∃ m ∈ O, m.layerNum = p.layerNum ∧ m.beginPt = p.beginPt ∧ m.endPt = p.endPt) := by
  obtain ⟨-, hgood, hcont⟩ := hok
  have part1 : ∀ m ∈ O, ∃ p ∈ G, m.layerNum = p.layerNum ∧ m.beginPt = p.beginPt ∧
      m.endPt = p.endPt ∧ m.beginCoord = p.beginCoord ∧ m.endCoord = p.endCoord := by
    intro m hm
    obtain ⟨hk, hlt, hcov, ⟨p, hp, hpb, hpB⟩, ⟨q, hq, hqe, hqE⟩⟩ := hgood m hm
    have hpl := (hG p hp).2
    have hql := (hG q hq).2
    have hlay : m.layerNum = p.layerNum := by
      have h1 : m.key = p.key := by rw [hk, (hG p hp).1]
      exact congrArg Prod.fst h1
    rcases hap p hp q hq with h | h | h
    · subst h
      exact ⟨p, hp, hlay, hpb, hqe, hpB, hqE⟩
    · exfalso
      obtain ⟨r, hr, hr1, hr2⟩ := hcov p.endCoord (by omega) (by omega)
      have hrl := (hG r hr).2
      rcases hap r hr p hp with h2 | h2 | h2
      · subst h2; omega
      · omega
      · omega
    · exfalso; omega
  refine ⟨part1, ?_⟩
  intro p hp
  obtain ⟨m, hm, hc1, hc2⟩ := hcont p hp
  obtain ⟨p1, hp1, h1, h2, h3, h4, h5⟩ := part1 m hm
  have hpl := (hG p hp).2
  have hp1l := (hG p1 hp1).2
  rcases hap p hp p1 hp1 with h | h | h
  · subst h; exact ⟨m, hm, h1, h2, h3⟩
  · exfalso; omega
  · exfalso; omega

theorem buildViaMergeMap_segs (segs : List frPathSeg) :
    buildViaMergeMap (segs.map frConnFig.pathSeg) = [] := by
  unfold buildViaMergeMap
  generalize ([] : ViaMergeMap) = M
  induction segs generalizing M with
  | nil => rfl
  | cons p ps ih => simpa using ih M

/-- C3 (amended): when the input holds path segments only, each on a layer of
the technology and with its begin coordinate below its end coordinate, no two
segments of one `(layer, orientation, track)` group overlap or touch, and on no
layer the track of a horizontal segment lies strictly between the end
coordinates of a vertical segment or the track of a vertical segment strictly
between those of a horizontal one, then `mergeSplitConnFigs` returns path
segments only, and they are the input segments: the same layers, begin points
and end points. -/
theorem mergeSplit_clean_unchanged (tech : WriterTech) (segs : List frPathSeg)
    (hlay : ∀ p ∈ segs, 0 ≤ p.layerNum ∧ p.layerNum < (tech.numLayers : Int))
    (hlt : ∀ p ∈ segs, p.beginCoord < p.endCoord)
    (hsep : segs.Pairwise Apart)
    (hcross : ∀ v ∈ segs, ∀ h ∈ segs, v.isH = false → h.isH = true →
      v.layerNum = h.layerNum → NoCross v h) :
    ∃ out : List frPathSeg,
      mergeSplitConnFigs tech (segs.map frConnFig.pathSeg) = some (out.map frConnFig.pathSeg) ∧
      ∀ (l : Int) (b e : frPoint),
        (∃ m ∈ out, m.layerNum = l ∧ m.beginPt = b ∧ m.endPt = e) ↔
        (∃ p ∈ segs, p.layerNum = l ∧ p.beginPt = b ∧ p.endPt = e) := by
  have hmemc : ∀ p, frConnFig.pathSeg p ∈ segs.map frConnFig.pathSeg ↔ p ∈ segs := by
    intro p; simp
  obtain ⟨merged, hmp, hlen, hsorted, hok⟩ := mergePass_groupOK tech (segs.map frConnFig.pathSeg)
    (fun p hp => hlay p ((hmemc p).mp hp)) (fun p hp => hlt p ((hmemc p).mp hp))
  have hgmem : ∀ key p, p ∈ groupSegs (segs.map frConnFig.pathSeg) key → p ∈ segs ∧ p.key = key := by
    intro key p hp
    obtain ⟨h1, -, h3⟩ := (mem_groupSegs _ key p).mp hp
    exact ⟨(hmemc p).mp h1, h3⟩
  have hG : ∀ key, ∀ p ∈ groupSegs (segs.map frConnFig.pathSeg) key,
      p.key = key ∧ p.beginCoord < p.endCoord :=
    fun key p hp => ⟨(hgmem key p hp).2, hlt p (hgmem key p hp).1⟩
  have hsymm : ∀ p ∈ segs, ∀ q ∈ segs, p ≠ q → Apart p q :=
    fun p hp q hq hne => List.Pairwise.forall
      (fun x y (hxy : Apart x y) => fun hk => (hxy hk.symm).symm) hsep hp hq hne
  have hap : ∀ key, ∀ p ∈ groupSegs (segs.map frConnFig.pathSeg) key,
      ∀ q ∈ groupSegs (segs.map frConnFig.pathSeg) key,
      p = q ∨ p.endCoord < q.beginCoord ∨ q.endCoord < p.beginCoord := by
    intro key p hp q hq
    by_cases hpq : p = q
    · exact Or.inl hpq
    · right
      exact hsymm p (hgmem key p hp).1 q (hgmem key q hq).1 hpq
        (by rw [(hgmem key p hp).2, (hgmem key q hq).2])
  have hgrp := fun key => groupOK_apart _ key _ (hok key) (hG key) (hap key)
  have hnocross : ∀ l ∈ merged, ∀ e1 ∈ l.vert, ∀ seg1 ∈ e1.2, ∀ e ∈ l.horz, ∀ seg2 ∈ e.2,
      NoCross seg1 seg2 := by
    intro l hl e1 he1 seg1 hseg1 e he seg2 hseg2
    obtain ⟨i, hi, rfl⟩ := List.getElem_of_mem hl
    have h1 := mem_layer_group merged hsorted i hi false e1 (by simpa [LayerSegs.at] using he1)
      seg1 hseg1
    have h2 := mem_layer_group merged hsorted i hi true e (by simpa [LayerSegs.at] using he)
      seg2 hseg2
    obtain ⟨v, hv, -, hvb, hve, -, -⟩ := (hgrp _).1 seg1 h1
    obtain ⟨h, hh, -, hhb, hhe, -, -⟩ := (hgrp _).1 seg2 h2
    obtain ⟨hvs, hvk⟩ := hgmem _ v hv
    obtain ⟨hhs, hhk⟩ := hgmem _ h hh
    simp only [frPathSeg.key, Prod.mk.injEq] at hvk hhk
    have := hcross v hvs h hhs hvk.2.1 hhk.2.1 (by rw [hvk.1, hhk.1])
    simpa only [NoCross, hvb, hve, hhb, hhe] using this
  refine ⟨writeBackSegs merged, ?_, ?_⟩
  · simp only [mergeSplitConnFigs, hmp, buildViaMergeMap_segs, viaSplitPass, List.foldl_nil,
      crossPass_id tech merged hnocross, List.map_nil, List.append_nil]
  · intro l b e
    constructor
    · rintro ⟨m, hm, h1, h2, h3⟩
      obtain ⟨key, hmk⟩ := (mem_writeBackSegs merged hsorted m).mp hm
      obtain ⟨p, hp, hpl, hpb, hpe, -, -⟩ := (hgrp key).1 m hmk
      exact ⟨p, (hgmem key p hp).1, by rw [← hpl, h1], by rw [← hpb, h2], by rw [← hpe, h3]⟩
    · rintro ⟨p, hp, h1, h2, h3⟩
      have hpg : p ∈ groupSegs (segs.map frConnFig.pathSeg) p.key :=
        (mem_groupSegs _ _ p).mpr ⟨(hmemc p).mpr hp, beginPt_ne_of_lt p (hlt p hp), rfl⟩
      obtain ⟨m, hm, hml, hmb, hme⟩ := (hgrp p.key).2 p hpg
      exact ⟨m, (mem_writeBackSegs merged hsorted m).mpr ⟨_, hm⟩, by rw [hml, h1],
        by rw [hmb, h2], by rw [hme, h3]⟩

/-- Witness of `mergeSplit_clean_unchanged`: two horizontal segments on one
track that are apart and one vertical segment away from them, all on layer 2. -/
theorem mergeSplit_clean_unchanged_witness :
    ∃ out : List frPathSeg,
      mergeSplitConnFigs writerTechExample
        ([segExample 2 0 100 100 100, segExample 2 200 100 300 100,
          segExample 2 500 0 500 50].map frConnFig.pathSeg) = some (out.map frConnFig.pathSeg) ∧
      ∀ (l : Int) (b e : frPoint),
        (∃ m ∈ out, m.layerNum = l ∧ m.beginPt = b ∧ m.endPt = e) ↔
        (∃ p ∈ [segExample 2 0 100 100 100, segExample 2 200 100 300 100,
            segExample 2 500 0 500 50], p.layerNum = l ∧ p.beginPt = b ∧ p.endPt = e) :=
  mergeSplit_clean_unchanged writerTechExample
    [segExample 2 0 100 100 100, segExample 2 200 100 300 100, segExample 2 500 0 500 50]
    (by
      intro p hp
      simp only [List.mem_cons, List.mem_singleton, List.not_mem_nil, or_false] at hp
      rcases hp with rfl | rfl | rfl <;> decide)
    (by
      intro p hp
      simp only [List.mem_cons, List.mem_singleton, List.not_mem_nil, or_false] at hp
      rcases hp with rfl | rfl | rfl <;> decide)
    (by
      simp only [List.pairwise_cons, List.mem_cons, List.mem_singleton, List.not_mem_nil,
        or_false, forall_eq_or_imp, forall_eq, IsEmpty.forall_iff, implies_true, and_true,
        List.Pairwise.nil, Apart]
      decide)
    (by
      intro v hv h hh
      simp only [List.mem_cons, List.mem_singleton, List.not_mem_nil, or_false] at hv hh
      rcases hv with rfl | rfl | rfl <;> rcases hh with rfl | rfl | rfl <;>
        simp only [NoCross] <;> decide)

/-! ## LEF58 rule compilation -/

/-- C7: evaluation at the failing input. In the property text the first rule
is an unsupported `ENDOFLINE ... TOCONCAVECORNER` rule and the second a
supported end-of-line rule: `getLef58Spacing` returns without any constraint,
because `keyword2` still holds `TOCONCAVECORNER` at the second `;`. With the
two rules in the other order, and with the supported rule alone, the
supported rule is compiled. -/
theorem getLef58Spacing_drops_rule_after_unsupported :
    (getLef58Spacing numConvExample 100 ruleDbExample
        "SPACING 1 ENDOFLINE 2 WITHIN 3 TOCONCAVECORNER ; SPACING 4 ENDOFLINE 5 WITHIN 6 ;").techConstraints
      = some [] ∧
    (getLef58Spacing numConvExample 100 ruleDbExample
        "SPACING 4 ENDOFLINE 5 WITHIN 6 ; SPACING 1 ENDOFLINE 2 WITHIN 3 TOCONCAVECORNER ;").techConstraints
      = (getLef58Spacing numConvExample 100 ruleDbExample
          "SPACING 4 ENDOFLINE 5 WITHIN 6 ;").techConstraints ∧
    ((getLef58Spacing numConvExample 100 ruleDbExample
        "SPACING 4 ENDOFLINE 5 WITHIN 6 ;").techConstraints.map List.length) = some 1 := by
  decide

theorem registeredBoth_refl (s : Slot) (db : RuleDb) : RegisteredBoth s [] db db := by
  refine ⟨by simp, fun t => ?_⟩
  split <;> simp

theorem registeredBoth_trans (s : Slot) (a b : List Constraint) (db db1 db2 : RuleDb)
    (h1 : RegisteredBoth s a db db1) (h2 : RegisteredBoth s b db1 db2) :
    RegisteredBoth s (a ++ b) db db2 := by
  refine ⟨by rw [h2.1, h1.1, List.append_assoc], fun t => ?_⟩
  rw [h2.2 t, h1.2 t]
  split <;> simp

theorem registeredBoth_onlyAppended (s : Slot) (a : List Constraint) (db db1 : RuleDb)
    (h : RegisteredBoth s a db db1) : OnlyAppended db db1 := by
  have key : ∀ t, ∃ added, db1.layer.slot t = db.layer.slot t ++ added := by
    intro t
    rw [h.2 t]
    split
    · exact ⟨a, rfl⟩
    · exact ⟨[], by simp⟩
  exact ⟨⟨a, h.1⟩, key .constraints, key .spacingEndOfLine, key .minStep, key .cutSpacing,
    key .cutSpacingTable, key .cornerSpacing⟩

theorem registeredBoth_minStep (db : RuleDb) (c : Constraint) :
    RegisteredBoth .minStep [c] db
      { layer := db.layer.addLef58MinStepConstraint c, tech := db.tech.addConstraint c } := by
  refine ⟨rfl, fun t => ?_⟩
  cases t <;> simp [Layer.slot, Layer.addLef58MinStepConstraint]

theorem minStepLoop_registers (nc : NumConv) (fuel : Nat) :
    ∀ (istr : IStream) (v : MinStepLocals) (db db1 : RuleDb),
      minStepLoop nc fuel istr v db = .returned db1 →
      ∃ added, RegisteredBoth .minStep added db db1 := by
  induction fuel with
  | zero => intro istr v db db1 h; simp [minStepLoop] at h
  | succ fuel ih =>
    intro istr v db db1 h
    rw [minStepLoop] at h
    split at h
    · cases h; exact ⟨[], registeredBoth_refl _ _⟩
    · split at h
      · split at h <;> exact ih _ _ _ _ h
      · split at h
        · split at h <;> exact ih _ _ _ _ h
        · split at h
          · split at h <;> exact ih _ _ _ _ h
          · split at h
            · split at h <;> exact ih _ _ _ _ h
            · split at h
              · split at h
                · obtain ⟨a, ha⟩ := ih _ _ _ _ h
                  exact ⟨_, registeredBoth_trans _ _ a db _ db1 (registeredBoth_minStep db _) ha⟩
                · exact ih _ _ _ _ h
              · exact ih _ _ _ _ h

theorem getLef58MinStep_registers (nc : NumConv) (fuel : Nat) (db db1 : RuleDb) (sIn : String)
    (h : getLef58MinStep nc fuel db sIn = .returned db1) :
    ∃ added, RegisteredBoth .minStep added db db1 :=
  minStepLoop_registers nc fuel _ _ db db1 h

theorem endOfLineWithin_registers (nc : NumConv) (fuel : Nat) (db db1 : RuleDb) (sIn : String)
    (h : getLef58Spacing_endOfLineWithin nc fuel db sIn = .returned db1) :
    ∃ added, RegisteredBoth .spacingEndOfLine added db db1 := by
  unfold getLef58Spacing_endOfLineWithin at h
  split at h
  · split at h
    · cases h; exact ⟨[], registeredBoth_refl _ _⟩
    · cases h
      refine ⟨[_], rfl, fun t => ?_⟩
      cases t <;> simp [Layer.slot]
  · cases h
  · cases h

theorem cutRegister_registers (db : RuleDb) (s : CutSt) :
    ∃ added, RegisteredBoth .cutSpacing added db (cutRegister db s) := by
  unfold cutRegister
  split
  · exact ⟨[], registeredBoth_refl _ _⟩
  · refine ⟨[_], rfl, fun t => ?_⟩
    cases t <;> simp [Layer.slot, Layer.addLef58CutSpacingConstraint]

theorem cutSpacing_layer_registers (nc : NumConv) (fuel : Nat) (db db1 : RuleDb) (sIn : String)
    (h : getLef58CutSpacing_layer nc fuel db sIn = .returned db1) :
    ∃ added, RegisteredBoth .cutSpacing added db db1 := by
  unfold getLef58CutSpacing_layer at h
  split at h
  · cases h; exact cutRegister_registers _ _
  · cases h
  · cases h

theorem adjacentCuts_registers (nc : NumConv) (fuel : Nat) (db db1 : RuleDb) (sIn : String)
    (h : getLef58CutSpacing_adjacentCuts nc fuel db sIn = .returned db1) :
    ∃ added, RegisteredBoth .cutSpacing added db db1 := by
  unfold getLef58CutSpacing_adjacentCuts at h
  split at h
  · cases h; exact cutRegister_registers _ _
  · cases h
  · cases h

theorem parallelRunLength_registers (nc : NumConv) (fuel : Nat) (db db1 : RuleDb) (sIn : String)
    (h : getLef58SpacingTable_parallelRunLength nc fuel db sIn = .returned db1) :
    ∃ added, RegisteredBoth .constraints added db db1 := by
  unfold getLef58SpacingTable_parallelRunLength at h
  split at h
  · cases h
    refine ⟨[_], rfl, fun t => ?_⟩
    cases t <;> simp [Layer.slot, Layer.addConstraint]
  · cases h
  · cases h

theorem cornerSpacing_registers (nc : NumConv) (fuel : Nat) (db : RuleDb) (r : Int × RuleDb)
    (sIn : String) (h : getLef58CornerSpacing nc fuel db sIn = .returned r) :
    ∃ added, RegisteredBoth .cornerSpacing added db r.2 := by
  unfold getLef58CornerSpacing at h
  simp only at h
  split at h
  · cases h; exact ⟨[], registeredBoth_refl _ _⟩
  · split at h
    · cases h
    · split at h
      · cases h; exact ⟨[], registeredBoth_refl _ _⟩
      · cases h
        refine ⟨[_], rfl, fun t => ?_⟩
        cases t <;> simp [Layer.slot, Layer.addLef58CornerSpacingConstraint]
  · cases h
  · cases h

theorem outcome_bind_returned {α β : Type} (o : Outcome α) (f : α → Outcome β) (b : β)
    (h : o.bind f = .returned b) : ∃ a, o = .returned a ∧ f a = .returned b := by
  cases o with
  | returned a => exact ⟨a, rfl, h⟩
  | threw => cases h
  | outOfFuel => cases h

theorem cutSpacingTable_others_registers (cv : CutTblEnv) (fuel : Nat) (db db1 : RuleDb)
    (sIn : String) (h : getLef58CutSpacingTable_others cv fuel db sIn = .returned db1) :
    ∃ added, RegisteredBoth .cutSpacingTable added db db1 := by
  unfold getLef58CutSpacingTable_others at h
  simp only at h
  obtain ⟨con1, -, h⟩ := outcome_bind_returned _ _ _ h
  obtain ⟨con2, -, h⟩ := outcome_bind_returned _ _ _ h
  obtain ⟨r, -, h⟩ := outcome_bind_returned _ _ _ h
  obtain ⟨con4, -, h⟩ := outcome_bind_returned _ _ _ h
  split at h
  · cases h; exact ⟨[], registeredBoth_refl _ _⟩
  · cases h
    refine ⟨[_], rfl, fun t => ?_⟩
    cases t <;> simp [Layer.slot]

theorem cutSpacingTable_helper_registers (cv : CutTblEnv) (fuel : Nat) (db db1 : RuleDb)
    (sIn : String) (h : getLef58CutSpacingTable_helper cv fuel db sIn = .returned db1) :
    ∃ added, RegisteredBoth .cutSpacingTable added db db1 := by
  unfold getLef58CutSpacingTable_helper at h
  simp only at h
  split at h
  · cases h; exact ⟨[], registeredBoth_refl _ _⟩
  · split at h
    · cases h; exact ⟨[], registeredBoth_refl _ _⟩
    · exact cutSpacingTable_others_registers _ _ _ _ _ h

theorem cutTblLoop_registers (cv : CutTblEnv) (fuel : Nat) (ws : List String) :
    ∀ (ss : String) (db db1 : RuleDb), cutTblLoop cv fuel ws ss db = .returned db1 →
      ∃ added, RegisteredBoth .cutSpacingTable added db db1 := by
  induction ws with
  | nil => intro ss db db1 h; simp [cutTblLoop] at h; cases h; exact ⟨[], registeredBoth_refl _ _⟩
  | cons w ws ih =>
    intro ss db db1 h
    rw [cutTblLoop] at h
    split at h
    · exact ih _ _ _ h
    · split at h
      · split at h
        · rename_i db2 hh
          obtain ⟨a, ha⟩ := cutSpacingTable_helper_registers _ _ _ _ _ hh
          obtain ⟨b, hb⟩ := ih _ _ _ h
          exact ⟨a ++ b, registeredBoth_trans _ _ _ _ _ _ ha hb⟩
        · cases h
        · cases h
      · exact ih _ _ _ h

theorem cutSpacingTable_registers (cv : CutTblEnv) (fuel : Nat) (db db1 : RuleDb)
    (sIn : String) (h : getLef58CutSpacingTable cv fuel db sIn = .returned db1) :
    ∃ added, RegisteredBoth .cutSpacingTable added db db1 :=
  cutTblLoop_registers cv fuel _ _ db db1 h

theorem ruleParser_registers (p : RuleParser) (cv : CutTblEnv) (fuel : Nat) (db db1 : RuleDb)
    (sIn : String) (h : p.run cv fuel db sIn = .returned db1) :
    ∃ added, RegisteredBoth p.slot added db db1 := by
  cases p with
  | parallelRunLength => exact parallelRunLength_registers _ _ _ _ _ h
  | endOfLineWithin => exact endOfLineWithin_registers _ _ _ _ _ h
  | minStep => exact getLef58MinStep_registers _ _ _ _ _ h
  | cutSpacingLayer => exact cutSpacing_layer_registers _ _ _ _ _ h
  | adjacentCuts => exact adjacentCuts_registers _ _ _ _ _ h
  | cutSpacingTable => exact cutSpacingTable_registers _ _ _ _ _ h
  | cornerSpacing =>
    obtain ⟨r, hr, h2⟩ := outcome_bind_returned _ _ _ h
    cases h2
    exact cornerSpacing_registers _ _ _ _ _ hr

/-- C8: malformed rules never corrupt earlier constraints. For every rule
parser, among them `getLef58MinStep`, `getLef58Spacing_endOfLineWithin`,
`getLef58CutSpacing_layer` and `getLef58CutSpacing_adjacentCuts`, for every
rule text and every call that returns, each constraint list of the layer and
the list of the technology after the call is the list before the call with
constraints appended behind it: what was there is still there, unchanged and
in the same order. -/
theorem parsers_keep_earlier_constraints (p : RuleParser) (cv : CutTblEnv) (fuel : Nat)
    (db db1 : RuleDb) (sIn : String) (h : p.run cv fuel db sIn = .returned db1) :
    OnlyAppended db db1 := by
  obtain ⟨a, ha⟩ := ruleParser_registers p cv fuel db db1 sIn h
  exact registeredBoth_onlyAppended _ a db db1 ha

/-- C8 at a concrete input: a MINSTEP rule with an unknown word followed by a well-formed
one, on a layer that already has a MINSTEP constraint. -/
theorem parsers_keep_earlier_constraints_witness :
    RuleParser.minStep.run cutTblEnvExample 100 (ruleDbMinSteps [minStepExample 5])
        "MINSTEP 3 MAXEDGE 1 ; MINSTEP 7 ;"
      = .returned (ruleDbMinSteps [minStepExample 5, minStepExample 7]) ∧
    OnlyAppended (ruleDbMinSteps [minStepExample 5])
      (ruleDbMinSteps [minStepExample 5, minStepExample 7]) :=
  ⟨rfl, parsers_keep_earlier_constraints .minStep cutTblEnvExample 100 _ _
    "MINSTEP 3 MAXEDGE 1 ; MINSTEP 7 ;" rfl⟩

theorem cutClassCount_numRows (nc : NumConv) (ws : List String) :
    ∀ (n r r1 : Int) (b : Bool),
      (cutClassCount nc ws n r b).1 = (cutClassCount nc ws n r1 b).1 := by
  induction ws with
  | nil => intro n r r1 b; rfl
  | cons w ws ih =>
    intro n r r1 b
    simp only [cutClassCount]
    split_ifs <;> exact ih _ _ _ _

theorem cutClassCount_number (nc : NumConv) (w : String) (ws : List String) (n r : Int) (b : Bool)
    (hw : (wordNumber nc (if w = "-" then "0" else w)).isSome = true) :
    (cutClassCount nc (w :: ws) n r b).1 = (cutClassCount nc ws (n + 1) r true).1 := by
  simp only [cutClassCount, hw, if_true]

theorem cutClassCount_word (nc : NumConv) (w : String) (ws : List String) (n r : Int) (b : Bool)
    (h1 : w ≠ "-") (h2 : w ≠ ";") (h3 : wordNumber nc w = none) :
    (cutClassCount nc (w :: ws) n r b).1 = (cutClassCount nc ws (if b then 0 else n) r false).1 := by
  simp only [cutClassCount, h1, h2, h3, if_false, Option.isSome_none, Bool.false_eq_true]
  cases b
  · simp
  · simp only [if_true]
    exact cutClassCount_numRows _ _ _ _ _ _

theorem cutClassCount_numbers (nc : NumConv) (ps : List (String × String)) (ws : List String) :
    ∀ (n r : Int) (b : Bool), (∀ p ∈ ps, ValuePairOK nc p) → ps ≠ [] →
      (cutClassCount nc (ps.flatMap (fun p => [p.1, p.2]) ++ ws) n r b).1
        = (cutClassCount nc ws (n + 2 * ps.length) r true).1 := by
  induction ps with
  | nil => intro n r b _ h; exact absurd rfl h
  | cons p ps ih =>
    intro n r b hp _
    have hp1 := hp p (List.mem_cons_self _ _)
    have h1 : (wordNumber nc (if p.1 = "-" then "0" else p.1)).isSome = true := by
      rw [if_neg hp1.1.2.2.2.2.1]; exact hp1.1.2.2.2.2.2
    simp only [List.flatMap_cons, List.cons_append, List.nil_append, List.singleton_append]
    rw [cutClassCount_number nc _ _ _ _ _ h1, cutClassCount_number nc _ _ _ _ _ hp1.2]
    by_cases hps : ps = []
    · subst hps; simp; ring_nf
    · rw [ih _ _ _ (fun q hq => hp q (List.mem_cons_of_mem _ hq)) hps]
      simp only [List.length_cons, Nat.cast_add, Nat.cast_one]
      ring_nf

theorem cutClassCount_label (nc : NumConv) (l : TblLabel) (ws : List String) (n r : Int)
    (b : Bool) (hs : wordNumber nc "SIDE" = none) (he : wordNumber nc "END" = none)
    (hl : LabelOK nc l) :
    (cutClassCount nc (l.written ++ ws) n r b).1
      = (cutClassCount nc ws (if b then 0 else n) r false).1 := by
  obtain ⟨⟨-, -, -, h4, h5, h6⟩, hq⟩ := hl
  simp only [TblLabel.written, List.cons_append]
  rw [cutClassCount_word nc _ _ _ _ _ h5 h4 h6]
  rcases hq with hq | hq | hq <;> rw [hq]
  · rfl
  · simp only [Option.toList, List.cons_append, List.nil_append]
    rw [cutClassCount_word nc _ _ _ _ _ (by decide) (by decide) hs]
    rfl
  · simp only [Option.toList, List.cons_append, List.nil_append]
    rw [cutClassCount_word nc _ _ _ _ _ (by decide) (by decide) he]
    rfl

theorem cutClassCount_header (nc : NumConv) (cols : List TblLabel) (ws : List String) (r : Int)
    (hs : wordNumber nc "SIDE" = none) (he : wordNumber nc "END" = none)
    (hl : ∀ c ∈ cols, LabelOK nc c) :
    (cutClassCount nc (cols.flatMap TblLabel.written ++ ws) 0 r false).1
      = (cutClassCount nc ws 0 r false).1 := by
  induction cols with
  | nil => rfl
  | cons c cols ih =>
    simp only [List.flatMap_cons, List.append_assoc]
    rw [cutClassCount_label nc c _ _ _ _ hs he (hl c (List.mem_cons_self _ _))]
    exact ih (fun c1 h1 => hl c1 (List.mem_cons_of_mem _ h1))

theorem cutClassCount_row (nc : NumConv) (row : TblRow) (ws : List String) (n r : Int) (b : Bool)
    (hs : wordNumber nc "SIDE" = none) (he : wordNumber nc "END" = none)
    (hl : LabelOK nc row.label) (hv : ∀ p ∈ row.vals, ValuePairOK nc p) (hne : row.vals ≠ [])
    (hb : b = false → n = 0) :
    (cutClassCount nc (row.written ++ ws) n r b).1
      = (cutClassCount nc ws (2 * row.vals.length) r true).1 := by
  simp only [TblRow.written, List.append_assoc]
  rw [cutClassCount_label nc _ _ _ _ _ hs he hl, cutClassCount_numbers nc _ _ _ _ _ hv hne]
  cases b
  · simp [hb rfl]
  · simp

theorem cutClassCount_rows (nc : NumConv) (c : Nat) (rows : List TblRow) (ws : List String)
    (hs : wordNumber nc "SIDE" = none) (he : wordNumber nc "END" = none) (hc : c ≠ 0) :
    ∀ (n r : Int) (b : Bool), rows ≠ [] →
      (∀ row ∈ rows, LabelOK nc row.label ∧ row.vals.length = c ∧ ∀ p ∈ row.vals, ValuePairOK nc p) →
      (b = false → n = 0) →
      (cutClassCount nc (rows.flatMap TblRow.written ++ ws) n r b).1
        = (cutClassCount nc ws (2 * c) r true).1 := by
  induction rows with
  | nil => intro n r b h; exact absurd rfl h
  | cons row rows ih =>
    intro n r b _ hrows hb
    obtain ⟨h1, h2, h3⟩ := hrows row (List.mem_cons_self _ _)
    have hne : row.vals ≠ [] := by
      intro h0; rw [h0] at h2; exact hc h2.symm
    simp only [List.flatMap_cons, List.append_assoc]
    rw [cutClassCount_row nc row _ _ _ _ hs he h1 h3 hne hb, h2]
    by_cases hr : rows = []
    · subst hr; rfl
    · exact ih _ _ _ hr (fun x hx => hrows x (List.mem_cons_of_mem _ hx)) (fun h => by cases h)

theorem cutClassCount_table (nc : NumConv) (cols : List TblLabel) (rows : List TblRow)
    (hwf : WellFormedTable nc cols rows) :
    (cutClassCount nc (tableWords cols rows) 0 0 false).1 / 2 = (cols.length : Int) := by
  obtain ⟨⟨hk, hs, he, hsemi⟩, hc, hr, hcols, hrows⟩ := hwf
  have hc0 : cols.length ≠ 0 := fun h => hc (List.length_eq_zero.mp h)
  unfold tableWords
  rw [cutClassCount_word nc _ _ _ _ _ (by decide) (by decide) hk]
  rw [if_neg (by decide), cutClassCount_header nc cols _ _ hs he hcols,
    cutClassCount_rows nc cols.length rows _ hs he hc0 _ _ _ hr hrows (fun _ => rfl)]
  simp [cutClassCount, hsemi]

theorem qualifyLast_concat (ns : List String) (ds : List Int) (n q : String) (x : Int) :
    qualifyLast (ns ++ [n]) (ds ++ [x]) q = some (ns ++ [n ++ q], ds ++ [1]) := by
  simp [qualifyLast, List.getLast?_concat, List.dropLast_concat]

theorem cutClassRead_keyword (cv : CutTblEnv) (d c : Int) (ws : List String) (v : CutClassLocals) :
    cutClassRead cv d c ("CUTCLASS" :: ws) v = cutClassRead cv d c ws v := by
  rw [cutClassRead]; simp [cutClassWord]

theorem cutClassRead_colName (cv : CutTblEnv) (d c : Int) (w : String) (ws : List String)
    (cn : List String) (dcn : List Int) (rn : List String) (drn : List Int)
    (tbl : List (List (Int × Int))) (row : List (Int × Int)) (st k : Int)
    (hw : IsNameWord cv.nc w) (hc : (cn.length : Int) < c) :
    cutClassRead cv d c (w :: ws) ⟨cn, dcn, rn, drn, tbl, row, st, k⟩
      = cutClassRead cv d c ws ⟨cn ++ [w], dcn ++ [2], rn, drn, tbl, row, st, k⟩ := by
  obtain ⟨h1, h2, h3, -, h5, -⟩ := hw
  rw [cutClassRead]; simp [cutClassWord, h1, h2, h3, h5, hc]

theorem cutClassRead_colQual (cv : CutTblEnv) (d c : Int) (q : String) (ws : List String)
    (cn : List String) (dcn : List Int) (rn : List String) (drn : List Int)
    (tbl : List (List (Int × Int))) (row : List (Int × Int)) (k : Int) (n : String) (x : Int)
    (hq : q = "SIDE" ∨ q = "END") (hc : ((cn ++ [n]).length : Int) ≤ c) :
    cutClassRead cv d c (q :: ws) ⟨cn ++ [n], dcn ++ [x], rn, drn, tbl, row, 0, k⟩
      = cutClassRead cv d c ws
          ⟨cn ++ [n ++ q], dcn ++ [1], rn, drn, tbl, row,
            if ((cn ++ [n]).length : Int) < c then 0 else 1, k⟩ := by
  have h1 : q ≠ "-" := by rcases hq with rfl | rfl <;> decide
  have h2 : q ≠ "CUTCLASS" := by rcases hq with rfl | rfl <;> decide
  by_cases hlt : ((cn ++ [n]).length : Int) < c
  · rw [cutClassRead]
    simp only [List.length_append, List.length_singleton, Nat.cast_add, Nat.cast_one] at hlt
    simp [cutClassWord, h1, h2, hq, hlt, qualifyLast_concat]
  · have he : ((cn ++ [n]).length : Int) = c := le_antisymm hc (not_lt.mp hlt)
    rw [cutClassRead]
    simp only [List.length_append, List.length_singleton, Nat.cast_add, Nat.cast_one] at hlt he
    simp [cutClassWord, h1, h2, hq, hlt, he, qualifyLast_concat]

theorem cutClassRead_firstRowName (cv : CutTblEnv) (d c : Int) (w : String) (ws : List String)
    (cn : List String) (dcn : List Int) (rn : List String) (drn : List Int)
    (tbl : List (List (Int × Int))) (row : List (Int × Int)) (k : Int)
    (hw : IsNameWord cv.nc w) (hc : (cn.length : Int) = c) :
    cutClassRead cv d c (w :: ws) ⟨cn, dcn, rn, drn, tbl, row, 0, k⟩
      = cutClassRead cv d c ws ⟨cn, dcn, rn ++ [w], drn ++ [2], tbl, row, 1, k⟩ := by
  obtain ⟨h1, h2, h3, -, h5, -⟩ := hw
  rw [cutClassRead]; simp [cutClassWord, h1, h2, h3, h5, hc]

theorem cutClassRead_rowName (cv : CutTblEnv) (d c : Int) (w : String) (ws : List String)
    (cn : List String) (dcn : List Int) (rn : List String) (drn : List Int)
    (tbl : List (List (Int × Int))) (row : List (Int × Int)) (k : Int)
    (hw : IsNameWord cv.nc w) (hc : (cn.length : Int) = c) :
    cutClassRead cv d c (w :: ws) ⟨cn, dcn, rn, drn, tbl, row, 1, k⟩
      = cutClassRead cv d c ws
          ⟨cn, dcn, rn ++ [w], drn ++ [2], if k ≠ 0 then tbl ++ [row] else tbl,
            if k ≠ 0 then [] else row, 1, 0⟩ := by
  obtain ⟨h1, h2, h3, h4, h5, h6⟩ := hw
  by_cases hk : k = 0
  · rw [cutClassRead]; simp [cutClassWord, h1, h2, h3, h4, h5, h6, hc, hk]
  · rw [cutClassRead]; simp [cutClassWord, h1, h2, h3, h4, h5, h6, hc, hk]

theorem cutClassRead_rowQual (cv : CutTblEnv) (d c : Int) (q : String) (ws : List String)
    (cn : List String) (dcn : List Int) (rn : List String) (drn : List Int)
    (tbl : List (List (Int × Int))) (row : List (Int × Int)) (k : Int) (n : String) (x : Int)
    (hq : q = "SIDE" ∨ q = "END") (hc : (cn.length : Int) = c) :
    cutClassRead cv d c (q :: ws) ⟨cn, dcn, rn ++ [n], drn ++ [x], tbl, row, 1, k⟩
      = cutClassRead cv d c ws ⟨cn, dcn, rn ++ [n ++ q], drn ++ [1], tbl, row, 1, k⟩ := by
  have h1 : q ≠ "-" := by rcases hq with rfl | rfl <;> decide
  have h2 : q ≠ "CUTCLASS" := by rcases hq with rfl | rfl <;> decide
  have h3 : q ≠ ";" := by rcases hq with rfl | rfl <;> decide
  rw [cutClassRead]; simp [cutClassWord, h1, h2, h3, hq, hc, qualifyLast_concat]

theorem cutClassRead_pair (cv : CutTblEnv) (d c : Int) (p : String × String) (ws : List String)
    (cn : List String) (dcn : List Int) (rn : List String) (drn : List Int)
    (tbl : List (List (Int × Int))) (row : List (Int × Int)) (k : Int)
    (hp : ValuePairOK cv.nc p) (hc : (cn.length : Int) = c) :
    cutClassRead cv d c (p.1 :: p.2 :: ws) ⟨cn, dcn, rn, drn, tbl, row, 1, k⟩
      = cutClassRead cv d c ws ⟨cn, dcn, rn, drn, tbl, row ++ [cellValue cv.nc d p], 1, k + 1⟩ := by
  obtain ⟨⟨h1, h2, h3, h4, h5, h6⟩, -⟩ := hp
  obtain ⟨x, hx⟩ := Option.isSome_iff_exists.mp h6
  rw [cutClassRead]; simp [cutClassWord, h1, h2, h3, h4, h5, hx, hc, cellValue]

theorem cutClassRead_semicolon (cv : CutTblEnv) (d c : Int)
    (cn : List String) (dcn : List Int) (rn : List String) (drn : List Int)
    (tbl : List (List (Int × Int))) (row : List (Int × Int)) (k : Int)
    (hc : (cn.length : Int) = c) :
    cutClassRead cv d c [";"] ⟨cn, dcn, rn, drn, tbl, row, 1, k⟩
      = .returned ⟨cn, dcn, rn, drn, tbl ++ [row], row, 1, k⟩ := by
  rw [cutClassRead]; simp [cutClassWord, hc]; rw [cutClassRead]

theorem cutClassRead_header (cv : CutTblEnv) (d : Int) (w : String) (ws : List String)
    (hw : IsNameWord cv.nc w) :
    ∀ (cs : List TblLabel) (cn : List String) (dcn : List Int) (c : Int),
      (cn.length : Int) + cs.length = c → (∀ l ∈ cs, LabelOK cv.nc l) →
      cutClassRead cv d c (cs.flatMap TblLabel.written ++ w :: ws) ⟨cn, dcn, [], [], [], [], 0, 0⟩
        = cutClassRead cv d c ws
            ⟨cn ++ cs.map TblLabel.stored, dcn ++ cs.map TblLabel.dup, [w], [2], [], [], 1, 0⟩ := by
  intro cs
  induction cs with
  | nil =>
    intro cn dcn c hc _
    simp only [List.flatMap_nil, List.nil_append, List.map_nil, List.append_nil]
    rw [cutClassRead_firstRowName cv d c w ws _ _ _ _ _ _ _ hw (by simpa using hc)]
    rfl
  | cons l cs ih =>
    intro cn dcn c hc hl
    obtain ⟨hn, hq⟩ := hl l (List.mem_cons_self _ _)
    have hl1 : ∀ x ∈ cs, LabelOK cv.nc x := fun x hx => hl x (List.mem_cons_of_mem _ hx)
    simp only [List.length_cons, Nat.cast_add, Nat.cast_one] at hc
    have hlt : (cn.length : Int) < c := by omega
    simp only [List.flatMap_cons, TblLabel.written, List.cons_append, List.append_assoc]
    rw [cutClassRead_colName cv d c _ _ _ _ _ _ _ _ _ _ hn hlt]
    have hq1 : ∀ q, (q = "SIDE" ∨ q = "END") → l.qual = some q →
        cutClassRead cv d c (q :: (cs.flatMap TblLabel.written ++ w :: ws))
            ⟨cn ++ [l.name], dcn ++ [2], [], [], [], [], 0, 0⟩
          = cutClassRead cv d c ws
            ⟨cn ++ (l :: cs).map TblLabel.stored, dcn ++ (l :: cs).map TblLabel.dup, [w], [2],
              [], [], 1, 0⟩ := by
      intro q hqq hlq
      have hle : (((cn ++ [l.name]).length : Nat) : Int) ≤ c := by
        simp only [List.length_append, List.length_singleton, Nat.cast_add, Nat.cast_one]; omega
      rw [cutClassRead_colQual cv d c q _ _ _ _ _ _ _ _ _ _ hqq hle]
      cases cs with
      | nil =>
        have hnl : ¬ ((((cn ++ [l.name]).length : Nat) : Int) < c) := by
          simp only [List.length_append, List.length_singleton, Nat.cast_add, Nat.cast_one,
            List.length_nil, Nat.cast_zero] at hc ⊢
          omega
        rw [if_neg hnl]
        simp only [List.flatMap_nil, List.nil_append]
        rw [cutClassRead_rowName cv d c w ws _ _ _ _ _ _ _ hw (by
          simp only [List.length_append, List.length_singleton, Nat.cast_add, Nat.cast_one,
            List.length_nil, Nat.cast_zero] at hc ⊢
          omega)]
        simp [TblLabel.stored, TblLabel.dup, hlq]
      | cons l1 cs1 =>
        have hlt1 : (((cn ++ [l.name]).length : Nat) : Int) < c := by
          simp only [List.length_append, List.length_singleton, Nat.cast_add, Nat.cast_one,
            List.length_cons, List.length_nil, Nat.cast_zero] at hc ⊢
          omega
        rw [if_pos hlt1]
        rw [ih (cn ++ [l.name ++ q]) (dcn ++ [1]) c (by
          simp only [List.length_append, List.length_singleton, Nat.cast_add, Nat.cast_one,
            List.length_cons, List.length_nil, Nat.cast_zero] at hc ⊢
          omega) hl1]
        simp [TblLabel.stored, TblLabel.dup, hlq]
    rcases hq with hq | hq | hq
    · rw [hq]
      simp only [Option.toList, List.nil_append]
      rw [ih (cn ++ [l.name]) (dcn ++ [2]) c (by
        simp only [List.length_append, List.length_singleton, Nat.cast_add, Nat.cast_one]
        omega) hl1]
      simp [TblLabel.stored, TblLabel.dup, hq]
    · rw [hq]
      simp only [Option.toList, List.cons_append, List.nil_append]
      exact hq1 "SIDE" (Or.inl rfl) hq
    · rw [hq]
      simp only [Option.toList, List.cons_append, List.nil_append]
      exact hq1 "END" (Or.inr rfl) hq

theorem cutClassRead_pairs (cv : CutTblEnv) (d c : Int) (ws : List String)
    (cn : List String) (dcn : List Int) (rn : List String) (drn : List Int)
    (tbl : List (List (Int × Int))) (hc : (cn.length : Int) = c) :
    ∀ (ps : List (String × String)) (row : List (Int × Int)) (k : Int),
      (∀ p ∈ ps, ValuePairOK cv.nc p) →
      cutClassRead cv d c (ps.flatMap (fun p => [p.1, p.2]) ++ ws) ⟨cn, dcn, rn, drn, tbl, row, 1, k⟩
        = cutClassRead cv d c ws
            ⟨cn, dcn, rn, drn, tbl, row ++ ps.map (cellValue cv.nc d), 1, k + ps.length⟩ := by
  intro ps
  induction ps with
  | nil => intro row k _; simp
  | cons p ps ih =>
    intro row k hp
    simp only [List.flatMap_cons, List.cons_append, List.nil_append]
    rw [cutClassRead_pair cv d c p _ _ _ _ _ _ _ _ (hp p (List.mem_cons_self _ _)) hc,
      ih _ _ (fun q hq => hp q (List.mem_cons_of_mem _ hq))]
    simp only [List.map_cons, List.length_cons, Nat.cast_add, Nat.cast_one, List.append_assoc,
      List.singleton_append]
    congr 2
    ring

theorem cutClassRead_rowBody (cv : CutTblEnv) (d c : Int) (ws : List String)
    (cn : List String) (dcn : List Int) (rn : List String) (drn : List Int)
    (tbl : List (List (Int × Int))) (row : List (Int × Int)) (k : Int) (r : TblRow)
    (hc : (cn.length : Int) = c) (hl : LabelOK cv.nc r.label)
    (hv : ∀ p ∈ r.vals, ValuePairOK cv.nc p) :
    cutClassRead cv d c (r.label.qual.toList ++ (r.vals.flatMap (fun p => [p.1, p.2]) ++ ws))
        ⟨cn, dcn, rn ++ [r.label.name], drn ++ [2], tbl, row, 1, k⟩
      = cutClassRead cv d c ws
          ⟨cn, dcn, rn ++ [r.label.stored], drn ++ [r.label.dup], tbl,
            row ++ r.vals.map (cellValue cv.nc d), 1, k + r.vals.length⟩ := by
  rcases hl.2 with hq | hq | hq
  · rw [hq]
    simp only [Option.toList, List.nil_append]
    rw [cutClassRead_pairs cv d c ws _ _ _ _ _ hc _ _ _ hv]
    simp [TblLabel.stored, TblLabel.dup, hq]
  · rw [hq]
    simp only [Option.toList, List.cons_append, List.nil_append]
    rw [cutClassRead_rowQual cv d c _ _ _ _ _ _ _ _ _ _ _ (Or.inl rfl) hc,
      cutClassRead_pairs cv d c ws _ _ _ _ _ hc _ _ _ hv]
    simp [TblLabel.stored, TblLabel.dup, hq]
  · rw [hq]
    simp only [Option.toList, List.cons_append, List.nil_append]
    rw [cutClassRead_rowQual cv d c _ _ _ _ _ _ _ _ _ _ _ (Or.inr rfl) hc,
      cutClassRead_pairs cv d c ws _ _ _ _ _ hc _ _ _ hv]
    simp [TblLabel.stored, TblLabel.dup, hq]

theorem cutClassRead_rows (cv : CutTblEnv) (d c : Int) (n : Nat) (hn : n ≠ 0)
    (cn : List String) (dcn : List Int) (hc : (cn.length : Int) = c) :
    ∀ (rs : List TblRow) (rn : List String) (drn : List Int) (tbl : List (List (Int × Int)))
      (row : List (Int × Int)) (k : Int), k ≠ 0 →
      (∀ r ∈ rs, LabelOK cv.nc r.label ∧ r.vals.length = n ∧ ∀ p ∈ r.vals, ValuePairOK cv.nc p) →
      ∃ lastRow k1,
        cutClassRead cv d c (rs.flatMap TblRow.written ++ [";"]) ⟨cn, dcn, rn, drn, tbl, row, 1, k⟩
          = .returned
              ⟨cn, dcn, rn ++ rs.map (fun r => r.label.stored), drn ++ rs.map (fun r => r.label.dup),
                tbl ++ [row] ++ rs.map (fun r => r.vals.map (cellValue cv.nc d)), lastRow, 1, k1⟩ := by
  intro rs
  induction rs with
  | nil =>
    intro rn drn tbl row k _ _
    refine ⟨row, k, ?_⟩
    simp only [List.flatMap_nil, List.nil_append, List.map_nil, List.append_nil]
    exact cutClassRead_semicolon cv d c _ _ _ _ _ _ _ hc
  | cons r rs ih =>
    intro rn drn tbl row k hk hrs
    obtain ⟨hl, hlen, hv⟩ := hrs r (List.mem_cons_self _ _)
    simp only [List.flatMap_cons, TblRow.written, TblLabel.written, List.cons_append,
      List.append_assoc]
    rw [cutClassRead_rowName cv d c _ _ _ _ _ _ _ _ _ hl.1 hc, if_pos hk, if_pos hk,
      cutClassRead_rowBody cv d c _ _ _ _ _ _ _ _ r hc hl hv]
    obtain ⟨lastRow, k1, h⟩ := ih (rn ++ [r.label.stored]) (drn ++ [r.label.dup]) (tbl ++ [row])
      ([] ++ r.vals.map (cellValue cv.nc d)) (0 + r.vals.length) (by rw [hlen]; simpa using hn)
      (fun x hx => hrs x (List.mem_cons_of_mem _ hx))
    refine ⟨lastRow, k1, ?_⟩
    rw [h]
    simp

theorem cutClassRead_table (cv : CutTblEnv) (d : Int) (cols : List TblLabel) (rows : List TblRow)
    (hwf : WellFormedTable cv.nc cols rows) :
    ∃ lastRow k1,
      cutClassRead cv d (cols.length : Int) (tableWords cols rows) {}
        = .returned
            ⟨cols.map TblLabel.stored, cols.map TblLabel.dup,
              rows.map (fun r => r.label.stored), rows.map (fun r => r.label.dup),
              rows.map (fun r => r.vals.map (cellValue cv.nc d)), lastRow, 1, k1⟩ := by
  obtain ⟨-, hc, hr, hcols, hrows⟩ := hwf
  have hc0 : cols.length ≠ 0 := fun h => hc (List.length_eq_zero.mp h)
  cases rows with
  | nil => exact absurd rfl hr
  | cons r rs =>
    obtain ⟨hl, hlen, hv⟩ := hrows r (List.mem_cons_self _ _)
    unfold tableWords
    rw [cutClassRead_keyword]
    simp only [List.flatMap_cons, TblRow.written, TblLabel.written, List.cons_append,
      List.append_assoc]
    have h0 : ({} : CutClassLocals) = ⟨[], [], [], [], [], [], 0, 0⟩ := rfl
    rw [h0, cutClassRead_header cv d _ _ hl.1 cols [] [] (cols.length : Int) (by simp) hcols]
    have h1 := cutClassRead_rowBody cv d (cols.length : Int)
      (rs.flatMap TblRow.written ++ [";"]) ([] ++ cols.map TblLabel.stored)
      ([] ++ cols.map TblLabel.dup) [] [] [] [] 0 r (by simp) hl hv
    simp only [List.nil_append] at h1 ⊢
    rw [h1]
    obtain ⟨lastRow, k1, h⟩ := cutClassRead_rows cv d (cols.length : Int) cols.length hc0
      (cols.map TblLabel.stored) (cols.map TblLabel.dup) (by simp) rs [r.label.stored]
      [r.label.dup] [] (r.vals.map (cellValue cv.nc d)) (0 + r.vals.length)
      (by rw [hlen]; simpa using hc0) (fun x hx => hrows x (List.mem_cons_of_mem _ hx))
    refine ⟨lastRow, k1, ?_⟩
    simp only [List.nil_append] at h
    rw [h]
    simp

theorem getElem_append_cons_length {α : Type} (pre : List α) (x : α) (rest : List α) :
    (pre ++ x :: rest)[pre.length]? = some x := by
  rw [List.getElem?_append_right (le_refl _)]
  simp

theorem expandNames_labels : ∀ (ls : List TblLabel) (pre : List Int),
    expandNames (pre ++ ls.map TblLabel.dup) (ls.map TblLabel.stored) pre.length
      = some (ls.flatMap TblLabel.expanded) := by
  intro ls
  induction ls with
  | nil => intro pre; rfl
  | cons l ls ih =>
    intro pre
    have h := ih (pre ++ [l.dup])
    simp only [List.append_assoc, List.singleton_append, List.length_append,
      List.length_singleton] at h
    simp only [List.map_cons, expandNames, List.get?_eq_getElem?, le_refl,
      List.getElem?_append_right, Nat.sub_self, List.getElem?_cons_zero, h, Option.map_some',
      List.flatMap_cons]
    cases hq : l.qual <;> simp [TblLabel.dup, TblLabel.stored, TblLabel.expanded, hq]

theorem expandRow_labels (nc : NumConv) (d : Int) :
    ∀ (cs : List TblLabel) (predups : List Int) (prevals : List (Int × Int))
      (vals : List (String × String)),
      prevals.length = predups.length → vals.length = cs.length →
      expandRow (predups ++ cs.map TblLabel.dup) (some (prevals ++ vals.map (cellValue nc d)))
          (cs.map TblLabel.stored) predups.length
        = some ((cs.zip vals).flatMap
            (fun cv => List.replicate cv.1.mult (cellValue nc d cv.2))) := by
  intro cs
  induction cs with
  | nil => intro predups prevals vals _ _; rfl
  | cons l cs ih =>
    intro predups prevals vals hpre hlen
    cases vals with
    | nil => cases hlen
    | cons p vals =>
      have h := ih (predups ++ [l.dup]) (prevals ++ [cellValue nc d p]) vals
        (by simp [hpre]) (by simpa using hlen)
      simp only [List.append_assoc, List.singleton_append, List.length_append,
        List.length_singleton] at h
      have e1 : (predups ++ l.dup :: cs.map TblLabel.dup)[predups.length]? = some l.dup :=
        getElem_append_cons_length _ _ _
      have e2 : (prevals ++ cellValue nc d p :: vals.map (cellValue nc d))[predups.length]?
          = some (cellValue nc d p) := by
        rw [← hpre]; exact getElem_append_cons_length _ _ _
      simp only [List.map_cons, expandRow, Option.some_bind, List.get?_eq_getElem?, e1, e2, h,
        Option.map_some', List.zip_cons_cons, List.flatMap_cons]
      cases hq : l.qual <;> simp [TblLabel.dup, TblLabel.mult, hq, List.replicate]

theorem expandTbl_rows (nc : NumConv) (d : Int) (cols : List TblLabel) (rn : List String)
    (lastRow : List (Int × Int)) (st k : Int) :
    ∀ (rs : List TblRow) (predups : List Int) (pretbl : List (List (Int × Int))),
      pretbl.length = predups.length → (∀ r ∈ rs, r.vals.length = cols.length) →
      expandTbl
          ⟨cols.map TblLabel.stored, cols.map TblLabel.dup, rn,
            predups ++ rs.map (fun r => r.label.dup),
            pretbl ++ rs.map (fun r => r.vals.map (cellValue nc d)), lastRow, st, k⟩
          (rs.map (fun r => r.label.stored)) predups.length
        = some (rs.flatMap
            (fun r => List.replicate r.label.mult (expandedRow nc d cols r.vals))) := by
  intro rs
  induction rs with
  | nil => intro predups pretbl _ _; rfl
  | cons r rs ih =>
    intro predups pretbl hpre hlen
    have h := ih (predups ++ [r.label.dup]) (pretbl ++ [r.vals.map (cellValue nc d)])
      (by simp [hpre]) (fun x hx => hlen x (List.mem_cons_of_mem _ hx))
    simp only [List.append_assoc, List.singleton_append, List.length_append,
      List.length_singleton] at h
    have hrow := expandRow_labels nc d cols [] [] r.vals rfl (hlen r (List.mem_cons_self _ _))
    simp only [List.nil_append, List.length_nil] at hrow
    have e1 : (predups ++ r.label.dup :: rs.map (fun r => r.label.dup))[predups.length]?
        = some r.label.dup :=
      getElem_append_cons_length _ _ _
    have e2 : (pretbl ++ r.vals.map (cellValue nc d)
          :: rs.map (fun r => r.vals.map (cellValue nc d)))[predups.length]?
        = some (r.vals.map (cellValue nc d)) := by
      rw [← hpre]; exact getElem_append_cons_length _ _ _
    simp only [List.map_cons, expandTbl, List.get?_eq_getElem?, e1, e2, h, Option.map_some',
      List.flatMap_cons, hrow]
    cases hq : r.label.qual <;> simp [TblLabel.dup, TblLabel.mult, hq, List.replicate, expandedRow]

theorem expandedRow_length (nc : NumConv) (d : Int) :
    ∀ (cols : List TblLabel) (vals : List (String × String)), vals.length = cols.length →
      (expandedRow nc d cols vals).length = (cols.map TblLabel.mult).sum := by
  intro cols
  induction cols with
  | nil => intro vals _; rfl
  | cons c cols ih =>
    intro vals h
    cases vals with
    | nil => cases h
    | cons p vals =>
      have := ih vals (by simpa using h)
      simp only [expandedRow] at this
      simp [expandedRow, this]

theorem expandedTable_length (nc : NumConv) (d : Int) (cols : List TblLabel) :
    ∀ rows : List TblRow,
      (expandedTable nc d cols rows).length = (rows.map (fun r => r.label.mult)).sum := by
  intro rows
  induction rows with
  | nil => rfl
  | cons r rows ih =>
    simp only [expandedTable] at ih
    simp [expandedTable, ih]

theorem expandedTable_row_length (nc : NumConv) (d : Int) (cols : List TblLabel)
    (rows : List TblRow) (h : ∀ r ∈ rows, r.vals.length = cols.length)
    (row : List (Int × Int)) (hrow : row ∈ expandedTable nc d cols rows) :
    row.length = (cols.map TblLabel.mult).sum := by
  simp only [expandedTable, List.mem_flatMap] at hrow
  obtain ⟨r, hr, hmem⟩ := hrow
  rw [List.eq_of_mem_replicate hmem]
  exact expandedRow_length nc d cols r.vals (h r hr)

/-- C10: SIDE/END expansion in `getLef58CutSpacingTable_cutClass`. For a
well-formed table text (the words `CUTCLASS`, the column labels, for every row
its label and one pair of numbers for every column, and `;`), with `R` logical
rows and `C` logical columns, the parser returns from the expansion with: the
expanded column names and row names, in which a label written without
qualifier gives the two names `nameSIDE` and `nameEND` and a label written with
a qualifier gives the single name `name + qualifier`; the expanded value
matrix, in which the row of values of a logical row stands once for every
name of the row and the value of a logical column stands once for every name
of the column (so the two names of an unqualified label carry identical
values). The matrix has (sum of row multiplicities) rows and every row has
(sum of column multiplicities) entries. -/
theorem cutClass_side_end_expansion (cv : CutTblEnv) (sIn : String) (d : Int)
    (cols : List TblLabel) (rows : List TblRow)
    (hw : words sIn = tableWords cols rows) (hwf : WellFormedTable cv.nc cols rows) :
    cutClassExpand cv sIn d
      = .returned
          ⟨cols.flatMap TblLabel.expanded, rows.flatMap (fun r => r.label.expanded),
            expandedTable cv.nc d cols rows⟩ ∧
    (expandedTable cv.nc d cols rows).length = (rows.map (fun r => r.label.mult)).sum ∧
    ∀ row ∈ expandedTable cv.nc d cols rows, row.length = (cols.map TblLabel.mult).sum := by
  have hlen : ∀ r ∈ rows, r.vals.length = cols.length := fun r hr => (hwf.2.2.2.2 r hr).2.1
  refine ⟨?_, expandedTable_length _ _ _ _, expandedTable_row_length _ _ _ _ hlen⟩
  obtain ⟨lastRow, k1, hread⟩ := cutClassRead_table cv d cols rows hwf
  have hc := expandNames_labels cols []
  have hr := expandNames_labels (rows.map (fun r => r.label)) []
  have ht := expandTbl_rows cv.nc d cols (rows.map (fun r => r.label.stored)) lastRow 1 k1
    rows [] [] rfl hlen
  simp only [List.nil_append, List.length_nil, List.map_map, List.flatMap_map] at hc hr ht
  unfold cutClassExpand
  simp only [hw, cutClassCount_table cv.nc cols rows hwf, hread]
  have hr1 : expandNames (List.map (fun r => r.label.dup) rows)
      (List.map (fun r => r.label.stored) rows) 0
        = some (rows.flatMap (fun r => r.label.expanded)) := hr
  rw [hc, hr1, ht]
  rfl

/-- C10 at a concrete input: the table with the columns `VA` and `VB END` and
the rows `VA` and `VB SIDE`. -/
theorem cutClass_side_end_expansion_witness :
    words "CUTCLASS VA VB END VA 1 2 3 4 VB SIDE 5 6 7 - ;"
      = tableWords tableExample.1 tableExample.2 ∧
    WellFormedTable cutTblEnvExample.nc tableExample.1 tableExample.2 ∧
    (cutClassExpand cutTblEnvExample "CUTCLASS VA VB END VA 1 2 3 4 VB SIDE 5 6 7 - ;" 9
      = .returned
          ⟨["VASIDE", "VAEND", "VBEND"], ["VASIDE", "VAEND", "VBSIDE"],
            [[(1, 2), (1, 2), (3, 4)], [(1, 2), (1, 2), (3, 4)], [(5, 6), (5, 6), (7, 9)]]⟩ ∧
     (expandedTable cutTblEnvExample.nc 9 tableExample.1 tableExample.2).length = 3 ∧
     ∀ row ∈ expandedTable cutTblEnvExample.nc 9 tableExample.1 tableExample.2,
       row.length = 3) :=
  have hw : words "CUTCLASS VA VB END VA 1 2 3 4 VB SIDE 5 6 7 - ;"
      = tableWords tableExample.1 tableExample.2 := by decide
  have hwf : WellFormedTable cutTblEnvExample.nc tableExample.1 tableExample.2 := by
    simp only [WellFormedTable, LabelOK, IsNameWord, ValuePairOK]
    decide
  ⟨hw, hwf, cutClass_side_end_expansion cutTblEnvExample _ 9 _ _ hw hwf⟩

theorem charsLt_irrefl : ∀ a : List Char, charsLt a a = false := by
  intro a
  induction a with
  | nil => rfl
  | cons c cs ih => simp [charsLt, ih]

theorem charsLt_trans : ∀ a b c : List Char,
    charsLt a b = true → charsLt b c = true → charsLt a c = true := by
  intro a
  induction a with
  | nil =>
    intro b c h1 h2
    cases b with
    | nil => simp [charsLt] at h1
    | cons y ys =>
      cases c with
      | nil => simp [charsLt] at h2
      | cons z zs => simp [charsLt]
  | cons x xs ih =>
    intro b c h1 h2
    cases b with
    | nil => simp [charsLt] at h1
    | cons y ys =>
      cases c with
      | nil => simp [charsLt] at h2
      | cons z zs =>
        simp only [charsLt] at h1 h2 ⊢
        by_cases hxy : x.toNat < y.toNat
        · by_cases hyz : y.toNat < z.toNat
          · rw [if_pos (by omega)]
          · rw [if_neg hyz] at h2
            by_cases hzy : z.toNat < y.toNat
            · rw [if_pos hzy] at h2; cases h2
            · rw [if_pos (by omega)]
        · rw [if_neg hxy] at h1
          by_cases hyx : y.toNat < x.toNat
          · rw [if_pos hyx] at h1; cases h1
          · rw [if_neg hyx] at h1
            by_cases hyz : y.toNat < z.toNat
            · rw [if_pos (by omega)]
            · rw [if_neg hyz] at h2
              by_cases hzy : z.toNat < y.toNat
              · rw [if_pos hzy] at h2; cases h2
              · rw [if_neg hzy] at h2
                rw [if_neg (by omega), if_neg (by omega)]
                exact ih ys zs h1 h2

theorem charsLt_tri : ∀ a b : List Char,
    charsLt a b = false → charsLt b a = false → a = b := by
  intro a
  induction a with
  | nil =>
    intro b h1 h2
    cases b with
    | nil => rfl
    | cons y ys => simp [charsLt] at h1
  | cons x xs ih =>
    intro b h1 h2
    cases b with
    | nil => simp [charsLt] at h2
    | cons y ys =>
      simp only [charsLt] at h1 h2
      by_cases hxy : x.toNat < y.toNat
      · rw [if_pos hxy] at h1; cases h1
      · by_cases hyx : y.toNat < x.toNat
        · rw [if_pos hyx] at h2; cases h2
        · rw [if_neg hxy, if_neg hyx] at h1
          rw [if_neg hyx, if_neg hxy] at h2
          have hc : x = y := by
            apply Char.ext
            apply UInt32.ext
            have : x.toNat = y.toNat := by omega
            exact this
          rw [hc, ih ys h1 h2]

theorem nameLt_strict : StrictOrder nameLt where
  irrefl := fun a => charsLt_irrefl _
  trans := fun a b c => charsLt_trans _ _ _
  tri := fun a b h1 h2 => by
    have := charsLt_tri _ _ h1 h2
    cases a; cases b; simp_all

theorem nameLt_asymm (a b : String) (h : nameLt a b = true) : nameLt b a = false := by
  cases hb : nameLt b a with
  | false => rfl
  | true =>
    have := nameLt_strict.trans a b a h hb
    rw [nameLt_strict.irrefl] at this
    cases this

theorem nameLe_trans (a b c : String) (h1 : nameLt b a = false) (h2 : nameLt c b = false) :
    nameLt c a = false := by
  cases hca : nameLt c a with
  | false => rfl
  | true =>
    cases hab : nameLt a b with
    | true =>
      have := nameLt_strict.trans c a b hca hab
      rw [h2] at this; cases this
    | false =>
      have := nameLt_strict.tri a b hab h1
      subst this
      rw [h2] at hca; cases hca

theorem insertName_perm (a : String) : ∀ l : List String, (insertName a l).Perm (a :: l) := by
  intro l
  induction l with
  | nil => exact List.Perm.refl _
  | cons b bs ih =>
    simp only [insertName]
    split
    · exact (List.Perm.cons b ih).trans (List.Perm.swap a b bs)
    · exact List.Perm.refl _

theorem insertName_sorted (a : String) : ∀ l : List String,
    l.Pairwise (fun x y => nameLt y x = false) →
    (insertName a l).Pairwise (fun x y => nameLt y x = false) := by
  intro l
  induction l with
  | nil => intro _; simp [insertName]
  | cons b bs ih =>
    intro h
    obtain ⟨hb, hbs⟩ := List.pairwise_cons.mp h
    simp only [insertName]
    split
    · rename_i hlt
      refine List.pairwise_cons.mpr ⟨?_, ih hbs⟩
      intro y hy
      rcases List.mem_cons.mp ((insertName_perm a bs).mem_iff.mp hy) with rfl | hy
      · exact nameLt_asymm _ _ hlt
      · exact hb y hy
    · rename_i hlt
      have hlt1 : nameLt b a = false := by simpa [nameLt] using hlt
      refine List.pairwise_cons.mpr ⟨?_, h⟩
      intro y hy
      rcases List.mem_cons.mp hy with rfl | hy
      · exact hlt1
      · exact nameLe_trans _ _ _ hlt1 (hb y hy)

theorem sortNames_perm : ∀ l : List String, (sortNames l).Perm l := by
  intro l
  induction l with
  | nil => exact List.Perm.refl _
  | cons a l ih =>
    simp only [sortNames, List.foldr_cons] at ih ⊢
    exact (insertName_perm a _).trans (List.Perm.cons a ih)

theorem sortNames_sorted : ∀ l : List String,
    (sortNames l).Pairwise (fun x y => nameLt y x = false) := by
  intro l
  induction l with
  | nil => simp [sortNames]
  | cons a l ih =>
    simp only [sortNames, List.foldr_cons] at ih ⊢
    exact insertName_sorted a _ ih

/-- Two ascending rearrangements of the same names are equal. -/
theorem sorted_names_unique (l1 l2 : List String) (hp : l1.Perm l2)
    (h1 : l1.Pairwise (fun x y => nameLt y x = false))
    (h2 : l2.Pairwise (fun x y => nameLt y x = false)) : l1 = l2 := by
  haveI : IsAntisymm String (fun x y => nameLt y x = false) :=
    ⟨fun a b hab hba => nameLt_strict.tri a b hba hab⟩
  exact List.eq_of_perm_of_sorted hp h1 h2

/-- The names of the sorted helper vector are the sorted names. -/
theorem sort_helper_names (sort : List (String × Nat) → List (String × Nat))
    (hs : IsStdSort sort) (names : List String) :
    (sort (namesHelper names)).map Prod.fst = sortNames names := by
  apply sorted_names_unique
  · have h1 := ((hs (namesHelper names)).1.map Prod.fst)
    have h2 : (namesHelper names).map Prod.fst = names := by
      simp [namesHelper, List.map_fst_zip]
    rw [h2] at h1
    exact h1.trans (sortNames_perm names).symm
  · exact List.pairwise_map.mpr (hs (namesHelper names)).2
  · exact sortNames_sorted names

theorem mem_namesHelper (names : List String) (n : String) (i : Nat) :
    (n, i) ∈ namesHelper names ↔ names[i]? = some n := by
  unfold namesHelper
  constructor
  · intro h
    obtain ⟨k, hk⟩ := List.mem_iff_getElem?.mp h
    rw [List.getElem?_zip_eq_some] at hk
    obtain ⟨h1, h2⟩ := hk
    rw [List.getElem?_range] at h2
    · cases h2; exact h1
    · by_contra hc
      rw [List.getElem?_eq_none (by simpa using hc)] at h2
      cases h2
  · intro h
    apply List.mem_iff_getElem?.mpr
    refine ⟨i, ?_⟩
    rw [List.getElem?_zip_eq_some]
    have hi : i < names.length := by
      by_contra hc
      rw [List.getElem?_eq_none (by omega)] at h
      cases h
    exact ⟨h, by rw [List.getElem?_range hi]⟩

theorem set_append_cons_length {α : Type} (pre : List α) (a b : α) (suf : List α) :
    (pre ++ a :: suf).set pre.length b = pre ++ b :: suf := by
  induction pre with
  | nil => rfl
  | cons x pre ih => simp [ih]

theorem permuteRow_spec (exp : List (List (Int × Int))) (i oi : Nat) :
    ∀ (hc : List (String × Nat)) (pre suf : List (Int × Int)) (tbl : List (List (Int × Int))),
      tbl[i]? = some (pre ++ suf) → hc.length ≤ suf.length →
      (∀ h ∈ hc, (cellAt exp oi h.2).isSome = true) →
      permuteRow exp i oi hc pre.length tbl
        = some (tbl.set i
            (pre ++ hc.map (fun c => (cellAt exp oi c.2).getD (0, 0)) ++ suf.drop hc.length)) := by
  intro hc
  induction hc with
  | nil =>
    intro pre suf tbl ht _ _
    simp only [permuteRow, List.map_nil, List.append_nil, List.length_nil, List.drop_zero]
    congr 1
    apply List.ext_getElem?
    intro k
    rw [List.getElem?_set]
    split
    · rename_i hk
      subst hk
      split
      · exact ht
      · rename_i hlt
        rw [List.getElem?_eq_none (by omega)] at ht
        cases ht
    · rfl
  | cons h hc ih =>
    intro pre suf tbl ht hlen hv
    obtain ⟨n, oj⟩ := h
    cases suf with
    | nil => simp at hlen
    | cons s suf =>
      obtain ⟨x, hx⟩ := Option.isSome_iff_exists.mp (hv (n, oj) (List.mem_cons_self _ _))
      have hx1 : (exp.get? oi).bind (fun r => r.get? oj) = some x := hx
      have hi : i < tbl.length := by
        by_contra hc1
        rw [List.getElem?_eq_none (by omega)] at ht
        cases ht
      have hset : setCell tbl i pre.length x = some (tbl.set i ((pre ++ [x]) ++ suf)) := by
        simp only [setCell, List.get?_eq_getElem?, ht]
        rw [if_pos (by simp)]
        rw [set_append_cons_length]
        simp
      have ht1 : (tbl.set i ((pre ++ [x]) ++ suf))[i]? = some ((pre ++ [x]) ++ suf) := by
        rw [List.getElem?_set]
        simp [hi]
      have := ih (pre ++ [x]) suf (tbl.set i ((pre ++ [x]) ++ suf)) ht1
        (by simpa using hlen) (fun h hh => hv h (List.mem_cons_of_mem _ hh))
      simp only [List.length_append, List.length_singleton] at this
      simp only [permuteRow, hx1, hset, this, List.set_set]
      simp only [List.get?_eq_getElem?] at hx1
      simp [cellAt, hx1]

theorem permuteTbl_spec (exp : List (List (Int × Int))) (hc : List (String × Nat)) :
    ∀ (hr : List (String × Nat)) (pre suf : List (List (Int × Int))),
      hr.length ≤ suf.length → (∀ row ∈ suf, row.length = hc.length) →
      (∀ r ∈ hr, ∀ c ∈ hc, (cellAt exp r.2 c.2).isSome = true) →
      permuteTbl exp hc hr pre.length (pre ++ suf)
        = some (pre ++ permutedTbl exp hc hr ++ suf.drop hr.length) := by
  intro hr
  induction hr with
  | nil => intro pre suf _ _ _; simp [permuteTbl, permutedTbl]
  | cons r hr ih =>
    intro pre suf hlen hrows hv
    cases suf with
    | nil => simp at hlen
    | cons row suf =>
      have h1 := permuteRow_spec exp pre.length r.2 hc [] row (pre ++ row :: suf)
        (getElem_append_cons_length _ _ _) (by rw [hrows row (List.mem_cons_self _ _)])
        (fun c hc1 => hv r (List.mem_cons_self _ _) c hc1)
      simp only [List.length_nil, List.nil_append, set_append_cons_length] at h1
      have hd : List.drop hc.length row = [] := by
        rw [List.drop_eq_nil_iff]; rw [hrows row (List.mem_cons_self _ _)]
      rw [hd, List.append_nil] at h1
      have h2 := ih (pre ++ [hc.map (fun c => (cellAt exp r.2 c.2).getD (0, 0))]) suf
        (by simpa using hlen) (fun x hx => hrows x (List.mem_cons_of_mem _ hx))
        (fun r1 hr1 => hv r1 (List.mem_cons_of_mem _ hr1))
      simp only [List.length_append, List.length_singleton, List.append_assoc,
        List.singleton_append] at h2
      obtain ⟨n, oi⟩ := r
      simp only [permuteTbl, h1, h2]
      simp [permutedTbl]

theorem cellAt_permutedTbl (exp : List (List (Int × Int))) (hc hr : List (String × Nat))
    (i j : Nat) (r c : String × Nat) (hi : hr[i]? = some r) (hj : hc[j]? = some c) :
    cellAt (permutedTbl exp hc hr) i j = some ((cellAt exp r.2 c.2).getD (0, 0)) := by
  simp [cellAt, permutedTbl, List.get?_eq_getElem?, List.getElem?_map, hi, hj]

theorem cutClassExpand_wellFormed (cv : CutTblEnv) (sIn : String) (d : Int)
    (cols : List TblLabel) (rows : List TblRow)
    (hw : words sIn = tableWords cols rows) (hwf : WellFormedTable cv.nc cols rows) :
    cutClassExpand cv sIn d
      = .returned
          ⟨cols.flatMap TblLabel.expanded, rows.flatMap (fun r => r.label.expanded),
            expandedTable cv.nc d cols rows⟩ := by
  have hlen : ∀ r ∈ rows, r.vals.length = cols.length := fun r hr => (hwf.2.2.2.2 r hr).2.1
  obtain ⟨lastRow, k1, hread⟩ := cutClassRead_table cv d cols rows hwf
  have hc := expandNames_labels cols []
  have hr := expandNames_labels (rows.map (fun r => r.label)) []
  have ht := expandTbl_rows cv.nc d cols (rows.map (fun r => r.label.stored)) lastRow 1 k1
    rows [] [] rfl hlen
  simp only [List.nil_append, List.length_nil, List.map_map, List.flatMap_map] at hc hr ht
  unfold cutClassExpand
  simp only [hw, cutClassCount_table cv.nc cols rows hwf, hread]
  have hr1 : expandNames (List.map (fun r => r.label.dup) rows)
      (List.map (fun r => r.label.stored) rows) 0
        = some (rows.flatMap (fun r => r.label.expanded)) := hr
  rw [hc, hr1, ht]
  rfl

theorem expanded_length (l : TblLabel) : l.expanded.length = l.mult := by
  cases hq : l.qual <;> simp [TblLabel.expanded, TblLabel.mult, hq]

theorem zip_replicate_length {B C : Type} (l : List B) (c : C) :
    l.zip (List.replicate l.length c) = l.map (fun b => (b, c)) := by
  induction l with
  | nil => rfl
  | cons b l ih => simp [List.replicate_succ, ih]

theorem zip_flatMap_replicate {A B C : Type} (as : List A) (f : A → List B) (g : A → C) :
    (as.flatMap f).zip (as.flatMap (fun a => List.replicate (f a).length (g a)))
      = as.flatMap (fun a => (f a).map (fun b => (b, g a))) := by
  induction as with
  | nil => rfl
  | cons a as ih =>
    simp only [List.flatMap_cons]
    rw [List.zip_append (by simp), ih, zip_replicate_length]

/-- An expanded row name stands at an index at which the expanded table holds
the expanded row of values of its logical row. -/
theorem expanded_row_index (nc : NumConv) (d : Int) (cols : List TblLabel) (rows : List TblRow)
    (r : TblRow) (hr : r ∈ rows) (lr : String) (hl : lr ∈ r.label.expanded) :
    ∃ i0 : Nat, (rows.flatMap (fun r => r.label.expanded))[i0]? = some lr ∧
      (expandedTable nc d cols rows)[i0]? = some (expandedRow nc d cols r.vals) := by
  have hz := zip_flatMap_replicate rows (fun r => r.label.expanded)
    (fun r => expandedRow nc d cols r.vals)
  simp only [expanded_length] at hz
  have hm : (lr, expandedRow nc d cols r.vals) ∈
      (rows.flatMap (fun r => r.label.expanded)).zip (expandedTable nc d cols rows) := by
    unfold expandedTable
    rw [hz]
    exact List.mem_flatMap.mpr ⟨r, hr, List.mem_map.mpr ⟨lr, hl, rfl⟩⟩
  obtain ⟨i0, hi0⟩ := List.mem_iff_getElem?.mp hm
  rw [List.getElem?_zip_eq_some] at hi0
  exact ⟨i0, hi0.1, hi0.2⟩

/-- An expanded column name stands at an index at which the expanded row of
values holds the value of its logical column. -/
theorem expanded_col_index (nc : NumConv) (d : Int) (cols : List TblLabel)
    (vals : List (String × String)) (hlen : vals.length = cols.length)
    (j : Nat) (c : TblLabel) (p : String × String) (hc : cols[j]? = some c)
    (hp : vals[j]? = some p) (lc : String) (hl : lc ∈ c.expanded) :
    ∃ j0 : Nat, (cols.flatMap TblLabel.expanded)[j0]? = some lc ∧
      (expandedRow nc d cols vals)[j0]? = some (cellValue nc d p) := by
  have hz := zip_flatMap_replicate (cols.zip vals) (fun cv => cv.1.expanded)
    (fun cv => cellValue nc d cv.2)
  simp only [expanded_length] at hz
  have he : (cols.zip vals).flatMap (fun cv => cv.1.expanded) = cols.flatMap TblLabel.expanded := by
    have : (cols.zip vals).flatMap (fun cv => cv.1.expanded)
        = ((cols.zip vals).map Prod.fst).flatMap TblLabel.expanded := by
      rw [List.flatMap_map]
    rw [this, List.map_fst_zip]
    omega
  rw [he] at hz
  have hcp : (c, p) ∈ cols.zip vals := by
    apply List.mem_iff_getElem?.mpr
    exact ⟨j, List.getElem?_zip_eq_some.mpr ⟨hc, hp⟩⟩
  have hm : (lc, cellValue nc d p) ∈
      (cols.flatMap TblLabel.expanded).zip (expandedRow nc d cols vals) := by
    unfold expandedRow
    rw [hz]
    exact List.mem_flatMap.mpr ⟨(c, p), hcp, List.mem_map.mpr ⟨lc, hl, rfl⟩⟩
  obtain ⟨j0, hj0⟩ := List.mem_iff_getElem?.mp hm
  rw [List.getElem?_zip_eq_some] at hj0
  exact ⟨j0, hj0.1, hj0.2⟩

theorem expanded_names_length (ls : List TblLabel) :
    (ls.flatMap TblLabel.expanded).length = (ls.map TblLabel.mult).sum := by
  induction ls with
  | nil => rfl
  | cons l ls ih => simp [ih, expanded_length]

theorem expanded_rows_length (rows : List TblRow) :
    (rows.flatMap (fun r => r.label.expanded)).length
      = (rows.map (fun r => r.label.mult)).sum := by
  induction rows with
  | nil => rfl
  | cons l ls ih => simp [ih, expanded_length]

theorem namesHelper_length (names : List String) : (namesHelper names).length = names.length := by
  simp [namesHelper]

theorem nodup_getElem_inj {α : Type} (l : List α) (h : l.Nodup) (a b : Nat) (x : α)
    (ha : l[a]? = some x) (hb : l[b]? = some x) : a = b := by
  have hal : a < l.length := by
    by_contra hc; rw [List.getElem?_eq_none (by omega)] at ha; cases ha
  have hbl : b < l.length := by
    by_contra hc; rw [List.getElem?_eq_none (by omega)] at hb; cases hb
  rw [List.getElem?_eq_getElem hal] at ha
  rw [List.getElem?_eq_getElem hbl] at hb
  have e : l[a] = l[b] := by rw [Option.some.inj ha, Option.some.inj hb]
  exact (List.Nodup.getElem_inj_iff h).mp e

theorem insertHelper_perm (a : String × Nat) :
    ∀ l : List (String × Nat), (insertHelper a l).Perm (a :: l) := by
  intro l
  induction l with
  | nil => exact List.Perm.refl _
  | cons b bs ih =>
    simp only [insertHelper]
    split
    · exact List.Perm.refl _
    · exact (List.Perm.cons b ih).trans (List.Perm.swap a b bs)

theorem insertHelper_sorted (a : String × Nat) : ∀ l : List (String × Nat),
    l.Pairwise (fun x y => nameLt y.1 x.1 = false) →
    (insertHelper a l).Pairwise (fun x y => nameLt y.1 x.1 = false) := by
  intro l
  induction l with
  | nil => intro _; simp [insertHelper]
  | cons b bs ih =>
    intro h
    obtain ⟨hb, hbs⟩ := List.pairwise_cons.mp h
    simp only [insertHelper]
    split
    · rename_i hlt
      have hba : nameLt b.1 a.1 = false := nameLt_asymm _ _ hlt
      refine List.pairwise_cons.mpr ⟨?_, h⟩
      intro y hy
      rcases List.mem_cons.mp hy with rfl | hy
      · exact hba
      · exact nameLe_trans _ _ _ hba (hb y hy)
    · rename_i hlt
      have hab : nameLt a.1 b.1 = false := by simpa [nameLt] using hlt
      refine List.pairwise_cons.mpr ⟨?_, ih hbs⟩
      intro y hy
      rcases List.mem_cons.mp ((insertHelper_perm a bs).mem_iff.mp hy) with rfl | hy
      · exact hab
      · exact hb y hy

theorem cutTblEnvExample_sort : IsStdSort cutTblEnvExample.sort := by
  have key : ∀ (l acc : List (String × Nat)),
      acc.Pairwise (fun x y => nameLt y.1 x.1 = false) →
      (l.foldl (fun acc a => insertHelper a acc) acc).Perm (acc ++ l) ∧
      (l.foldl (fun acc a => insertHelper a acc) acc).Pairwise
        (fun x y => nameLt y.1 x.1 = false) := by
    intro l
    induction l with
    | nil => intro acc h; simpa using h
    | cons a l ih =>
      intro acc h
      obtain ⟨h1, h2⟩ := ih (insertHelper a acc) (insertHelper_sorted a acc h)
      refine ⟨?_, h2⟩
      simp only [List.foldl_cons]
      refine h1.trans ?_
      have := (insertHelper_perm a acc).append_right l
      refine this.trans ?_
      simp only [List.cons_append]
      exact (List.perm_middle).symm
  intro l
  have := key l [] List.Pairwise.nil
  simpa [cutTblEnvExample] using this

/-- C11: the re-sort keeps labels and values aligned in
`getLef58CutSpacingTable_cutClass`. For a well-formed table text whose
expanded labels are pairwise distinct on each axis, and `std::sort` returning
a sorted rearrangement, the parser returns a table whose row names and column
names are the expanded names in ascending order, and for every logical row
`r`, logical column `c` (with the value words `p` of `r` in column `c`), name
`lr` expanded from `r` and name `lc` expanded from `c`: at the positions of
`lr` and `lc` in the sorted names the table holds the value of `p`. -/
theorem cutClass_resort_aligned (cv : CutTblEnv) (sIn : String)
    (con : Lef58CutSpacingTableConstraint) (hasSecondLayer : Bool) (secondLayerNum : Int)
    (cols : List TblLabel) (rows : List TblRow)
    (hw : words sIn = tableWords cols rows) (hwf : WellFormedTable cv.nc cols rows)
    (hsort : IsStdSort cv.sort)
    (hdc : (cols.flatMap TblLabel.expanded).Nodup)
    (hdr : (rows.flatMap (fun r => r.label.expanded)).Nodup) :
    ∃ rowNames colNames tblVals,
      getLef58CutSpacingTable_cutClass cv sIn con hasSecondLayer secondLayerNum
        = .returned { con with cutClassTbl := some (rowNames, colNames, tblVals) } ∧
      AlignedTable cv.nc con.defaultCutSpacing cols rows rowNames colNames tblVals := by
  have hlen : ∀ r ∈ rows, r.vals.length = cols.length := fun r hr => (hwf.2.2.2.2 r hr).2.1
  have hexp := cutClassExpand_wellFormed cv sIn con.defaultCutSpacing cols rows hw hwf
  -- the sorted helper vectors
  have hpr := (hsort (namesHelper (rows.flatMap (fun r => r.label.expanded)))).1
  have hpc := (hsort (namesHelper (cols.flatMap TblLabel.expanded))).1
  have hnr := sort_helper_names cv.sort hsort (rows.flatMap (fun r => r.label.expanded))
  have hnc := sort_helper_names cv.sort hsort (cols.flatMap TblLabel.expanded)
  have hlr : (cv.sort (namesHelper (rows.flatMap (fun r => r.label.expanded)))).length
      = (expandedTable cv.nc con.defaultCutSpacing cols rows).length := by
    rw [hpr.length_eq, expandedTable_length, ← expanded_rows_length, namesHelper_length]
  have hlc : ∀ row ∈ expandedTable cv.nc con.defaultCutSpacing cols rows,
      row.length = (cv.sort (namesHelper (cols.flatMap TblLabel.expanded))).length := by
    intro row hrow
    rw [expandedTable_row_length _ _ _ _ hlen row hrow, hpc.length_eq, ← expanded_names_length,
      namesHelper_length]
  -- every lookup of the permuting loop is valid
  have hvalid : ∀ r ∈ cv.sort (namesHelper (rows.flatMap (fun r => r.label.expanded))),
      ∀ c ∈ cv.sort (namesHelper (cols.flatMap TblLabel.expanded)),
      (cellAt (expandedTable cv.nc con.defaultCutSpacing cols rows) r.2 c.2).isSome = true := by
    intro r hr c hc
    have h1 := (mem_namesHelper _ r.1 r.2).mp (hpr.mem_iff.mp hr)
    have h2 := (mem_namesHelper _ c.1 c.2).mp (hpc.mem_iff.mp hc)
    have hr2 : r.2 < (expandedTable cv.nc con.defaultCutSpacing cols rows).length := by
      rw [expandedTable_length, ← expanded_rows_length]
      by_contra hcon
      rw [List.getElem?_eq_none (by omega)] at h1
      cases h1
    have hc2 : c.2 < (cols.flatMap TblLabel.expanded).length := by
      by_contra hcon
      rw [List.getElem?_eq_none (by omega)] at h2
      cases h2
    have hrow := expandedTable_row_length _ _ _ _ hlen _ (List.getElem_mem hr2)
    rw [← expanded_names_length] at hrow
    simp only [cellAt, List.get?_eq_getElem?, List.getElem?_eq_getElem hr2, Option.some_bind]
    rw [List.getElem?_eq_getElem (by omega)]
    rfl
  have hperm := permuteTbl_spec (expandedTable cv.nc con.defaultCutSpacing cols rows)
    (cv.sort (namesHelper (cols.flatMap TblLabel.expanded)))
    (cv.sort (namesHelper (rows.flatMap (fun r => r.label.expanded)))) []
    (expandedTable cv.nc con.defaultCutSpacing cols rows) (by rw [hlr]) hlc hvalid
  have hdrop : List.drop
      (cv.sort (namesHelper (rows.flatMap (fun r => r.label.expanded)))).length
      (expandedTable cv.nc con.defaultCutSpacing cols rows) = [] := by
    rw [List.drop_eq_nil_iff, hlr]
  simp only [List.length_nil, List.nil_append, hdrop, List.append_nil] at hperm
  refine ⟨sortNames (rows.flatMap (fun r => r.label.expanded)),
    sortNames (cols.flatMap TblLabel.expanded),
    permutedTbl (expandedTable cv.nc con.defaultCutSpacing cols rows)
      (cv.sort (namesHelper (cols.flatMap TblLabel.expanded)))
      (cv.sort (namesHelper (rows.flatMap (fun r => r.label.expanded)))),
    ?_, sortNames_sorted _, sortNames_sorted _, sortNames_perm _, sortNames_perm _, ?_⟩
  · unfold getLef58CutSpacingTable_cutClass
    simp only [hexp, hperm]
  · intro r hr j c p hcj hpj lr hlr1 lc hlc1 I J hI hJ
    rw [← hnr, List.getElem?_map] at hI
    rw [← hnc, List.getElem?_map] at hJ
    obtain ⟨hrI, hrI1, hrI2⟩ := Option.map_eq_some'.mp hI
    obtain ⟨hcJ, hcJ1, hcJ2⟩ := Option.map_eq_some'.mp hJ
    rw [cellAt_permutedTbl _ _ _ I J hrI hcJ hrI1 hcJ1]
    obtain ⟨i0, hi0, hi1⟩ := expanded_row_index cv.nc con.defaultCutSpacing cols rows r hr lr hlr1
    obtain ⟨j0, hj0, hj1⟩ := expanded_col_index cv.nc con.defaultCutSpacing cols r.vals
      (hlen r hr) j c p hcj hpj lc hlc1
    have h1 := (mem_namesHelper _ hrI.1 hrI.2).mp (hpr.mem_iff.mp (List.mem_iff_getElem?.mpr ⟨I, hrI1⟩))
    have h2 := (mem_namesHelper _ hcJ.1 hcJ.2).mp (hpc.mem_iff.mp (List.mem_iff_getElem?.mpr ⟨J, hcJ1⟩))
    rw [hrI2] at h1
    rw [hcJ2] at h2
    have e1 := nodup_getElem_inj _ hdr _ _ _ h1 hi0
    have e2 := nodup_getElem_inj _ hdc _ _ _ h2 hj0
    rw [e1, e2]
    simp [cellAt, List.get?_eq_getElem?, hi1, hj1]

/-- C11 at a concrete input: the table with the columns `VA` and `VB END` and
the rows `VA` and `VB SIDE`, the default cut spacing 9 and a stable sort. -/
theorem cutClass_resort_aligned_witness :
    words "CUTCLASS VA VB END VA 1 2 3 4 VB SIDE 5 6 7 - ;"
      = tableWords tableExample.1 tableExample.2 ∧
    WellFormedTable cutTblEnvExample.nc tableExample.1 tableExample.2 ∧
    IsStdSort cutTblEnvExample.sort ∧
    (tableExample.1.flatMap TblLabel.expanded).Nodup ∧
    (tableExample.2.flatMap (fun r => r.label.expanded)).Nodup ∧
    ∃ rowNames colNames tblVals,
      getLef58CutSpacingTable_cutClass cutTblEnvExample
          "CUTCLASS VA VB END VA 1 2 3 4 VB SIDE 5 6 7 - ;" ⟨9, none, none, none⟩ false 0
        = .returned ⟨9, none, none, some (rowNames, colNames, tblVals)⟩ ∧
      AlignedTable cutTblEnvExample.nc 9 tableExample.1 tableExample.2
        rowNames colNames tblVals :=
  have hw : words "CUTCLASS VA VB END VA 1 2 3 4 VB SIDE 5 6 7 - ;"
      = tableWords tableExample.1 tableExample.2 := by decide
  have hwf : WellFormedTable cutTblEnvExample.nc tableExample.1 tableExample.2 := by
    simp only [WellFormedTable, LabelOK, IsNameWord, ValuePairOK]
    decide
  ⟨hw, hwf, cutTblEnvExample_sort, by decide, by decide,
    cutClass_resort_aligned cutTblEnvExample _ ⟨9, none, none, none⟩ false 0 _ _ hw hwf
      cutTblEnvExample_sort (by decide) (by decide)⟩

/-! ## Merge and split of net geometry: splitting passes -/

/-- C12: evaluation at the failing input. On layer 2 the vertical segment
`(25,0)-(25,20)` crosses the horizontal segment `(20,10)-(30,10)` at `(25,10)`,
a point interior to both; the track `y = 10` also holds `(0,10)-(10,10)`. The
vertical segment is cut at `y = 10` when it is compared with `(0,10)-(10,10)`,
the scan of the two tracks stops there, and `(20,10)-(30,10)` is returned
uncut: no returned segment ends or begins at `(25,10)` on the track `y = 10`.
With the one horizontal segment `(0,10)-(30,10)` instead, both segments are
cut at `(25,10)`. -/
theorem mergeSplit_crossing_horizontal_not_split :
    mergeSplitConnFigs writerTechExample
        [.pathSeg (segExample 2 25 0 25 20), .pathSeg (segExample 2 0 10 10 10),
         .pathSeg (segExample 2 20 10 30 10)] =
      some [.pathSeg ⟨2, ⟨25, 0⟩, ⟨25, 10⟩, ⟨.extend, 5, .extend, 0⟩⟩,
            .pathSeg ⟨2, ⟨25, 10⟩, ⟨25, 20⟩, ⟨.extend, 0, .extend, 5⟩⟩,
            .pathSeg (segExample 2 0 10 10 10), .pathSeg (segExample 2 20 10 30 10)] ∧
    (∀ q ∈ segsOf [.pathSeg ⟨2, ⟨25, 0⟩, ⟨25, 10⟩, ⟨.extend, 5, .extend, 0⟩⟩,
            .pathSeg ⟨2, ⟨25, 10⟩, ⟨25, 20⟩, ⟨.extend, 0, .extend, 5⟩⟩,
            .pathSeg (segExample 2 0 10 10 10), .pathSeg (segExample 2 20 10 30 10)],
      ¬ (q.beginPt = ⟨20, 10⟩ ∧ q.endPt = ⟨25, 10⟩) ∧
      ¬ (q.beginPt = ⟨25, 10⟩ ∧ q.endPt = ⟨30, 10⟩)) ∧
    mergeSplitConnFigs writerTechExample
        [.pathSeg (segExample 2 25 0 25 20), .pathSeg (segExample 2 0 10 30 10)] =
      some [.pathSeg ⟨2, ⟨25, 0⟩, ⟨25, 10⟩, ⟨.extend, 5, .extend, 0⟩⟩,
            .pathSeg ⟨2, ⟨25, 10⟩, ⟨25, 20⟩, ⟨.extend, 0, .extend, 5⟩⟩,
            .pathSeg ⟨2, ⟨0, 10⟩, ⟨25, 10⟩, ⟨.extend, 5, .extend, 0⟩⟩,
            .pathSeg ⟨2, ⟨25, 10⟩, ⟨30, 10⟩, ⟨.extend, 0, .extend, 5⟩⟩] := by
  decide

/-- C13: the calls of `splitVia_helper` for one via. For every via at `(x, y)`
with cut layer `c` the body of the via split loop is the four calls with the
arguments `(c-1, 1, y)`, `(c-1, 0, x)`, `(c+1, 0, x)`, `(c+1, 0, x)`, in this
order: the vertical group of layer `c+1` at track `x` is examined twice, and
the horizontal group of layer `c+1` at track `y` is not examined. -/
theorem splitViaEntry_examined_groups (tech : WriterTech) (m : MergedPathSegs)
    (x y c : Int) (via : frVia) :
    splitViaEntry tech m ((x, y, c), via) =
      (splitViaCalls x y c).foldl
        (fun acc call => splitVia_helper tech call.1 call.2.1 call.2.2 x y acc) m ∧
    splitViaCalls x y c = [(c - 1, 1, y), (c - 1, 0, x), (c + 1, 0, x), (c + 1, 0, x)] ∧
    (splitViaCalls x y c).count (c + 1, 0, x) = 2 ∧
    (c + 1, 1, y) ∉ splitViaCalls x y c := by
  refine ⟨rfl, rfl, ?_, ?_⟩
  · simp only [splitViaCalls, List.count_cons, List.count_nil, beq_iff_eq, Prod.mk.injEq]
    have h1 : ¬ (c - 1 = c + 1) := by omega
    simp [h1]
  · have h1 : ¬ (c + 1 = c - 1) := by omega
    simp [splitViaCalls, h1]

theorem buildPathSegMergeMap_zero_length (l1 l2 : List frConnFig) (p : frPathSeg)
    (h : p.beginPt = p.endPt) :
    buildPathSegMergeMap (l1 ++ .pathSeg p :: l2) = buildPathSegMergeMap (l1 ++ l2) := by
  simp [buildPathSegMergeMap, List.foldl_append, addPathSeg, h]

theorem buildViaMergeMap_pathSeg (l1 l2 : List frConnFig) (p : frPathSeg) :
    buildViaMergeMap (l1 ++ .pathSeg p :: l2) = buildViaMergeMap (l1 ++ l2) := by
  simp [buildViaMergeMap, List.foldl_append]

/-- C15: zero-length segments are dropped. For every technology and every
input list, a path segment whose begin point equals its end point can be
removed from the list without changing the result of `mergeSplitConnFigs`
(neither the returned list nor whether an exception is raised). -/
theorem mergeSplit_zero_length_dropped (tech : WriterTech) (l1 l2 : List frConnFig)
    (p : frPathSeg) (h : p.beginPt = p.endPt) :
    mergeSplitConnFigs tech (l1 ++ .pathSeg p :: l2) = mergeSplitConnFigs tech (l1 ++ l2) := by
  simp only [mergeSplitConnFigs, mergePass, buildPathSegMergeMap_zero_length l1 l2 p h,
    buildViaMergeMap_pathSeg]

/-- C15 at a concrete input: the zero-length segment `(5,5)-(5,5)` on a layer
outside the technology, between two abutting segments. -/
theorem mergeSplit_zero_length_dropped_witness :
    (segExample 9 5 5 5 5).beginPt = (segExample 9 5 5 5 5).endPt ∧
    mergeSplitConnFigs writerTechExample
        ([.pathSeg (segExample 2 0 100 100 100)] ++
          .pathSeg (segExample 9 5 5 5 5) :: [.pathSeg (segExample 2 100 100 200 100)]) =
      mergeSplitConnFigs writerTechExample
        ([.pathSeg (segExample 2 0 100 100 100)] ++ [.pathSeg (segExample 2 100 100 200 100)]) :=
  ⟨rfl, mergeSplit_zero_length_dropped writerTechExample _ _ _ rfl⟩

/-- C20: evaluation at the failing inputs. On layer 2 the vertical segment
`(25,0)-(25,20)` and the horizontal segment `(0,10)-(10,10)` do not intersect
(the x range 0..10 does not contain 25), but the vertical segment is returned
cut at `y = 10`, with "extend" styles at the cut. The same vertical segment
and the horizontal segment `(0,30)-(30,30)` do not intersect either (the y
range 0..20 does not contain 30), but the horizontal segment is returned cut
at `x = 25`. -/
theorem mergeSplit_splits_without_intersection :
    mergeSplitConnFigs writerTechExample
        [.pathSeg (segExample 2 25 0 25 20), .pathSeg (segExample 2 0 10 10 10)] =
      some [.pathSeg ⟨2, ⟨25, 0⟩, ⟨25, 10⟩, ⟨.extend, 5, .extend, 0⟩⟩,
            .pathSeg ⟨2, ⟨25, 10⟩, ⟨25, 20⟩, ⟨.extend, 0, .extend, 5⟩⟩,
            .pathSeg (segExample 2 0 10 10 10)] ∧
    mergeSplitConnFigs writerTechExample
        [.pathSeg (segExample 2 25 0 25 20), .pathSeg (segExample 2 0 30 30 30)] =
      some [.pathSeg (segExample 2 25 0 25 20),
            .pathSeg ⟨2, ⟨0, 30⟩, ⟨25, 30⟩, ⟨.extend, 5, .extend, 0⟩⟩,
            .pathSeg ⟨2, ⟨25, 30⟩, ⟨30, 30⟩, ⟨.extend, 0, .extend, 5⟩⟩] := by
  decide

/-! ## LEF58 rule compilation: skipped branches and termination -/

/-- C18: evaluation at the failing input. The rule text with `WITHCUT`, a
keyword of the branches marked "(SKIP)", registers one constraint on the layer
and on the technology (the constraint of the text without the keyword): the
`WITHCUT` branch does not set `skip`. The same text with `EXCEPTEXACTWIDTH` in
its place registers none. -/
theorem endOfLineWithin_withcut_registers :
    getLef58Spacing_endOfLineWithin numConvExample 100 ruleDbExample
        "SPACING 1 ENDOFLINE 2 WITHIN 3 WITHCUT ;" =
      .returned
        { tech := ruleDbExample.tech.addConstraint
            (.spacingEndOfLine (eolConstraint { eolSpace := 1, eolWidth := 2, eolWithin := 3 })),
          layer := { ruleDbExample.layer with
            lef58SpacingEndOfLineConstraints :=
              [.spacingEndOfLine (eolConstraint { eolSpace := 1, eolWidth := 2, eolWithin := 3 })] } } ∧
    getLef58Spacing_endOfLineWithin numConvExample 100 ruleDbExample
        "SPACING 1 ENDOFLINE 2 WITHIN 3 WITHCUT ;" =
      getLef58Spacing_endOfLineWithin numConvExample 100 ruleDbExample
        "SPACING 1 ENDOFLINE 2 WITHIN 3 ;" ∧
    getLef58Spacing_endOfLineWithin numConvExample 100 ruleDbExample
        "SPACING 1 ENDOFLINE 2 WITHIN 3 EXCEPTEXACTWIDTH ;" = .returned ruleDbExample :=
  ⟨rfl, rfl, rfl⟩

theorem adjTwoCutsLoop_failed (nc : NumConv) (fuel : Nat) (s : CutSt) (pos : Option (List Char))
    (h : s.istr.failbit = true) : adjTwoCutsLoop nc fuel s pos = .outOfFuel := by
  induction fuel generalizing s with
  | zero => rfl
  | succ n ih =>
    have hw : s.word = (none, { s with istr := ⟨s.istr.buf, s.istr.eofbit, true⟩ }) := by
      simp [CutSt.word, IStream.getWord, IStream.sentry, IStream.good, h]
    rw [adjTwoCutsLoop, hw]
    exact ih _ rfl

/-- C17: evaluation at the failing input. On the rule text in which the word
after `TWOCUTSSPACING` is not a number, the loop `while (!done)` never ends:
whatever the fuel of the embedding's loops, the call does not return. -/
theorem adjacentCuts_never_returns (fuel : Nat) :
    getLef58CutSpacing_adjacentCuts numConvExample fuel ruleDbExample
      "SPACING 5 ADJACENTCUTS 3 TWOCUTS 2 TWOCUTSSPACING x ;" = .outOfFuel := by
  match fuel with
  | 0 => rfl
  | 1 => rfl
  | n + 2 =>
    have h1 : adjTwoCutsLoop numConvExample (n + 2)
        { con := { cutSpacing := some 5, adjacentCuts := some 3, twoCuts := some 2 },
          istr := ⟨" TWOCUTSSPACING x ;".toList, false, false⟩ }
        (some " TWOCUTSSPACING x ;".toList) = .outOfFuel := by
      have e : adjTwoCutsLoop numConvExample (n + 2)
        { con := { cutSpacing := some 5, adjacentCuts := some 3, twoCuts := some 2 },
          istr := ⟨" TWOCUTSSPACING x ;".toList, false, false⟩ }
        (some " TWOCUTSSPACING x ;".toList) =
        adjTwoCutsLoop numConvExample (n + 1)
        { con := { cutSpacing := some 5, adjacentCuts := some 3, twoCuts := some 2 },
          isSkip := true,
          istr := ⟨"x ;".toList, false, true⟩ }
        (some " TWOCUTSSPACING x ;".toList) := rfl
      rw [e]
      exact adjTwoCutsLoop_failed _ _ _ _ rfl
    have h2 : adjLoop numConvExample ruleDbExample.layer (n + 2) (n + 2)
        { istr := IStream.ofString "SPACING 5 ADJACENTCUTS 3 TWOCUTS 2 TWOCUTSSPACING x ;" } =
      match
        (match adjTwoCutsLoop numConvExample (n + 2)
          { con := { cutSpacing := some 5, adjacentCuts := some 3, twoCuts := some 2 },
            istr := ⟨" TWOCUTSSPACING x ;".toList, false, false⟩ }
          (some " TWOCUTSSPACING x ;".toList) with
        | .returned s2 => adjInnerLoop numConvExample ruleDbExample.layer (n + 2) (n + 1) s2
        | .threw => .threw
        | .outOfFuel => .outOfFuel) with
      | .returned s3 => adjLoop numConvExample ruleDbExample.layer (n + 2) n s3
      | .threw => .threw
      | .outOfFuel => .outOfFuel := rfl
    simp only [getLef58CutSpacing_adjacentCuts, h2, h1]

/-! ## Merge and split of net geometry: styles of merged segments -/

theorem openLoop_style (evs : List (frPathSeg × Bool)) : ∀ st : MergeLoop,
    (openLoop st evs).style.endStyle = st.style.endStyle ∧
    (openLoop st evs).style.endExt = st.style.endExt ∧
    st.style.beginExt ≤ (openLoop st evs).style.beginExt ∧
    (∀ q, (q, true) ∈ evs → q.style.beginExt ≤ (openLoop st evs).style.beginExt) ∧
    (((openLoop st evs).style.beginStyle = st.style.beginStyle ∧
        (openLoop st evs).style.beginExt = st.style.beginExt) ∨
      (st.style.beginExt < (openLoop st evs).style.beginExt ∧
        ∃ q, (q, true) ∈ evs ∧ q.style.beginStyle = (openLoop st evs).style.beginStyle ∧
          q.style.beginExt = (openLoop st evs).style.beginExt)) := by
  induction evs with
  | nil => intro st; simp [openLoop]
  | cons e evs ih =>
    intro st
    obtain ⟨q0, b0⟩ := e
    cases b0 with
    | false =>
      have h1 : openLoop st ((q0, false) :: evs) = openLoop st evs := by simp [openLoop]
      rw [h1]
      obtain ⟨a1, a2, a3, a4, a5⟩ := ih st
      refine ⟨a1, a2, a3, ?_, ?_⟩
      · intro q hq
        simp only [List.mem_cons, Prod.mk.injEq, Bool.true_eq_false, and_false, false_or] at hq
        exact a4 q hq
      · rcases a5 with h | ⟨h, q, hq, hh⟩
        · exact Or.inl h
        · exact Or.inr ⟨h, q, List.mem_cons_of_mem _ hq, hh⟩
    | true =>
      by_cases hgt : q0.style.beginExt > st.style.beginExt
      · have h1 : openLoop st ((q0, true) :: evs) =
            openLoop (MergeLoop.mk st.hasSeg st.cnt st.newPathSeg
              (st.style.setBeginStyle q0.style.beginStyle q0.style.beginExt) q0.beginPt q0.endPt) evs := by
          simp [openLoop, hgt]
        rw [h1]
        obtain ⟨a1, a2, a3, a4, a5⟩ := ih (MergeLoop.mk st.hasSeg st.cnt st.newPathSeg
              (st.style.setBeginStyle q0.style.beginStyle q0.style.beginExt) q0.beginPt q0.endPt)
        simp only [frSegStyle.setBeginStyle] at a1 a2 a3 a4 a5 ⊢
        refine ⟨a1, a2, by omega, ?_, ?_⟩
        · intro q hq
          simp only [List.mem_cons, Prod.mk.injEq, and_true] at hq
          rcases hq with rfl | hq
          · exact a3
          · exact a4 q hq
        · right
          refine ⟨by omega, ?_⟩
          rcases a5 with ⟨h5, h6⟩ | ⟨h, q, hq, hh⟩
          · exact ⟨q0, List.mem_cons_self _ _, h5.symm, h6.symm⟩
          · exact ⟨q, List.mem_cons_of_mem _ hq, hh⟩
      · have h1 : openLoop st ((q0, true) :: evs) =
            openLoop { st with beginPt := q0.beginPt, endPt := q0.endPt } evs := by
          simp [openLoop, hgt]
        rw [h1]
        obtain ⟨a1, a2, a3, a4, a5⟩ := ih { st with beginPt := q0.beginPt, endPt := q0.endPt }
        simp only at a1 a2 a3 a4 a5
        refine ⟨a1, a2, a3, ?_, ?_⟩
        · intro q hq
          simp only [List.mem_cons, Prod.mk.injEq, and_true] at hq
          rcases hq with rfl | hq
          · omega
          · exact a4 q hq
        · rcases a5 with h | ⟨h, q, hq, hh⟩
          · exact Or.inl h
          · exact Or.inr ⟨h, q, List.mem_cons_of_mem _ hq, hh⟩

theorem closeLoop_style (evs : List (frPathSeg × Bool)) : ∀ st : MergeLoop,
    (closeLoop st evs).style.beginStyle = st.style.beginStyle ∧
    (closeLoop st evs).style.beginExt = st.style.beginExt ∧
    st.style.endExt ≤ (closeLoop st evs).style.endExt ∧
    (∀ q, (q, false) ∈ evs → q.style.endExt ≤ (closeLoop st evs).style.endExt) ∧
    (((closeLoop st evs).style.endStyle = st.style.endStyle ∧
        (closeLoop st evs).style.endExt = st.style.endExt) ∨
      (st.style.endExt < (closeLoop st evs).style.endExt ∧
        ∃ q, (q, false) ∈ evs ∧ q.style.endStyle = (closeLoop st evs).style.endStyle ∧
          q.style.endExt = (closeLoop st evs).style.endExt)) := by
  induction evs with
  | nil => intro st; simp [closeLoop]
  | cons e evs ih =>
    intro st
    obtain ⟨q0, b0⟩ := e
    cases b0 with
    | true =>
      have h1 : closeLoop st ((q0, true) :: evs) = closeLoop st evs := by simp [closeLoop]
      rw [h1]
      obtain ⟨a1, a2, a3, a4, a5⟩ := ih st
      refine ⟨a1, a2, a3, ?_, ?_⟩
      · intro q hq
        simp only [List.mem_cons, Prod.mk.injEq, Bool.false_eq_true, and_false, false_or] at hq
        exact a4 q hq
      · rcases a5 with h | ⟨h, q, hq, hh⟩
        · exact Or.inl h
        · exact Or.inr ⟨h, q, List.mem_cons_of_mem _ hq, hh⟩
    | false =>
      by_cases hgt : q0.style.endExt > st.style.endExt
      · have h1 : closeLoop st ((q0, false) :: evs) =
            closeLoop (MergeLoop.mk st.hasSeg st.cnt st.newPathSeg
              (st.style.setEndStyle q0.style.endStyle q0.style.endExt) st.beginPt q0.endPt) evs := by
          simp [closeLoop, hgt]
        rw [h1]
        obtain ⟨a1, a2, a3, a4, a5⟩ := ih (MergeLoop.mk st.hasSeg st.cnt st.newPathSeg
              (st.style.setEndStyle q0.style.endStyle q0.style.endExt) st.beginPt q0.endPt)
        simp only [frSegStyle.setEndStyle] at a1 a2 a3 a4 a5 ⊢
        refine ⟨a1, a2, by omega, ?_, ?_⟩
        · intro q hq
          simp only [List.mem_cons, Prod.mk.injEq, and_true] at hq
          rcases hq with rfl | hq
          · exact a3
          · exact a4 q hq
        · right
          refine ⟨by omega, ?_⟩
          rcases a5 with ⟨h5, h6⟩ | ⟨h, q, hq, hh⟩
          · exact ⟨q0, List.mem_cons_self _ _, h5.symm, h6.symm⟩
          · exact ⟨q, List.mem_cons_of_mem _ hq, hh⟩
      · have h1 : closeLoop st ((q0, false) :: evs) =
            closeLoop { st with endPt := q0.endPt } evs := by
          simp [closeLoop, hgt]
        rw [h1]
        obtain ⟨a1, a2, a3, a4, a5⟩ := ih { st with endPt := q0.endPt }
        simp only at a1 a2 a3 a4 a5
        refine ⟨a1, a2, a3, ?_, ?_⟩
        · intro q hq
          simp only [List.mem_cons, Prod.mk.injEq, and_true] at hq
          rcases hq with rfl | hq
          · omega
          · exact a4 q hq
        · rcases a5 with h | ⟨h, q, hq, hh⟩
          · exact Or.inl h
          · exact Or.inr ⟨h, q, List.mem_cons_of_mem _ hq, hh⟩

theorem mapModify_mem_cases {K V : Type} (lt : K → K → Bool) (d : V) (f : V → V)
    (m : List (K × V)) (k : K) (x : K × V) (h : x ∈ mapModify lt d f m k) :
    x ∈ m ∨ ∃ v, x.2 = f v := by
  induction m with
  | nil =>
    simp only [mapModify, List.mem_singleton] at h
    exact Or.inr ⟨d, by rw [h]⟩
  | cons a m ih =>
    obtain ⟨k1, v1⟩ := a
    rw [mapModify] at h
    split at h
    · rcases List.mem_cons.mp h with h | h
      · exact Or.inr ⟨d, by rw [h]⟩
      · exact Or.inl h
    · split at h
      · rcases List.mem_cons.mp h with h | h
        · exact Or.inl (by rw [h]; exact List.mem_cons_self _ _)
        · rcases ih h with h | h
          · exact Or.inl (List.mem_cons_of_mem _ h)
          · exact Or.inr h
      · rcases List.mem_cons.mp h with h | h
        · exact Or.inr ⟨v1, by rw [h]⟩
        · exact Or.inl (List.mem_cons_of_mem _ h)

theorem pushMerged_noEmpty (m m1 : MergedPathSegs) (key : SegKey) (q : frPathSeg)
    (h : pushMerged m key q = some m1) (hn : NoEmptyTracks m) : NoEmptyTracks m1 := by
  obtain ⟨ly, ih, tr⟩ := key
  unfold pushMerged at h
  split at h
  swap
  · cases h
  simp only [Option.some.injEq] at h
  subst h
  intro l hl
  obtain ⟨l0, hl0, hl1⟩ : ∃ l0 ∈ m, l = l0 ∨
      l = l0.setAt ih (mapModify coordLt [] (fun v => v ++ [q]) (l0.at ih) tr) := by
    obtain ⟨i, hi, rfl⟩ := List.getElem_of_mem hl
    simp only [List.length_modify] at hi
    refine ⟨m[i], List.getElem_mem (l := m) hi, ?_⟩
    rw [List.getElem_modify]
    split
    · exact Or.inr rfl
    · exact Or.inl rfl
  have hold := hn l0 hl0
  rcases hl1 with rfl | rfl
  · exact hold
  · have key1 : ∀ e ∈ mapModify coordLt [] (fun v => v ++ [q]) (l0.at ih) tr, e.2 ≠ [] := by
      intro e he
      rcases mapModify_mem_cases _ _ _ _ _ _ he with h1 | ⟨v, h1⟩
      · cases ih
        · exact hold.1 e h1
        · exact hold.2 e h1
      · rw [h1]; simp
    cases ih
    · exact ⟨key1, hold.2⟩
    · exact ⟨hold.1, key1⟩

theorem mergeStep_noEmpty (key : SegKey) (acc acc1 : MergeLoop × MergedPathSegs)
    (it2 : Int × List (frPathSeg × Bool)) (h : mergeStep key acc it2 = some acc1)
    (hn : NoEmptyTracks acc.2) : NoEmptyTracks acc1.2 := by
  unfold mergeStep at h
  simp only at h
  split at h
  · split at h
    · cases h
    · simp only [Option.some.injEq] at h
      rw [← h]; exact hn
  · split at h
    · split at h
      · cases h
      · cases hp : pushMerged acc.2 key _ with
        | none => rw [hp] at h; cases h
        | some m1 =>
          rw [hp] at h
          simp only [Option.map_some', Option.some.injEq] at h
          rw [← h]
          exact pushMerged_noEmpty _ _ _ _ hp hn
    · simp only [Option.some.injEq] at h
      rw [← h]; exact hn

theorem mergeSweep_noEmpty (key : SegKey) (R : EventMap) :
    ∀ (acc acc1 : MergeLoop × MergedPathSegs), mergeSweep key acc R = some acc1 →
      NoEmptyTracks acc.2 → NoEmptyTracks acc1.2 := by
  induction R with
  | nil =>
    intro acc acc1 h hn
    simp only [mergeSweep, Option.some.injEq] at h
    rw [← h]; exact hn
  | cons e R ih =>
    intro acc acc1 h hn
    rw [mergeSweep] at h
    cases hs : mergeStep key acc e with
    | none => rw [hs] at h; cases h
    | some acc2 =>
      rw [hs] at h
      exact ih acc2 acc1 h (mergeStep_noEmpty key acc acc2 e hs hn)

theorem mergeGroups_noEmpty (M : PathSegMergeMap) :
    ∀ (m m1 : MergedPathSegs), mergeGroups m M = some m1 → NoEmptyTracks m →
      NoEmptyTracks m1 := by
  induction M with
  | nil =>
    intro m m1 h hn
    simp only [mergeGroups, Option.some.injEq] at h
    rw [← h]; exact hn
  | cons e M ih =>
    intro m m1 h hn
    rw [mergeGroups] at h
    cases hs : mergeSweep e.1 (MergeLoop.init, m) e.2 with
    | none => rw [hs] at h; cases h
    | some acc =>
      rw [hs] at h
      exact ih acc.2 m1 h (mergeSweep_noEmpty e.1 e.2 _ acc hs hn)

theorem mergePass_noEmpty (tech : WriterTech) (connFigs : List frConnFig) (merged : MergedPathSegs)
    (h : mergePass tech connFigs = some merged) : NoEmptyTracks merged := by
  refine mergeGroups_noEmpty _ _ _ h ?_
  intro l hl
  rw [List.eq_of_mem_replicate hl]
  simp

/-- When a merged segment begins at the head coordinate, the first event
there is the begin event of a segment of the group. -/
theorem sweep_open_facts (G : List frPathSeg) (key : SegKey)
    (hG : ∀ p ∈ G, p.key = key ∧ p.beginCoord < p.endCoord)
    (c : Int) (evs : List (frPathSeg × Bool)) (R : EventMap) (st : MergeLoop)
    (O : List frPathSeg)
    (hF : FrontOK G ((c, evs) :: R)) (hI : SweepInv G key ((c, evs) :: R) st O)
    (hhs : st.hasSeg = false) (hpos : 0 < countEvents st.cnt evs) :
    ∃ p rest, evs = (p, true) :: rest ∧ p ∈ G ∧ p.beginCoord = c := by
  have hlt : ∀ q ∈ G, q.beginCoord < q.endCoord := fun q hq => (hG q hq).2
  have hFR := frontOK_tail G _ R hF
  have hcR : ∀ c1 ∈ coordsOf R, c < c1 := frontOK_head_lt G _ R hF
  obtain ⟨hcnt, hpw, hout, hstate⟩ := hI
  have hcnt1 : countEvents st.cnt evs = cntOf G R := by rw [hcnt]; exact cntOf_step G c evs R hF
  obtain ⟨hEb, hEe, -, -⟩ := hF.2.1 (c, evs) (List.mem_cons_self _ _)
  simp only at hEb hEe
  have hcmem : c ∈ coordsOf ((c, evs) :: R) := by simp [coordsOf]
  have hdone : ∀ v : Int, v ∉ coordsOf R → v = c ∨ v ∉ coordsOf ((c, evs) :: R) := by
    intro v hv
    by_cases hvc : v = c
    · exact Or.inl hvc
    · right; simp only [coordsOf_cons, List.mem_cons, not_or]; exact ⟨hvc, hv⟩
  have hdone2 : ∀ v : Int, v ∉ coordsOf ((c, evs) :: R) → v ∉ coordsOf R := by
    intro v hv hv2
    exact hv (by simp only [coordsOf_cons, List.mem_cons]; exact Or.inr hv2)
  rcases hstate with ⟨-, hz, hcl⟩ | ⟨hhs2, -⟩
  swap
  · rw [hhs] at hhs2; cases hhs2
  rw [hcnt] at hz
  have hzero := cntOf_zero G _ hF hlt hz
  rw [hcnt1] at hpos
  obtain ⟨q0, hq0, hq0b, hq0e⟩ := cntOf_pos G R hFR hlt hpos
  have hnoend : ∀ q ∈ G, q.endCoord ≠ c := by
    intro q hq he
    have h1 : q.beginCoord ∉ coordsOf ((c, evs) :: R) := by
      intro hb
      simp only [coordsOf_cons, List.mem_cons] at hb
      have := hlt q hq
      rcases hb with hb | hb
      · omega
      · have := hcR _ hb; omega
    exact hzero q hq h1 (by rw [he]; exact hcmem)
  have hq0c : q0.beginCoord = c := by
    rcases hdone _ hq0b with h | h
    · exact h
    · exact absurd (hdone2 _ (hzero q0 hq0 h)) (fun h2 => h2 hq0e)
  cases hevs : evs with
  | nil =>
    have := (hEb q0).mpr ⟨hq0, hq0c⟩
    rw [hevs] at this; cases this
  | cons first rest =>
    obtain ⟨p, isB⟩ := first
    have hfirst : (p, isB) ∈ evs := by rw [hevs]; exact List.mem_cons_self _ _
    cases isB with
    | false => exact absurd ((hEe p).mp hfirst).2 (hnoend p ((hEe p).mp hfirst).1)
    | true =>
      obtain ⟨hpG, hpc⟩ := (hEb p).mp hfirst
      exact ⟨p, rest, rfl, hpG, hpc⟩

/-- When a merged segment ends at the head coordinate, it began at an earlier
coordinate and some segment of the group ends here. -/
theorem sweep_close_facts (G : List frPathSeg) (key : SegKey)
    (hG : ∀ p ∈ G, p.key = key ∧ p.beginCoord < p.endCoord)
    (c : Int) (evs : List (frPathSeg × Bool)) (R : EventMap) (st : MergeLoop)
    (O : List frPathSeg)
    (hF : FrontOK G ((c, evs) :: R)) (hI : SweepInv G key ((c, evs) :: R) st O)
    (hhs : st.hasSeg = true) (hz : countEvents st.cnt evs = 0) :
    ∃ p0 p q1, st.newPathSeg = some p0 ∧ p0.layerNum = key.1 ∧ p ∈ G ∧
      p0.beginPt = p.beginPt ∧ p.beginCoord < c ∧ (q1, false) ∈ evs := by
  have hlt : ∀ q ∈ G, q.beginCoord < q.endCoord := fun q hq => (hG q hq).2
  have hFR := frontOK_tail G _ R hF
  obtain ⟨hcnt, hpw, hout, hstate⟩ := hI
  have hcnt1 : countEvents st.cnt evs = cntOf G R := by rw [hcnt]; exact cntOf_step G c evs R hF
  obtain ⟨hEb, hEe, -, -⟩ := hF.2.1 (c, evs) (List.mem_cons_self _ _)
  simp only at hEb hEe
  have hcmem : c ∈ coordsOf ((c, evs) :: R) := by simp [coordsOf]
  have hdone2 : ∀ v : Int, v ∉ coordsOf ((c, evs) :: R) → v ∉ coordsOf R := by
    intro v hv hv2
    exact hv (by simp only [coordsOf_cons, List.mem_cons]; exact Or.inr hv2)
  rcases hstate with ⟨hhs2, -⟩ | ⟨-, hpos, p0, p, hnp, hp0l, hpG, hp0b, hpd, hstart, hcov, hsep⟩
  · rw [hhs] at hhs2; cases hhs2
  rw [hcnt] at hpos
  rw [hcnt1] at hz
  have hzero := cntOf_zero G R hFR hlt hz
  obtain ⟨q1, hq1, hq1b, hq1e⟩ := cntOf_pos G _ hF hlt hpos
  have hq1c : q1.endCoord = c := by
    have := hzero q1 hq1 (hdone2 _ hq1b)
    simp only [coordsOf_cons, List.mem_cons] at hq1e
    rcases hq1e with h | h
    · exact h
    · exact absurd h this
  exact ⟨p0, p, q1, hnp, hp0l, hpG, hp0b, (frontOK_lt G _ hF p hpG).1 hpd c hcmem,
    (hEe q1).mpr ⟨hq1, hq1c⟩⟩

theorem mergeStep_open_style (key : SegKey) (st : MergeLoop) (m : MergedPathSegs) (c : Int)
    (first : frPathSeg × Bool) (rest : List (frPathSeg × Bool))
    (h1 : st.hasSeg = false) (h2 : 0 < countEvents st.cnt (first :: rest)) :
    ∃ st1 p0, mergeStep key (st, m) (c, first :: rest) = some (st1, m) ∧ st1.hasSeg = true ∧
      st1.newPathSeg = some p0 ∧ p0.beginPt = first.1.beginPt ∧
      st1.style = (openLoop (MergeLoop.mk st.hasSeg (countEvents st.cnt (first :: rest))
        (some first.1) ⟨.truncate, 0, .truncate, 0⟩ st.beginPt st.endPt) (first :: rest)).style := by
  simp only [mergeStep, h1, Bool.not_false, Bool.true_and, decide_eq_true_eq, h2, if_true]
  simp only [(openLoop_fields _ _).2.2, Option.map_some']
  exact ⟨_, _, rfl, rfl, rfl, rfl, rfl⟩

theorem mergeStep_close_style (key : SegKey) (st : MergeLoop) (m : MergedPathSegs) (c : Int)
    (evs : List (frPathSeg × Bool)) (p0 : frPathSeg)
    (h1 : st.hasSeg = true) (h2 : countEvents st.cnt evs = 0) (h3 : st.newPathSeg = some p0) :
    ∃ st1 q, mergeStep key (st, m) (c, evs) = (pushMerged m key q).map (fun m1 => (st1, m1)) ∧
      st1.hasSeg = false ∧ q.layerNum = p0.layerNum ∧
      q.beginPt = p0.beginPt ∧
      q.endPt = (closeLoop (MergeLoop.mk st.hasSeg (countEvents st.cnt evs) st.newPathSeg
        st.style p0.beginPt p0.endPt) evs).endPt ∧
      q.style = (closeLoop (MergeLoop.mk st.hasSeg (countEvents st.cnt evs) st.newPathSeg
        st.style p0.beginPt p0.endPt) evs).style := by
  simp only [mergeStep, h1, Bool.not_true, Bool.false_and, h2, lt_self_iff_false,
    decide_False, Bool.false_eq_true, if_false, Bool.true_and, decide_True, if_true, h3]
  refine ⟨_, _, rfl, rfl, rfl, ?_, ?_, ?_⟩
  · simp only
    rw [(closeLoop_fields _ _).2.2.2]
  · simp only [h2, h3]
  · simp only [h2, h3]

theorem beginCoord_eq_of_beginPt (p q : frPathSeg) (hk : p.key = q.key)
    (hb : p.beginPt = q.beginPt) : p.beginCoord = q.beginCoord := by
  simp only [frPathSeg.key, Prod.mk.injEq] at hk
  simp only [frPathSeg.beginCoord, hk.2.1, hb]

theorem mergeStep_styleInv (G : List frPathSeg) (key : SegKey)
    (hG : ∀ p ∈ G, p.key = key ∧ p.beginCoord < p.endCoord)
    (c : Int) (evs : List (frPathSeg × Bool)) (R : EventMap) (st : MergeLoop)
    (m : MergedPathSegs)
    (hF : FrontOK G ((c, evs) :: R))
    (hI : SweepInv G key ((c, evs) :: R) st (mergedGroup m key))
    (hr : layerInRange m.length key.1 = true) (hs : TracksSorted m)
    (hS : StyleInv G st (mergedGroup m key))
    (st1 : MergeLoop) (m1 : MergedPathSegs)
    (hstep : mergeStep key (st, m) (c, evs) = some (st1, m1)) :
    StyleInv G st1 (mergedGroup m1 key) := by
  obtain ⟨hEb, hEe, -, -⟩ := hF.2.1 (c, evs) (List.mem_cons_self _ _)
  simp only at hEb hEe
  by_cases hopen : st.hasSeg = false ∧ 0 < countEvents st.cnt evs
  · obtain ⟨hhs, hpos⟩ := hopen
    obtain ⟨p, rest, hevs, hpG, hpc⟩ := sweep_open_facts G key hG c evs R st _ hF hI hhs hpos
    rw [hevs] at hpos hstep
    obtain ⟨st2, p0, hstep2, h1, h2, h3, h4⟩ := mergeStep_open_style key st m c (p, true) rest hhs hpos
    rw [hstep2] at hstep
    simp only [Option.some.injEq, Prod.mk.injEq] at hstep
    obtain ⟨rfl, rfl⟩ := hstep
    refine ⟨hS.1, fun _ => ⟨p0, p, h2, hpG, h3, ?_, ?_, ?_⟩⟩
    · obtain ⟨a1, a2, a3, a4, a5⟩ := openLoop_style ((p, true) :: rest)
        (MergeLoop.mk st.hasSeg (countEvents st.cnt ((p, true) :: rest))
          (some p) ⟨.truncate, 0, .truncate, 0⟩ st.beginPt st.endPt)
      rw [← h4] at a1 a2 a3 a4 a5
      simp only at a1 a2 a3 a4 a5
      rw [← hevs] at a4 a5
      refine ⟨?_, ?_⟩
      · intro q hq hqc
        rw [hpc] at hqc
        exact a4 q ((hEb q).mpr ⟨hq, hqc⟩)
      · rcases a5 with h | ⟨h, q, hq, hh⟩
        · exact Or.inl h
        · obtain ⟨hqG, hqc⟩ := (hEb q).mp hq
          exact Or.inr ⟨by omega, q, hqG, by rw [hpc]; exact hqc, hh⟩
    · have := (openLoop_style ((p, true) :: rest)
        (MergeLoop.mk st.hasSeg (countEvents st.cnt ((p, true) :: rest))
          (some p) ⟨.truncate, 0, .truncate, 0⟩ st.beginPt st.endPt)).1
      rw [← h4] at this
      exact this
    · have := (openLoop_style ((p, true) :: rest)
        (MergeLoop.mk st.hasSeg (countEvents st.cnt ((p, true) :: rest))
          (some p) ⟨.truncate, 0, .truncate, 0⟩ st.beginPt st.endPt)).2.1
      rw [← h4] at this
      exact this
  · by_cases hclose : st.hasSeg = true ∧ countEvents st.cnt evs = 0
    · obtain ⟨hhs, hz⟩ := hclose
      obtain ⟨p0, p, q1, hnp, hp0l, hpG, hp0b, hplt, hq1⟩ :=
        sweep_close_facts G key hG c evs R st _ hF hI hhs hz
      obtain ⟨p0', p', hnp', hpG', hp0b', hbeg, hes, hee⟩ := hS.2 hhs
      rw [hnp] at hnp'
      simp only [Option.some.injEq] at hnp'
      subst hnp'
      obtain ⟨st2, mo, hstep2, h1, h2, h3, h4, h5⟩ :=
        mergeStep_close_style key st m c evs p0 hhs hz hnp
      obtain ⟨m2, hpush, -, -, hgrp, -⟩ := pushMerged_spec m key mo hr hs
      rw [hstep2, hpush] at hstep
      simp only [Option.map_some', Option.some.injEq, Prod.mk.injEq] at hstep
      obtain ⟨rfl, rfl⟩ := hstep
      refine ⟨?_, fun h => by rw [h1] at h; cases h⟩
      rw [hgrp]
      intro mo1 hmo1
      rcases List.mem_append.mp hmo1 with h | h
      · exact hS.1 mo1 h
      rw [List.mem_singleton] at h
      subst h
      have hend := closeLoop_endPt evs (MergeLoop.mk st.hasSeg (countEvents st.cnt evs)
        st.newPathSeg st.style p0.beginPt p0.endPt)
      rw [← h4] at hend
      rcases hend with ⟨-, hno⟩ | ⟨q2, hq2, hmoe⟩
      · exact absurd hq1 (hno q1)
      obtain ⟨hq2G, hq2c⟩ := (hEe q2).mp hq2
      obtain ⟨hk, hkb, hke⟩ := merged_key key p q2 mo1 (hG p hpG).1 (hG q2 hq2G).1
        (by rw [hq2c]; exact hplt) (by rw [h2, hp0l]) (by rw [h3, hp0b]) hmoe
      have hpp : p'.beginCoord = p.beginCoord :=
        beginCoord_eq_of_beginPt p' p (by rw [(hG p hpG).1, (hG p' hpG').1])
          (by rw [← hp0b', hp0b])
      obtain ⟨a1, a2, a3, a4, a5⟩ := closeLoop_style evs (MergeLoop.mk st.hasSeg
        (countEvents st.cnt evs) st.newPathSeg st.style p0.beginPt p0.endPt)
      rw [← h5] at a1 a2 a3 a4 a5
      simp only at a1 a2 a3 a4 a5
      refine ⟨?_, ?_⟩
      · rw [hkb, ← hpp]
        unfold BeginOK at hbeg ⊢
        rw [a1, a2]
        exact hbeg
      · rw [hke, hq2c]
        refine ⟨?_, ?_⟩
        · intro q hq hqc
          exact a4 q ((hEe q).mpr ⟨hq, hqc⟩)
        · rcases a5 with ⟨h6, h7⟩ | ⟨h, q, hq, hh⟩
          · exact Or.inl ⟨by rw [h6, hes], by rw [h7, hee]⟩
          · obtain ⟨hqG, hqc⟩ := (hEe q).mp hq
            exact Or.inr ⟨by omega, q, hqG, hqc, hh⟩
    · have hstep2 := mergeStep_keep key st m c evs hopen hclose
      rw [hstep2] at hstep
      simp only [Option.some.injEq, Prod.mk.injEq] at hstep
      obtain ⟨rfl, rfl⟩ := hstep
      exact ⟨hS.1, hS.2⟩

theorem mergeSweep_styleInv (G : List frPathSeg) (key : SegKey)
    (hG : ∀ p ∈ G, p.key = key ∧ p.beginCoord < p.endCoord) (R : EventMap) :
    ∀ (st : MergeLoop) (m : MergedPathSegs), FrontOK G R →
      SweepInv G key R st (mergedGroup m key) → layerInRange m.length key.1 = true →
      TracksSorted m → StyleInv G st (mergedGroup m key) →
      ∀ st1 m1, mergeSweep key (st, m) R = some (st1, m1) →
        StyleInv G st1 (mergedGroup m1 key) := by
  induction R with
  | nil =>
    intro st m _ _ _ _ hS st1 m1 h
    simp only [mergeSweep, Option.some.injEq, Prod.mk.injEq] at h
    obtain ⟨rfl, rfl⟩ := h
    exact hS
  | cons e R ih =>
    intro st m hF hI hr hs hS st1 m1 h
    obtain ⟨c, evs⟩ := e
    obtain ⟨st2, m2, hstep, hI2, hlen2, hs2, -⟩ := mergeStep_inv G key hG c evs R st m hF hI hr hs
    rw [mergeSweep, hstep] at h
    exact ih st2 m2 (frontOK_tail G _ R hF) hI2 (by rw [hlen2]; exact hr) hs2
      (mergeStep_styleInv G key hG c evs R st m hF hI hr hs hS st2 m2 hstep) st1 m1 h

theorem mergeGroups_style (Gof : SegKey → List frPathSeg)
    (hG : ∀ k, ∀ p ∈ Gof k, p.key = k ∧ p.beginCoord < p.endCoord) (M : PathSegMergeMap) :
    ∀ (m : MergedPathSegs), MapSorted segKeyLt M →
      (∀ k em, (k, em) ∈ M → InnerOK (eventsOfSegs (Gof k)) em ∧
        layerInRange m.length k.1 = true ∧ mergedGroup m k = []) →
      TracksSorted m →
      ∀ m1, mergeGroups m M = some m1 →
        ∀ k em, (k, em) ∈ M → ∀ mo ∈ mergedGroup m1 k, StyleOK (Gof k) mo := by
  induction M with
  | nil =>
    intro m _ _ _ m1 _ k em hm
    cases hm
  | cons e M ih =>
    intro m hsM hent hs m3 hm3
    obtain ⟨k, em⟩ := e
    obtain ⟨hin, hr, hempty⟩ := hent k em (List.mem_cons_self _ _)
    obtain ⟨hF, hall⟩ := frontOK_of_innerOK (Gof k) em hin
    have hI : SweepInv (Gof k) k em MergeLoop.init (mergedGroup m k) := by
      rw [hempty]; exact sweepInv_init (Gof k) k em hall
    have hS : StyleInv (Gof k) MergeLoop.init (mergedGroup m k) := by
      rw [hempty]
      exact ⟨by simp, fun h => by cases h⟩
    obtain ⟨st1, m1, hsw, hI1, hlen1, hs1, hoth1⟩ :=
      mergeSweep_inv (Gof k) k (hG k) em MergeLoop.init m hF hI hr hs
    have hS1 := mergeSweep_styleInv (Gof k) k (hG k) em MergeLoop.init m hF hI hr hs hS st1 m1 hsw
    have hne : ∀ k1 em1, (k1, em1) ∈ M → k1 ≠ k := by
      intro k1 em1 hm1 heq
      have := mapSorted_head hsM (k1, em1) hm1
      simp only [heq] at this
      rw [segKeyLt_strict.irrefl] at this; cases this
    have htail : ∀ k1 em1, (k1, em1) ∈ M → InnerOK (eventsOfSegs (Gof k1)) em1 ∧
        layerInRange m1.length k1.1 = true ∧ mergedGroup m1 k1 = [] := by
      intro k1 em1 hm1
      obtain ⟨h1, h2, h3⟩ := hent k1 em1 (List.mem_cons_of_mem _ hm1)
      refine ⟨h1, by rw [hlen1]; exact h2, ?_⟩
      rw [hoth1 k1 (hne k1 em1 hm1)]; exact h3
    obtain ⟨m2, hmg, -, -, -, hoth2⟩ := mergeGroups_inv Gof hG M m1 (mapSorted_tail hsM) htail hs1
    have hm32 : m3 = m2 := by
      rw [mergeGroups, hsw] at hm3
      simp only at hm3
      rw [hmg] at hm3
      exact (Option.some.inj hm3).symm
    subst hm32
    intro k1 em1 hm1
    rcases List.mem_cons.mp hm1 with heq | hm1
    · simp only [Prod.mk.injEq] at heq
      obtain ⟨rfl, rfl⟩ := heq
      have hnk : k1 ∉ M.map Prod.fst := by
        intro hk
        obtain ⟨x, hx, hxk⟩ := List.mem_map.mp hk
        exact hne x.1 x.2 hx hxk
      rw [hoth2 k1 hnk]
      exact hS1.1
    · exact ih m1 (mapSorted_tail hsM) htail hs1 m3 hmg k1 em1 hm1

/-- The merge pass returns; every group of its result is as `GroupOK` says, the
style of every merged segment is as `StyleOK` says, and no track is empty. -/
theorem mergePass_groupStyleOK (tech : WriterTech) (connFigs : List frConnFig)
    (hlay : ∀ p, frConnFig.pathSeg p ∈ connFigs →
      0 ≤ p.layerNum ∧ p.layerNum < (tech.numLayers : Int))
    (hlt : ∀ p, frConnFig.pathSeg p ∈ connFigs → p.beginCoord < p.endCoord) :
    ∃ merged, mergePass tech connFigs = some merged ∧ merged.length = tech.numLayers ∧
      TracksSorted merged ∧ NoEmptyTracks merged ∧
      ∀ key, GroupOK (groupSegs connFigs key) key (mergedGroup merged key) ∧
        ∀ mo ∈ mergedGroup merged key, StyleOK (groupSegs connFigs key) mo := by
  obtain ⟨merged, hmp, hlen, hs, hok⟩ := mergePass_groupOK tech connFigs hlay hlt
  refine ⟨merged, hmp, hlen, hs, mergePass_noEmpty tech connFigs merged hmp, fun key => ⟨hok key, ?_⟩⟩
  obtain ⟨hsM, hent, hcov, hex⟩ := buildPathSegMergeMap_ok connFigs
  have hG : ∀ k, ∀ p ∈ groupSegs connFigs k, p.key = k ∧ p.beginCoord < p.endCoord := by
    intro k p hp
    obtain ⟨h1, -, h3⟩ := (mem_groupSegs connFigs k p).mp hp
    exact ⟨h3, hlt p h1⟩
  have hent2 : ∀ k em, (k, em) ∈ buildPathSegMergeMap connFigs →
      InnerOK (eventsOfSegs (groupSegs connFigs k)) em ∧
      layerInRange (List.replicate tech.numLayers (⟨[], []⟩ : LayerSegs)).length k.1 = true ∧
      mergedGroup (List.replicate tech.numLayers (⟨[], []⟩ : LayerSegs)) k = [] := by
    intro k em hm
    refine ⟨?_, ?_, mergedGroup_replicate _ _⟩
    · have := hent k em hm
      rw [eventsOfSegs_filter] at this
      exact this
    · obtain ⟨e, he, hk⟩ := hex k em hm
      obtain ⟨q, b⟩ := e
      have hq := (mem_segsOf connFigs q).mp ((mem_eventsOfSegs _ q b).mp he)
      have := hlay q hq.1
      simp only at hk
      rw [← hk]
      simp [layerInRange, frPathSeg.key, this.1, this.2]
  by_cases hk : key ∈ (buildPathSegMergeMap connFigs).map Prod.fst
  · obtain ⟨x, hx, rfl⟩ := List.mem_map.mp hk
    exact mergeGroups_style (groupSegs connFigs) hG (buildPathSegMergeMap connFigs)
      (List.replicate tech.numLayers ⟨[], []⟩) hsM hent2 (tracksSorted_replicate _) merged hmp
      x.1 x.2 hx
  · have hnil : groupSegs connFigs key = [] := by
      rw [List.eq_nil_iff_forall_not_mem]
      intro p hp
      obtain ⟨h1, h2, h3⟩ := (mem_groupSegs connFigs key p).mp hp
      have := hcov (p, true) ((mem_eventsOfSegs _ p true).mpr ((mem_segsOf connFigs p).mpr ⟨h1, h2⟩))
      simp only at this
      rw [h3] at this
      exact hk this
    intro mo hmo
    obtain ⟨-, hgood, -⟩ := hok key
    obtain ⟨-, -, -, ⟨p, hp, -⟩, -⟩ := hgood mo hmo
    rw [hnil] at hp
    cases hp

/-- A segment of the group that begins where a merged segment begins, or ends
where it ends, lies in that merged segment. -/
theorem groupOK_contains_at_end (G : List frPathSeg) (key : SegKey) (O : List frPathSeg)
    (hG : ∀ p ∈ G, p.beginCoord < p.endCoord) (h : GroupOK G key O) (m : frPathSeg) (hm : m ∈ O)
    (q : frPathSeg) (hq : q ∈ G) (hc : q.beginCoord = m.beginCoord ∨ q.endCoord = m.endCoord) :
    Contains m q := by
  obtain ⟨hpw, hgood, hcont⟩ := h
  obtain ⟨m1, hm1, hc1, hc2⟩ := hcont q hq
  have hlt := hG q hq
  have hmlt := (hgood m hm).2.1
  rcases pairwise_sep_cases O hpw m m1 hm hm1 with rfl | h1 | h1
  · exact ⟨hc1, hc2⟩
  · rcases hc with hc | hc <;> omega
  · rcases hc with hc | hc <;> omega

/-- C14 (amended): for every list of connFigs whose path segments lie on
layers of the technology and have their begin coordinate below their end
coordinate, the merge pass returns, and for every merged segment `m` of every
group: the begin extension of `m` is the maximum begin extension over the
input segments of the group that begin at the begin coordinate of `m`, and
the end extension of `m` is the maximum end extension over the input segments
of the group that end at the end coordinate of `m` (these segments are among
those merged into `m`). -/
theorem mergePass_extensions (tech : WriterTech) (connFigs : List frConnFig)
    (hlay : ∀ p, frConnFig.pathSeg p ∈ connFigs →
      0 ≤ p.layerNum ∧ p.layerNum < (tech.numLayers : Int))
    (hlt : ∀ p, frConnFig.pathSeg p ∈ connFigs → p.beginCoord < p.endCoord) :
    ∃ merged, mergePass tech connFigs = some merged ∧
      ∀ key : SegKey, ∀ m ∈ mergedGroup merged key,
        MaxBeginExt (groupSegs connFigs key) m ∧ MaxEndExt (groupSegs connFigs key) m := by
  obtain ⟨merged, hmp, -, -, -, hok⟩ := mergePass_groupStyleOK tech connFigs hlay hlt
  refine ⟨merged, hmp, ?_⟩
  intro key m hm
  obtain ⟨hgrp, hstyle⟩ := hok key
  have hG : ∀ p ∈ groupSegs connFigs key, p.beginCoord < p.endCoord := by
    intro p hp
    exact hlt p ((mem_groupSegs connFigs key p).mp hp).1
  obtain ⟨⟨hb1, hb2⟩, ⟨he1, he2⟩⟩ := hstyle m hm
  obtain ⟨-, -, -, ⟨pb, hpb, -, hpbc⟩, ⟨pe, hpe, -, hpec⟩⟩ := hgrp.2.1 m hm
  refine ⟨⟨?_, hb1⟩, ⟨?_, he1⟩⟩
  · rcases hb2 with ⟨-, h0⟩ | ⟨-, q, hq, hqc, -, hqe⟩
    · refine ⟨pb, hpb, groupOK_contains_at_end _ key _ hG hgrp m hm pb hpb (Or.inl hpbc.symm),
        hpbc.symm, ?_⟩
      have := hb1 pb hpb hpbc.symm
      omega
    · exact ⟨q, hq, groupOK_contains_at_end _ key _ hG hgrp m hm q hq (Or.inl hqc), hqc, hqe⟩
  · rcases he2 with ⟨-, h0⟩ | ⟨-, q, hq, hqc, -, hqe⟩
    · refine ⟨pe, hpe, groupOK_contains_at_end _ key _ hG hgrp m hm pe hpe (Or.inr hpec.symm),
        hpec.symm, ?_⟩
      have := he1 pe hpe hpec.symm
      omega
    · exact ⟨q, hq, groupOK_contains_at_end _ key _ hG hgrp m hm q hq (Or.inr hqc), hqc, hqe⟩

/-- C14 (amended) at a concrete input: the overlapping segments
`(0,100)-(100,100)` and `(50,100)-(200,100)` on layer 2. -/
theorem mergePass_extensions_witness :
    ∃ merged, mergePass writerTechExample
        [.pathSeg ⟨2, ⟨0, 100⟩, ⟨100, 100⟩, ⟨.truncate, 0, .extend, 9⟩⟩,
         .pathSeg ⟨2, ⟨50, 100⟩, ⟨200, 100⟩, ⟨.extend, 7, .extend, 3⟩⟩] = some merged ∧
      ∀ key : SegKey, ∀ m ∈ mergedGroup merged key,
        MaxBeginExt (groupSegs
          [.pathSeg ⟨2, ⟨0, 100⟩, ⟨100, 100⟩, ⟨.truncate, 0, .extend, 9⟩⟩,
           .pathSeg ⟨2, ⟨50, 100⟩, ⟨200, 100⟩, ⟨.extend, 7, .extend, 3⟩⟩] key) m ∧
        MaxEndExt (groupSegs
          [.pathSeg ⟨2, ⟨0, 100⟩, ⟨100, 100⟩, ⟨.truncate, 0, .extend, 9⟩⟩,
           .pathSeg ⟨2, ⟨50, 100⟩, ⟨200, 100⟩, ⟨.extend, 7, .extend, 3⟩⟩] key) m :=
  mergePass_extensions writerTechExample
    [.pathSeg ⟨2, ⟨0, 100⟩, ⟨100, 100⟩, ⟨.truncate, 0, .extend, 9⟩⟩,
     .pathSeg ⟨2, ⟨50, 100⟩, ⟨200, 100⟩, ⟨.extend, 7, .extend, 3⟩⟩]
    (by
      intro p hp
      simp only [List.mem_cons, frConnFig.pathSeg.injEq, List.mem_singleton, List.not_mem_nil,
        or_false] at hp
      rcases hp with rfl | rfl <;> decide)
    (by
      intro p hp
      simp only [List.mem_cons, frConnFig.pathSeg.injEq, List.mem_singleton, List.not_mem_nil,
        or_false] at hp
      rcases hp with rfl | rfl <;> decide)

/-- C14, as stated, fails: the segments `(0,100)-(100,100)` (begin extension 0,
end extension 9) and `(50,100)-(200,100)` (begin extension 7, end extension 3)
are merged into the one segment `(0,100)-(200,100)`, whose begin extension is
0, below the begin extension 7 of the second segment, and whose end extension
is 3, below the end extension 9 of the first. -/
theorem mergeSplit_extension_not_maximum :
    mergeSplitConnFigs writerTechExample
        [.pathSeg ⟨2, ⟨0, 100⟩, ⟨100, 100⟩, ⟨.truncate, 0, .extend, 9⟩⟩,
         .pathSeg ⟨2, ⟨50, 100⟩, ⟨200, 100⟩, ⟨.extend, 7, .extend, 3⟩⟩] =
      some [.pathSeg ⟨2, ⟨0, 100⟩, ⟨200, 100⟩, ⟨.truncate, 0, .extend, 3⟩⟩] ∧
    (mergePass writerTechExample
        [.pathSeg ⟨2, ⟨0, 100⟩, ⟨100, 100⟩, ⟨.truncate, 0, .extend, 9⟩⟩,
         .pathSeg ⟨2, ⟨50, 100⟩, ⟨200, 100⟩, ⟨.extend, 7, .extend, 3⟩⟩]).map
        (fun merged => mergedGroup merged (2, true, 100)) =
      some [⟨2, ⟨0, 100⟩, ⟨200, 100⟩, ⟨.truncate, 0, .extend, 3⟩⟩] := by
  decide

/-! ## Via definitions of the technology -/

theorem lNum2IntLoop_unknown (name2layer : String → Option Int) (ls : List lefiViaLayer)
    (h : ∃ l ∈ ls, name2layer l.layerName = none) :
    ∀ (i : Nat) (m : List (Int × Nat)), lNum2IntLoop name2layer ls i m = none := by
  induction ls with
  | nil => obtain ⟨l, hl, -⟩ := h; cases hl
  | cons a ls ih =>
    intro i m
    rw [lNum2IntLoop]
    cases ha : name2layer a.layerName with
    | none => rfl
    | some ln =>
      simp only
      obtain ⟨l, hl, hn⟩ := h
      rcases List.mem_cons.mp hl with rfl | hl
      · rw [ha] at hn; cases hn
      · exact ih ⟨l, hl, hn⟩ _ _

/-- C16 (amended): the two error cases of `getLefVias`. For every technology
and every LEF via definition: when the definition does not have exactly three
layers, the call ends the process by `exit(1)` (so no via definition is
added); when it has three layers and one of its layer names is unknown to the
technology, the call returns and leaves the technology as it was, without the
via definition. -/
theorem getLefVias_error_cases (tech : ViaTech) (via : lefiVia) :
    (via.layers.length ≠ 3 → getLefVias tech via = .exited 1) ∧
    (via.layers.length = 3 → (∃ l ∈ via.layers, tech.name2layer l.layerName = none) →
      getLefVias tech via = .returned tech) := by
  constructor
  · intro h
    simp [getLefVias, h]
  · intro h hu
    simp [getLefVias, h, lNum2IntLoop_unknown tech.name2layer via.layers hu 0 []]

/-- C16 (amended) at concrete inputs: a via definition with the two layers `M1`
and `V1`, and one with the three layers `M1`, `V1` and the unknown `M9`. -/
theorem getLefVias_error_cases_witness :
    getLefVias viaTechExample ⟨"via2", false, [⟨"M1", [], []⟩, ⟨"V1", [], []⟩]⟩ = .exited 1 ∧
    getLefVias viaTechExample (lefiViaExample "M1" "V1" "M9") = .returned viaTechExample :=
  ⟨(getLefVias_error_cases viaTechExample ⟨"via2", false, [⟨"M1", [], []⟩, ⟨"V1", [], []⟩]⟩).1
      (by decide),
   (getLefVias_error_cases viaTechExample (lefiViaExample "M1" "V1" "M9")).2 rfl
      ⟨⟨"M9", [⟨-10, -10, 10, 10⟩], []⟩, by simp [lefiViaExample], rfl⟩⟩

/-- C16, as stated, fails: for the via definition with the layers `M1`, `V1`
and `M9`, of which `M9` is unknown to the technology, the call does not end
the process: it returns (with the technology unchanged). The same definition
with the third layer `M2` is added to the technology, and with the layers
`M1`, `V1`, `V1` the call ends by `exit(1)`. -/
theorem getLefVias_unknown_layer_returns :
    getLefVias viaTechExample (lefiViaExample "M1" "V1" "M9") = .returned viaTechExample ∧
    getLefVias viaTechExample (lefiViaExample "M1" "V1" "M9") ≠ .exited 1 ∧
    getLefVias viaTechExample (lefiViaExample "M1" "V1" "M2") =
      .returned { viaTechExample with vias :=
        [{ name := "via12", layer1Figs := [.rect ⟨-10, -10, 10, 10⟩ 2],
           cutFigs := [.rect ⟨-5, -5, 5, 5⟩ 3], layer2Figs := [.rect ⟨-10, -10, 10, 10⟩ 4] }] } ∧
    getLefVias viaTechExample (lefiViaExample "M1" "V1" "V1") = .exited 1 := by
  refine ⟨rfl, ?_, rfl, rfl⟩
  intro h
  have h1 : getLefVias viaTechExample (lefiViaExample "M1" "V1" "M9") =
      .returned viaTechExample := rfl
  rw [h1] at h
  cases h

/-! ## Merge and split of net geometry: idempotence -/

theorem refines_refl (key : SegKey) (A : List frPathSeg) (h : ∀ p ∈ A, GoodSeg key p) :
    Refines key A A := by
  refine ⟨fun p hp => ⟨h p hp, p, hp, ⟨le_refl _, le_refl _⟩, fun _ => ⟨rfl, rfl⟩,
    fun _ => ⟨rfl, rfl⟩⟩, fun t ht x h1 h2 => ⟨t, ht, h1, h2⟩⟩

theorem refines_trans (key : SegKey) (A B C : List frPathSeg) (h1 : Refines key A B)
    (h2 : Refines key B C) : Refines key A C := by
  refine ⟨?_, ?_⟩
  · intro p hp
    obtain ⟨hg, t, ht, hc, hb, he⟩ := h2.1 p hp
    obtain ⟨-, u, hu, hc2, hb2, he2⟩ := h1.1 t ht
    refine ⟨hg, u, hu, ⟨le_trans hc2.1 hc.1, le_trans hc.2 hc2.2⟩, ?_, ?_⟩
    · intro hpu
      have h3 : p.beginCoord = t.beginCoord := by have := hc.1; have := hc2.1; omega
      have h4 : t.beginCoord = u.beginCoord := by omega
      exact ⟨(hb h3).1.trans (hb2 h4).1, (hb h3).2.trans (hb2 h4).2⟩
    · intro hpu
      have h3 : p.endCoord = t.endCoord := by have := hc.2; have := hc2.2; omega
      have h4 : t.endCoord = u.endCoord := by omega
      exact ⟨(he h3).1.trans (he2 h4).1, (he h3).2.trans (he2 h4).2⟩
  · intro u hu x hx1 hx2
    obtain ⟨t, ht, ht1, ht2⟩ := h1.2 u hu x hx1 hx2
    exact h2.2 t ht x ht1 ht2

theorem refines_congr (key : SegKey) (A B A1 B1 : List frPathSeg) (h : Refines key A B)
    (hA : ∀ t, t ∈ A1 ↔ t ∈ A) (hB : ∀ p, p ∈ B1 ↔ p ∈ B) : Refines key A1 B1 := by
  refine ⟨?_, ?_⟩
  · intro p hp
    obtain ⟨hg, t, ht, hh⟩ := h.1 p ((hB p).mp hp)
    exact ⟨hg, t, (hA t).mpr ht, hh⟩
  · intro t ht x hx1 hx2
    obtain ⟨q, hq, hh⟩ := h.2 t ((hA t).mp ht) x hx1 hx2
    exact ⟨q, (hB q).mpr hq, hh⟩

theorem refines_append (key : SegKey) (A1 B1 A2 B2 : List frPathSeg) (h1 : Refines key A1 B1)
    (h2 : Refines key A2 B2) : Refines key (A1 ++ A2) (B1 ++ B2) := by
  refine ⟨?_, ?_⟩
  · intro p hp
    rcases List.mem_append.mp hp with hp | hp
    · obtain ⟨hg, t, ht, hh⟩ := h1.1 p hp
      exact ⟨hg, t, List.mem_append_left _ ht, hh⟩
    · obtain ⟨hg, t, ht, hh⟩ := h2.1 p hp
      exact ⟨hg, t, List.mem_append_right _ ht, hh⟩
  · intro t ht x hx1 hx2
    rcases List.mem_append.mp ht with ht | ht
    · obtain ⟨q, hq, hh⟩ := h1.2 t ht x hx1 hx2
      exact ⟨q, List.mem_append_left _ hq, hh⟩
    · obtain ⟨q, hq, hh⟩ := h2.2 t ht x hx1 hx2
      exact ⟨q, List.mem_append_right _ hq, hh⟩

theorem goodSeg_vert (i xv : Int) (p : frPathSeg) (h : GoodSeg (i, false, xv) p) :
    p.layerNum = i ∧ p.beginPt.x = p.endPt.x ∧ p.beginPt.x = xv ∧
    p.beginCoord = p.beginPt.y ∧ p.endCoord = p.endPt.y ∧ p.beginPt.y < p.endPt.y := by
  obtain ⟨hk, hlt, -⟩ := h
  simp only [frPathSeg.key, Prod.mk.injEq] at hk
  obtain ⟨h1, h2, h3⟩ := hk
  have hx : p.beginPt.x = p.endPt.x := by simpa [frPathSeg.isH] using h2
  simp only [frPathSeg.trackLoc, h2, Bool.false_eq_true, if_false] at h3
  simp only [frPathSeg.beginCoord, frPathSeg.endCoord, h2, Bool.false_eq_true, if_false] at hlt
  refine ⟨h1, hx, h3, ?_, ?_, hlt⟩ <;>
    simp [frPathSeg.beginCoord, frPathSeg.endCoord, h2]

theorem goodSeg_horz (i yh : Int) (p : frPathSeg) (h : GoodSeg (i, true, yh) p) :
    p.layerNum = i ∧ p.beginPt.y = yh ∧ p.endPt.y = yh ∧
    p.beginCoord = p.beginPt.x ∧ p.endCoord = p.endPt.x ∧ p.beginPt.x < p.endPt.x := by
  obtain ⟨hk, hlt, hs⟩ := h
  simp only [frPathSeg.key, Prod.mk.injEq] at hk
  obtain ⟨h1, h2, h3⟩ := hk
  have hy := hs h2
  simp only [frPathSeg.trackLoc, h2, if_true] at h3
  simp only [frPathSeg.beginCoord, frPathSeg.endCoord, h2, if_true] at hlt
  refine ⟨h1, h3, by rw [← hy]; exact h3, ?_, ?_, hlt⟩ <;>
    simp [frPathSeg.beginCoord, frPathSeg.endCoord, h2]

theorem goodSeg_vert_mk (i xv : Int) (p : frPathSeg) (h1 : p.layerNum = i)
    (h2 : p.beginPt.x = p.endPt.x) (h3 : p.beginPt.x = xv) (h4 : p.beginPt.y < p.endPt.y) :
    GoodSeg (i, false, xv) p ∧ p.beginCoord = p.beginPt.y ∧ p.endCoord = p.endPt.y := by
  have hh : p.isH = false := by simp [frPathSeg.isH, h2]
  refine ⟨⟨?_, ?_, ?_⟩, ?_, ?_⟩
  · simp [frPathSeg.key, frPathSeg.trackLoc, hh, h1, h3]
  · simpa [frPathSeg.beginCoord, frPathSeg.endCoord, hh] using h4
  · intro h; rw [hh] at h; cases h
  · simp [frPathSeg.beginCoord, hh]
  · simp [frPathSeg.endCoord, hh]

theorem goodSeg_horz_mk (i yh : Int) (p : frPathSeg) (h1 : p.layerNum = i)
    (h2 : p.beginPt.y = yh) (h3 : p.endPt.y = yh) (h4 : p.beginPt.x < p.endPt.x) :
    GoodSeg (i, true, yh) p ∧ p.beginCoord = p.beginPt.x ∧ p.endCoord = p.endPt.x := by
  have hh : p.isH = true := by
    simp only [frPathSeg.isH, Bool.not_eq_true', decide_eq_false_iff_not]; omega
  refine ⟨⟨?_, ?_, ?_⟩, ?_, ?_⟩
  · simp [frPathSeg.key, frPathSeg.trackLoc, hh, h1, h2]
  · simpa [frPathSeg.beginCoord, frPathSeg.endCoord, hh] using h4
  · intro _; rw [h2, h3]
  · simp [frPathSeg.beginCoord, hh]
  · simp [frPathSeg.endCoord, hh]

/-- Cutting a vertical segment at an inner `y` gives two pieces of it. -/
theorem refines_split_vert (i xv : Int) (seg1 : frPathSeg) (h : GoodSeg (i, false, xv) seg1)
    (y : Int) (hy1 : seg1.beginPt.y < y) (hy2 : y < seg1.endPt.y)
    (e1 e2 : frEndStyle) (x1 x2 : Nat) :
    Refines (i, false, xv) [seg1]
      [⟨seg1.layerNum, seg1.beginPt, ⟨seg1.endPt.x, y⟩, seg1.style.setEndStyle e1 x1⟩,
       ⟨seg1.layerNum, ⟨seg1.endPt.x, y⟩, seg1.endPt, seg1.style.setBeginStyle e2 x2⟩] := by
  obtain ⟨g1, g2, g3, g4, g5, g6⟩ := goodSeg_vert i xv seg1 h
  obtain ⟨a1, a2, a3⟩ := goodSeg_vert_mk i xv
    ⟨seg1.layerNum, seg1.beginPt, ⟨seg1.endPt.x, y⟩, seg1.style.setEndStyle e1 x1⟩ g1 g2 g3 hy1
  obtain ⟨b1, b2, b3⟩ := goodSeg_vert_mk i xv
    ⟨seg1.layerNum, ⟨seg1.endPt.x, y⟩, seg1.endPt, seg1.style.setBeginStyle e2 x2⟩ g1 rfl
    (by rw [← g2]; exact g3) hy2
  simp only at a2 a3 b2 b3
  refine ⟨?_, ?_⟩
  · intro p hp
    simp only [List.mem_cons, List.mem_singleton, List.not_mem_nil, or_false] at hp
    rcases hp with rfl | rfl
    · refine ⟨a1, seg1, List.mem_singleton.mpr rfl, ⟨by rw [a2, g4], by rw [a3, g5]; omega⟩,
        fun _ => ⟨rfl, rfl⟩, ?_⟩
      intro he
      rw [a3, g5] at he
      omega
    · refine ⟨b1, seg1, List.mem_singleton.mpr rfl, ⟨by rw [b2, g4]; omega, by rw [b3, g5]⟩,
        ?_, fun _ => ⟨rfl, rfl⟩⟩
      intro he
      rw [b2, g4] at he
      omega
  · intro t ht x hx1 hx2
    rw [List.mem_singleton] at ht
    subst ht
    rw [g4] at hx1
    rw [g5] at hx2
    by_cases hxy : x < y
    · exact ⟨_, List.mem_cons_self _ _, by rw [a2]; exact hx1, by rw [a3]; exact hxy⟩
    · exact ⟨_, List.mem_cons_of_mem _ (List.mem_singleton.mpr rfl), by rw [b2]; omega,
        by rw [b3]; exact hx2⟩

/-- Cutting a horizontal segment at an inner `x` gives two pieces of it; the
second piece may be a copy of any segment of the same layer. -/
theorem refines_split_horz (i yh : Int) (seg2 : frPathSeg) (h : GoodSeg (i, true, yh) seg2)
    (x : Int) (hx1 : seg2.beginPt.x < x) (hx2 : x < seg2.endPt.x) (l : Int) (hl : l = i)
    (e1 e2 : frEndStyle) (x1 x2 : Nat) :
    Refines (i, true, yh) [seg2]
      [⟨seg2.layerNum, seg2.beginPt, ⟨x, seg2.endPt.y⟩, seg2.style.setEndStyle e1 x1⟩,
       ⟨l, ⟨x, seg2.beginPt.y⟩, seg2.endPt, seg2.style.setBeginStyle e2 x2⟩] := by
  obtain ⟨g1, g2, g3, g4, g5, g6⟩ := goodSeg_horz i yh seg2 h
  obtain ⟨a1, a2, a3⟩ := goodSeg_horz_mk i yh
    ⟨seg2.layerNum, seg2.beginPt, ⟨x, seg2.endPt.y⟩, seg2.style.setEndStyle e1 x1⟩ g1 g2 g3 hx1
  obtain ⟨b1, b2, b3⟩ := goodSeg_horz_mk i yh
    ⟨l, ⟨x, seg2.beginPt.y⟩, seg2.endPt, seg2.style.setBeginStyle e2 x2⟩ hl g2 g3 hx2
  simp only at a2 a3 b2 b3
  refine ⟨?_, ?_⟩
  · intro p hp
    simp only [List.mem_cons, List.mem_singleton, List.not_mem_nil, or_false] at hp
    rcases hp with rfl | rfl
    · refine ⟨a1, seg2, List.mem_singleton.mpr rfl, ⟨by rw [a2, g4], by rw [a3, g5]; omega⟩,
        fun _ => ⟨rfl, rfl⟩, ?_⟩
      intro he
      rw [a3, g5] at he
      omega
    · refine ⟨b1, seg2, List.mem_singleton.mpr rfl, ⟨by rw [b2, g4]; omega, by rw [b3, g5]⟩,
        ?_, fun _ => ⟨rfl, rfl⟩⟩
      intro he
      rw [b2, g4] at he
      omega
  · intro t ht c hc1 hc2
    rw [List.mem_singleton] at ht
    subst ht
    rw [g4] at hc1
    rw [g5] at hc2
    by_cases hxy : c < x
    · exact ⟨_, List.mem_cons_self _ _, by rw [a2]; exact hc1, by rw [a3]; exact hxy⟩
    · exact ⟨_, List.mem_cons_of_mem _ (List.mem_singleton.mpr rfl), by rw [b2]; omega,
        by rw [b3]; exact hc2⟩

theorem refines_good (key : SegKey) (A B : List frPathSeg) (h : Refines key A B) :
    ∀ p ∈ B, GoodSeg key p := fun p hp => (h.1 p hp).1

theorem crossScan2_refines (tech : WriterTech) (i xv yh : Int) (seg1 : frPathSeg)
    (h1 : GoodSeg (i, false, xv) seg1) :
    ∀ segs2 : List frPathSeg, (∀ s ∈ segs2, GoodSeg (i, true, yh) s) →
      ∀ h, crossScan2 tech seg1 segs2 = some h →
        Refines (i, false, xv) [seg1] (h.seg1 :: h.newSeg1.toList) ∧
        Refines (i, true, yh) segs2 (h.segs2 ++ h.newSeg2.toList) := by
  intro segs2
  induction segs2 with
  | nil => intro _ h hh; simp [crossScan2] at hh
  | cons seg2 rest ih =>
    intro hg h hh
    have hg2 := hg seg2 (List.mem_cons_self _ _)
    have hgr : ∀ s ∈ rest, GoodSeg (i, true, yh) s := fun s hs => hg s (List.mem_cons_of_mem _ hs)
    obtain ⟨v1, v2, v3, v4, v5, v6⟩ := goodSeg_vert i xv seg1 h1
    obtain ⟨g1, g2, g3, g4, g5, g6⟩ := goodSeg_horz i yh seg2 hg2
    have hV : Refines (i, false, xv) [seg1] [seg1] :=
      refines_refl _ _ (fun p hp => by rw [List.mem_singleton] at hp; rw [hp]; exact h1)
    have hR : Refines (i, true, yh) rest rest := refines_refl _ _ hgr
    have hS : Refines (i, true, yh) [seg2] [seg2] :=
      refines_refl _ _ (fun p hp => by rw [List.mem_singleton] at hp; rw [hp]; exact hg2)
    by_cases hP1 : seg2.beginPt.y > seg1.beginPt.y ∧ seg2.beginPt.y < seg1.endPt.y
    · have hVs := refines_split_vert i xv seg1 h1 yh (by rw [← g2]; exact hP1.1)
        (by rw [← g2]; exact hP1.2) .extend .extend
        (tech.defaultSegStyle seg1.layerNum).endExt (tech.defaultSegStyle seg1.layerNum).beginExt
      by_cases hP2 : seg1.beginPt.x > seg2.beginPt.x ∧ seg1.beginPt.x < seg2.endPt.x
      · have hHs := refines_split_horz i yh seg2 hg2 seg1.endPt.x (by rw [← v2]; exact hP2.1)
          (by rw [← v2]; exact hP2.2) seg1.layerNum v1 .extend .extend
          (tech.defaultSegStyle seg2.layerNum).endExt (tech.defaultSegStyle seg2.layerNum).beginExt
        simp only [crossScan2, hP1.1, hP1.2, hP2.1, hP2.2, decide_True, Bool.and_self,
          Bool.or_self, if_true, Option.some.injEq] at hh
        subst hh
        simp only [Option.toList_some, g2, g3] at hVs hHs ⊢
        refine ⟨hVs, ?_⟩
        refine refines_congr _ _ _ _ _ (refines_append _ _ _ _ _ hHs hR) (by intro t; simp) ?_
        intro p
        simp only [List.mem_append, List.mem_cons, List.mem_singleton, List.not_mem_nil,
          or_false]
        tauto
      · have hP2b : (decide (seg1.beginPt.x > seg2.beginPt.x) &&
            decide (seg1.beginPt.x < seg2.endPt.x)) = false := by
          simpa using hP2
        simp only [crossScan2, hP1.1, hP1.2, hP2b, decide_True, Bool.and_self,
          Bool.or_false, if_true, Option.some.injEq, Bool.false_eq_true, if_false] at hh
        subst hh
        simp only [Option.toList_some, Option.toList_none, List.append_nil, g2, g3] at hVs ⊢
        exact ⟨hVs, refines_refl _ _ hg⟩
    · have hP1b : (decide (seg2.beginPt.y > seg1.beginPt.y) &&
          decide (seg2.beginPt.y < seg1.endPt.y)) = false := by
        simpa using hP1
      by_cases hP2 : seg1.beginPt.x > seg2.beginPt.x ∧ seg1.beginPt.x < seg2.endPt.x
      · have hHs := refines_split_horz i yh seg2 hg2 seg1.endPt.x (by rw [← v2]; exact hP2.1)
          (by rw [← v2]; exact hP2.2) seg1.layerNum v1 .extend .extend
          (tech.defaultSegStyle seg2.layerNum).endExt (tech.defaultSegStyle seg2.layerNum).beginExt
        simp only [crossScan2, hP1b, hP2.1, hP2.2, decide_True, Bool.and_self,
          Bool.false_or, if_true, Option.some.injEq, Bool.false_eq_true, if_false] at hh
        subst hh
        simp only [Option.toList_some, Option.toList_none, g2, g3] at hHs ⊢
        refine ⟨hV, ?_⟩
        refine refines_congr _ _ _ _ _ (refines_append _ _ _ _ _ hHs hR) (by intro t; simp) ?_
        intro p
        simp only [List.mem_append, List.mem_cons, List.mem_singleton, List.not_mem_nil,
          or_false]
        tauto
      · have hP2b : (decide (seg1.beginPt.x > seg2.beginPt.x) &&
            decide (seg1.beginPt.x < seg2.endPt.x)) = false := by
          simpa using hP2
        simp only [crossScan2, hP1b, hP2b, Bool.or_self, Bool.false_eq_true, if_false,
          Option.map_eq_some'] at hh
        obtain ⟨h0, hh0, rfl⟩ := hh
        obtain ⟨a1, a2⟩ := ih hgr h0 hh0
        refine ⟨a1, ?_⟩
        exact refines_append _ [seg2] [seg2] _ _ hS a2

theorem crossPair_refines (tech : WriterTech) (i xv yh : Int) :
    ∀ segs1 segs2 : List frPathSeg, (∀ s ∈ segs1, GoodSeg (i, false, xv) s) →
      (∀ s ∈ segs2, GoodSeg (i, true, yh) s) →
      Refines (i, false, xv) segs1 (crossPair tech segs1 segs2).1 ∧
      Refines (i, true, yh) segs2 (crossPair tech segs1 segs2).2 := by
  intro segs1
  induction segs1 with
  | nil =>
    intro segs2 _ h2
    exact ⟨refines_refl _ _ (by simp), refines_refl _ _ h2⟩
  | cons seg1 rest1 ih =>
    intro segs2 h1 h2
    have hg1 := h1 seg1 (List.mem_cons_self _ _)
    have hgr : ∀ s ∈ rest1, GoodSeg (i, false, xv) s :=
      fun s hs => h1 s (List.mem_cons_of_mem _ hs)
    rw [crossPair]
    cases hc : crossScan2 tech seg1 segs2 with
    | some h =>
      obtain ⟨a1, a2⟩ := crossScan2_refines tech i xv yh seg1 hg1 segs2 h2 h hc
      refine ⟨?_, a2⟩
      refine refines_congr _ _ _ _ _ (refines_append _ _ _ _ _ a1 (refines_refl _ _ hgr))
        (by intro t; simp) ?_
      intro p
      simp only [List.mem_append, List.mem_cons]
      tauto
    | none =>
      obtain ⟨a1, a2⟩ := ih segs2 hgr h2
      refine ⟨?_, a2⟩
      exact refines_append _ [seg1] [seg1] _ _
        (refines_refl _ _ (fun p hp => by rw [List.mem_singleton] at hp; rw [hp]; exact hg1)) a1

theorem trackRef_refl (i : Int) (isH : Bool) (t : TrackMap) (h : TrackGood i isH t) :
    TrackRef i isH t t := by
  induction t with
  | nil => exact List.Forall₂.nil
  | cons e t ih =>
    refine List.Forall₂.cons ⟨rfl, refines_refl _ _ (h e (List.mem_cons_self _ _))⟩ (ih ?_)
    exact fun e1 he1 => h e1 (List.mem_cons_of_mem _ he1)

theorem trackRef_trans (i : Int) (isH : Bool) (t t1 t2 : TrackMap) (h1 : TrackRef i isH t t1)
    (h2 : TrackRef i isH t1 t2) : TrackRef i isH t t2 := by
  induction h1 generalizing t2 with
  | nil => cases h2; exact List.Forall₂.nil
  | cons hab _ ih =>
    cases h2 with
    | cons hbc h2 =>
      refine List.Forall₂.cons ⟨hbc.1.trans hab.1, ?_⟩ (ih _ h2)
      have := hbc.2
      rw [hab.1] at this
      exact refines_trans _ _ _ _ hab.2 this

theorem trackRef_good (i : Int) (isH : Bool) (t t1 : TrackMap) (h : TrackRef i isH t t1) :
    TrackGood i isH t1 := by
  induction h with
  | nil => intro e he; cases he
  | cons hab _ ih =>
    intro e he s hs
    rcases List.mem_cons.mp he with rfl | he
    · rw [hab.1]; exact refines_good _ _ _ hab.2 s hs
    · exact ih e he s hs

theorem crossRow_refines (tech : WriterTech) (i xv : Int) :
    ∀ (horz : TrackMap) (segs1 : List frPathSeg), (∀ s ∈ segs1, GoodSeg (i, false, xv) s) →
      TrackGood i true horz →
      Refines (i, false, xv) segs1 (crossRow tech segs1 horz).1 ∧
      TrackRef i true horz (crossRow tech segs1 horz).2 := by
  intro horz
  induction horz with
  | nil =>
    intro segs1 h1 _
    cases segs1 <;> exact ⟨refines_refl _ _ h1, List.Forall₂.nil⟩
  | cons mapIt2 rest ih =>
    intro segs1 h1 h2
    obtain ⟨a1, a2⟩ := crossPair_refines tech i xv mapIt2.1 segs1 mapIt2.2 h1
      (h2 mapIt2 (List.mem_cons_self _ _))
    obtain ⟨b1, b2⟩ := ih (crossPair tech segs1 mapIt2.2).1 (refines_good _ _ _ a1)
      (fun e he => h2 e (List.mem_cons_of_mem _ he))
    have e : crossRow tech segs1 (mapIt2 :: rest) =
        ((crossRow tech (crossPair tech segs1 mapIt2.2).1 rest).1,
          (mapIt2.1, (crossPair tech segs1 mapIt2.2).2) ::
            (crossRow tech (crossPair tech segs1 mapIt2.2).1 rest).2) := by
      cases segs1 <;> rfl
    rw [e]
    exact ⟨refines_trans _ _ _ _ a1 b1, List.Forall₂.cons ⟨rfl, a2⟩ b2⟩

theorem crossLayer_refines (tech : WriterTech) (i : Int) :
    ∀ (vert horz : TrackMap), TrackGood i false vert → TrackGood i true horz →
      TrackRef i false vert (crossLayer tech vert horz).1 ∧
      TrackRef i true horz (crossLayer tech vert horz).2 := by
  intro vert
  induction vert with
  | nil =>
    intro horz _ h2
    exact ⟨List.Forall₂.nil, trackRef_refl _ _ _ h2⟩
  | cons mapIt1 rest ih =>
    intro horz h1 h2
    obtain ⟨a1, a2⟩ := crossRow_refines tech i mapIt1.1 horz mapIt1.2
      (h1 mapIt1 (List.mem_cons_self _ _)) h2
    obtain ⟨b1, b2⟩ := ih (crossRow tech mapIt1.2 horz).2
      (fun e he => h1 e (List.mem_cons_of_mem _ he)) (trackRef_good _ _ _ _ a2)
    rw [crossLayer]
    exact ⟨List.Forall₂.cons ⟨rfl, a1⟩ b1, trackRef_trans _ _ _ _ _ a2 b2⟩

theorem refines_nil (key : SegKey) : Refines key [] [] := by
  refine ⟨?_, ?_⟩
  · intro p hp; cases hp
  · intro t ht; cases ht

theorem trackRef_find (i : Int) (isH : Bool) (t t1 : TrackMap) (h : TrackRef i isH t t1)
    (k : Int) :
    Refines (i, isH, k) ((mapFind coordLt t k).getD []) ((mapFind coordLt t1 k).getD []) := by
  induction h with
  | nil => exact refines_nil _
  | @cons e e1 t t1 hab _ ih =>
    obtain ⟨k0, v0⟩ := e
    obtain ⟨k1, v1⟩ := e1
    obtain ⟨hk, hr⟩ := hab
    simp only at hk hr
    subst hk
    simp only [mapFind]
    by_cases h1 : coordLt k k1 = true
    · simp only [h1, if_true, Option.getD_none]
      exact refines_nil _
    · simp only [h1, Bool.false_eq_true, if_false]
      by_cases h2 : coordLt k1 k = true
      · simp only [h2, if_true]
        exact ih
      · simp only [h2, Bool.false_eq_true, if_false, Option.getD_some]
        have hkk : k = k1 := coordLt_strict.tri _ _ (by simpa using h1) (by simpa using h2)
        rw [hkk]
        exact hr

theorem trackRef_keys (i : Int) (isH : Bool) (t t1 : TrackMap) (h : TrackRef i isH t t1) :
    t1.map Prod.fst = t.map Prod.fst := by
  induction h with
  | nil => rfl
  | cons hab _ ih => simp only [List.map_cons, ih, hab.1]

theorem mapSorted_of_keys {V W : Type} (lt : Int → Int → Bool) (t : List (Int × V))
    (t1 : List (Int × W)) (hk : t1.map Prod.fst = t.map Prod.fst) (hs : MapSorted lt t) :
    MapSorted lt t1 := by
  have h1 : (t.map Prod.fst).Pairwise (fun a b => lt a b = true) := by
    unfold MapSorted at hs
    exact (List.pairwise_map).mpr hs
  rw [← hk] at h1
  exact (List.pairwise_map).mp h1

theorem crossPass_refines (tech : WriterTech) (m : MergedPathSegs) (hg : AllGood m)
    (hs : TracksSorted m) :
    (crossPass tech m).length = m.length ∧ TracksSorted (crossPass tech m) ∧
    ∀ key, Refines key (mergedGroup m key) (mergedGroup (crossPass tech m) key) := by
  have hlen : (crossPass tech m).length = m.length := by simp [crossPass]
  have hlayer : ∀ (i : Nat) (hi : i < m.length),
      TrackRef (i : Int) false (m.get ⟨i, hi⟩).vert
        (crossLayer tech (m.get ⟨i, hi⟩).vert (m.get ⟨i, hi⟩).horz).1 ∧
      TrackRef (i : Int) true (m.get ⟨i, hi⟩).horz
        (crossLayer tech (m.get ⟨i, hi⟩).vert (m.get ⟨i, hi⟩).horz).2 :=
    fun i hi => crossLayer_refines tech i _ _ (hg i hi).1 (hg i hi).2
  refine ⟨hlen, ?_, ?_⟩
  · intro l hl
    simp only [crossPass, List.mem_map] at hl
    obtain ⟨l0, hl0, rfl⟩ := hl
    obtain ⟨i, hi, rfl⟩ := List.getElem_of_mem hl0
    have hsl := hs _ (List.getElem_mem (l := m) hi)
    obtain ⟨a1, a2⟩ := hlayer i hi
    exact ⟨mapSorted_of_keys _ _ _ (trackRef_keys _ _ _ _ a1) hsl.1,
      mapSorted_of_keys _ _ _ (trackRef_keys _ _ _ _ a2) hsl.2⟩
  · intro ⟨ly, isH, tr⟩
    simp only [mergedGroup, hlen]
    split
    · rename_i hr
      simp only [layerInRange, Bool.and_eq_true, decide_eq_true_eq] at hr
      have hn : ly.toNat < m.length := by omega
      have hly : ((ly.toNat : Nat) : Int) = ly := by omega
      obtain ⟨a1, a2⟩ := hlayer ly.toNat hn
      rw [hly] at a1 a2
      simp only [crossPass, List.get?_eq_getElem?, List.getElem?_map,
        List.getElem?_eq_getElem hn, Option.map_some']
      cases isH
      · exact trackRef_find ly false _ _ a1 tr
      · exact trackRef_find ly true _ _ a2 tr
    · exact refines_nil _

theorem covered_self (A : List frPathSeg) (a : frPathSeg) (ha : a ∈ A)
    (hl : a.beginCoord < a.endCoord) : Covered A a.beginCoord :=
  ⟨a, ha, le_refl _, hl⟩

/-- Two families of pairwise separated segments that cover the same cells of
the track agree. -/
theorem sep_cover_unique (A : List frPathSeg) :
    ∀ B : List frPathSeg,
      A.Pairwise (fun a b => a.endCoord < b.beginCoord) →
      B.Pairwise (fun a b => a.endCoord < b.beginCoord) →
      (∀ a ∈ A, a.beginCoord < a.endCoord) → (∀ b ∈ B, b.beginCoord < b.endCoord) →
      (∀ x, Covered A x ↔ Covered B x) →
      (∀ a ∈ A, ∀ b ∈ B, a.beginCoord = b.beginCoord → a.endCoord = b.endCoord → a = b) →
      A = B := by
  induction A with
  | nil =>
    intro B _ _ _ hBl hcov _
    cases B with
    | nil => rfl
    | cons b B =>
      obtain ⟨q, hq, -⟩ := (hcov b.beginCoord).mpr
        (covered_self _ b (List.mem_cons_self _ _) (hBl b (List.mem_cons_self _ _)))
      cases hq
  | cons a A ih =>
    intro B hA hB hAl hBl hcov heq
    cases B with
    | nil =>
      obtain ⟨q, hq, -⟩ := (hcov a.beginCoord).mp
        (covered_self _ a (List.mem_cons_self _ _) (hAl a (List.mem_cons_self _ _)))
      cases hq
    | cons b B =>
      have hal := hAl a (List.mem_cons_self _ _)
      have hbl := hBl b (List.mem_cons_self _ _)
      have hA1 := (List.pairwise_cons.mp hA).1
      have hB1 := (List.pairwise_cons.mp hB).1
      -- the first segments begin at the same coordinate
      have hfirst : ∀ (X Y : List frPathSeg) (x y : frPathSeg),
          (∀ z ∈ Y, y.endCoord < z.beginCoord) → y.beginCoord < y.endCoord →
          Covered (y :: Y) x.beginCoord → y.beginCoord ≤ x.beginCoord := by
        intro X Y x y hY hy ⟨q, hq, hq1, hq2⟩
        rcases List.mem_cons.mp hq with rfl | hq
        · exact hq1
        · have := hY q hq; omega
      have h1 : b.beginCoord ≤ a.beginCoord :=
        hfirst A B a b hB1 hbl ((hcov _).mp (covered_self _ a (List.mem_cons_self _ _) hal))
      have h2 : a.beginCoord ≤ b.beginCoord :=
        hfirst B A b a hA1 hal ((hcov _).mpr (covered_self _ b (List.mem_cons_self _ _) hbl))
      have hb : a.beginCoord = b.beginCoord := by omega
      have he : a.endCoord = b.endCoord := by
        by_contra hne
        rcases lt_or_gt_of_ne hne with hlt | hgt
        · obtain ⟨q, hq, hq1, hq2⟩ := (hcov a.endCoord).mpr
            ⟨b, List.mem_cons_self _ _, by omega, hlt⟩
          rcases List.mem_cons.mp hq with rfl | hq
          · omega
          · have := hA1 q hq; omega
        · obtain ⟨q, hq, hq1, hq2⟩ := (hcov b.endCoord).mp
            ⟨a, List.mem_cons_self _ _, by omega, hgt⟩
          rcases List.mem_cons.mp hq with rfl | hq
          · omega
          · have := hB1 q hq; omega
      have hab : a = b := heq a (List.mem_cons_self _ _) b (List.mem_cons_self _ _) hb he
      subst hab
      congr 1
      apply ih B (List.pairwise_cons.mp hA).2 (List.pairwise_cons.mp hB).2
        (fun x hx => hAl x (List.mem_cons_of_mem _ hx))
        (fun x hx => hBl x (List.mem_cons_of_mem _ hx))
      · intro x
        constructor
        · rintro ⟨q, hq, hq1, hq2⟩
          have := hA1 q hq
          obtain ⟨r, hr, hr1, hr2⟩ := (hcov x).mp ⟨q, List.mem_cons_of_mem _ hq, hq1, hq2⟩
          rcases List.mem_cons.mp hr with rfl | hr
          · omega
          · exact ⟨r, hr, hr1, hr2⟩
        · rintro ⟨q, hq, hq1, hq2⟩
          have := hB1 q hq
          obtain ⟨r, hr, hr1, hr2⟩ := (hcov x).mpr ⟨q, List.mem_cons_of_mem _ hq, hq1, hq2⟩
          rcases List.mem_cons.mp hr with rfl | hr
          · omega
          · exact ⟨r, hr, hr1, hr2⟩
      · intro x hx y hy
        exact heq x (List.mem_cons_of_mem _ hx) y (List.mem_cons_of_mem _ hy)

/-- A good segment is determined by its group, its two coordinates and its style. -/
theorem goodSeg_ext (key : SegKey) (a b : frPathSeg) (ha : GoodSeg key a) (hb : GoodSeg key b)
    (h1 : a.beginCoord = b.beginCoord) (h2 : a.endCoord = b.endCoord)
    (h3 : a.style = b.style) : a = b := by
  obtain ⟨i, isH, tr⟩ := key
  cases isH with
  | false =>
    obtain ⟨a1, a2, a3, a4, a5, -⟩ := goodSeg_vert i tr a ha
    obtain ⟨b1, b2, b3, b4, b5, -⟩ := goodSeg_vert i tr b hb
    rw [a4, b4] at h1
    rw [a5, b5] at h2
    obtain ⟨al, ⟨abx, aby⟩, ⟨aex, aey⟩, ast⟩ := a
    obtain ⟨bl, ⟨bbx, bby⟩, ⟨bex, bey⟩, bst⟩ := b
    simp only at a1 a2 a3 b1 b2 b3 h1 h2 h3
    subst a1 b1 a3 b3 h1 h2 h3 a2
    simp only [frPathSeg.mk.injEq, frPoint.mk.injEq, true_and, and_true]
    exact b2
  | true =>
    obtain ⟨a1, a2, a3, a4, a5, -⟩ := goodSeg_horz i tr a ha
    obtain ⟨b1, b2, b3, b4, b5, -⟩ := goodSeg_horz i tr b hb
    rw [a4, b4] at h1
    rw [a5, b5] at h2
    obtain ⟨al, ⟨abx, aby⟩, ⟨aex, aey⟩, ast⟩ := a
    obtain ⟨bl, ⟨bbx, bby⟩, ⟨bex, bey⟩, bst⟩ := b
    simp only at a1 a2 a3 b1 b2 b3 h1 h2 h3
    subst a1 b1 a2 b2 h1 h2 h3 a3
    simp only [frPathSeg.mk.injEq, frPoint.mk.injEq, true_and, and_true]
    exact b3.symm

theorem frSegStyle_ext (a b : frSegStyle) (h1 : a.beginStyle = b.beginStyle)
    (h2 : a.beginExt = b.beginExt) (h3 : a.endStyle = b.endStyle) (h4 : a.endExt = b.endExt) :
    a = b := by
  cases a; cases b; simp_all

/-- Merging the pieces `T1` of the separated, normally styled segments `T`
gives `T` back: `G1` are the pieces as the merge pass reads them and `O` is
what it makes of them. -/
theorem remerge_pieces (key : SegKey) (T T1 G1 O : List frPathSeg)
    (hTs : T.Pairwise (fun a b => a.endCoord < b.beginCoord))
    (hTg : ∀ t ∈ T, GoodSeg key t ∧ NormalStyle t.style)
    (hR : Refines key T T1) (hG : ∀ p, p ∈ G1 ↔ p ∈ T1)
    (hO : GroupOK G1 key O) (hS : ∀ o ∈ O, StyleOK G1 o) : O = T := by
  obtain ⟨hOs, hOg, hOc⟩ := hO
  -- a piece that shares a cell with a segment of `T` lies in that segment
  have hin : ∀ p ∈ T1, ∀ t ∈ T, ∀ x, p.beginCoord ≤ x → x < p.endCoord →
      t.beginCoord ≤ x → x < t.endCoord →
      Contains t p ∧
      (p.beginCoord = t.beginCoord →
        p.style.beginStyle = t.style.beginStyle ∧ p.style.beginExt = t.style.beginExt) ∧
      (p.endCoord = t.endCoord →
        p.style.endStyle = t.style.endStyle ∧ p.style.endExt = t.style.endExt) := by
    intro p hp t ht x h1 h2 h3 h4
    obtain ⟨-, t0, ht0, hc, hh⟩ := hR.1 p hp
    rcases pairwise_sep_cases T hTs t t0 ht ht0 with rfl | hlt | hlt
    · exact ⟨hc, hh⟩
    · have := hc.1; omega
    · have := hc.2; omega
  apply sep_cover_unique O T hOs hTs (fun o ho => (hOg o ho).2.1) (fun t ht => (hTg t ht).1.2.1)
  · intro x
    constructor
    · rintro ⟨o, ho, h1, h2⟩
      obtain ⟨p, hp, hp1, hp2⟩ := (hOg o ho).2.2.1 x h1 h2
      obtain ⟨-, t, ht, hc, -⟩ := hR.1 p ((hG p).mp hp)
      exact ⟨t, ht, by have := hc.1; omega, by have := hc.2; omega⟩
    · rintro ⟨t, ht, h1, h2⟩
      obtain ⟨p, hp, hp1, hp2⟩ := hR.2 t ht x h1 h2
      obtain ⟨o, ho, hc⟩ := hOc p ((hG p).mpr hp)
      exact ⟨o, ho, by have := hc.1; omega, by have := hc.2; omega⟩
  · intro o ho t ht hb he
    have hgo := hOg o ho
    obtain ⟨hok, holt, -, ⟨pb, hpb, hpb1, hpb2⟩, ⟨pe, hpe, hpe1, hpe2⟩⟩ := hgo
    obtain ⟨htg, htn⟩ := hTg t ht
    have htlt := htg.2.1
    have hpeg := (hR.1 pe ((hG pe).mp hpe)).1
    -- the merged segment is a good segment
    have hog : GoodSeg key o := by
      refine ⟨hok, holt, ?_⟩
      intro hh
      have hkey : key.2.1 = true := by rw [← hok]; exact hh
      have hpbg := (hR.1 pb ((hG pb).mp hpb)).1
      have e1 : pb.beginPt.y = key.2.2 := by
        have := hpbg.1
        simp only [frPathSeg.key] at this
        have h5 : pb.isH = true := by rw [← hkey, ← this]
        have h6 : pb.trackLoc = key.2.2 := by rw [← this]
        simpa [frPathSeg.trackLoc, h5] using h6
      have e2 : pe.beginPt.y = key.2.2 := by
        have := hpeg.1
        simp only [frPathSeg.key] at this
        have h5 : pe.isH = true := by rw [← hkey, ← this]
        have h6 : pe.trackLoc = key.2.2 := by rw [← this]
        simpa [frPathSeg.trackLoc, h5] using h6
      have e3 : pe.beginPt.y = pe.endPt.y := by
        apply hpeg.2.2
        have := hpeg.1
        simp only [frPathSeg.key] at this
        rw [← hkey, ← this]
      rw [hpb1, hpe1, e1, ← e3, e2]
    apply goodSeg_ext key o t hog htg hb he
    -- the pieces at the two ends of `t`
    obtain ⟨p0, hp0, hp01, hp02⟩ := hR.2 t ht t.beginCoord (le_refl _) htlt
    obtain ⟨hc0, hb0, -⟩ := hin p0 hp0 t ht t.beginCoord hp01 hp02 (le_refl _) htlt
    have hp0b : p0.beginCoord = t.beginCoord := by have := hc0.1; omega
    obtain ⟨p1, hp1, hp11, hp12⟩ := hR.2 t ht (t.endCoord - 1) (by omega) (by omega)
    obtain ⟨hc1, -, he1⟩ := hin p1 hp1 t ht (t.endCoord - 1) hp11 hp12 (by omega) (by omega)
    have hp1e : p1.endCoord = t.endCoord := by have := hc1.2; omega
    obtain ⟨⟨hbmax, hbcase⟩, ⟨hemax, hecase⟩⟩ := hS o ho
    have hbs : o.style.beginStyle = t.style.beginStyle ∧ o.style.beginExt = t.style.beginExt := by
      rcases hbcase with ⟨h1, h2⟩ | ⟨-, q, hq, hq1, hq2, hq3⟩
      · have h3 := hbmax p0 ((hG p0).mpr hp0) (by rw [hp0b, hb])
        have h4 : t.style.beginExt = 0 := by rw [← (hb0 hp0b).2]; omega
        exact ⟨by rw [h1, htn.1 h4], by rw [h2, h4]⟩
      · have hq0 := (hR.1 q ((hG q).mp hq)).1.2.1
        obtain ⟨-, hbq, -⟩ := hin q ((hG q).mp hq) t ht t.beginCoord (by omega) (by omega)
          (le_refl _) htlt
        have := hbq (by omega)
        exact ⟨by rw [← hq2, this.1], by rw [← hq3, this.2]⟩
    have hes : o.style.endStyle = t.style.endStyle ∧ o.style.endExt = t.style.endExt := by
      rcases hecase with ⟨h1, h2⟩ | ⟨-, q, hq, hq1, hq2, hq3⟩
      · have h3 := hemax p1 ((hG p1).mpr hp1) (by rw [hp1e, he])
        have h4 : t.style.endExt = 0 := by rw [← (he1 hp1e).2]; omega
        exact ⟨by rw [h1, htn.2 h4], by rw [h2, h4]⟩
      · have hq0 := (hR.1 q ((hG q).mp hq)).1.2.1
        obtain ⟨-, -, heq⟩ := hin q ((hG q).mp hq) t ht (t.endCoord - 1) (by omega) (by omega)
          (by omega) (by omega)
        have := heq (by omega)
        exact ⟨by rw [← hq2, this.1], by rw [← hq3, this.2]⟩
    exact frSegStyle_ext _ _ hbs.1 hbs.2 hes.1 hes.2

theorem trackMap_ext (t1 t2 : TrackMap) (h1 : MapSorted coordLt t1) (h2 : MapSorted coordLt t2)
    (n1 : ∀ e ∈ t1, e.2 ≠ []) (n2 : ∀ e ∈ t2, e.2 ≠ [])
    (h : ∀ k, (mapFind coordLt t1 k).getD [] = (mapFind coordLt t2 k).getD []) : t1 = t2 := by
  have key : ∀ ta tb : TrackMap, MapSorted coordLt ta → MapSorted coordLt tb →
      (∀ e ∈ ta, e.2 ≠ []) →
      (∀ k, (mapFind coordLt ta k).getD [] = (mapFind coordLt tb k).getD []) →
      ∀ e ∈ ta, e ∈ tb := by
    intro ta tb ha hb na hh e he
    obtain ⟨k, v⟩ := e
    have hf := (mapFind_eq_some_iff coordLt_strict ta ha k v).mpr he
    have hv := na _ he
    have hk := hh k
    rw [hf] at hk
    simp only [Option.getD_some] at hk hv
    cases hb2 : mapFind coordLt tb k with
    | none => rw [hb2] at hk; simp only [Option.getD_none] at hk; exact absurd hk hv
    | some v1 =>
      rw [hb2] at hk
      simp only [Option.getD_some] at hk
      rw [hk]
      exact (mapFind_eq_some_iff coordLt_strict tb hb k v1).mp hb2
  have nodup : ∀ t : TrackMap, MapSorted coordLt t → t.Nodup := by
    intro t ht
    refine List.Pairwise.imp ?_ ht
    intro a b hab heq
    rw [heq, coordLt_strict.irrefl] at hab
    cases hab
  have hp : t1.Perm t2 := (List.perm_ext_iff_of_nodup (nodup t1 h1) (nodup t2 h2)).mpr
    (fun e => ⟨key t1 t2 h1 h2 n1 h e, key t2 t1 h2 h1 n2 (fun k => (h k).symm) e⟩)
  haveI : IsAntisymm (Int × List frPathSeg) (fun a b => coordLt a.1 b.1 = true) :=
    ⟨fun a b hab hba => by
      have := coordLt_strict.trans _ _ _ hab hba
      rw [coordLt_strict.irrefl] at this
      cases this⟩
  exact List.eq_of_perm_of_sorted hp h1 h2

theorem mergedGroup_at (m : MergedPathSegs) (i : Nat) (hi : i < m.length) (isH : Bool) (k : Int) :
    mergedGroup m ((i : Int), isH, k) = (mapFind coordLt ((m.get ⟨i, hi⟩).at isH) k).getD [] := by
  have hr : layerInRange m.length (i : Int) = true := by
    simp [layerInRange, hi]
  simp only [mergedGroup, hr, if_true, Int.toNat_ofNat, List.get?_eq_getElem?,
    List.getElem?_eq_getElem hi, List.get_eq_getElem]

/-- Two values of `mergedPathSegs` without empty tracks that agree on every
group are equal. -/
theorem merged_ext (m1 m2 : MergedPathSegs) (hl : m1.length = m2.length)
    (s1 : TracksSorted m1) (s2 : TracksSorted m2) (n1 : NoEmptyTracks m1)
    (n2 : NoEmptyTracks m2) (h : ∀ key, mergedGroup m1 key = mergedGroup m2 key) : m1 = m2 := by
  apply List.ext_getElem hl
  intro i hi1 hi2
  have hm1 := List.getElem_mem (l := m1) hi1
  have hm2 := List.getElem_mem (l := m2) hi2
  have hv : (m1[i]).vert = (m2[i]).vert := by
    apply trackMap_ext _ _ (s1 _ hm1).1 (s2 _ hm2).1 (n1 _ hm1).1 (n2 _ hm2).1
    intro k
    have := h ((i : Int), false, k)
    rw [mergedGroup_at m1 i hi1, mergedGroup_at m2 i hi2] at this
    simpa [LayerSegs.at] using this
  have hh : (m1[i]).horz = (m2[i]).horz := by
    apply trackMap_ext _ _ (s1 _ hm1).2 (s2 _ hm2).2 (n1 _ hm1).2 (n2 _ hm2).2
    intro k
    have := h ((i : Int), true, k)
    rw [mergedGroup_at m1 i hi1, mergedGroup_at m2 i hi2] at this
    simpa [LayerSegs.at] using this
  cases hx : m1[i]
  cases hy : m2[i]
  rw [hx] at hv hh
  rw [hy] at hv hh
  simp only at hv hh
  rw [hv, hh]

theorem buildViaMergeMap_noVia (connFigs : List frConnFig)
    (h : ∀ v, frConnFig.via v ∉ connFigs) : buildViaMergeMap connFigs = [] := by
  unfold buildViaMergeMap
  generalize ([] : ViaMergeMap) = M
  induction connFigs generalizing M with
  | nil => rfl
  | cons c cs ih =>
    have hcs : ∀ v, frConnFig.via v ∉ cs := fun v hv => h v (List.mem_cons_of_mem _ hv)
    cases c with
    | pathSeg p => simpa using ih hcs M
    | via v => exact absurd (List.mem_cons_self _ _) (h v)
    | patchWire n => simpa using ih hcs M

/-- A merged segment of a group whose input segments are parallel to an axis
is a good segment. -/
theorem goodOut_goodSeg (G : List frPathSeg) (key : SegKey) (m : frPathSeg)
    (hm : GoodOut G key m)
    (hG : ∀ q ∈ G, q.key = key ∧ (q.beginPt.x = q.endPt.x ∨ q.beginPt.y = q.endPt.y)) :
    GoodSeg key m := by
  obtain ⟨hk, hlt, -, ⟨p, hp, hp1, -⟩, ⟨q, hq, hq1, -⟩⟩ := hm
  refine ⟨hk, hlt, ?_⟩
  intro hh
  have hkey : key.2.1 = true := by rw [← hk]; exact hh
  have track : ∀ r ∈ G, r.isH = true ∧ r.beginPt.y = key.2.2 := by
    intro r hr
    have := (hG r hr).1
    simp only [frPathSeg.key] at this
    have h5 : r.isH = true := by rw [← hkey, ← this]
    have h6 : r.trackLoc = key.2.2 := by rw [← this]
    exact ⟨h5, by simpa [frPathSeg.trackLoc, h5] using h6⟩
  have e3 : q.beginPt.y = q.endPt.y := by
    rcases (hG q hq).2 with h | h
    · have := (track q hq).1
      simp [frPathSeg.isH, h] at this
    · exact h
  rw [hp1, hq1, (track p hp).2, ← e3, (track q hq).2]

/-- C19: idempotence of merge/split. For every list of connFigs without vias
whose path segments lie on layers of the technology, have their begin
coordinate below their end coordinate and are parallel to an axis,
`mergeSplitConnFigs` returns a list `out`, and applied to `out` it returns
`out` again: the same segments with the same layers, begin and end points,
styles and extensions, in the same order. No assumption on crossings is needed. -/
theorem mergeSplit_idempotent (tech : WriterTech) (connFigs : List frConnFig)
    (hvia : ∀ v, frConnFig.via v ∉ connFigs)
    (hlay : ∀ p, frConnFig.pathSeg p ∈ connFigs →
      0 ≤ p.layerNum ∧ p.layerNum < (tech.numLayers : Int))
    (hlt : ∀ p, frConnFig.pathSeg p ∈ connFigs → p.beginCoord < p.endCoord)
    (hstr : ∀ p, frConnFig.pathSeg p ∈ connFigs →
      p.beginPt.x = p.endPt.x ∨ p.beginPt.y = p.endPt.y) :
    ∃ out, mergeSplitConnFigs tech connFigs = some out ∧
      mergeSplitConnFigs tech out = some out := by
  obtain ⟨M, hmp, hlen, hsort, hne, hok⟩ := mergePass_groupStyleOK tech connFigs hlay hlt
  have hGk : ∀ key, ∀ q ∈ groupSegs connFigs key,
      q.key = key ∧ (q.beginPt.x = q.endPt.x ∨ q.beginPt.y = q.endPt.y) := by
    intro key q hq
    obtain ⟨h1, -, h3⟩ := (mem_groupSegs connFigs key q).mp hq
    exact ⟨h3, hstr q h1⟩
  have hgood : ∀ key, ∀ m ∈ mergedGroup M key, GoodSeg key m ∧ NormalStyle m.style := by
    intro key m hm
    refine ⟨goodOut_goodSeg _ key m ((hok key).1.2.1 m hm) (hGk key), ?_, ?_⟩
    · intro h0
      rcases ((hok key).2 m hm).1.2 with h | h
      · exact h.1
      · omega
    · intro h0
      rcases ((hok key).2 m hm).2.2 with h | h
      · exact h.1
      · omega
  have hall : AllGood M := by
    intro i hi
    constructor
    · intro e he s hs
      exact (hgood _ s (mem_layer_group M hsort i hi false e
        (by simpa [LayerSegs.at] using he) s hs)).1
    · intro e he s hs
      exact (hgood _ s (mem_layer_group M hsort i hi true e
        (by simpa [LayerSegs.at] using he) s hs)).1
  obtain ⟨hlen1, hsort1, href⟩ := crossPass_refines tech M hall hsort
  have hout : mergeSplitConnFigs tech connFigs =
      some ((writeBackSegs (crossPass tech M)).map frConnFig.pathSeg) := by
    simp only [mergeSplitConnFigs, hmp, buildViaMergeMap_noVia connFigs hvia, viaSplitPass,
      List.foldl_nil, List.map_nil, List.append_nil]
  refine ⟨_, hout, ?_⟩
  have hmem : ∀ p, frConnFig.pathSeg p ∈ (writeBackSegs (crossPass tech M)).map frConnFig.pathSeg ↔
      ∃ key, p ∈ mergedGroup (crossPass tech M) key := by
    intro p
    rw [← mem_writeBackSegs _ hsort1]
    simp
  have hpiece : ∀ key, ∀ p ∈ mergedGroup (crossPass tech M) key, GoodSeg key p :=
    fun key p hp => ((href key).1 p hp).1
  have hrange : ∀ key p, p ∈ mergedGroup (crossPass tech M) key →
      0 ≤ key.1 ∧ key.1 < (tech.numLayers : Int) := by
    intro key p hp
    unfold mergedGroup at hp
    split at hp
    · rename_i hr
      simp only [layerInRange, Bool.and_eq_true, decide_eq_true_eq, hlen1, hlen] at hr
      exact hr
    · cases hp
  obtain ⟨M2, hmp2, hlen2, hsort2, hne2, hok2⟩ := mergePass_groupStyleOK tech
    ((writeBackSegs (crossPass tech M)).map frConnFig.pathSeg)
    (by
      intro p hp
      obtain ⟨key, hk⟩ := (hmem p).mp hp
      have := (hpiece key p hk).1
      simp only [frPathSeg.key] at this
      have h2 := hrange key p hk
      rw [← this] at h2
      exact h2)
    (by
      intro p hp
      obtain ⟨key, hk⟩ := (hmem p).mp hp
      exact (hpiece key p hk).2.1)
  have hgrp : ∀ key p, p ∈ groupSegs ((writeBackSegs (crossPass tech M)).map frConnFig.pathSeg) key ↔
      p ∈ mergedGroup (crossPass tech M) key := by
    intro key p
    rw [mem_groupSegs]
    constructor
    · rintro ⟨h1, -, h3⟩
      obtain ⟨key1, hk⟩ := (hmem p).mp h1
      have := (hpiece key1 p hk).1
      rw [h3] at this
      rw [this]
      exact hk
    · intro hp
      have hg := hpiece key p hp
      exact ⟨(hmem p).mpr ⟨key, hp⟩, beginPt_ne_of_lt p hg.2.1, hg.1⟩
  have heq : ∀ key, mergedGroup M2 key = mergedGroup M key := fun key =>
    remerge_pieces key (mergedGroup M key) (mergedGroup (crossPass tech M) key)
      (groupSegs ((writeBackSegs (crossPass tech M)).map frConnFig.pathSeg) key)
      (mergedGroup M2 key) (hok key).1.1 (hgood key) (href key) (hgrp key) (hok2 key).1
      (hok2 key).2
  have hM : M2 = M := merged_ext M2 M (by rw [hlen2, hlen]) hsort2 hsort hne2 hne heq
  simp only [mergeSplitConnFigs, hmp2, hM, buildViaMergeMap_segs, viaSplitPass,
    List.foldl_nil, List.map_nil, List.append_nil]

/-- C19 at a concrete input: on layer 2 two abutting horizontal segments on the
track `y = 10` and a vertical segment that crosses them. -/
theorem mergeSplit_idempotent_witness :
    ∃ out, mergeSplitConnFigs writerTechExample
        [.pathSeg (segExample 2 0 10 20 10), .pathSeg (segExample 2 20 10 30 10),
         .pathSeg (segExample 2 25 0 25 20)] = some out ∧
      mergeSplitConnFigs writerTechExample out = some out :=
  mergeSplit_idempotent writerTechExample
    [.pathSeg (segExample 2 0 10 20 10), .pathSeg (segExample 2 20 10 30 10),
     .pathSeg (segExample 2 25 0 25 20)]
    (by intro v hv; simp at hv)
    (by
      intro p hp
      simp only [List.mem_cons, frConnFig.pathSeg.injEq, List.mem_singleton, List.not_mem_nil,
        or_false] at hp
      rcases hp with rfl | rfl | rfl <;> decide)
    (by
      intro p hp
      simp only [List.mem_cons, frConnFig.pathSeg.injEq, List.mem_singleton, List.not_mem_nil,
        or_false] at hp
      rcases hp with rfl | rfl | rfl <;> decide)
    (by
      intro p hp
      simp only [List.mem_cons, frConnFig.pathSeg.injEq, List.mem_singleton, List.not_mem_nil,
        or_false] at hp
      rcases hp with rfl | rfl | rfl <;> decide)

/-! ## Merge and split of net geometry: one split per pair of tracks -/

theorem crossScan2_spec (tech : WriterTech) (seg1 : frPathSeg) :
    ∀ (segs2 : List frPathSeg) (h : CrossHit), crossScan2 tech seg1 segs2 = some h →
      ∃ pre2 seg2 post2 seg2a, segs2 = pre2 ++ seg2 :: post2 ∧
        (∀ s ∈ pre2, NoCross seg1 s) ∧ ¬ NoCross seg1 seg2 ∧
        h.segs2 = pre2 ++ seg2a :: post2 := by
  intro segs2
  induction segs2 with
  | nil => intro h hh; simp [crossScan2] at hh
  | cons seg2 rest ih =>
    intro h hh
    by_cases hn : NoCross seg1 seg2
    · have hP1 : (decide (seg2.beginPt.y > seg1.beginPt.y) &&
          decide (seg2.beginPt.y < seg1.endPt.y)) = false := by
        simpa using hn.1
      have hP2 : (decide (seg1.beginPt.x > seg2.beginPt.x) &&
          decide (seg1.beginPt.x < seg2.endPt.x)) = false := by
        simpa using hn.2
      simp only [crossScan2, hP1, hP2, Bool.or_self, Bool.false_eq_true, if_false,
        Option.map_eq_some'] at hh
      obtain ⟨h0, hh0, rfl⟩ := hh
      obtain ⟨pre2, s2, post2, s2a, e1, e2, e3, e4⟩ := ih h0 hh0
      refine ⟨seg2 :: pre2, s2, post2, s2a, by rw [e1]; rfl, ?_, e3, by simp [e4]⟩
      intro s hs
      rcases List.mem_cons.mp hs with rfl | hs
      · exact hn
      · exact e2 s hs
    · have hor : (decide (seg2.beginPt.y > seg1.beginPt.y) &&
          decide (seg2.beginPt.y < seg1.endPt.y) ||
          decide (seg1.beginPt.x > seg2.beginPt.x) &&
          decide (seg1.beginPt.x < seg2.endPt.x)) = true := by
        by_contra hc
        apply hn
        simp only [Bool.or_eq_true, Bool.and_eq_true, decide_eq_true_eq, not_or] at hc
        exact ⟨hc.1, hc.2⟩
      simp only [crossScan2, hor, if_true, Option.some.injEq] at hh
      subst hh
      exact ⟨[], seg2, rest, _, rfl, by simp, hn, rfl⟩

/-- C21: at most one split per pair of tracks. For the segments `segs1` of a
vertical track and `segs2` of a horizontal track, the loop of the crossing
pass over this pair either leaves both vectors as they are, or it handles
exactly one pair `(seg1, seg2)`, the first in scan order for which one of the
two tests holds: `seg1` and `seg2` are replaced in place, at most one new
piece is appended to each vector, and every other segment, in particular
every segment behind `seg1` and `seg2`, is left as it was. -/
theorem crossPair_at_most_one_split (tech : WriterTech) :
    ∀ segs1 segs2 : List frPathSeg,
      crossPair tech segs1 segs2 = (segs1, segs2) ∨
      ∃ (pre : List frPathSeg) (seg1 : frPathSeg) (post pre2 : List frPathSeg) (seg2 : frPathSeg)
          (post2 : List frPathSeg) (seg1a seg2a : frPathSeg) (new1 new2 : Option frPathSeg),
        segs1 = pre ++ seg1 :: post ∧ segs2 = pre2 ++ seg2 :: post2 ∧
        (∀ s ∈ pre, ∀ s2 ∈ segs2, NoCross s s2) ∧ (∀ s2 ∈ pre2, NoCross seg1 s2) ∧
        ¬ NoCross seg1 seg2 ∧
        crossPair tech segs1 segs2 =
          (pre ++ seg1a :: post ++ new1.toList, pre2 ++ seg2a :: post2 ++ new2.toList) ∧
        (crossPair tech segs1 segs2).1.length ≤ segs1.length + 1 ∧
        (crossPair tech segs1 segs2).2.length ≤ segs2.length + 1 := by
  intro segs1
  induction segs1 with
  | nil => intro segs2; left; rfl
  | cons s1 rest1 ih =>
    intro segs2
    cases hc : crossScan2 tech s1 segs2 with
    | some h =>
      right
      obtain ⟨pre2, seg2, post2, seg2a, e1, e2, e3, e4⟩ := crossScan2_spec tech s1 segs2 h hc
      have hp : crossPair tech (s1 :: rest1) segs2 =
          (h.seg1 :: rest1 ++ h.newSeg1.toList, h.segs2 ++ h.newSeg2.toList) := by
        rw [crossPair, hc]
      refine ⟨[], s1, rest1, pre2, seg2, post2, h.seg1, seg2a, h.newSeg1, h.newSeg2, rfl, e1,
        by simp, e2, e3, ?_, ?_, ?_⟩
      · rw [hp, e4]; simp
      · rw [hp]
        simp only [List.length_append, List.length_cons]
        cases h.newSeg1 <;> simp
      · rw [hp, e4, e1]
        simp only [List.length_append, List.length_cons]
        cases h.newSeg2 <;> simp
    | none =>
      have hp : crossPair tech (s1 :: rest1) segs2 =
          (s1 :: (crossPair tech rest1 segs2).1, (crossPair tech rest1 segs2).2) := by
        rw [crossPair, hc]
      have hno : ∀ s2 ∈ segs2, NoCross s1 s2 := by
        intro s2 hs2
        by_contra hn
        obtain ⟨a, b, hab⟩ := List.append_of_mem hs2
        have key : ∀ (l : List frPathSeg), (∃ x ∈ l, ¬ NoCross s1 x) →
            crossScan2 tech s1 l ≠ none := by
          intro l
          induction l with
          | nil => rintro ⟨x, hx, -⟩; cases hx
          | cons y l ihl =>
            rintro ⟨x, hx, hnx⟩ hnone
            by_cases hy : NoCross s1 y
            · have hP1 : (decide (y.beginPt.y > s1.beginPt.y) &&
                  decide (y.beginPt.y < s1.endPt.y)) = false := by
                simpa using hy.1
              have hP2 : (decide (s1.beginPt.x > y.beginPt.x) &&
                  decide (s1.beginPt.x < y.endPt.x)) = false := by
                simpa using hy.2
              simp only [crossScan2, hP1, hP2, Bool.or_self, Bool.false_eq_true, if_false,
                Option.map_eq_none'] at hnone
              rcases List.mem_cons.mp hx with rfl | hx
              · exact hnx hy
              · exact ihl ⟨x, hx, hnx⟩ hnone
            · have hor : (decide (y.beginPt.y > s1.beginPt.y) &&
                  decide (y.beginPt.y < s1.endPt.y) ||
                  decide (s1.beginPt.x > y.beginPt.x) &&
                  decide (s1.beginPt.x < y.endPt.x)) = true := by
                by_contra hc2
                apply hy
                simp only [Bool.or_eq_true, Bool.and_eq_true, decide_eq_true_eq, not_or] at hc2
                exact ⟨hc2.1, hc2.2⟩
              simp [crossScan2, hor] at hnone
        exact key segs2 ⟨s2, hs2, hn⟩ hc
      rcases ih segs2 with h0 | ⟨pre, seg1, post, pre2, seg2, post2, seg1a, seg2a, new1, new2,
          e1, e2, e3, e4, e5, e6, e7, e8⟩
      · left
        rw [hp, h0]
      · right
        refine ⟨s1 :: pre, seg1, post, pre2, seg2, post2, seg1a, seg2a, new1, new2,
          by rw [e1]; rfl, e2, ?_, e4, e5, ?_, ?_, ?_⟩
        · intro s hs
          rcases List.mem_cons.mp hs with rfl | hs
          · exact hno
          · exact e3 s hs
        · rw [hp, e6]; rfl
        · rw [hp]
          simp only [List.length_cons]
          omega
        · rw [hp]
          exact e8

/-! ## LEF58 rule compilation: rules that are dropped or altered -/

/-- C23: evaluation at the failing input. For the rule text
`SPACING 5 ADJACENTCUTS 3 WITHIN 2 ;` the function `getLef58CutSpacing` hands
`SPACING 5 ADJACENTCUTS 3 WITHIN 2 ;` (with the `;`) through the helper to
`getLef58CutSpacing_adjacentCuts`, which registers nothing: the word `;` is
read by the loop of the `ADJACENTCUTS` branch, whose last `else` sets
`isSkip`. The same text without the `;` registers the constraint with
`cutSpacing` 5, `adjacentCuts` 3 and `cutWithin` 2. -/
theorem getLef58CutSpacing_drops_adjacentCuts_rule :
    getLef58CutSpacing numConvExample 100 ruleDbExample "SPACING 5 ADJACENTCUTS 3 WITHIN 2 ;"
      = .returned ruleDbExample ∧
    cutSpacingHelperLoop (words "SPACING 5 ADJACENTCUTS 3 WITHIN 2 ;") "" ""
      = ("ADJACENTCUTS", "SPACING 5 ADJACENTCUTS 3 WITHIN 2 ;") ∧
    getLef58CutSpacing_adjacentCuts numConvExample 100 ruleDbExample
        "SPACING 5 ADJACENTCUTS 3 WITHIN 2 ;"
      = .returned ruleDbExample ∧
    getLef58CutSpacing_adjacentCuts numConvExample 100 ruleDbExample
        "SPACING 5 ADJACENTCUTS 3 WITHIN 2"
      = .returned
          { tech := ruleDbExample.tech.addConstraint
              (.cutSpacing { cutSpacing := some 5, adjacentCuts := some 3, cutWithin := some 2 }),
            layer := ruleDbExample.layer.addLef58CutSpacingConstraint
              (.cutSpacing { cutSpacing := some 5, adjacentCuts := some 3, cutWithin := some 2 }) } :=
  ⟨rfl, by decide, rfl, rfl⟩

/-- C24: evaluation at the failing input. A convex corner rule with the one
row `WIDTH 0 SPACING 1 2` is compiled into a table that maps the width 0 to
the pair `(1, 1)`, and the constraint is marked same-XY: `numSpacingEntry` is
only set when a further `WIDTH` follows a row. With the two rows
`WIDTH 0 SPACING 1 2` and `WIDTH 3 SPACING 4 5` the pairs are `(1, 2)` and
`(4, 5)` and the constraint is not same-XY. -/
theorem cornerSpacing_single_row_same_xy :
    getLef58CornerSpacing numConvExample 100 ruleDbExample
        "CORNERSPACING CONVEXCORNER WIDTH 0 SPACING 1 2 ;"
      = .returned (0,
          { tech := ruleDbExample.tech.addConstraint (.cornerSpacing
              { widths := [0], spacings := [(1, 1)], cornerType := .CONVEX,
                sameMask := some false, within := none, eolWidth := none, length := none,
                edgeLength := none, includeLShape := none, minLength := none,
                exceptNotch := none, exceptNotchLength := none, exceptSameNet := false,
                exceptSameMetal := false, sameXY := true }),
            layer := ruleDbExample.layer.addLef58CornerSpacingConstraint (.cornerSpacing
              { widths := [0], spacings := [(1, 1)], cornerType := .CONVEX,
                sameMask := some false, within := none, eolWidth := none, length := none,
                edgeLength := none, includeLShape := none, minLength := none,
                exceptNotch := none, exceptNotchLength := none, exceptSameNet := false,
                exceptSameMetal := false, sameXY := true }) }) ∧
    getLef58CornerSpacing numConvExample 100 ruleDbExample
        "CORNERSPACING CONVEXCORNER WIDTH 0 SPACING 1 2 WIDTH 3 SPACING 4 5 ;"
      = .returned (0,
          { tech := ruleDbExample.tech.addConstraint (.cornerSpacing
              { widths := [0, 3], spacings := [(1, 2), (4, 5)], cornerType := .CONVEX,
                sameMask := some false, within := none, eolWidth := none, length := none,
                edgeLength := none, includeLShape := none, minLength := none,
                exceptNotch := none, exceptNotchLength := none, exceptSameNet := false,
                exceptSameMetal := false, sameXY := false }),
            layer := ruleDbExample.layer.addLef58CornerSpacingConstraint (.cornerSpacing
              { widths := [0, 3], spacings := [(1, 2), (4, 5)], cornerType := .CONVEX,
                sameMask := some false, within := none, eolWidth := none, length := none,
                edgeLength := none, includeLShape := none, minLength := none,
                exceptNotch := none, exceptNotchLength := none, exceptSameNet := false,
                exceptSameMetal := false, sameXY := false }) }) :=
  ⟨rfl, rfl⟩

/-- C25: evaluation at the failing inputs. On the text
`CORNERSPACING CONVEXCORNER WIDTH 5 ;` the main loop ends without an early
return and leaves the one row `[5]`; the table loop then reads
`widthSpacing[0][1]`, outside the row. On the text with the rows
`WIDTH 0 SPACING 1 2` and `WIDTH 3 SPACING 4` the main loop ends without an
early return with `numSpacingEntry` 3 and the last row `[3, 4]`, which is not
compared with it; the table loop reads `widthSpacing[1][2]`, outside the row. -/
theorem cornerSpacing_row_index_out_of_range :
    (∃ v, cornerLoop numConvExample 100
        (IStream.ofString "CORNERSPACING CONVEXCORNER WIDTH 5 ;")
        { hasExceptNotchLength :=
            cornerNotchScan numConvExample (words "CORNERSPACING CONVEXCORNER WIDTH 5 ;") }
          = .returned (some v) ∧
      v.widthSpacing = [] ∧ v.tmpWidthSpacing = [5] ∧ v.numSpacingEntry = 0) ∧
    cornerTable 0 [[5]] = none ∧
    getLef58CornerSpacing numConvExample 100 ruleDbExample
        "CORNERSPACING CONVEXCORNER WIDTH 5 ;" = .threw ∧
    (∃ v, cornerLoop numConvExample 100
        (IStream.ofString "CORNERSPACING CONVEXCORNER WIDTH 0 SPACING 1 2 WIDTH 3 SPACING 4 ;")
        { hasExceptNotchLength := cornerNotchScan numConvExample
            (words "CORNERSPACING CONVEXCORNER WIDTH 0 SPACING 1 2 WIDTH 3 SPACING 4 ;") }
          = .returned (some v) ∧
      v.widthSpacing = [[0, 1, 2]] ∧ v.tmpWidthSpacing = [3, 4] ∧ v.numSpacingEntry = 3) ∧
    cornerTable 3 [[0, 1, 2], [3, 4]] = none ∧
    getLef58CornerSpacing numConvExample 100 ruleDbExample
        "CORNERSPACING CONVEXCORNER WIDTH 0 SPACING 1 2 WIDTH 3 SPACING 4 ;" = .threw :=
  ⟨⟨_, rfl, rfl, rfl, rfl⟩, rfl, rfl, ⟨_, rfl, rfl, rfl, rfl⟩, rfl, rfl⟩

/-- C26: evaluation at the failing input. In the property text
`MINSTEP 3 MAXEDGES 1 ; MINSTEP 7 ;` the second rule gives no `MAXEDGES`, yet
its constraint has `maxEdges` 1, the value of the first rule; alone, the
rule `MINSTEP 7 ;` is compiled with `maxEdges` -1. -/
theorem getLef58MinStep_inherits_maxEdges :
    (getLef58MinStep numConvExample 100 ruleDbExample
        "MINSTEP 3 MAXEDGES 1 ; MINSTEP 7 ;").techConstraints
      = some [.minStep ⟨3, 1, -1, -1⟩, .minStep ⟨7, 1, -1, -1⟩] ∧
    (getLef58MinStep numConvExample 100 ruleDbExample "MINSTEP 7 ;").techConstraints
      = some [.minStep ⟨7, -1, -1, -1⟩] := by
  decide

/-! ## Design import and database update -/

/-- C29: the orientation mapping is not one-to-one. `getFrOrient` maps both
`MYR90` and `MXR90` to `frcMXR90`, so it is not injective, and no database
orientation is mapped to `frcMYR90`; the six other orientations are mapped to
the router orientation of the same name. -/
theorem getFrOrient_not_one_to_one :
    getFrOrient .MYR90 = .frcMXR90 ∧ getFrOrient .MXR90 = .frcMXR90 ∧
    ¬ Function.Injective getFrOrient ∧ (∀ o, getFrOrient o ≠ .frcMYR90) ∧
    getFrOrient .R0 = .frcR0 ∧ getFrOrient .R90 = .frcR90 ∧ getFrOrient .R180 = .frcR180 ∧
    getFrOrient .R270 = .frcR270 ∧ getFrOrient .MY = .frcMY ∧ getFrOrient .MX = .frcMX := by
  refine ⟨rfl, rfl, ?_, ?_, rfl, rfl, rfl, rfl, rfl, rfl⟩
  · intro h
    have e : dbOrientType.MYR90 = dbOrientType.MXR90 := h rfl
    cases e
  · intro o
    cases o <;> decide

/-- C27: obstructions on known layers are skipped. For every layer table,
every list of obstructions and every state, `setObstructions` changes nothing
when every obstruction is on a layer known to the technology, and otherwise
calls `getLayerNum()` on a null pointer; it never adds a blockage. With the
layers `M1`, `V1` and `M2`, the obstruction `(0, 0, 10, 10)` on `M1` adds no
blockage, and an obstruction on the unknown layer `M9` is not skipped. -/
theorem setObstructions_skips_known_layers :
    (∀ (name2layer : String → Option Int) (obs : List dbObstruction) (st : ObstructionState),
      setObstructions name2layer obs st =
        if obs.all (fun o => (name2layer o.layerName).isSome) then some st else none) ∧
    setObstructions viaTechExample.name2layer [⟨"M1", 0, 0, 10, 10⟩] ⟨0, []⟩ = some ⟨0, []⟩ ∧
    setObstructions viaTechExample.name2layer [⟨"M9", 0, 0, 10, 10⟩] ⟨0, []⟩ = none := by
  refine ⟨?_, by decide, by decide⟩
  intro name2layer obs st
  induction obs with
  | nil => simp [setObstructions]
  | cons o rest ih =>
    cases h : name2layer o.layerName with
    | none => simp [setObstructions, h]
    | some n => simp [setObstructions, h, ih]

/-- C28: a path segment whose end style is Variable and whose begin style is
not. For every layer, every pair of points and all extensions, a segment with
an Extend or a Truncate begin and a Variable end gives the encoder the begin
point only: the third test for the end point reads the begin style. With a
Variable begin both points are emitted, the end with the end extension. -/
theorem updateDbConn_variable_end_dropped :
    ∀ (layerNum : Int) (b e : frPoint) (beginExt endExt : Nat),
      updateDbConnPathSeg ⟨layerNum, b, e, ⟨.extend, beginExt, .variable, endExt⟩⟩
        = [.newPath layerNum, .addPoint b.x b.y] ∧
      updateDbConnPathSeg ⟨layerNum, b, e, ⟨.truncate, beginExt, .variable, endExt⟩⟩
        = [.newPath layerNum, .addPointExt b.x b.y 0] ∧
      updateDbConnPathSeg ⟨layerNum, b, e, ⟨.variable, beginExt, .variable, endExt⟩⟩
        = [.newPath layerNum, .addPointExt b.x b.y beginExt, .addPointExt e.x e.y endExt] := by
  intro layerNum b e beginExt endExt
  exact ⟨rfl, rfl, rfl⟩

/-- C30: a horizontal box of odd height. For every special-wire box taken as
HORIZONTAL (respectively VERTICAL), the condition of the assertion,
`y1 == y2` (respectively `x1 == x2`), holds exactly when `dy` (respectively
`dx`) is even, whatever `defdist` is. For the HORIZONTAL box from `(0, 0)` to `(10, 3)` the
assertion `y1 == y2` fails; without assertions the function returns the line
from `(0, 1)` to `(10, 2)` with width 3. -/
theorem getSBoxCoords_odd_height :
    (∀ (defdist : Int → Int) (box : dbSBox),
      (toInt32 (box.yMin + box.getDY / 2) = toInt32 (box.yMax - box.getDY / 2) ↔
        box.getDY % 2 = 0) ∧
      (getSBoxCoords defdist false { box with direction := .HORIZONTAL } ≠ .assertFailed ↔
        box.getDY % 2 = 0) ∧
      (getSBoxCoords defdist false { box with direction := .VERTICAL } ≠ .assertFailed ↔
        box.getDX % 2 = 0)) ∧
    getSBoxCoords (fun x => x) false ⟨0, 0, 10, 3, .HORIZONTAL, ⟨⟨0, 0⟩, ⟨0, 0⟩, 0⟩⟩
      = .assertFailed ∧
    getSBoxCoords (fun x => x) true ⟨0, 0, 10, 3, .HORIZONTAL, ⟨⟨0, 0⟩, ⟨0, 0⟩, 0⟩⟩
      = .returned 0 1 10 2 3 := by
  refine ⟨?_, by decide, by decide⟩
  intro defdist box
  have hy : toInt32 (box.yMin + box.getDY / 2) = toInt32 (box.yMax - box.getDY / 2) ↔
      box.getDY % 2 = 0 := by
    simp only [toInt32, dbSBox.getDY, toUInt32]
    omega
  have hx : toInt32 (box.xMin + box.getDX / 2) = toInt32 (box.xMax - box.getDX / 2) ↔
      box.getDX % 2 = 0 := by
    simp only [toInt32, dbSBox.getDX, toUInt32]
    omega
  refine ⟨hy, ?_, ?_⟩
  · rw [← hy]
    simp only [getSBoxCoords, sBoxCentreY, sBoxResults, dbSBox.getDY]
    by_cases h : toInt32 (box.yMin + toUInt32 (box.yMax - box.yMin) / 2) =
        toInt32 (box.yMax - toUInt32 (box.yMax - box.yMin) / 2)
    · simp [h]
    · simp [h]
  · rw [← hx]
    simp only [getSBoxCoords, sBoxCentreX, sBoxResults, dbSBox.getDX]
    by_cases h : toInt32 (box.xMin + toUInt32 (box.xMax - box.xMin) / 2) =
        toInt32 (box.xMax - toUInt32 (box.xMax - box.xMin) / 2)
    · simp [h]
    · simp [h]

/-! ## LEF58 rule compilation: PARALLELRUNLENGTH tables -/

theorem string_mk_toList (w : String) : String.mk w.toList = w := rfl

end OpenROAD
